import Mathlib

/-!
# xv6sh-linux: the command parser and the executor of `xv6sh.c`

A shallow embedding of `src/xv6sh.c`.

* The line buffer is a `List Char`; a `char *` into it is a `Nat` index. Reading the buffer at an
  index that the list does not have yields the terminating NUL, so a list without a NUL stands for
  the C string that holds exactly its characters.
* A command node is a value of `Cmd`. The two pointer arrays of `struct execcmd` are lists of
  `MAXARGS` optional indices (`none` is the null pointer).
* `parseexec` keeps the node that `parseredirs` returns in its variable `cmd`, which is typed
  `struct execcmd *`, and goes on storing `cmd->argv[argc]` and `cmd->eargv[argc]` through it. The
  model follows these stores with the layout of the x86-64 ABI (`int` of 4 bytes, pointers of 8,
  every field at its alignment): in a `struct execcmd` the slot `argv[i]` lies at offset `8 + 8 i`
  and `eargv[i]` at `88 + 8 i`; a `struct redircmd` has 40 bytes, `cmd` at offset 8, `file` at 16,
  `efile` at 24, `mode` at 32 and `fd` at 36. So a store to `argv[0]`, `argv[1]`, `argv[2]` of a
  `redircmd` overwrites `cmd`, `file`, `efile`, a store to `argv[3]` overwrites `mode` and `fd`
  together, and `argv[i]` from `i = 4` on and every `eargv[i]` lie past the end of the object.
  The node `Cmd.over` is a `redircmd` with what was stored over its fields. The stores past the end
  of the object reach no node (a node is cleared by its constructor when it is built later); what
  they do to the memory of `malloc` is not followed.
* `panic` ends the process: the parse functions return `Except Fault`.
* The C loops and the mutual recursion of the parser are bounded by an explicit count; running out
  of it is the separate outcome `Fault.fuel`, which `parsecmd` is proved never to produce.
-/

namespace Xv6sh

/-! ## Constants -/

/-- The `MAXARGS` of `xv6sh.c`: the number of slots of `argv` and of `eargv`. -/
def MAXARGS : Nat := 10

/-- The `O_RDONLY` of the Linux `fcntl.h`. -/
def O_RDONLY : Nat := 0
/-- The `O_WRONLY` of the Linux `fcntl.h`. -/
def O_WRONLY : Nat := 1
/-- The `O_CREAT` of the Linux `fcntl.h` (octal 100). -/
def O_CREAT : Nat := 64
/-- The `O_TRUNC` of the Linux `fcntl.h` (octal 1000). -/
def O_TRUNC : Nat := 512
/-- The `O_APPEND` of the Linux `fcntl.h` (octal 2000). -/
def O_APPEND : Nat := 1024

/-- The NUL character, the `0` of the C source. -/
def NUL : Char := Char.ofNat 0

/-- The characters of `char whitespace[] = " \t\r\n\v"`. -/
def whitespace : List Char := [' ', '\t', '\r', '\n', Char.ofNat 11]

/-- The characters of `char symbols[] = "<|>&;()"`. -/
def symbols : List Char := ['<', '|', '>', '&', ';', '(', ')']

/-- The C `strchr(str, c) != 0`: `c` occurs in `str`, or `c` is the terminating NUL of `str`. -/
def strchr (str : List Char) (c : Char) : Bool :=
  c == NUL || str.contains c

/-- The byte `*s` for a pointer `s` into the buffer: past the list it is the terminating NUL. -/
def charAt (buf : List Char) (s : Nat) : Char :=
  buf.getD s NUL

/-- The C `strlen`: the index of the first NUL. -/
def strlen (buf : List Char) : Nat :=
  (buf.takeWhile (fun c => c != NUL)).length

/-! ## Command nodes -/

/-- A node of the command tree: `struct execcmd`, `redircmd`, `pipecmd`, `listcmd`, `backcmd`.
Text is held as indices into the line buffer. -/
inductive Cmd where
  | exec (argv eargv : List (Option Nat))
  | redir (cmd : Cmd) (file efile : Nat) (mode fd : Nat)
  | pipe (left right : Cmd)
  | list (left right : Cmd)
  | back (cmd : Cmd)
  /-- A `struct redircmd` built as `redircmd(cmd, file, efile, mode, fd)` into which `parseexec`
  has stored since. The list `w` has the four slots `argv[0]` .. `argv[3]`, which are the fields
  `cmd`, `file`, `efile`, and `mode` with `fd`: a slot is `none` when nothing was stored over the
  field, else it holds the pointer stored last, `some none` being the null pointer. -/
  | over (cmd : Cmd) (file efile : Nat) (mode fd : Nat) (w : List (Option (Option Nat)))
  deriving DecidableEq, Repr

/-- The ways a parse ends without a tree. -/
inductive Fault where
  /-- The `panic(msg)` of the source: the message is printed and the process exits with 1. -/
  | panic (msg : String)
  /-- A pointer that points at no node of the kind the code takes it for is followed: the text
  of the line read as a command node whose `type` is one of the five, or a store of `parseexec`
  through a node that is neither an `execcmd` nor a `redircmd`. -/
  | notNode
  /-- An access `argv[i]` or `eargv[i]` with `i` not below `MAXARGS`. -/
  | badIndex
  /-- A write through a null pointer. -/
  | nullDeref
  /-- The bound of the model on nested calls ran out. -/
  | fuel
  deriving DecidableEq, Repr

/-- The constructor `execcmd()`: `memset` to zero leaves every slot null. -/
def execcmd : Cmd :=
  .exec (List.replicate MAXARGS none) (List.replicate MAXARGS none)

/-- The constructor `redircmd(subcmd, file, efile, mode, fd)`. -/
def redircmd (subcmd : Cmd) (file efile : Nat) (mode fd : Nat) : Cmd :=
  .redir subcmd file efile mode fd

/-- The constructor `pipecmd(left, right)`. -/
def pipecmd (left right : Cmd) : Cmd := .pipe left right

/-- The constructor `listcmd(left, right)`. -/
def listcmd (left right : Cmd) : Cmd := .list left right

/-- The constructor `backcmd(subcmd)`. -/
def backcmd (subcmd : Cmd) : Cmd := .back subcmd

/-! ## Tokens -/

/-- The loop `while (s < es && strchr(whitespace, *s)) s++;` run for at most `n` steps. -/
def skipwsLoop (buf : List Char) (es : Nat) : Nat → Nat → Nat
  | 0, s => s
  | n + 1, s =>
    if s < es && strchr whitespace (charAt buf s) then skipwsLoop buf es n (s + 1) else s

/-- The loop `while (s < es && strchr(whitespace, *s)) s++;`: it stops at `es` at the latest, so
`es - s` steps are all it can take. -/
def skipws (buf : List Char) (es s : Nat) : Nat :=
  skipwsLoop buf es (es - s) s

/-- The loop `while (s < es && !strchr(whitespace, *s) && !strchr(symbols, *s)) s++;` run for at
most `n` steps. -/
def scanwordLoop (buf : List Char) (es : Nat) : Nat → Nat → Nat
  | 0, s => s
  | n + 1, s =>
    if s < es && !strchr whitespace (charAt buf s) && !strchr symbols (charAt buf s) then
      scanwordLoop buf es n (s + 1)
    else s

/-- The word loop of `gettoken`, with the `es - s` steps it can take at most. -/
def scanword (buf : List Char) (es s : Nat) : Nat :=
  scanwordLoop buf es (es - s) s

/-- What `gettoken` hands back: its return value, `*q`, `*eq` and the new `*ps`. -/
structure Token where
  ret : Char
  q : Nat
  eq : Nat
  ps : Nat
  deriving DecidableEq, Repr

/-- The function `gettoken(ps, es, q, eq)`. The return value is the character itself for a
metacharacter, `+` for `>>`, `a` for a word and NUL at the end of the line. -/
def gettoken (buf : List Char) (es ps : Nat) : Token :=
  let s := skipws buf es ps
  let q := s
  let c := charAt buf s
  let r : Char × Nat :=
    if c = NUL then (c, s)
    else if c = '|' ∨ c = '(' ∨ c = ')' ∨ c = ';' ∨ c = '&' ∨ c = '<' then (c, s + 1)
    else if c = '>' then
      (if charAt buf (s + 1) = '>' then ('+', s + 2) else (c, s + 1))
    else ('a', scanword buf es s)
  { ret := r.1, q := q, eq := r.2, ps := skipws buf es r.2 }

/-- The function `peek(ps, es, toks)`: the truth value returned and the new `*ps`. -/
def peek (buf : List Char) (es ps : Nat) (toks : List Char) : Bool × Nat :=
  let s := skipws buf es ps
  (charAt buf s != NUL && strchr toks (charAt buf s), s)

/-! ## The parser -/

/-- The two stores `cmd->argv[i] = q; cmd->eargv[i] = eq;` of `parseexec`, where `cmd` is typed
`struct execcmd *`. In an `execcmd` they fill slot `i` of the two arrays. When `cmd` points at a
`redircmd`, which is what `parseredirs` returns once it has read a directive, the store to
`argv[i]` with `i < 4` overwrites the field that lies there, and the store to `argv[i]` with
`4 ≤ i` and the store to `eargv[i]` fall past the end of the object and change no node. The
variable `cmd` of `parseexec` never points at a node of another kind. -/
def storeArg (cmd : Cmd) (i : Nat) (q eq : Option Nat) : Except Fault Cmd :=
  match cmd with
  | .exec argv eargv =>
    if i < MAXARGS then .ok (.exec (argv.set i q) (eargv.set i eq)) else .error .badIndex
  | .redir c file efile mode fd =>
    if i < 4 then .ok (.over c file efile mode fd ((List.replicate 4 none).set i (some q)))
    else .ok (.redir c file efile mode fd)
  | .over c file efile mode fd w =>
    if i < 4 then .ok (.over c file efile mode fd (w.set i (some q)))
    else .ok (.over c file efile mode fd w)
  | _ => .error .notNode

/-- The `switch (tok)` of `parseredirs`: the node built for the operator `tok` and the file
`q .. eq`. -/
def redirFor (tok : Char) (cmd : Cmd) (q eq : Nat) : Cmd :=
  if tok = '<' then redircmd cmd q eq O_RDONLY 0
  else if tok = '>' then redircmd cmd q eq (O_WRONLY ||| O_CREAT ||| O_TRUNC) 1
  else if tok = '+' then redircmd cmd q eq (O_WRONLY ||| O_CREAT ||| O_APPEND) 1
  else cmd

/-- The loop of `parseredirs`, for at most `n` directives. -/
def parseredirsLoop (buf : List Char) (es : Nat) : Nat → Cmd → Nat → Except Fault (Cmd × Nat)
  | 0, cmd, ps =>
    if (peek buf es ps ['<', '>']).1 then .error .fuel
    else .ok (cmd, (peek buf es ps ['<', '>']).2)
  | n + 1, cmd, ps =>
    if (peek buf es ps ['<', '>']).1 then
      let t := gettoken buf es (peek buf es ps ['<', '>']).2
      let f := gettoken buf es t.ps
      if f.ret ≠ 'a' then .error (.panic "missing file for redirection")
      else parseredirsLoop buf es n (redirFor t.ret cmd f.q f.eq) f.ps
    else .ok (cmd, (peek buf es ps ['<', '>']).2)

/-- The function `parseredirs(cmd, ps, es)`. Every turn of its loop takes an operator off the
line, so it turns at most `es - ps` times. -/
def parseredirs (buf : List Char) (es : Nat) (cmd : Cmd) (ps : Nat) : Except Fault (Cmd × Nat) :=
  parseredirsLoop buf es (es - ps) cmd ps

/-- The loop `while (!peek(ps, es, "|)&;")) { ... }` of `parseexec`, for at most `n` further
turns after this one. The state is the variable `cmd`, `argc` and `*ps`. -/
def parseargsLoop (buf : List Char) (es : Nat) :
    Nat → Cmd → Nat → Nat → Except Fault (Cmd × Nat × Nat)
  | n, cmd, argc, ps =>
    if (peek buf es ps ['|', ')', '&', ';']).1 then
      .ok (cmd, argc, (peek buf es ps ['|', ')', '&', ';']).2)
    else
      let t := gettoken buf es (peek buf es ps ['|', ')', '&', ';']).2
      if t.ret = NUL then .ok (cmd, argc, t.ps)
      else if t.ret ≠ 'a' then .error (.panic "syntax")
      else
        match storeArg cmd argc (some t.q) (some t.eq) with
        | .error e => .error e
        | .ok cmd1 =>
          if argc + 1 ≥ MAXARGS then .error (.panic "too many args")
          else
            match parseredirs buf es cmd1 t.ps with
            | .error e => .error e
            | .ok (cmd2, ps2) =>
              match n with
              | 0 => .error .fuel
              | n + 1 => parseargsLoop buf es n cmd2 (argc + 1) ps2

/-- The part of `parseexec` after the test for `(`: a plain command. -/
def parseplain (buf : List Char) (es ps : Nat) : Except Fault (Cmd × Nat) :=
  match parseredirs buf es execcmd ps with
  | .error e => .error e
  | .ok (cmd, ps1) =>
    match parseargsLoop buf es (es - ps1) cmd 0 ps1 with
    | .error e => .error e
    | .ok (cmd1, argc, ps2) =>
      match storeArg cmd1 argc none none with
      | .error e => .error e
      | .ok cmd2 => .ok (cmd2, ps2)

/-- The loop `while (peek(ps, es, "&")) { gettoken(ps, es, 0, 0); cmd = backcmd(cmd); }` of
`parseline`, for at most `n` turns. -/
def parsebackLoop (buf : List Char) (es : Nat) : Nat → Cmd → Nat → Except Fault (Cmd × Nat)
  | 0, cmd, ps =>
    if (peek buf es ps ['&']).1 then .error .fuel else .ok (cmd, (peek buf es ps ['&']).2)
  | n + 1, cmd, ps =>
    if (peek buf es ps ['&']).1 then
      parsebackLoop buf es n (backcmd cmd) (gettoken buf es (peek buf es ps ['&']).2).ps
    else .ok (cmd, (peek buf es ps ['&']).2)

mutual

/-- The function `parseline(ps, es)`; the first argument bounds the depth of nested calls. -/
def parseline (buf : List Char) (es : Nat) : Nat → Nat → Except Fault (Cmd × Nat)
  | 0, _ => .error .fuel
  | fuel + 1, ps =>
    match parsepipe buf es fuel ps with
    | .error e => .error e
    | .ok (cmd, ps1) =>
      match parsebackLoop buf es (es - ps1) cmd ps1 with
      | .error e => .error e
      | .ok (cmd1, ps2) =>
        if (peek buf es ps2 [';']).1 then
          match parseline buf es fuel (gettoken buf es (peek buf es ps2 [';']).2).ps with
          | .error e => .error e
          | .ok (right, ps3) => .ok (listcmd cmd1 right, ps3)
        else .ok (cmd1, (peek buf es ps2 [';']).2)
termination_by structural fuel => fuel

/-- The function `parsepipe(ps, es)`. -/
def parsepipe (buf : List Char) (es : Nat) : Nat → Nat → Except Fault (Cmd × Nat)
  | 0, _ => .error .fuel
  | fuel + 1, ps =>
    match parseexec buf es fuel ps with
    | .error e => .error e
    | .ok (cmd, ps1) =>
      if (peek buf es ps1 ['|']).1 then
        match parsepipe buf es fuel (gettoken buf es (peek buf es ps1 ['|']).2).ps with
        | .error e => .error e
        | .ok (right, ps2) => .ok (pipecmd cmd right, ps2)
      else .ok (cmd, (peek buf es ps1 ['|']).2)
termination_by structural fuel => fuel

/-- The function `parseexec(ps, es)`. -/
def parseexec (buf : List Char) (es : Nat) : Nat → Nat → Except Fault (Cmd × Nat)
  | 0, _ => .error .fuel
  | fuel + 1, ps =>
    if (peek buf es ps ['(']).1 then parseblock buf es fuel (peek buf es ps ['(']).2
    else parseplain buf es (peek buf es ps ['(']).2
termination_by structural fuel => fuel

/-- The function `parseblock(ps, es)`. -/
def parseblock (buf : List Char) (es : Nat) : Nat → Nat → Except Fault (Cmd × Nat)
  | 0, _ => .error .fuel
  | fuel + 1, ps =>
    if (peek buf es ps ['(']).1 then
      match parseline buf es fuel (gettoken buf es (peek buf es ps ['(']).2).ps with
      | .error e => .error e
      | .ok (cmd, ps1) =>
        if (peek buf es ps1 [')']).1 then
          parseredirs buf es cmd (gettoken buf es (peek buf es ps1 [')']).2).ps
        else .error (.panic "syntax - missing )")
    else .error (.panic "parseblock")
termination_by structural fuel => fuel

end

/-- The loop `for (i = 0; ecmd->argv[i]; i++) *ecmd->eargv[i] = 0;` of `nulterminate`, over the
slots from `i` on. -/
def nulargs : List (Option Nat) → List (Option Nat) → List Char → Except Fault (List Char)
  | none :: _, _, buf => .ok buf
  | some _ :: argv, some e :: eargv, buf => nulargs argv eargv (buf.set e NUL)
  | some _ :: _, none :: _, _ => .error .nullDeref
  | _, _, _ => .error .badIndex

/-- The `int` read at index `q` of the line, as `cmd->type` is read when `cmd` points there: four
bytes, the lowest first. -/
def typeAt (buf : List Char) (q : Nat) : Nat :=
  (charAt buf q).toNat + 256 * (charAt buf (q + 1)).toNat + 65536 * (charAt buf (q + 2)).toNat
    + 16777216 * (charAt buf (q + 3)).toNat

/-- Whether a value of `type` is one of `EXEC`, `REDIR`, `PIPE`, `LIST`, `BACK` (1 to 5). -/
def isNodeType (t : Nat) : Bool :=
  decide (1 ≤ t) && decide (t ≤ 5)

/-- The function `nulterminate(cmd)`: the buffer after the writes. For a `redircmd` whose fields
were overwritten the code reads the fields as they are: `rcmd->cmd` may be null (the call returns
at once) or point into the line, where `cmd->type` is read from the text and, being none of the
five types, makes the `switch` do nothing; `rcmd->efile` may be null, and the write through it is
a fault of the process. -/
def nulterminate : Cmd → List Char → Except Fault (List Char)
  | .exec argv eargv, buf => nulargs argv eargv buf
  | .redir cmd _ efile _ _, buf =>
    match nulterminate cmd buf with
    | .error e => .error e
    | .ok buf1 => .ok (buf1.set efile NUL)
  | .pipe left right, buf =>
    match nulterminate left buf with
    | .error e => .error e
    | .ok buf1 => nulterminate right buf1
  | .list left right, buf =>
    match nulterminate left buf with
    | .error e => .error e
    | .ok buf1 => nulterminate right buf1
  | .back cmd, buf => nulterminate cmd buf
  | .over cmd _ efile _ _ w, buf =>
    match
      (match w.getD 0 none with
        | none => nulterminate cmd buf
        | some none => .ok buf
        | some (some q) => if isNodeType (typeAt buf q) then .error .notNode else .ok buf) with
    | .error e => .error e
    | .ok buf1 =>
      match w.getD 2 none with
      | none => .ok (buf1.set efile NUL)
      | some none => .error .nullDeref
      | some (some e) => .ok (buf1.set e NUL)

/-- The function `parsecmd(s)`: the tree and the buffer as `nulterminate` leaves it. The depth of
nested calls of the parser on a line of `es` characters stays below `4 * es + 4`. -/
def parsecmd (buf : List Char) : Except Fault (Cmd × List Char) :=
  let es := strlen buf
  match parseline buf es (4 * es + 4) 0 with
  | .error e => .error e
  | .ok (cmd, s) =>
    if (peek buf es s []).2 ≠ es then .error (.panic "syntax")
    else
      match nulterminate cmd buf with
      | .error e => .error e
      | .ok buf1 => .ok (cmd, buf1)

/-! ## What a tree says -/

/-- A command tree with its text spelled out: the arguments of an `Exec` up to the null sentinel,
the file name, mode and descriptor of a `Redirect`. -/
inductive Tree where
  | exec (args : List (List Char))
  | redir (cmd : Tree) (file : List Char) (mode fd : Nat)
  | pipe (left right : Tree)
  | list (left right : Tree)
  | back (cmd : Tree)
  /-- A `Redirect` that cannot be read as one: its field `cmd` was overwritten, or its field
  `file` is null, or `mode` and `fd` hold a pointer. Here `cmd` is the child where the field `cmd`
  is untouched (the `Exec` without arguments stands in where it is not), `file` is the file name
  (empty where the field is null), `mode` and `fd` are the two numbers where the fields hold
  numbers (0 stands in where they hold a pointer), and `w` says of each of the four slots what
  was stored over it: nothing, the null pointer (`false`) or a pointer into the line (`true`). -/
  | over (cmd : Tree) (file : List Char) (mode fd : Nat) (w : List (Option Bool))
  deriving DecidableEq, Repr

/-- The C string that starts at index `s` of the buffer: the characters up to the first NUL. -/
def cstr (buf : List Char) (s : Nat) : List Char :=
  (buf.drop s).takeWhile (fun c => c != NUL)

/-- The characters of the half-open range `q .. eq` of the buffer. -/
def slice (buf : List Char) (q eq : Nat) : List Char :=
  (buf.drop q).take (eq - q)

/-- The strings of `argv`, read as `execvp` reads them: from slot 0 up to the first null slot. -/
def argvStrings (buf : List Char) : List (Option Nat) → List (List Char)
  | some q :: argv => cstr buf q :: argvStrings buf argv
  | _ => []

/-- The ranges `argv[i] .. eargv[i]` from slot 0 up to the first null slot of `argv`. -/
def argvRanges (buf : List Char) : List (Option Nat) → List (Option Nat) → List (List Char)
  | some q :: argv, some e :: eargv => slice buf q e :: argvRanges buf argv eargv
  | _, _ => []

/-- The field `file` of a `redircmd` built with `file` and overwritten as `w` says. -/
def fileOf (file : Nat) (w : List (Option (Option Nat))) : Option Nat :=
  match w.getD 1 none with
  | none => some file
  | some p => p

/-- The tree as the executor reads it: every `argv[i]` and `file` is a C string of the buffer. A
`redircmd` with overwritten fields reads as a `Redirect` when its `cmd` is untouched, its `file`
is not null and `mode` and `fd` hold no pointer: the file is the C string at the pointer that
`file` holds now, and a null pointer stored over `mode` and `fd` makes both 0. Else it reads as
the node `Tree.over`, which names no address. -/
def Cmd.strings (buf : List Char) : Cmd → Tree
  | .exec argv _ => .exec (argvStrings buf argv)
  | .redir cmd file _ mode fd => .redir (cmd.strings buf) (cstr buf file) mode fd
  | .pipe left right => .pipe (left.strings buf) (right.strings buf)
  | .list left right => .list (left.strings buf) (right.strings buf)
  | .back cmd => .back (cmd.strings buf)
  | .over cmd file _ mode fd w =>
    match w.getD 0 none, fileOf file w, w.getD 3 none with
    | none, some f, none => .redir (cmd.strings buf) (cstr buf f) mode fd
    | none, some f, some none => .redir (cmd.strings buf) (cstr buf f) 0 0
    | x0, fo, x3 =>
      .over
        (match x0 with
          | none => cmd.strings buf
          | some _ => .exec [])
        (match fo with
          | some f => cstr buf f
          | none => [])
        (match x3 with
          | none => mode
          | some _ => 0)
        (match x3 with
          | none => fd
          | some _ => 0)
        (w.map (Option.map Option.isSome))

/-- The tree as the parser recorded it: every text is the range `start .. end` of the buffer. -/
def Cmd.ranges (buf : List Char) : Cmd → Tree
  | .exec argv eargv => .exec (argvRanges buf argv eargv)
  | .redir cmd file efile mode fd => .redir (cmd.ranges buf) (slice buf file efile) mode fd
  | .pipe left right => .pipe (left.ranges buf) (right.ranges buf)
  | .list left right => .list (left.ranges buf) (right.ranges buf)
  | .back cmd => .back (cmd.ranges buf)
  | .over cmd file efile mode fd w =>
    .over (cmd.ranges buf) (slice buf file efile) mode fd (w.map (Option.map Option.isSome))

/-! ## The executor -/

/-- A library call made by a process, as far as `runcmd` makes them. -/
inductive Call where
  /-- A call of `execvp` that came back, which it does on failure only. -/
  | execvp (file : List Char) (argv : List (List Char))
  | printf (out : List Char)
  | close (fd : Nat)
  /-- The call `open(file, mode, 0666)`. -/
  | open (file : List Char) (mode : Nat)
  /-- The call `open(0, mode, 0666)`, with the null pointer for the file: it fails. -/
  | openNull (mode : Nat)
  | pipe
  | dup (fd : Nat)
  | wait
  /-- A call of `fork` that failed. -/
  | fork
  deriving DecidableEq, Repr

/-- What a process does from the call of `runcmd` on: its calls in order, the processes it forks,
and how it ends. -/
inductive Proc where
  /-- The call `exit(status)`. -/
  | exit (status : Nat)
  /-- The call `execvp(file, argv)` succeeded: the program runs in place of the shell. -/
  | image (file : List Char) (argv : List (List Char))
  /-- The call `c`, then `next`. -/
  | call (c : Call) (next : Proc)
  /-- A successful `fork`: what the child does and what the parent goes on to do. -/
  | fork (child parent : Proc)
  /-- The process reads the text of the line as a command node of one of the five types: what it
  does from there on is not followed. -/
  | lost
  deriving DecidableEq, Repr

/-- The answers of the operating system that `runcmd` branches on. -/
structure OS where
  /-- Whether `execvp(file, argv)` returns, that is, fails. -/
  execFails : List Char → List (List Char) → Bool
  /-- Whether `open(file, mode, 0666)` is negative. -/
  openFails : List Char → Nat → Bool
  /-- Whether `pipe(p)` is negative. -/
  pipeFails : Bool
  /-- Whether `fork()` is `-1`. -/
  forkFails : Bool
  /-- The descriptor `p[0]` that `pipe` hands out. -/
  p0 : Nat
  /-- The descriptor `p[1]` that `pipe` hands out. -/
  p1 : Nat
  /-- The address of the line buffer in the process. -/
  bufAddr : Nat

/-- The function `panic(s)`: `printf("%s\n", s); exit(1);`. -/
def panic (s : String) : Proc :=
  .call (.printf (s.toList ++ ['\n'])) (.exit 1)

/-- The function `fork1()` followed by the test `== 0`: on failure `panic("fork")`. -/
def fork1 (os : OS) (child parent : Proc) : Proc :=
  if os.forkFails then .call .fork (panic "fork") else .fork child parent

/-- The field `mode` of a `redircmd` built with `mode` and overwritten as `w` says: the low four
of the eight bytes of `argv[3]`. The pointer to index `q` of the line is the number `addr + q`. -/
def modeOf (addr mode : Nat) (w : List (Option (Option Nat))) : Nat :=
  match w.getD 3 none with
  | none => mode
  | some none => 0
  | some (some q) => (addr + q) % 2 ^ 32

/-- The field `fd` of a `redircmd` built with `fd` and overwritten as `w` says: the high four of
the eight bytes of `argv[3]`. -/
def fdOf (addr fd : Nat) (w : List (Option (Option Nat))) : Nat :=
  match w.getD 3 none with
  | none => fd
  | some none => 0
  | some (some q) => (addr + q) / 2 ^ 32 % 2 ^ 32

/-- The function `runcmd(cmd)` for a non-null `cmd`; the strings are read from `buf`. A call of
`runcmd` never returns, so a child that calls it does nothing after it, and the `exit(0)` at the
end of the function is what follows each `break`. A `redircmd` with overwritten fields is run
with the fields as they are: a null `file` makes `open` fail and `printf` print `(null)` for it,
a null `cmd` makes the inner `runcmd` call `exit(0)`, and a `cmd` that points into the line has
its `type` read from the text, which is the `default` of the `switch` unless it is one of the
five types. -/
def runcmd (os : OS) (buf : List Char) : Cmd → Proc
  | .exec argv _ =>
    match argv.head? with
    | some (some q) =>
      if os.execFails (cstr buf q) (argvStrings buf argv) then
        .call (.execvp (cstr buf q) (argvStrings buf argv))
          (.call (.printf ("exec ".toList ++ cstr buf q ++ " failed\n".toList)) (.exit 0))
      else .image (cstr buf q) (argvStrings buf argv)
    | _ => .exit 0
  | .redir cmd file _ mode fd =>
    .call (.close fd)
      (.call (.open (cstr buf file) mode)
        (if os.openFails (cstr buf file) mode then
          .call (.printf ("open ".toList ++ cstr buf file ++ " failed\n".toList)) (.exit 0)
        else runcmd os buf cmd))
  | .list left right =>
    fork1 os (runcmd os buf left) (.call .wait (runcmd os buf right))
  | .pipe left right =>
    if os.pipeFails then .call .pipe (panic "pipe")
    else
      .call .pipe
        (fork1 os
          (.call (.close 1) (.call (.dup os.p1) (.call (.close os.p0) (.call (.close os.p1)
            (runcmd os buf left)))))
          (fork1 os
            (.call (.close 0) (.call (.dup os.p0) (.call (.close os.p0) (.call (.close os.p1)
              (runcmd os buf right)))))
            (.call (.close os.p0) (.call (.close os.p1) (.call .wait (.call .wait
              (.exit 0)))))))
  | .back cmd =>
    fork1 os (runcmd os buf cmd) (.exit 0)
  | .over cmd file _ mode fd w =>
    .call (.close (fdOf os.bufAddr fd w))
      (match fileOf file w with
        | none =>
          .call (.openNull (modeOf os.bufAddr mode w))
            (.call (.printf "open (null) failed\n".toList) (.exit 0))
        | some f =>
          .call (.open (cstr buf f) (modeOf os.bufAddr mode w))
            (if os.openFails (cstr buf f) (modeOf os.bufAddr mode w) then
              .call (.printf ("open ".toList ++ cstr buf f ++ " failed\n".toList)) (.exit 0)
            else
              match w.getD 0 none with
              | none => runcmd os buf cmd
              | some none => .exit 0
              | some (some q) => if isNodeType (typeAt buf q) then .lost else panic "runcmd"))

/-! ## Definitions used by the proofs -/

/-- The pointer `es` is the end of the C string in `buf`: the byte there is NUL and no byte before
it is. -/
structure IsEnd (buf : List Char) (es : Nat) : Prop where
  nul : charAt buf es = NUL
  lt : ∀ i, i < es → charAt buf i ≠ NUL

/-- The test of the word loop on one byte: neither whitespace nor a metacharacter (nor NUL, which
`strchr` finds in every string). -/
def wordChar (c : Char) : Bool :=
  !strchr whitespace c && !strchr symbols c

/-- The runs of the parser that end with a tree, one rule per path through `parseexec`,
`parseblock`, `parsepipe` and `parseline`: `Parsed buf es s cmd s1` says that such a call, made
with `*ps = s`, returns `cmd` and leaves `*ps = s1`. -/
inductive Parsed (buf : List Char) (es : Nat) : Nat → Cmd → Nat → Prop where
  | plain {s : Nat} {c : Cmd} {s1 : Nat} :
      (peek buf es s ['(']).1 = false → parseplain buf es (peek buf es s ['(']).2 = .ok (c, s1) →
      Parsed buf es s c s1
  | block {s : Nat} {c : Cmd} {s1 : Nat} {c1 : Cmd} {s2 : Nat} :
      (peek buf es s ['(']).1 = true →
      Parsed buf es (gettoken buf es (peek buf es s ['(']).2).ps c s1 →
      (peek buf es s1 [')']).1 = true →
      parseredirs buf es c (gettoken buf es (peek buf es s1 [')']).2).ps = .ok (c1, s2) →
      Parsed buf es s c1 s2
  | single {s : Nat} {c : Cmd} {s1 : Nat} :
      Parsed buf es s c s1 → (peek buf es s1 ['|']).1 = false →
      Parsed buf es s c (peek buf es s1 ['|']).2
  | pipe {s : Nat} {c : Cmd} {s1 : Nat} {r : Cmd} {s2 : Nat} :
      Parsed buf es s c s1 → (peek buf es s1 ['|']).1 = true →
      Parsed buf es (gettoken buf es (peek buf es s1 ['|']).2).ps r s2 →
      Parsed buf es s (pipecmd c r) s2
  | last {s : Nat} {c : Cmd} {s1 : Nat} {c1 : Cmd} {s2 : Nat} :
      Parsed buf es s c s1 → parsebackLoop buf es (es - s1) c s1 = .ok (c1, s2) →
      (peek buf es s2 [';']).1 = false →
      Parsed buf es s c1 (peek buf es s2 [';']).2
  | list {s : Nat} {c : Cmd} {s1 : Nat} {c1 : Cmd} {s2 : Nat} {r : Cmd} {s3 : Nat} :
      Parsed buf es s c s1 → parsebackLoop buf es (es - s1) c s1 = .ok (c1, s2) →
      (peek buf es s2 [';']).1 = true →
      Parsed buf es (gettoken buf es (peek buf es s2 [';']).2).ps r s3 →
      Parsed buf es s (listcmd c1 r) s3

/-- The runs of `parseredirs` that return: `Redirs buf es c s c1 s1` says that the call with
the node `c` and `*ps = s` returns `c1` and leaves `*ps = s1`. -/
inductive Redirs (buf : List Char) (es : Nat) : Cmd → Nat → Cmd → Nat → Prop where
  | done {c : Cmd} {s : Nat} :
      (peek buf es s ['<', '>']).1 = false → Redirs buf es c s c (peek buf es s ['<', '>']).2
  | step {c : Cmd} {s : Nat} {c1 : Cmd} {s1 : Nat} :
      (peek buf es s ['<', '>']).1 = true →
      (gettoken buf es (gettoken buf es s).ps).ret = 'a' →
      Redirs buf es
        (redirFor (gettoken buf es s).ret c (gettoken buf es (gettoken buf es s).ps).q
          (gettoken buf es (gettoken buf es s).ps).eq)
        (gettoken buf es (gettoken buf es s).ps).ps c1 s1 →
      Redirs buf es c s c1 s1

/-- The runs of the `&` loop of `parseline` that return. -/
inductive Backs (buf : List Char) (es : Nat) : Cmd → Nat → Cmd → Nat → Prop where
  | done {c : Cmd} {s : Nat} :
      (peek buf es s ['&']).1 = false → Backs buf es c s c (peek buf es s ['&']).2
  | step {c : Cmd} {s : Nat} {c1 : Cmd} {s1 : Nat} :
      (peek buf es s ['&']).1 = true →
      Backs buf es (backcmd c) (gettoken buf es s).ps c1 s1 →
      Backs buf es c s c1 s1

/-- Whether the node is a `struct execcmd`. -/
def Cmd.isExec : Cmd → Bool
  | .exec _ _ => true
  | _ => false

/-- The `execcmd` whose first slots hold the ranges `R`, the other slots being null. -/
def execOf (R : List (Nat × Nat)) : Cmd :=
  .exec (R.map (fun r => some r.1) ++ List.replicate (MAXARGS - R.length) none)
    (R.map (fun r => some r.2) ++ List.replicate (MAXARGS - R.length) none)

/-- The runs of the argument loop of `parseexec` that store every word in the `execcmd`: the
ranges of the words taken from `*ps = s` on, and the `*ps` the loop leaves. -/
inductive Words (buf : List Char) (es : Nat) : Nat → List (Nat × Nat) → Nat → Prop where
  | stop {s : Nat} :
      (peek buf es s ['|', ')', '&', ';']).1 = true →
      Words buf es s [] (peek buf es s ['|', ')', '&', ';']).2
  | eol {s : Nat} :
      (peek buf es s ['|', ')', '&', ';']).1 = false → (gettoken buf es s).ret = NUL →
      Words buf es s [] (gettoken buf es s).ps
  | word {s : Nat} {R : List (Nat × Nat)} {s1 : Nat} :
      (peek buf es s ['|', ')', '&', ';']).1 = false → (gettoken buf es s).ret = 'a' →
      (peek buf es (gettoken buf es s).ps ['<', '>']).1 = false →
      Words buf es (gettoken buf es s).ps R s1 →
      Words buf es s (((gettoken buf es s).q, (gettoken buf es s).eq) :: R) s1

/-- The moves of the parser over the line, as closure conditions on a relation between a start
and an end position. -/
structure SegClosed (buf : List Char) (es : Nat) (Q : Nat → Nat → Prop) : Prop where
  /-- The two halves of a parse make a whole. -/
  trans : ∀ s s1 s2, s ≤ s1 → s1 ≤ s2 → s2 ≤ es → Q s s1 → Q s1 s2 → Q s s2
  /-- Skipping whitespace, as `peek` does. -/
  skip : ∀ s, s ≤ es → Q s (skipws buf es s)
  /-- Taking a word, `&`, `;` or `|`. -/
  tok : ∀ s, s ≤ es → (gettoken buf es s).ret ∈ ['a', '&', ';', '|'] →
    Q s (gettoken buf es s).ps
  /-- Taking a redirection operator and the word after it. -/
  redir : ∀ s, s ≤ es → (gettoken buf es s).ret ∈ ['<', '>', '+'] →
    (gettoken buf es (gettoken buf es s).ps).ret = 'a' →
    Q s (gettoken buf es (gettoken buf es s).ps).ps
  /-- Taking `(`, a parsed line and `)`. -/
  paren : ∀ s s1, s ≤ es → (gettoken buf es s).ret = '(' → (gettoken buf es s).ps ≤ s1 →
    s1 ≤ es → Q (gettoken buf es s).ps s1 → (gettoken buf es s1).ret = ')' →
    Q s (gettoken buf es s1).ps

/-- The line in the buffer: the bytes before the first NUL. -/
def lineOf (buf : List Char) : List Char :=
  buf.take (strlen buf)

/-- Balanced parentheses: no prefix has more `)` than `(`, and the whole has as many of each. -/
def Balanced (l : List Char) : Prop :=
  (∀ k, (l.take k).count ')' ≤ (l.take k).count '(') ∧ l.count '(' = l.count ')'

/-- No parenthesis among the bytes from `s` up to `s1`. -/
def NoParen (buf : List Char) (s s1 : Nat) : Prop :=
  ∀ i, s ≤ i → i < s1 → charAt buf i ≠ '(' ∧ charAt buf i ≠ ')'

deriving instance DecidableEq for Except

/-- The return values of `gettoken` called again and again from `s`, up to the end of the line,
for at most `n` tokens. -/
def tokensLoop (buf : List Char) (es : Nat) : Nat → Nat → List Char
  | 0, _ => []
  | n + 1, s =>
    if (gettoken buf es s).ret = NUL then []
    else (gettoken buf es s).ret :: tokensLoop buf es n (gettoken buf es s).ps

/-- The tokens from `s` on: every token takes a byte, so there are at most `es - s`. -/
def tokens (buf : List Char) (es s : Nat) : List Char :=
  tokensLoop buf es (es - s) s

/-- The token sequence of the line in `buf`, as `gettoken` returns it: a metacharacter stands for
itself, `+` for `>>` and `a` for a word. -/
def tokenSeq (buf : List Char) : List Char :=
  tokens buf (strlen buf) 0

/-- Whether in a token sequence every `<`, `>` and `>>` has a word right after it. -/
def redirOK : List Char → Bool
  | [] => true
  | t :: rest =>
    if t = '<' ∨ t = '>' ∨ t = '+' then rest.head? == some 'a' && redirOK rest else redirOK rest

/-- The range `q .. e` is a word of the line: it is not empty, its bytes pass the test of the
word loop, and the byte at `e` does not. -/
def WordRange (buf : List Char) (es q e : Nat) : Prop :=
  q < e ∧ e ≤ es ∧ (∀ i, q ≤ i → i < e → wordChar (charAt buf i) = true) ∧
    wordChar (charAt buf e) = false

/-- The shape of the trees the parser returns when no field of a `redircmd` was overwritten: every
`execcmd` holds fewer than `MAXARGS` ranges in its first slots and null pointers after them, and
every range is a word of the line. -/
def Cmd.Good (buf : List Char) (es : Nat) : Cmd → Prop
  | .exec argv eargv =>
    ∃ R, Cmd.exec argv eargv = execOf R ∧ R.length < MAXARGS ∧
      ∀ r ∈ R, WordRange buf es r.1 r.2
  | .redir cmd file efile _ _ => cmd.Good buf es ∧ WordRange buf es file efile
  | .pipe left right => left.Good buf es ∧ right.Good buf es
  | .list left right => left.Good buf es ∧ right.Good buf es
  | .back cmd => cmd.Good buf es
  | .over _ _ _ _ _ _ => False

/-- The indices `nulargs` writes at. -/
def endsOf : List (Option Nat) → List (Option Nat) → List Nat
  | some _ :: argv, some e :: eargv => e :: endsOf argv eargv
  | _, _ => []

/-- The indices `nulterminate` writes at. -/
def Cmd.ends : Cmd → List Nat
  | .exec argv eargv => endsOf argv eargv
  | .redir cmd _ efile _ _ => cmd.ends ++ [efile]
  | .pipe left right => left.ends ++ right.ends
  | .list left right => left.ends ++ right.ends
  | .back cmd => cmd.ends
  | .over cmd _ efile _ _ w =>
    (match w.getD 0 none with
      | none => cmd.ends
      | some _ => []) ++
    (match w.getD 2 none with
      | none => [efile]
      | some none => []
      | some (some e) => [e])

/-- A plain word: a non-empty run of bytes that are neither whitespace nor a metacharacter (nor
NUL). -/
def PlainWord (w : List Char) : Prop :=
  w ≠ [] ∧ ∀ c ∈ w, wordChar c = true

instance (w : List Char) : Decidable (PlainWord w) := by
  unfold PlainWord
  infer_instance

/-- A run of whitespace, possibly empty. -/
def AllWs (l : List Char) : Prop :=
  ∀ c ∈ l, c ∈ whitespace

instance (l : List Char) : Decidable (AllWs l) := by
  unfold AllWs
  infer_instance

/-- The text `l` is what the buffer holds from index `s` on. -/
def At (buf : List Char) (s : Nat) (l : List Char) : Prop :=
  s ≤ buf.length ∧ buf.drop s = l

/-- The text of a run of arguments, each a word with the whitespace after it. -/
def argsText : List (List Char × List Char) → List Char
  | [] => []
  | p :: ps => p.1 ++ (p.2 ++ argsText ps)

/-- The ranges of the words of `argsText`, when the text starts at index `s`. -/
def rangesOf : Nat → List (List Char × List Char) → List (Nat × Nat)
  | _, [] => []
  | s, p :: ps => (s, s + p.1.length) :: rangesOf (s + p.1.length + p.2.length) ps

/-- A run of arguments: plain words, each but the last followed by whitespace that is not empty,
the last by whitespace that may be empty. -/
def ArgsOK : List (List Char × List Char) → Prop
  | [] => True
  | [p] => PlainWord p.1 ∧ AllWs p.2
  | p :: q :: ps => PlainWord p.1 ∧ AllWs p.2 ∧ p.2 ≠ [] ∧ ArgsOK (q :: ps)

/-- The text that ends a plain command: the end of the line, or one of `|`, `)`, `&`, `;`. -/
def StopsArgs (rest : List Char) : Prop :=
  ∀ c, rest.head? = some c → c ∈ ['|', ')', '&', ';']

/-- Whether a run of arguments is well formed can be computed. -/
def decArgsOK : (args : List (List Char × List Char)) → Decidable (ArgsOK args)
  | [] => isTrue trivial
  | [p] => inferInstanceAs (Decidable (PlainWord p.1 ∧ AllWs p.2))
  | p :: q :: ps =>
    have : Decidable (ArgsOK (q :: ps)) := decArgsOK (q :: ps)
    inferInstanceAs (Decidable (PlainWord p.1 ∧ AllWs p.2 ∧ p.2 ≠ [] ∧ ArgsOK (q :: ps)))

instance (args : List (List Char × List Char)) : Decidable (ArgsOK args) :=
  decArgsOK args

/-- The texts `ws` written one after the other with the byte `sep` between them. -/
def joinWith (sep : Char) : List (List Char) → List Char
  | [] => []
  | [w] => w
  | w :: v :: ws => w ++ sep :: joinWith sep (v :: ws)

/-- The trees `ts` nested to the right under the binary node `node`: `node t1 (node t2 ...)`. -/
def rightNest (node : Tree → Tree → Tree) : List Tree → Tree
  | [] => .exec []
  | [t] => t
  | t :: u :: ts => node t (rightNest node (u :: ts))

/-- The `Exec` of the single word `w`. -/
def exec1 (w : List Char) : Tree := .exec [w]

/-- The tree of the pipeline `w1|w2|...|wn`: the `Exec`s of its words nested to the right. -/
def pipeTree (ws : List (List Char)) : Tree :=
  rightNest .pipe (ws.map exec1)

/-- A redirection directive as written on the line: whitespace, the operator, whitespace, the
file name. The operator is named by its token: `<`, `>`, or `+` for `>>`. -/
structure Directive where
  lead : List Char
  op : Char
  gap : List Char
  file : List Char

/-- The text of an operator token. -/
def opText (op : Char) : List Char :=
  if op = '+' then ['>', '>'] else [op]

/-- The text of a directive. -/
def Directive.text (d : Directive) : List Char :=
  d.lead ++ (opText d.op ++ (d.gap ++ d.file))

/-- The text of directives written one after the other. -/
def directivesText : List Directive → List Char
  | [] => []
  | d :: ds => d.text ++ directivesText ds

/-- A well-formed directive: `<`, `>` or `>>` followed by a plain word, with whitespace only
before the operator and between the operator and the word. -/
def DirectiveOK (d : Directive) : Prop :=
  AllWs d.lead ∧ (d.op = '<' ∨ d.op = '>' ∨ d.op = '+') ∧ AllWs d.gap ∧ PlainWord d.file

instance (d : Directive) : Decidable (DirectiveOK d) := by
  unfold DirectiveOK
  infer_instance

/-- The `Redirect` a directive asks for: read-only on descriptor 0 for `<`,
write|create|truncate on descriptor 1 for `>`, write|create|append on descriptor 1 for `>>`. -/
def redirTree (op : Char) (t : Tree) (file : List Char) : Tree :=
  if op = '<' then .redir t file O_RDONLY 0
  else if op = '>' then .redir t file (O_WRONLY ||| O_CREAT ||| O_TRUNC) 1
  else .redir t file (O_WRONLY ||| O_CREAT ||| O_APPEND) 1

/-- The directives applied from left to right, each wrapping the tree so far: the last one
written is the outermost node. -/
def wrapRedirs (t : Tree) (ds : List Directive) : Tree :=
  ds.foldl (fun t d => redirTree d.op t d.file) t

instance (buf : List Char) (s : Nat) (l : List Char) : Decidable (At buf s l) := by
  unfold At
  infer_instance

/-- The faults the parse functions can end in: a `panic`, and the bound of the model (which
`parsecmd` never reaches). -/
def Fault.ofParser : Fault → Prop
  | .panic _ => True
  | .fuel => True
  | _ => False

/-- Whether the node is one the variable `cmd` of `parseexec` can point at: the `execcmd` it
built, or a `redircmd` that `parseredirs` returned. -/
def Cmd.isPlain : Cmd → Bool
  | .exec _ _ => true
  | .redir _ _ _ _ _ => true
  | .over _ _ _ _ _ _ => true
  | _ => false

/-- The `execcmd` nodes of a tree, each as its two arrays `argv` and `eargv`. A `redircmd` whose
field `cmd` was overwritten leads to none. -/
def Cmd.execNodes : Cmd → List (List (Option Nat) × List (Option Nat))
  | .exec argv eargv => [(argv, eargv)]
  | .redir cmd _ _ _ _ => cmd.execNodes
  | .pipe left right => left.execNodes ++ right.execNodes
  | .list left right => left.execNodes ++ right.execNodes
  | .back cmd => cmd.execNodes
  | .over cmd _ _ _ _ w =>
    match w.getD 0 none with
    | none => cmd.execNodes
    | some _ => []

/-- A position of the line where no word is cut in two: the start of the line, or the byte before
it or the byte at it is not a word byte. -/
def Bdry (buf : List Char) (s : Nat) : Prop :=
  s = 0 ∨ wordChar (charAt buf (s - 1)) = false ∨ wordChar (charAt buf s) = false

/-- The range starts a run of word bytes: it is at the start of the line or the byte before it
is not a word byte. -/
def LeftMax (buf : List Char) (q : Nat) : Prop :=
  q = 0 ∨ wordChar (charAt buf (q - 1)) = false

/-- The exit status of the process itself: its calls are passed over, a `fork` is followed on
the side of the parent, and a process whose image `execvp` replaced does not end as the shell. -/
def Proc.status : Proc → Option Nat
  | .exit n => some n
  | .image _ _ => none
  | .call _ next => next.status
  | .fork _ parent => parent.status
  | .lost => none

/-- The library calls the process itself makes, in order, a `fork` being followed on the side of
the parent. -/
def Proc.calls : Proc → List Call
  | .exit _ => []
  | .image _ _ => []
  | .call c next => c :: next.calls
  | .fork _ parent => parent.calls
  | .lost => []

/-- The indices at which the loop of `parseexec` stores, in order: the loop of `parseargsLoop`,
keeping the `argc` of each pair of stores `cmd->argv[argc] = q; cmd->eargv[argc] = eq;` in place
of the result. -/
def storeIndices (buf : List Char) (es : Nat) : Nat → Cmd → Nat → Nat → List Nat
  | n, cmd, argc, ps =>
    if (peek buf es ps ['|', ')', '&', ';']).1 then []
    else
      let t := gettoken buf es (peek buf es ps ['|', ')', '&', ';']).2
      if t.ret = NUL then []
      else if t.ret ≠ 'a' then []
      else
        argc ::
          match storeArg cmd argc (some t.q) (some t.eq) with
          | .error _ => []
          | .ok cmd1 =>
            if argc + 1 ≥ MAXARGS then []
            else
              match parseredirs buf es cmd1 t.ps with
              | .error _ => []
              | .ok (cmd2, ps2) =>
                match n with
                | 0 => []
                | n + 1 => storeIndices buf es n cmd2 (argc + 1) ps2

/-- The indices of all the stores of a plain command, as `parseplain` makes them: those of the
loop, then that of the null sentinel `cmd->argv[argc] = 0; cmd->eargv[argc] = 0;` when the loop
comes to its end. -/
def plainStoreIndices (buf : List Char) (es ps : Nat) : List Nat :=
  match parseredirs buf es execcmd ps with
  | .error _ => []
  | .ok (cmd, ps1) =>
    storeIndices buf es (es - ps1) cmd 0 ps1 ++
      match parseargsLoop buf es (es - ps1) cmd 0 ps1 with
      | .error _ => []
      | .ok (_, argc, _) => [argc]

/-- An operating system in which every `execvp` and every `open` fails, while `pipe` and `fork`
succeed. -/
def osFails : OS :=
  { execFails := fun _ _ => true, openFails := fun _ _ => true, pipeFails := false,
    forkFails := false, p0 := 3, p1 := 4, bufAddr := 4210784 }

/-- The tokens from `s` on with their text, for at most `n` tokens: the value `gettoken` returns
and the bytes `q .. eq` it reports, up to the end of the line. -/
def lexLoop (buf : List Char) (es : Nat) : Nat → Nat → List (Char × List Char)
  | 0, _ => []
  | n + 1, s =>
    if (gettoken buf es s).ret = NUL then []
    else
      ((gettoken buf es s).ret, slice buf (gettoken buf es s).q (gettoken buf es s).eq) ::
        lexLoop buf es n (gettoken buf es s).ps

/-- The tokens from `s` on with their text: every token takes a byte, so there are at most
`es - s`. -/
def lexemesFrom (buf : List Char) (es s : Nat) : List (Char × List Char) :=
  lexLoop buf es (es - s) s

/-- The tokens of the line in `buf`, each with its kind (the value `gettoken` returns: the
metacharacter itself, `+` for `>>`, `a` for a word) and its text. -/
def lexemes (buf : List Char) : List (Char × List Char) :=
  lexemesFrom buf (strlen buf) 0

/-- The runs of the argument loop of `parseexec` that come to its end: `Args buf es c argc s c1
argc1 s1` says that the loop entered with the variables `cmd = c`, `argc` and `*ps = s` leaves
them as `c1`, `argc1` and `s1`. -/
inductive Args (buf : List Char) (es : Nat) : Cmd → Nat → Nat → Cmd → Nat → Nat → Prop where
  | stop {c : Cmd} {argc s : Nat} :
      (peek buf es s ['|', ')', '&', ';']).1 = true →
      Args buf es c argc s c argc (peek buf es s ['|', ')', '&', ';']).2
  | eol {c : Cmd} {argc s : Nat} :
      (peek buf es s ['|', ')', '&', ';']).1 = false → (gettoken buf es s).ret = NUL →
      Args buf es c argc s c argc (gettoken buf es s).ps
  | word {c : Cmd} {argc s : Nat} {c1 c2 : Cmd} {s2 : Nat} {c3 : Cmd} {argc3 s3 : Nat} :
      (peek buf es s ['|', ')', '&', ';']).1 = false → (gettoken buf es s).ret = 'a' →
      storeArg c argc (some (gettoken buf es s).q) (some (gettoken buf es s).eq) = .ok c1 →
      argc + 1 < MAXARGS →
      Redirs buf es c1 (gettoken buf es s).ps c2 s2 →
      Args buf es c2 (argc + 1) s2 c3 argc3 s3 →
      Args buf es c argc s c3 argc3 s3

/-- Whether no `redircmd` of the tree had a field overwritten. -/
def Cmd.intact : Cmd → Bool
  | .exec _ _ => true
  | .redir cmd _ _ _ _ => cmd.intact
  | .pipe left right => left.intact && right.intact
  | .list left right => left.intact && right.intact
  | .back cmd => cmd.intact
  | .over _ _ _ _ _ _ => false

/-- Whether every `Redirect` of the tree reads as one. -/
def Tree.intact : Tree → Bool
  | .exec _ => true
  | .redir cmd _ _ _ => cmd.intact
  | .pipe left right => left.intact && right.intact
  | .list left right => left.intact && right.intact
  | .back cmd => cmd.intact
  | .over _ _ _ _ _ => false

/-- What holds of the variables `cmd` and `argc` of `parseexec` as long as nothing was stored
over a field of a `redircmd`: `cmd` is the `execcmd` with the `argc` words read so far, or it is
a `redircmd` of the shape `Cmd.Good`. -/
def PlainInv (buf : List Char) (es : Nat) (cmd : Cmd) (argc : Nat) : Prop :=
  argc < MAXARGS ∧
    ((∃ R, cmd = execOf R ∧ R.length = argc ∧ ∀ r ∈ R, WordRange buf es r.1 r.2) ∨
      (cmd.isExec = false ∧ cmd.Good buf es))

/-- What the parser keeps true of a tree `c` that it builds out of the bytes `lo .. hi` of the
line. Every `execcmd` the tree leads to holds fewer than `MAXARGS` ranges in its first slots and
null pointers in all the others; each range is a word of the line that starts its run of word
bytes and lies between `lo` and `hi`, and none of the bytes `nulterminate` writes at (`c.ends`)
lies inside it. Every byte `nulterminate` writes at lies between `lo` and `hi`. -/
def Cmd.Built (buf : List Char) (es lo hi : Nat) (c : Cmd) : Prop :=
  (∀ p ∈ c.execNodes, ∃ R : List (Nat × Nat), R.length < MAXARGS ∧
      p.1 = R.map (fun r => some r.1) ++ List.replicate (MAXARGS - R.length) none ∧
      p.2 = R.map (fun r => some r.2) ++ List.replicate (MAXARGS - R.length) none ∧
      ∀ r ∈ R, WordRange buf es r.1 r.2 ∧ LeftMax buf r.1 ∧ lo ≤ r.1 ∧ r.2 ≤ hi ∧
        ∀ i ∈ c.ends, ¬ (r.1 ≤ i ∧ i < r.2)) ∧
  (∀ i ∈ c.ends, lo ≤ i ∧ i ≤ hi)

/-- What holds of the variables `cmd` and `argc` of `parseexec` when the cursor is at `p`, for a
plain command that starts at `lo`: `argc` is below `MAXARGS`, and `cmd` is the `execcmd` with the
`argc` words read so far, or it is a `redircmd` of the shape `Cmd.Built`. -/
def PlainBuilt (buf : List Char) (es lo p : Nat) (cmd : Cmd) (argc : Nat) : Prop :=
  argc < MAXARGS ∧
    ((∃ R : List (Nat × Nat), cmd = execOf R ∧ R.length = argc ∧
        ∀ r ∈ R, WordRange buf es r.1 r.2 ∧ LeftMax buf r.1 ∧ lo ≤ r.1 ∧ r.2 ≤ p) ∨
      (cmd.isExec = false ∧ cmd.isPlain = true ∧ cmd.Built buf es lo p))

/-- The node with every pointer into the line moved on by `d` bytes: the node as it is built when
the same text lies `d` bytes further on in the buffer. -/
def Cmd.shift (d : Nat) : Cmd → Cmd
  | .exec argv eargv =>
    .exec (argv.map (Option.map (fun q => q + d))) (eargv.map (Option.map (fun q => q + d)))
  | .redir cmd file efile mode fd => .redir (cmd.shift d) (file + d) (efile + d) mode fd
  | .pipe left right => .pipe (left.shift d) (right.shift d)
  | .list left right => .list (left.shift d) (right.shift d)
  | .back cmd => .back (cmd.shift d)
  | .over cmd file efile mode fd w =>
    .over (cmd.shift d) (file + d) (efile + d) mode fd
      (w.map (Option.map (Option.map (fun q => q + d))))

/-- The pointers that `argvStrings` reads a string at. -/
def textsOf : List (Option Nat) → List Nat
  | some q :: argv => q :: textsOf argv
  | _ => []

/-- The pointers that `Cmd.strings` reads a string at: the arguments and the file names of the
nodes the tree leads to. -/
def Cmd.texts : Cmd → List Nat
  | .exec argv _ => textsOf argv
  | .redir cmd file _ _ _ => cmd.texts ++ [file]
  | .pipe left right => left.texts ++ right.texts
  | .list left right => left.texts ++ right.texts
  | .back cmd => cmd.texts
  | .over cmd file _ _ _ w =>
    (match w.getD 0 none with
      | none => cmd.texts
      | some _ => []) ++
    (match fileOf file w with
      | some f => [f]
      | none => [])

/-- Every string of the tree comes to an end that `nulterminate` writes: at or after the pointer
of each there is a byte that `nulterminate` sets to NUL. -/
def Cmd.Cov (c : Cmd) : Prop :=
  ∀ q ∈ c.texts, ∃ i ∈ c.ends, q ≤ i

/-- A tree on which `nulterminate` faults, whatever the buffer holds. -/
def Cmd.Dead (c : Cmd) : Prop :=
  ∀ b, ∃ e, nulterminate c b = .error e

/-- The line buffer `st1` and the buffer `st2` of the same line put in parentheses, `n` being the
length of the line: `st2` holds the bytes of `st1` one place further on, `st1` ends after `n`
bytes, and `st2` has the `)` or a NUL after them. -/
def Wrapped (n : Nat) (st1 st2 : List Char) : Prop :=
  (∀ i, i < n → charAt st2 (i + 1) = charAt st1 i) ∧
    (∀ i, n ≤ i → charAt st1 i = NUL) ∧
    (∀ i, n ≤ i → charAt st2 (i + 1) = ')' ∨ charAt st2 (i + 1) = NUL)


/-- What holds of the variables `cmd` and `argc` of `parseexec` when the cursor is at `p`, as far
as the strings of the tree go: every string starts before the cursor; every string comes to an
end that `nulterminate` writes, unless two words have been read and `cmd` points at a `redircmd`,
where the third store is still to come; and `cmd` is the `execcmd` with the `argc` words read so
far, or a `redircmd`, one fresh from `parseredirs` when no word has been read. -/
def PlainCov (cmd : Cmd) (argc p : Nat) : Prop :=
  argc < MAXARGS ∧ (∀ q ∈ cmd.texts, q ≤ p) ∧
    (cmd.Cov ∨ (argc = 2 ∧ cmd.isExec = false)) ∧
    (cmd.isExec = true →
      ∃ R : List (Nat × Nat), cmd = execOf R ∧ R.length = argc ∧ ∀ r ∈ R, r.1 ≤ r.2) ∧
    (cmd.isExec = false → cmd.isPlain = true ∧
      (∀ c f e m d w, cmd = .over c f e m d w → w.length = 4) ∧
      (argc = 0 → ∃ c f e m d, cmd = .redir c f e m d ∧ f ≤ e))

/-! # Theorems -/

/-! ## The end of the line -/

theorem charAt_nil (i : Nat) : charAt [] i = NUL := by
  simp [charAt]

theorem charAt_cons_zero (c : Char) (l : List Char) : charAt (c :: l) 0 = c := by
  simp [charAt]

theorem charAt_cons_succ (c : Char) (l : List Char) (i : Nat) :
    charAt (c :: l) (i + 1) = charAt l i := by
  simp [charAt]

theorem charAt_of_length_le {buf : List Char} {i : Nat} (h : buf.length ≤ i) :
    charAt buf i = NUL := by
  simp [charAt, List.getD, List.getElem?_eq_none h]

theorem lt_length_of_charAt_ne {buf : List Char} {i : Nat} (h : charAt buf i ≠ NUL) :
    i < buf.length := by
  by_contra hc
  exact h (charAt_of_length_le (Nat.le_of_not_lt hc))

theorem charAt_drop (buf : List Char) (s i : Nat) :
    charAt (buf.drop s) i = charAt buf (s + i) := by
  simp [charAt, List.getD, List.getElem?_drop]

theorem isEnd_strlen (buf : List Char) : IsEnd buf (strlen buf) := by
  induction buf with
  | nil => exact ⟨by simp [strlen, charAt_nil], fun i h => by simp [strlen] at h⟩
  | cons c l ih =>
    by_cases hc : c = NUL
    · subst hc
      refine ⟨by simp [strlen, charAt_cons_zero], fun i h => ?_⟩
      simp [strlen] at h
    · have hs : strlen (c :: l) = strlen l + 1 := by
        simp [strlen, List.takeWhile_cons, hc]
      rw [hs]
      refine ⟨by rw [charAt_cons_succ]; exact ih.nul, fun i h => ?_⟩
      cases i with
      | zero => rw [charAt_cons_zero]; exact hc
      | succ j => rw [charAt_cons_succ]; exact ih.lt j (by omega)

theorem strlen_eq_length {buf : List Char} (h : NUL ∉ buf) : strlen buf = buf.length := by
  unfold strlen
  rw [List.takeWhile_eq_self_iff.2]
  intro c hc
  simp only [bne_iff_ne, ne_eq]
  rintro rfl
  exact h hc

theorem isEnd_length {buf : List Char} (h : NUL ∉ buf) : IsEnd buf buf.length := by
  have := isEnd_strlen buf
  rwa [strlen_eq_length h] at this

theorem IsEnd.le_length {buf : List Char} {es : Nat} (h : IsEnd buf es) : es ≤ buf.length := by
  by_contra hc
  exact h.lt buf.length (by omega) (charAt_of_length_le (Nat.le_refl _))

theorem IsEnd.charAt_ne_iff {buf : List Char} {es : Nat} (h : IsEnd buf es) {s : Nat}
    (hs : s ≤ es) : charAt buf s ≠ NUL ↔ s < es := by
  constructor
  · intro hne
    rcases Nat.lt_or_eq_of_le hs with h1 | h1
    · exact h1
    · exact absurd (h1 ▸ h.nul) hne
  · exact h.lt s

/-- For a byte that is not NUL, `strchr` is membership. -/
theorem strchr_iff {str : List Char} {c : Char} (h : c ≠ NUL) :
    strchr str c = true ↔ c ∈ str := by
  simp [strchr, h]

theorem strchr_nul (str : List Char) : strchr str NUL = true := by
  simp [strchr]

/-! ## The whitespace loop -/

theorem le_skipwsLoop (buf : List Char) (es n s : Nat) : s ≤ skipwsLoop buf es n s := by
  induction n generalizing s with
  | zero => simp [skipwsLoop]
  | succ n ih =>
    simp only [skipwsLoop]
    split
    · exact Nat.le_trans (Nat.le_succ s) (ih (s + 1))
    · exact Nat.le_refl s

theorem skipwsLoop_le (buf : List Char) (es n s : Nat) (h : s ≤ es) :
    skipwsLoop buf es n s ≤ es := by
  induction n generalizing s with
  | zero => simpa [skipwsLoop] using h
  | succ n ih =>
    simp only [skipwsLoop]
    split
    · next hc =>
      simp only [Bool.and_eq_true, decide_eq_true_eq] at hc
      exact ih (s + 1) hc.1
    · exact h

/-- Where the loop stops, it cannot go on. -/
theorem skipwsLoop_stop (buf : List Char) (es n s : Nat) (h : es - s ≤ n) :
    ¬ (skipwsLoop buf es n s < es ∧ strchr whitespace (charAt buf (skipwsLoop buf es n s)) = true) := by
  induction n generalizing s with
  | zero =>
    simp only [skipwsLoop]
    intro hc
    omega
  | succ n ih =>
    simp only [skipwsLoop]
    split
    · exact ih (s + 1) (by omega)
    · next hc =>
      simpa only [Bool.and_eq_true, decide_eq_true_eq] using hc

/-- Every byte the loop passes is whitespace. -/
theorem skipwsLoop_between (buf : List Char) (es n s i : Nat) (h1 : s ≤ i)
    (h2 : i < skipwsLoop buf es n s) : i < es ∧ strchr whitespace (charAt buf i) = true := by
  induction n generalizing s with
  | zero => simp only [skipwsLoop] at h2; omega
  | succ n ih =>
    simp only [skipwsLoop] at h2
    split at h2
    · next hc =>
      simp only [Bool.and_eq_true, decide_eq_true_eq] at hc
      rcases Nat.eq_or_lt_of_le h1 with h3 | h3
      · subst h3; exact hc
      · exact ih (s + 1) h3 h2
    · omega

/-- Where the loop cannot start, it stays. -/
theorem skipwsLoop_fix (buf : List Char) (es n s : Nat)
    (h : ¬ (s < es ∧ strchr whitespace (charAt buf s) = true)) : skipwsLoop buf es n s = s := by
  cases n with
  | zero => rfl
  | succ n =>
    simp only [skipwsLoop]
    rw [if_neg]
    simpa only [Bool.and_eq_true, decide_eq_true_eq] using h

theorem le_skipws (buf : List Char) (es s : Nat) : s ≤ skipws buf es s :=
  le_skipwsLoop buf es _ s

theorem skipws_le (buf : List Char) {es s : Nat} (h : s ≤ es) : skipws buf es s ≤ es :=
  skipwsLoop_le buf es _ s h

theorem skipws_stop (buf : List Char) (es s : Nat) :
    ¬ (skipws buf es s < es ∧ strchr whitespace (charAt buf (skipws buf es s)) = true) :=
  skipwsLoop_stop buf es _ s (Nat.le_refl _)

theorem skipws_between (buf : List Char) {es s i : Nat} (h1 : s ≤ i)
    (h2 : i < skipws buf es s) : i < es ∧ strchr whitespace (charAt buf i) = true :=
  skipwsLoop_between buf es _ s i h1 h2

theorem skipws_fix (buf : List Char) {es s : Nat}
    (h : ¬ (s < es ∧ strchr whitespace (charAt buf s) = true)) : skipws buf es s = s :=
  skipwsLoop_fix buf es _ s h

theorem skipws_skipws (buf : List Char) (es s : Nat) :
    skipws buf es (skipws buf es s) = skipws buf es s :=
  skipws_fix buf (skipws_stop buf es s)

theorem skipws_end (buf : List Char) (es : Nat) : skipws buf es es = es :=
  skipws_fix buf (fun h => Nat.lt_irrefl _ h.1)

/-! ## The word loop -/

theorem wordChar_ne_nul {c : Char} (h : wordChar c = true) : c ≠ NUL := by
  rintro rfl
  simp [wordChar, strchr_nul] at h

theorem wordChar_not_ws {c : Char} (h : wordChar c = true) : strchr whitespace c = false := by
  simp only [wordChar, Bool.and_eq_true, Bool.not_eq_true'] at h
  exact h.1

theorem wordChar_not_sym {c : Char} (h : wordChar c = true) : strchr symbols c = false := by
  simp only [wordChar, Bool.and_eq_true, Bool.not_eq_true'] at h
  exact h.2

theorem le_scanwordLoop (buf : List Char) (es n s : Nat) : s ≤ scanwordLoop buf es n s := by
  induction n generalizing s with
  | zero => simp [scanwordLoop]
  | succ n ih =>
    simp only [scanwordLoop]
    split
    · exact Nat.le_trans (Nat.le_succ s) (ih (s + 1))
    · exact Nat.le_refl s

theorem scanwordLoop_le (buf : List Char) (es n s : Nat) (h : s ≤ es) :
    scanwordLoop buf es n s ≤ es := by
  induction n generalizing s with
  | zero => simpa [scanwordLoop] using h
  | succ n ih =>
    simp only [scanwordLoop]
    split
    · next hc =>
      simp only [Bool.and_eq_true, decide_eq_true_eq] at hc
      exact ih (s + 1) hc.1.1
    · exact h

theorem scanwordLoop_stop (buf : List Char) (es n s : Nat) (h : es - s ≤ n) :
    ¬ (scanwordLoop buf es n s < es ∧ wordChar (charAt buf (scanwordLoop buf es n s)) = true) := by
  induction n generalizing s with
  | zero =>
    simp only [scanwordLoop]
    intro hc
    omega
  | succ n ih =>
    simp only [scanwordLoop]
    split
    · exact ih (s + 1) (by omega)
    · next hc =>
      simpa only [wordChar, Bool.and_eq_true, decide_eq_true_eq, and_assoc] using hc

theorem scanwordLoop_between (buf : List Char) (es n s i : Nat) (h1 : s ≤ i)
    (h2 : i < scanwordLoop buf es n s) : i < es ∧ wordChar (charAt buf i) = true := by
  induction n generalizing s with
  | zero => simp only [scanwordLoop] at h2; omega
  | succ n ih =>
    simp only [scanwordLoop] at h2
    split at h2
    · next hc =>
      rcases Nat.eq_or_lt_of_le h1 with h3 | h3
      · subst h3
        simpa only [wordChar, Bool.and_eq_true, decide_eq_true_eq, and_assoc] using hc
      · exact ih (s + 1) h3 h2
    · omega

theorem lt_scanwordLoop (buf : List Char) (es n s : Nat) (hn : 0 < n) (h1 : s < es)
    (h2 : wordChar (charAt buf s) = true) : s < scanwordLoop buf es n s := by
  cases n with
  | zero => omega
  | succ n =>
    simp only [scanwordLoop]
    rw [if_pos]
    · exact Nat.lt_of_lt_of_le (Nat.lt_succ_self s) (le_scanwordLoop buf es n (s + 1))
    · simpa only [wordChar, Bool.and_eq_true, decide_eq_true_eq, and_assoc] using
        And.intro h1 h2

theorem le_scanword (buf : List Char) (es s : Nat) : s ≤ scanword buf es s :=
  le_scanwordLoop buf es _ s

theorem scanword_le (buf : List Char) {es s : Nat} (h : s ≤ es) : scanword buf es s ≤ es :=
  scanwordLoop_le buf es _ s h

theorem scanword_stop (buf : List Char) (es s : Nat) :
    ¬ (scanword buf es s < es ∧ wordChar (charAt buf (scanword buf es s)) = true) :=
  scanwordLoop_stop buf es _ s (Nat.le_refl _)

theorem scanword_between (buf : List Char) {es s i : Nat} (h1 : s ≤ i)
    (h2 : i < scanword buf es s) : i < es ∧ wordChar (charAt buf i) = true :=
  scanwordLoop_between buf es _ s i h1 h2

theorem lt_scanword (buf : List Char) {es s : Nat} (h1 : s < es)
    (h2 : wordChar (charAt buf s) = true) : s < scanword buf es s :=
  lt_scanwordLoop buf es _ s (by omega) h1 h2

/-! ## `gettoken` and `peek` -/

/-- The five ways of `gettoken`, by the byte at which the leading whitespace ends. -/
theorem gettoken_cases {buf : List Char} {es : Nat} (h : IsEnd buf es) {s : Nat} (hs : s ≤ es) :
    (skipws buf es s = es ∧ gettoken buf es s = ⟨NUL, es, es, es⟩) ∨
    (skipws buf es s < es ∧ charAt buf (skipws buf es s) ∈ ['|', '(', ')', ';', '&', '<'] ∧
      gettoken buf es s = ⟨charAt buf (skipws buf es s), skipws buf es s, skipws buf es s + 1,
        skipws buf es (skipws buf es s + 1)⟩) ∨
    (skipws buf es s + 1 < es ∧ charAt buf (skipws buf es s) = '>' ∧
      charAt buf (skipws buf es s + 1) = '>' ∧
      gettoken buf es s = ⟨'+', skipws buf es s, skipws buf es s + 2,
        skipws buf es (skipws buf es s + 2)⟩) ∨
    (skipws buf es s < es ∧ charAt buf (skipws buf es s) = '>' ∧
      charAt buf (skipws buf es s + 1) ≠ '>' ∧
      gettoken buf es s = ⟨'>', skipws buf es s, skipws buf es s + 1,
        skipws buf es (skipws buf es s + 1)⟩) ∨
    (skipws buf es s < es ∧ wordChar (charAt buf (skipws buf es s)) = true ∧
      gettoken buf es s = ⟨'a', skipws buf es s, scanword buf es (skipws buf es s),
        skipws buf es (scanword buf es (skipws buf es s))⟩) := by
  have hle := skipws_le buf hs
  have hstop := skipws_stop buf es s
  simp only [gettoken]
  generalize skipws buf es s = a at hle hstop ⊢
  by_cases h0 : charAt buf a = NUL
  · left
    have ha : a = es := by
      by_contra hne
      exact h.lt a (by omega) h0
    subst ha
    refine ⟨rfl, ?_⟩
    simp [h0, skipws_end, h.nul]
  · right
    have ha : a < es := (h.charAt_ne_iff hle).1 h0
    by_cases h1 : charAt buf a = '|' ∨ charAt buf a = '(' ∨ charAt buf a = ')' ∨
        charAt buf a = ';' ∨ charAt buf a = '&' ∨ charAt buf a = '<'
    · left
      refine ⟨ha, by simpa using h1, ?_⟩
      simp [h0, h1]
    · right
      have hgt : ¬ ('>' = NUL) := by decide
      by_cases h2 : charAt buf a = '>'
      · by_cases h3 : charAt buf (a + 1) = '>'
        · left
          have h4 : a + 1 < es := by
            have : charAt buf (a + 1) ≠ NUL := by rw [h3]; decide
            exact (h.charAt_ne_iff (by omega)).1 this
          refine ⟨h4, h2, h3, ?_⟩
          simp [h1, h2, h3, hgt]
        · right; left
          refine ⟨ha, h2, h3, ?_⟩
          simp [h1, h2, h3, hgt]
      · right; right
        have hw : wordChar (charAt buf a) = true := by
          have hws : strchr whitespace (charAt buf a) = false := by
            cases hb : strchr whitespace (charAt buf a) with
            | false => rfl
            | true => exact absurd ⟨ha, hb⟩ hstop
          have hsym : strchr symbols (charAt buf a) = false := by
            simp only [not_or] at h1
            simp [strchr, symbols, h0, h1, h2]
          simp [wordChar, hws, hsym]
        refine ⟨ha, hw, ?_⟩
        simp [h0, h1, h2]

theorem gettoken_skipws (buf : List Char) (es s : Nat) :
    gettoken buf es (skipws buf es s) = gettoken buf es s := by
  simp only [gettoken, skipws_skipws]

theorem peek_snd (buf : List Char) (es s : Nat) (toks : List Char) :
    (peek buf es s toks).2 = skipws buf es s := rfl

theorem peek_peek (buf : List Char) (es s : Nat) (t1 t2 : List Char) :
    peek buf es (peek buf es s t1).2 t2 = peek buf es s t2 := by
  simp only [peek, skipws_skipws]

theorem gettoken_peek (buf : List Char) (es s : Nat) (toks : List Char) :
    gettoken buf es (peek buf es s toks).2 = gettoken buf es s :=
  gettoken_skipws buf es s

theorem peek_true_iff (buf : List Char) (es s : Nat) (toks : List Char) :
    (peek buf es s toks).1 = true ↔
      charAt buf (skipws buf es s) ≠ NUL ∧ charAt buf (skipws buf es s) ∈ toks := by
  simp only [peek, Bool.and_eq_true, bne_iff_ne, ne_eq]
  constructor
  · rintro ⟨h1, h2⟩
    exact ⟨h1, (strchr_iff h1).1 h2⟩
  · rintro ⟨h1, h2⟩
    exact ⟨h1, (strchr_iff h1).2 h2⟩

theorem gettoken_q (buf : List Char) (es s : Nat) :
    (gettoken buf es s).q = skipws buf es s := rfl

theorem gettoken_ps (buf : List Char) (es s : Nat) :
    (gettoken buf es s).ps = skipws buf es (gettoken buf es s).eq := rfl

/-- The pointers `gettoken` hands back are in order and inside the line. -/
theorem gettoken_bounds {buf : List Char} {es : Nat} (h : IsEnd buf es) {s : Nat} (hs : s ≤ es) :
    s ≤ (gettoken buf es s).q ∧ (gettoken buf es s).q ≤ (gettoken buf es s).eq ∧
      (gettoken buf es s).eq ≤ (gettoken buf es s).ps ∧ (gettoken buf es s).ps ≤ es := by
  have h1 := le_skipws buf es s
  have h2 := skipws_le buf hs
  rcases gettoken_cases h hs with ⟨h3, h4⟩ | ⟨h3, _, h4⟩ | ⟨h3, _, _, h4⟩ | ⟨h3, _, _, h4⟩ |
    ⟨h3, _, h4⟩
  · rw [h4]; simp only; omega
  · rw [h4]; simp only
    have := le_skipws buf es (skipws buf es s + 1)
    have := skipws_le buf (show skipws buf es s + 1 ≤ es by omega)
    omega
  · rw [h4]; simp only
    have := le_skipws buf es (skipws buf es s + 2)
    have := skipws_le buf (show skipws buf es s + 2 ≤ es by omega)
    omega
  · rw [h4]; simp only
    have := le_skipws buf es (skipws buf es s + 1)
    have := skipws_le buf (show skipws buf es s + 1 ≤ es by omega)
    omega
  · rw [h4]; simp only
    have h5 := le_scanword buf es (skipws buf es s)
    have h6 := scanword_le buf h2
    have := le_skipws buf es (scanword buf es (skipws buf es s))
    have := skipws_le buf h6
    omega

theorem gettoken_ps_le {buf : List Char} {es : Nat} (h : IsEnd buf es) {s : Nat} (hs : s ≤ es) :
    (gettoken buf es s).ps ≤ es :=
  (gettoken_bounds h hs).2.2.2

theorem le_gettoken_ps {buf : List Char} {es : Nat} (h : IsEnd buf es) {s : Nat} (hs : s ≤ es) :
    s ≤ (gettoken buf es s).ps := by
  have := gettoken_bounds h hs
  omega

/-- A token other than the end of the line takes at least one byte. -/
theorem gettoken_progress {buf : List Char} {es : Nat} (h : IsEnd buf es) {s : Nat} (hs : s ≤ es)
    (hr : (gettoken buf es s).ret ≠ NUL) : s < (gettoken buf es s).ps := by
  have h1 := le_skipws buf es s
  have h2 := skipws_le buf hs
  have hb := gettoken_bounds h hs
  rcases gettoken_cases h hs with ⟨_, h4⟩ | ⟨h3, _, h4⟩ | ⟨h3, _, _, h4⟩ | ⟨h3, _, _, h4⟩ |
    ⟨h3, hw, h4⟩
  · rw [h4] at hr; exact absurd rfl hr
  · rw [h4] at hb ⊢; simp only at hb ⊢; omega
  · rw [h4] at hb ⊢; simp only at hb ⊢; omega
  · rw [h4] at hb ⊢; simp only at hb ⊢; omega
  · rw [h4] at hb ⊢; simp only at hb ⊢
    have := lt_scanword buf h3 hw
    omega

/-- The end of the line is reported exactly when only whitespace is left. -/
theorem gettoken_ret_nul_iff {buf : List Char} {es : Nat} (h : IsEnd buf es) {s : Nat}
    (hs : s ≤ es) : (gettoken buf es s).ret = NUL ↔ skipws buf es s = es := by
  rcases gettoken_cases h hs with ⟨h3, h4⟩ | ⟨h3, hm, h4⟩ | ⟨h3, _, _, h4⟩ | ⟨h3, _, _, h4⟩ |
    ⟨h3, hw, h4⟩
  · rw [h4]; simp [h3]
  · rw [h4]; simp only
    have : charAt buf (skipws buf es s) ≠ NUL := h.lt _ h3
    constructor
    · intro h5; exact absurd h5 this
    · intro h5; omega
  · rw [h4]; simp only
    constructor
    · intro h5; exact absurd h5 (by decide)
    · intro h5; omega
  · rw [h4]; simp only
    constructor
    · intro h5; exact absurd h5 (by decide)
    · intro h5; omega
  · rw [h4]; simp only
    constructor
    · intro h5; exact absurd h5 (by decide)
    · intro h5; omega

/-- The token at a byte that `peek` found among `|();&<` is that byte. -/
theorem gettoken_of_symbol {buf : List Char} {es : Nat} (h : IsEnd buf es) {s : Nat} (hs : s ≤ es)
    (hne : charAt buf (skipws buf es s) ≠ NUL)
    (hm : charAt buf (skipws buf es s) ∈ ['|', '(', ')', ';', '&', '<']) :
    gettoken buf es s = ⟨charAt buf (skipws buf es s), skipws buf es s, skipws buf es s + 1,
        skipws buf es (skipws buf es s + 1)⟩ := by
  rcases gettoken_cases h hs with ⟨h3, h4⟩ | ⟨h3, _, h4⟩ | ⟨h3, h5, _, h4⟩ | ⟨h3, h5, _, h4⟩ |
    ⟨h3, hw, h4⟩
  · rw [h3, h.nul] at hne; exact absurd rfl hne
  · exact h4
  · rw [h5] at hm; exact absurd hm (by decide)
  · rw [h5] at hm; exact absurd hm (by decide)
  · exfalso
    have := wordChar_not_sym hw
    have hm2 : charAt buf (skipws buf es s) ∈ symbols := by
      simp only [List.mem_cons, List.mem_singleton, List.not_mem_nil, or_false] at hm
      simp only [symbols, List.mem_cons, List.mem_singleton, List.not_mem_nil, or_false]
      tauto
    rw [(strchr_iff hne).2 hm2] at this
    exact Bool.noConfusion this

/-! ## Successful parses as derivations -/

/-- Every run of the four parse functions that returns a tree is a derivation. -/
theorem parsed_of_ok (buf : List Char) (es : Nat) (fuel : Nat) :
    (∀ s c s1, parseline buf es fuel s = .ok (c, s1) → Parsed buf es s c s1) ∧
    (∀ s c s1, parsepipe buf es fuel s = .ok (c, s1) → Parsed buf es s c s1) ∧
    (∀ s c s1, parseexec buf es fuel s = .ok (c, s1) → Parsed buf es s c s1) ∧
    (∀ s c s1, parseblock buf es fuel (peek buf es s ['(']).2 = .ok (c, s1) →
      Parsed buf es s c s1) := by
  induction fuel with
  | zero =>
    refine ⟨?_, ?_, ?_, ?_⟩ <;> intro s c s1 h
    · simp [parseline] at h
    · simp [parsepipe] at h
    · simp [parseexec] at h
    · simp [parseblock] at h
  | succ n ih =>
    obtain ⟨ihl, ihp, ihe, ihb⟩ := ih
    refine ⟨?_, ?_, ?_, ?_⟩ <;> intro s c s1 h
    · simp only [parseline] at h
      split at h
      · exact absurd h (by simp)
      · next c0 p0 h0 =>
        split at h
        · exact absurd h (by simp)
        · next c2 p2 h2 =>
          split at h
          · next hp =>
            split at h
            · exact absurd h (by simp)
            · next r p3 h3 =>
              simp only [Except.ok.injEq, Prod.mk.injEq] at h
              obtain ⟨rfl, rfl⟩ := h
              exact Parsed.list (ihp _ _ _ h0) h2 hp (ihl _ _ _ h3)
          · next hp =>
            simp only [Except.ok.injEq, Prod.mk.injEq] at h
            obtain ⟨rfl, rfl⟩ := h
            exact Parsed.last (ihp _ _ _ h0) h2 (by simpa using hp)
    · simp only [parsepipe] at h
      split at h
      · exact absurd h (by simp)
      · next c0 p0 h0 =>
        split at h
        · next hp =>
          split at h
          · exact absurd h (by simp)
          · next r p3 h3 =>
            simp only [Except.ok.injEq, Prod.mk.injEq] at h
            obtain ⟨rfl, rfl⟩ := h
            exact Parsed.pipe (ihe _ _ _ h0) hp (ihp _ _ _ h3)
        · next hp =>
          simp only [Except.ok.injEq, Prod.mk.injEq] at h
          obtain ⟨rfl, rfl⟩ := h
          exact Parsed.single (ihe _ _ _ h0) (by simpa using hp)
    · simp only [parseexec] at h
      split at h
      · exact ihb _ _ _ h
      · next hp =>
        exact Parsed.plain (by simpa using hp) h
    · simp only [parseblock, peek_peek] at h
      split at h
      · next hp =>
        split at h
        · exact absurd h (by simp)
        · next c0 p0 h0 =>
          split at h
          · next hp2 => exact Parsed.block hp (ihl _ _ _ h0) hp2 h
          · exact absurd h (by simp)
      · exact absurd h (by simp)

/-! ## The loops as derivations -/

theorem redirs_of_loop (buf : List Char) (es n : Nat) (c : Cmd) (s : Nat) (c1 : Cmd) (s1 : Nat)
    (h : parseredirsLoop buf es n c s = .ok (c1, s1)) : Redirs buf es c s c1 s1 := by
  induction n generalizing c s with
  | zero =>
    simp only [parseredirsLoop] at h
    split at h
    · exact absurd h (by simp)
    · next hp =>
      simp only [Except.ok.injEq, Prod.mk.injEq] at h
      obtain ⟨rfl, rfl⟩ := h
      exact Redirs.done (by simpa using hp)
  | succ n ih =>
    simp only [parseredirsLoop, gettoken_peek] at h
    split at h
    · next hp =>
      split at h
      · exact absurd h (by simp)
      · next hf =>
        exact Redirs.step hp (by simpa using hf) (ih _ _ h)
    · next hp =>
      simp only [Except.ok.injEq, Prod.mk.injEq] at h
      obtain ⟨rfl, rfl⟩ := h
      exact Redirs.done (by simpa using hp)

theorem redirs_of_ok {buf : List Char} {es : Nat} {c : Cmd} {s : Nat} {c1 : Cmd} {s1 : Nat}
    (h : parseredirs buf es c s = .ok (c1, s1)) : Redirs buf es c s c1 s1 :=
  redirs_of_loop buf es _ c s c1 s1 h

theorem backs_of_loop (buf : List Char) (es n : Nat) (c : Cmd) (s : Nat) (c1 : Cmd) (s1 : Nat)
    (h : parsebackLoop buf es n c s = .ok (c1, s1)) : Backs buf es c s c1 s1 := by
  induction n generalizing c s with
  | zero =>
    simp only [parsebackLoop] at h
    split at h
    · exact absurd h (by simp)
    · next hp =>
      simp only [Except.ok.injEq, Prod.mk.injEq] at h
      obtain ⟨rfl, rfl⟩ := h
      exact Backs.done (by simpa using hp)
  | succ n ih =>
    simp only [parsebackLoop, gettoken_peek] at h
    split at h
    · next hp => exact Backs.step hp (ih _ _ h)
    · next hp =>
      simp only [Except.ok.injEq, Prod.mk.injEq] at h
      obtain ⟨rfl, rfl⟩ := h
      exact Backs.done (by simpa using hp)

/-- A store leaves the kind of the node as it is: an `execcmd` stays one. -/
theorem storeArg_isExec {c : Cmd} {i : Nat} {q e : Option Nat} {c1 : Cmd}
    (h : storeArg c i q e = .ok c1) : c1.isExec = c.isExec := by
  cases c <;> simp only [storeArg] at h
  · split at h
    · simp only [Except.ok.injEq] at h
      subst h
      rfl
    · exact absurd h (by simp)
  · split at h <;> (simp only [Except.ok.injEq] at h; subst h; rfl)
  · exact absurd h (by simp)
  · exact absurd h (by simp)
  · exact absurd h (by simp)
  · split at h <;> (simp only [Except.ok.injEq] at h; subst h; rfl)

/-- The operator that `parseredirs` reads after `peek` saw `<` or `>` is `<`, `>` or `>>`. -/
theorem gettoken_redir_op {buf : List Char} {es : Nat} (h : IsEnd buf es) {s : Nat} (hs : s ≤ es)
    (hp : (peek buf es s ['<', '>']).1 = true) :
    (gettoken buf es s).ret = '<' ∨ (gettoken buf es s).ret = '>' ∨
      (gettoken buf es s).ret = '+' := by
  obtain ⟨hne, hm⟩ := (peek_true_iff buf es s _).1 hp
  rcases gettoken_cases h hs with ⟨h3, h4⟩ | ⟨h3, _, h4⟩ | ⟨h3, h5, _, h4⟩ | ⟨h3, h5, _, h4⟩ |
    ⟨h3, hw, h4⟩
  · rw [h3, h.nul] at hne; exact absurd rfl hne
  · rw [h4]; simp only
    simp only [List.mem_cons, List.mem_singleton, List.not_mem_nil, or_false] at hm
    rcases hm with hm | hm
    · exact Or.inl hm
    · exact Or.inr (Or.inl hm)
  · rw [h4]; exact Or.inr (Or.inr rfl)
  · rw [h4]; exact Or.inr (Or.inl rfl)
  · exfalso
    have := wordChar_not_sym hw
    have hm2 : charAt buf (skipws buf es s) ∈ symbols := by
      simp only [List.mem_cons, List.mem_singleton, List.not_mem_nil, or_false] at hm
      simp only [symbols, List.mem_cons, List.mem_singleton, List.not_mem_nil, or_false]
      tauto
    rw [(strchr_iff hne).2 hm2] at this
    exact Bool.noConfusion this

theorem redirFor_isExec {tok : Char} (h : tok = '<' ∨ tok = '>' ∨ tok = '+') (c : Cmd)
    (q e : Nat) : (redirFor tok c q e).isExec = false := by
  rcases h with rfl | rfl | rfl <;> rfl

/-- A redirection leaves the variable `cmd` pointing at a node that is not an `execcmd`. -/
theorem Redirs.redirs_exec {buf : List Char} {es : Nat} (h : IsEnd buf es) {c : Cmd} {s : Nat}
    {c1 : Cmd} {s1 : Nat} (hr : Redirs buf es c s c1 s1) (hs : s ≤ es)
    (he : c1.isExec = true) :
    c1 = c ∧ (peek buf es s ['<', '>']).1 = false ∧ s1 = (peek buf es s ['<', '>']).2 := by
  induction hr with
  | done hp => exact ⟨rfl, hp, rfl⟩
  | @step c s c1 s1 hp hf hrest ih =>
    exfalso
    have hs1 : (gettoken buf es (gettoken buf es s).ps).ps ≤ es :=
      gettoken_ps_le h (gettoken_ps_le h hs)
    have := (ih hs1 he).1
    rw [this, redirFor_isExec (gettoken_redir_op h hs hp)] at he
    exact Bool.noConfusion he

/-! ## What every successful parse does to the line

A property `Q s s1` of two positions of the line holds from the start to the end of every
successful parse as soon as it is kept by the moves the parser is made of. -/

/-- The token at a byte that `peek` found to be the one metacharacter `c` of `|();&`. -/
theorem gettoken_of_peek {buf : List Char} {es : Nat} (hE : IsEnd buf es) {s : Nat} (hs : s ≤ es)
    {c : Char} (hc : c ∈ ['|', '(', ')', ';', '&', '<'])
    (hp : (peek buf es s [c]).1 = true) :
    (gettoken buf es s).ret = c ∧ (gettoken buf es s).eq = skipws buf es s + 1 := by
  obtain ⟨hne, hm⟩ := (peek_true_iff buf es s _).1 hp
  simp only [List.mem_singleton] at hm
  rw [gettoken_of_symbol hE hs hne (hm ▸ hc)]
  exact ⟨hm, rfl⟩

theorem Redirs.redirs_seg {buf : List Char} {es : Nat} (hE : IsEnd buf es) {Q : Nat → Nat → Prop}
    (hQ : SegClosed buf es Q) {c : Cmd} {s : Nat} {c1 : Cmd} {s1 : Nat}
    (h : Redirs buf es c s c1 s1) (hs : s ≤ es) : s ≤ s1 ∧ s1 ≤ es ∧ Q s s1 := by
  induction h with
  | @done c s hp => exact ⟨le_skipws buf es s, skipws_le buf hs, hQ.skip s hs⟩
  | @step c s c1 s1 hp hf hr ih =>
    have h1 := le_gettoken_ps hE hs
    have h2 := gettoken_ps_le hE hs
    have h1a := le_gettoken_ps hE h2
    have h2a := gettoken_ps_le hE h2
    obtain ⟨h3, h4, h5⟩ := ih h2a
    have hop : (gettoken buf es s).ret ∈ ['<', '>', '+'] := by
      rcases gettoken_redir_op hE hs hp with h | h | h <;> rw [h] <;> simp
    exact ⟨by omega, h4, hQ.trans _ _ _ (by omega) h3 h4 (hQ.redir s hs hop hf) h5⟩

theorem Backs.backs_seg {buf : List Char} {es : Nat} (hE : IsEnd buf es) {Q : Nat → Nat → Prop}
    (hQ : SegClosed buf es Q) {c : Cmd} {s : Nat} {c1 : Cmd} {s1 : Nat}
    (h : Backs buf es c s c1 s1) (hs : s ≤ es) : s ≤ s1 ∧ s1 ≤ es ∧ Q s s1 := by
  induction h with
  | @done c s hp => exact ⟨le_skipws buf es s, skipws_le buf hs, hQ.skip s hs⟩
  | @step c s c1 s1 hp hr ih =>
    have h1 := le_gettoken_ps hE hs
    have h2 := gettoken_ps_le hE hs
    obtain ⟨h3, h4, h5⟩ := ih h2
    have hop : (gettoken buf es s).ret ∈ ['a', '&', ';', '|'] := by
      rw [(gettoken_of_peek hE hs (by simp) hp).1]; simp
    exact ⟨by omega, h4, hQ.trans _ _ _ h1 h3 h4 (hQ.tok s hs hop) h5⟩

/-- The trivial relation gives the bounds alone. -/
theorem segClosed_true (buf : List Char) (es : Nat) : SegClosed buf es (fun _ _ => True) :=
  ⟨fun _ _ _ _ _ _ _ _ => trivial, fun _ _ => trivial, fun _ _ _ => trivial,
    fun _ _ _ _ => trivial, fun _ _ _ _ _ _ _ _ => trivial⟩

/-! ## Plain commands -/

theorem execcmd_eq : execcmd = execOf [] := rfl

theorem execOf_isExec (R : List (Nat × Nat)) : (execOf R).isExec = true := rfl

theorem set_map_append_replicate {α : Type} (A : List α) (k : Nat) (x : α) :
    (A.map some ++ List.replicate (k + 1) none).set A.length (some x) =
      (A ++ [x]).map some ++ List.replicate k none := by
  induction A with
  | nil => simp [List.replicate_succ]
  | cons a A ih => simpa using ih

theorem set_none_map_append_replicate {α : Type} (A : List α) (k : Nat) :
    (A.map some ++ List.replicate (k + 1) none).set A.length none =
      A.map some ++ List.replicate (k + 1) none := by
  induction A with
  | nil => simp [List.replicate_succ]
  | cons a A ih => simp

theorem storeArg_execOf (R : List (Nat × Nat)) (q e : Nat) (h : R.length < MAXARGS) :
    storeArg (execOf R) R.length (some q) (some e) = .ok (execOf (R ++ [(q, e)])) := by
  obtain ⟨k, hk⟩ : ∃ k, MAXARGS - R.length = k + 1 := ⟨MAXARGS - R.length - 1, by omega⟩
  have hk2 : MAXARGS - (R ++ [(q, e)]).length = k := by
    simp only [List.length_append, List.length_singleton]; omega
  simp only [storeArg, execOf, h, if_true, hk, hk2]
  have h1 := set_map_append_replicate (R.map (fun r => r.1)) k q
  have h2 := set_map_append_replicate (R.map (fun r => r.2)) k e
  simp only [List.length_map, List.map_map, List.map_append, List.map_cons, List.map_nil] at h1 h2
  simp only [List.map_append, List.map_cons, List.map_nil]
  exact congrArg Except.ok (congrArg₂ Cmd.exec h1 h2)

theorem storeArg_execOf_none (R : List (Nat × Nat)) (h : R.length < MAXARGS) :
    storeArg (execOf R) R.length none none = .ok (execOf R) := by
  obtain ⟨k, hk⟩ : ∃ k, MAXARGS - R.length = k + 1 := ⟨MAXARGS - R.length - 1, by omega⟩
  simp only [storeArg, execOf, h, if_true, hk]
  have h1 := set_none_map_append_replicate (R.map (fun r => r.1)) k
  have h2 := set_none_map_append_replicate (R.map (fun r => r.2)) k
  simp only [List.length_map, List.map_map] at h1 h2
  exact congrArg Except.ok (congrArg₂ Cmd.exec h1 h2)

theorem peek_skipws (buf : List Char) (es s : Nat) (toks : List Char) :
    peek buf es (skipws buf es s) toks = peek buf es s toks :=
  peek_peek buf es s [] toks

theorem Words.of_skipws {buf : List Char} {es : Nat} {s : Nat} {R : List (Nat × Nat)} {s1 : Nat}
    (h : Words buf es (skipws buf es s) R s1) : Words buf es s R s1 := by
  cases h with
  | stop hp =>
    rw [peek_skipws] at hp ⊢
    exact Words.stop hp
  | eol hp hr =>
    rw [peek_skipws] at hp
    rw [gettoken_skipws] at hr ⊢
    exact Words.eol hp hr
  | word hp hr hq hw =>
    rw [peek_skipws] at hp
    rw [gettoken_skipws] at hr hq hw ⊢
    exact Words.word hp hr hq hw

/-- The runs of the argument loop that return, as derivations. -/
theorem args_of_loop (buf : List Char) (es n : Nat) (cmd : Cmd) (argc s : Nat) (c : Cmd)
    (argc1 s1 : Nat) (h : parseargsLoop buf es n cmd argc s = .ok (c, argc1, s1)) :
    Args buf es cmd argc s c argc1 s1 := by
  induction n generalizing cmd argc s with
  | zero =>
    unfold parseargsLoop at h
    simp only [gettoken_peek] at h
    split at h
    · next hp =>
      simp only [Except.ok.injEq, Prod.mk.injEq] at h
      obtain ⟨rfl, rfl, rfl⟩ := h
      exact Args.stop hp
    · next hp =>
      split at h
      · next hr =>
        simp only [Except.ok.injEq, Prod.mk.injEq] at h
        obtain ⟨rfl, rfl, rfl⟩ := h
        exact Args.eol (by simpa using hp) hr
      · split at h
        · exact absurd h (by simp)
        · split at h
          · exact absurd h (by simp)
          · split at h
            · exact absurd h (by simp)
            · split at h
              · exact absurd h (by simp)
              · exact absurd h (by simp)
  | succ n ih =>
    unfold parseargsLoop at h
    simp only [gettoken_peek] at h
    split at h
    · next hp =>
      simp only [Except.ok.injEq, Prod.mk.injEq] at h
      obtain ⟨rfl, rfl, rfl⟩ := h
      exact Args.stop hp
    · next hp =>
      split at h
      · next hr =>
        simp only [Except.ok.injEq, Prod.mk.injEq] at h
        obtain ⟨rfl, rfl, rfl⟩ := h
        exact Args.eol (by simpa using hp) hr
      · split at h
        · exact absurd h (by simp)
        · next hr1 hr2 =>
          split at h
          · exact absurd h (by simp)
          · next c1 hst =>
            split at h
            · exact absurd h (by simp)
            · next hlt =>
              split at h
              · exact absurd h (by simp)
              · next c2 p2 hrd =>
                exact Args.word (by simpa using hp) (by simpa using hr2) hst (by omega)
                  (redirs_of_ok hrd) (ih _ _ _ h)

/-- Once the variable `cmd` points at a node that is not an `execcmd`, the loop can only leave
it at such a node. -/
theorem Args.args_not_exec {buf : List Char} {es : Nat} (hE : IsEnd buf es) {c : Cmd}
    {argc s : Nat} {c1 : Cmd} {argc1 s1 : Nat} (h : Args buf es c argc s c1 argc1 s1)
    (hs : s ≤ es) (he : c.isExec = false) : c1.isExec = false := by
  induction h with
  | stop _ => exact he
  | eol _ _ => exact he
  | @word c argc s c1 c2 s2 c3 argc3 s3 hp hr hst hlt hrd _ ih =>
    have hps : (gettoken buf es s).ps ≤ es := gettoken_ps_le hE hs
    have h1 : c1.isExec = false := by rw [storeArg_isExec hst]; exact he
    have h2 : c2.isExec = false := by
      by_contra hne
      have := (hrd.redirs_exec hE hps (by simpa using hne)).1
      rw [this, h1] at hne
      exact hne rfl
    have hs2 : s2 ≤ es := (hrd.redirs_seg hE (segClosed_true buf es) hps).2.1
    exact ih hs2 h2

theorem parseargsLoop_not_exec {buf : List Char} {es : Nat} (hE : IsEnd buf es) {n : Nat}
    {cmd : Cmd} {argc s : Nat}
    {c : Cmd} {argc1 s1 : Nat} (h : parseargsLoop buf es n cmd argc s = .ok (c, argc1, s1))
    (hs : s ≤ es) (he : cmd.isExec = false) : c.isExec = false :=
  (args_of_loop _ _ _ _ _ _ _ _ _ h).args_not_exec hE hs he

theorem words_of_loop {buf : List Char} {es : Nat} (hE : IsEnd buf es) (n : Nat)
    (R0 : List (Nat × Nat)) (s : Nat) (c : Cmd) (argc s1 : Nat)
    (h : parseargsLoop buf es n (execOf R0) R0.length s = .ok (c, argc, s1))
    (hs : s ≤ es) (h0 : R0.length < MAXARGS) (hc : c.isExec = true) :
    ∃ R, c = execOf (R0 ++ R) ∧ argc = (R0 ++ R).length ∧ (R0 ++ R).length < MAXARGS ∧
      Words buf es s R s1 := by
  induction n generalizing R0 s with
  | zero =>
    unfold parseargsLoop at h
    simp only [gettoken_peek] at h
    split at h
    · next hp =>
      simp only [Except.ok.injEq, Prod.mk.injEq] at h
      obtain ⟨rfl, rfl, rfl⟩ := h
      exact ⟨[], by simp, by simp, by simpa using h0, Words.stop hp⟩
    · next hp =>
      split at h
      · next hr =>
        simp only [Except.ok.injEq, Prod.mk.injEq] at h
        obtain ⟨rfl, rfl, rfl⟩ := h
        exact ⟨[], by simp, by simp, by simpa using h0, Words.eol (by simpa using hp) hr⟩
      · split at h
        · exact absurd h (by simp)
        · rw [storeArg_execOf _ _ _ h0] at h
          simp only at h
          split at h
          · exact absurd h (by simp)
          · split at h
            · exact absurd h (by simp)
            · exact absurd h (by simp)
  | succ n ih =>
    unfold parseargsLoop at h
    simp only [gettoken_peek] at h
    split at h
    · next hp =>
      simp only [Except.ok.injEq, Prod.mk.injEq] at h
      obtain ⟨rfl, rfl, rfl⟩ := h
      exact ⟨[], by simp, by simp, by simpa using h0, Words.stop hp⟩
    · next hp =>
      split at h
      · next hr =>
        simp only [Except.ok.injEq, Prod.mk.injEq] at h
        obtain ⟨rfl, rfl, rfl⟩ := h
        exact ⟨[], by simp, by simp, by simpa using h0, Words.eol (by simpa using hp) hr⟩
      · split at h
        · exact absurd h (by simp)
        · next hr1 hr2 =>
          rw [storeArg_execOf _ _ _ h0] at h
          simp only at h
          split at h
          · exact absurd h (by simp)
          · next hlt =>
            split at h
            · exact absurd h (by simp)
            · next c2 p2 hrd =>
              have hps : (gettoken buf es s).ps ≤ es := gettoken_ps_le hE hs
              have hR := redirs_of_ok hrd
              by_cases he2 : c2.isExec = true
              · obtain ⟨rfl, hq, rfl⟩ := hR.redirs_exec hE hps he2
                have hlen : (R0 ++ [((gettoken buf es s).q, (gettoken buf es s).eq)]).length
                    = R0.length + 1 := by simp
                rw [← hlen] at h
                have hlt2 : (R0 ++ [((gettoken buf es s).q, (gettoken buf es s).eq)]).length
                    < MAXARGS := by rw [hlen]; omega
                obtain ⟨R, h1, h2, h3, h4⟩ := ih _ _ h (skipws_le buf hps) hlt2
                refine ⟨((gettoken buf es s).q, (gettoken buf es s).eq) :: R, ?_, ?_, ?_, ?_⟩
                · simpa using h1
                · simpa using h2
                · simpa using h3
                · exact Words.word (by simpa using hp) (by simpa using hr2) hq
                    (Words.of_skipws h4)
              · exfalso
                have hs2 : p2 ≤ es :=
                  (hR.redirs_seg hE (segClosed_true buf es) hps).2.1
                have := parseargsLoop_not_exec hE h hs2 (by simpa using he2)
                rw [hc] at this
                exact Bool.noConfusion this

/-- A plain command that parses to an `execcmd` is a run of words with no redirection among
them, all stored in the one `execcmd`, and fewer than `MAXARGS` of them. -/
theorem parseplain_ok {buf : List Char} {es : Nat} (hE : IsEnd buf es) {s : Nat} {c : Cmd}
    {s1 : Nat} (h : parseplain buf es s = .ok (c, s1)) (hs : s ≤ es) (hc : c.isExec = true) :
    ∃ R, c = execOf R ∧ R.length < MAXARGS ∧ (peek buf es s ['<', '>']).1 = false ∧
      Words buf es s R s1 := by
  simp only [parseplain] at h
  split at h
  · exact absurd h (by simp)
  · next c0 p0 h0 =>
    split at h
    · exact absurd h (by simp)
    · next c1 argc p1 h1 =>
      split at h
      · exact absurd h (by simp)
      · next c2 h2 =>
        simp only [Except.ok.injEq, Prod.mk.injEq] at h
        obtain ⟨rfl, rfl⟩ := h
        have he1 : c1.isExec = true := by rw [← storeArg_isExec h2]; exact hc
        have hp0 : p0 ≤ es := ((redirs_of_ok h0).redirs_seg hE (segClosed_true buf es) hs).2.1
        have he0 : c0.isExec = true := by
          by_contra hne
          have := parseargsLoop_not_exec hE h1 hp0 (by simpa using hne)
          rw [he1] at this
          exact Bool.noConfusion this
        obtain ⟨rfl, hq, rfl⟩ := (redirs_of_ok h0).redirs_exec hE hs he0
        rw [execcmd_eq] at h1
        have hm : ([] : List (Nat × Nat)).length < MAXARGS := by decide
        obtain ⟨R, rfl, rfl, h5, h6⟩ := words_of_loop hE _ [] _ _ _ _ h1 (skipws_le buf hs) hm he1
        simp only [List.nil_append] at h2 h5 ⊢
        rw [storeArg_execOf_none _ h5] at h2
        simp only [Except.ok.injEq] at h2
        exact ⟨R, h2.symm, h5, hq, Words.of_skipws h6⟩

theorem Words.words_seg {buf : List Char} {es : Nat} (hE : IsEnd buf es) {Q : Nat → Nat → Prop}
    (hQ : SegClosed buf es Q) {s : Nat} {R : List (Nat × Nat)} {s1 : Nat}
    (h : Words buf es s R s1) (hs : s ≤ es) : s ≤ s1 ∧ s1 ≤ es ∧ Q s s1 := by
  induction h with
  | @stop s hp => exact ⟨le_skipws buf es s, skipws_le buf hs, hQ.skip s hs⟩
  | @eol s hp hr =>
    have h1 := (gettoken_ret_nul_iff hE hs).1 hr
    have h2 : (gettoken buf es s).ps = skipws buf es s := by
      have hb := gettoken_bounds hE hs
      rw [gettoken_q] at hb
      omega
    rw [h2]
    exact ⟨le_skipws buf es s, skipws_le buf hs, hQ.skip s hs⟩
  | @word s R s1 hp hr hq hw ih =>
    have h1 := le_gettoken_ps hE hs
    have h2 := gettoken_ps_le hE hs
    obtain ⟨h3, h4, h5⟩ := ih h2
    exact ⟨by omega, h4,
      hQ.trans _ _ _ h1 h3 h4 (hQ.tok s hs (by rw [hr]; simp)) h5⟩

theorem Args.args_seg {buf : List Char} {es : Nat} (hE : IsEnd buf es) {Q : Nat → Nat → Prop}
    (hQ : SegClosed buf es Q) {c : Cmd} {argc s : Nat} {c1 : Cmd} {argc1 s1 : Nat}
    (h : Args buf es c argc s c1 argc1 s1) (hs : s ≤ es) : s ≤ s1 ∧ s1 ≤ es ∧ Q s s1 := by
  induction h with
  | @stop c argc s hp => exact ⟨le_skipws buf es s, skipws_le buf hs, hQ.skip s hs⟩
  | @eol c argc s hp hr =>
    have h1 := (gettoken_ret_nul_iff hE hs).1 hr
    have h2 : (gettoken buf es s).ps = skipws buf es s := by
      have hb := gettoken_bounds hE hs
      rw [gettoken_q] at hb
      omega
    rw [h2]
    exact ⟨le_skipws buf es s, skipws_le buf hs, hQ.skip s hs⟩
  | @word c argc s c1 c2 s2 c3 argc3 s3 hp hr hst hlt hrd _ ih =>
    have h1 := le_gettoken_ps hE hs
    have h2 := gettoken_ps_le hE hs
    obtain ⟨h3, h4, h5⟩ := hrd.redirs_seg hE hQ h2
    obtain ⟨h6, h7, h8⟩ := ih h4
    exact ⟨by omega, h7, hQ.trans _ _ _ h1 (by omega) h7 (hQ.tok s hs (by rw [hr]; simp))
      (hQ.trans _ _ _ h3 h6 h7 h5 h8)⟩

/-- The parts of a successful `parseplain`: the directives before the first word, the run of the
loop, and the store of the null sentinel. -/
theorem parseplain_parts {buf : List Char} {es : Nat} {s : Nat} {c : Cmd} {s1 : Nat}
    (h : parseplain buf es s = .ok (c, s1)) :
    ∃ c0 p0 c1 argc, Redirs buf es execcmd s c0 p0 ∧ Args buf es c0 0 p0 c1 argc s1 ∧
      storeArg c1 argc none none = .ok c := by
  simp only [parseplain] at h
  split at h
  · exact absurd h (by simp)
  · next c0 p0 h0 =>
    split at h
    · exact absurd h (by simp)
    · next c1 argc p1 h1 =>
      split at h
      · exact absurd h (by simp)
      · next c2 h2 =>
        simp only [Except.ok.injEq, Prod.mk.injEq] at h
        obtain ⟨rfl, rfl⟩ := h
        exact ⟨c0, p0, c1, argc, redirs_of_ok h0, args_of_loop _ _ _ _ _ _ _ _ _ h1, h2⟩

theorem parseplain_seg {buf : List Char} {es : Nat} (hE : IsEnd buf es) {Q : Nat → Nat → Prop}
    (hQ : SegClosed buf es Q) {s : Nat} {c : Cmd} {s1 : Nat}
    (h : parseplain buf es s = .ok (c, s1)) (hs : s ≤ es) : s ≤ s1 ∧ s1 ≤ es ∧ Q s s1 := by
  obtain ⟨c0, p0, c1, argc, h0, h1, _⟩ := parseplain_parts h
  obtain ⟨h3, h4, h5⟩ := h0.redirs_seg hE hQ hs
  obtain ⟨h6, h7, h8⟩ := h1.args_seg hE hQ h4
  exact ⟨by omega, h7, hQ.trans _ _ _ h3 h6 h7 h5 h8⟩

/-- A relation kept by the moves of the parser holds of every successful parse, which also
stays inside the line. -/
theorem Parsed.parsed_seg {buf : List Char} {es : Nat} (hE : IsEnd buf es) {Q : Nat → Nat → Prop}
    (hQ : SegClosed buf es Q) {s : Nat} {c : Cmd} {s1 : Nat}
    (h : Parsed buf es s c s1) (hs : s ≤ es) : s ≤ s1 ∧ s1 ≤ es ∧ Q s s1 := by
  induction h with
  | @plain s c s1 hp hpl =>
    have h1 := le_skipws buf es s
    have h2 := skipws_le buf hs
    rw [peek_snd] at hpl
    obtain ⟨h3, h4, h5⟩ := parseplain_seg hE hQ hpl h2
    exact ⟨by omega, h4, hQ.trans _ _ _ h1 h3 h4 (hQ.skip s hs) h5⟩
  | @block s c s1 c1 s2 hp hin hp2 hrd ih =>
    rw [gettoken_peek] at hin hrd ih
    have h1 := le_gettoken_ps hE hs
    have h2 := gettoken_ps_le hE hs
    obtain ⟨h3, h4, h5⟩ := ih h2
    have h6 := le_gettoken_ps hE h4
    have h7 := gettoken_ps_le hE h4
    obtain ⟨h8, h9, h10⟩ := (redirs_of_ok hrd).redirs_seg hE hQ h7
    have hpar := hQ.paren s s1 hs (gettoken_of_peek hE hs (by simp) hp).1 h3 h4 h5
      (gettoken_of_peek hE h4 (by simp) hp2).1
    exact ⟨by omega, h9, hQ.trans _ _ _ (by omega) h8 h9 hpar h10⟩
  | @single s c s1 hin hp ih =>
    obtain ⟨h3, h4, h5⟩ := ih hs
    have h1 := le_skipws buf es s1
    have h2 := skipws_le buf h4
    rw [peek_snd]
    exact ⟨by omega, h2, hQ.trans _ _ _ h3 h1 h2 h5 (hQ.skip s1 h4)⟩
  | @pipe s c s1 r s2 hin hp hin2 ih ih2 =>
    rw [gettoken_peek] at hin2 ih2
    obtain ⟨h3, h4, h5⟩ := ih hs
    have h1 := le_gettoken_ps hE h4
    have h2 := gettoken_ps_le hE h4
    obtain ⟨h6, h7, h8⟩ := ih2 h2
    have hop : (gettoken buf es s1).ret ∈ ['a', '&', ';', '|'] := by
      rw [(gettoken_of_peek hE h4 (by simp) hp).1]; simp
    exact ⟨by omega, h7, hQ.trans _ _ _ h3 (by omega) h7 h5
      (hQ.trans _ _ _ h1 h6 h7 (hQ.tok s1 h4 hop) h8)⟩
  | @last s c s1 c1 s2 hin hb hp ih =>
    obtain ⟨h3, h4, h5⟩ := ih hs
    obtain ⟨h6, h7, h8⟩ := (backs_of_loop _ _ _ _ _ _ _ hb).backs_seg hE hQ h4
    have h1 := le_skipws buf es s2
    have h2 := skipws_le buf h7
    rw [peek_snd]
    exact ⟨by omega, h2, hQ.trans _ _ _ h3 (by omega) h2 h5
      (hQ.trans _ _ _ h6 h1 h2 h8 (hQ.skip s2 h7))⟩
  | @list s c s1 c1 s2 r s3 hin hb hp hin2 ih ih2 =>
    rw [gettoken_peek] at hin2 ih2
    obtain ⟨h3, h4, h5⟩ := ih hs
    obtain ⟨h6, h7, h8⟩ := (backs_of_loop _ _ _ _ _ _ _ hb).backs_seg hE hQ h4
    have h1 := le_gettoken_ps hE h7
    have h2 := gettoken_ps_le hE h7
    obtain ⟨h9, h10, h11⟩ := ih2 h2
    have hop : (gettoken buf es s2).ret ∈ ['a', '&', ';', '|'] := by
      rw [(gettoken_of_peek hE h7 (by simp) hp).1]; simp
    exact ⟨by omega, h10, hQ.trans _ _ _ h3 (by omega) h10 h5
      (hQ.trans _ _ _ h6 (by omega) h10 h8
        (hQ.trans _ _ _ h1 h9 h10 (hQ.tok s2 h7 hop) h11))⟩

theorem Parsed.bounds {buf : List Char} {es : Nat} (hE : IsEnd buf es) {s : Nat} {c : Cmd}
    {s1 : Nat} (h : Parsed buf es s c s1) (hs : s ≤ es) : s ≤ s1 ∧ s1 ≤ es :=
  ⟨(h.parsed_seg hE (segClosed_true buf es) hs).1, (h.parsed_seg hE (segClosed_true buf es) hs).2.1⟩

/-! ## The outcome of `parsecmd` -/

/-- A tree returned by `parsecmd` comes from a parse of the whole line, and the buffer returned
with it from `nulterminate`. -/
theorem parsecmd_ok {buf : List Char} {c : Cmd} {buf1 : List Char}
    (h : parsecmd buf = .ok (c, buf1)) :
    ∃ s1, Parsed buf (strlen buf) 0 c s1 ∧ skipws buf (strlen buf) s1 = strlen buf ∧
      nulterminate c buf = .ok buf1 := by
  simp only [parsecmd] at h
  split at h
  · exact absurd h (by simp)
  · next c0 s0 h0 =>
    split at h
    · exact absurd h (by simp)
    · next hp =>
      split at h
      · exact absurd h (by simp)
      · next b1 hn =>
        simp only [Except.ok.injEq, Prod.mk.injEq] at h
        obtain ⟨rfl, rfl⟩ := h
        refine ⟨s0, (parsed_of_ok buf _ _).1 _ _ _ h0, ?_, hn⟩
        rw [peek_snd] at hp
        exact Classical.not_not.1 hp

/-! ## Ranges of the buffer -/

theorem slice_append (buf : List Char) {a b c : Nat} (h1 : a ≤ b) (h2 : b ≤ c) :
    slice buf a b ++ slice buf b c = slice buf a c := by
  unfold slice
  have h3 : c - a = (b - a) + (c - b) := by omega
  rw [h3, List.take_add, List.drop_drop]
  have h4 : a + (b - a) = b := by omega
  rw [h4]

theorem slice_self (buf : List Char) (a : Nat) : slice buf a a = [] := by
  simp [slice]

theorem mem_slice {buf : List Char} {a b : Nat} {c : Char} (h : c ∈ slice buf a b) :
    ∃ i, a ≤ i ∧ i < b ∧ i < buf.length ∧ charAt buf i = c := by
  unfold slice at h
  obtain ⟨i, hi, hc⟩ := List.mem_iff_getElem.1 h
  simp only [List.length_take, List.length_drop] at hi
  refine ⟨a + i, by omega, by omega, by omega, ?_⟩
  simp only [List.getElem_take, List.getElem_drop] at hc
  rw [← hc]
  simp [charAt, List.getD, List.getElem?_eq_getElem (show a + i < buf.length by omega)]

theorem slice_one {buf : List Char} {a : Nat} (h : a < buf.length) :
    slice buf a (a + 1) = [charAt buf a] := by
  unfold slice
  have h1 : a + 1 - a = 1 := by omega
  rw [h1, List.drop_eq_getElem_cons h, List.take_succ_cons, List.take_zero]
  simp [charAt, List.getD, List.getElem?_eq_getElem h]

theorem slice_zero_lineOf (buf : List Char) : slice buf 0 (strlen buf) = lineOf buf := by
  simp [slice, lineOf]

/-! ## Balanced parentheses -/

theorem balanced_nil : Balanced [] := by
  constructor
  · intro k; simp
  · rfl

theorem balanced_append {l1 l2 : List Char} (h1 : Balanced l1) (h2 : Balanced l2) :
    Balanced (l1 ++ l2) := by
  constructor
  · intro k
    rw [List.take_append_eq_append_take, List.count_append, List.count_append]
    have a1 := h1.1 k
    have a2 := h2.1 (k - l1.length)
    by_cases hk : k ≤ l1.length
    · have : k - l1.length = 0 := by omega
      simp only [this, List.take_zero, List.count_nil, Nat.add_zero]
      exact a1
    · have : l1.take k = l1 := List.take_of_length_le (by omega)
      rw [this, h1.2]
      omega
  · rw [List.count_append, List.count_append, h1.2, h2.2]

theorem balanced_of_no_paren {l : List Char} (h1 : '(' ∉ l) (h2 : ')' ∉ l) : Balanced l := by
  constructor
  · intro k
    have : (l.take k).count ')' = 0 :=
      List.count_eq_zero.2 (fun h => h2 (List.mem_of_mem_take h))
    omega
  · rw [List.count_eq_zero.2 h1, List.count_eq_zero.2 h2]

theorem balanced_wrap {l : List Char} (h : Balanced l) : Balanced ('(' :: (l ++ [')'])) := by
  constructor
  · intro k
    cases k with
    | zero => simp
    | succ k =>
      rw [List.take_succ_cons, List.take_append_eq_append_take]
      have a1 := h.1 k
      have hc : (l.take k ++ [')'].take (k - l.length)).count ')' ≤
          (l.take k).count ')' + 1 := by
        rw [List.count_append]
        have : ([')'].take (k - l.length)).count ')' ≤ 1 := by
          cases (k - l.length) <;> simp
        omega
      by_cases hk : k ≤ l.length
      · have : k - l.length = 0 := by omega
        simp only [this, List.take_zero, List.append_nil]
        rw [List.count_cons, List.count_cons]
        simp
        omega
      · rw [List.count_cons, List.count_cons, List.count_append, List.count_append]
        have : l.take k = l := List.take_of_length_le (by omega)
        rw [this, h.2]
        have : ([')'].take (k - l.length)).count ')' ≤ 1 := by
          cases (k - l.length) <;> simp
        have : ([')'].take (k - l.length)).count '(' = 0 := by
          cases (k - l.length) <;> simp
        simp
        omega
  · rw [List.count_cons, List.count_cons, List.count_append, List.count_append, h.2]
    simp

theorem NoParen.balanced {buf : List Char} {s s1 : Nat} (h : NoParen buf s s1) :
    Balanced (slice buf s s1) := by
  apply balanced_of_no_paren
  · intro hm
    obtain ⟨i, h1, h2, _, h3⟩ := mem_slice hm
    exact (h i h1 h2).1 h3
  · intro hm
    obtain ⟨i, h1, h2, _, h3⟩ := mem_slice hm
    exact (h i h1 h2).2 h3

theorem ws_not_paren {c : Char} (h : strchr whitespace c = true) : c ≠ '(' ∧ c ≠ ')' := by
  constructor <;> rintro rfl <;> exact absurd h (by decide)

theorem wordChar_not_paren {c : Char} (h : wordChar c = true) : c ≠ '(' ∧ c ≠ ')' := by
  constructor <;> rintro rfl <;> exact absurd h (by decide)

theorem noParen_skipws (buf : List Char) (es s : Nat) : NoParen buf s (skipws buf es s) :=
  fun _ h1 h2 => ws_not_paren (skipws_between buf h1 h2).2

theorem NoParen.append {buf : List Char} {a b c : Nat} (h1 : NoParen buf a b)
    (h2 : NoParen buf b c) : NoParen buf a c := by
  intro i h3 h4
  by_cases h : i < b
  · exact h1 i h3 h
  · exact h2 i (by omega) h4

theorem noParen_one {buf : List Char} {a : Nat} (h : charAt buf a ≠ '(' ∧ charAt buf a ≠ ')') :
    NoParen buf a (a + 1) := by
  intro i h1 h2
  have : i = a := by omega
  subst this
  exact h

/-- A token other than a parenthesis has no parenthesis among its bytes, nor in the whitespace
around it. -/
theorem gettoken_noParen {buf : List Char} {es : Nat} (hE : IsEnd buf es) {s : Nat} (hs : s ≤ es)
    (h1 : (gettoken buf es s).ret ≠ '(') (h2 : (gettoken buf es s).ret ≠ ')') :
    NoParen buf s (gettoken buf es s).ps := by
  have hw := noParen_skipws buf es s
  rcases gettoken_cases hE hs with ⟨h3, h4⟩ | ⟨h3, hm, h4⟩ | ⟨h3, h5, h6, h4⟩ | ⟨h3, h5, _, h4⟩ |
    ⟨h3, hw2, h4⟩
  · rw [h4]; simp only
    rw [h3] at hw; exact hw
  · rw [h4] at h1 h2 ⊢; simp only at h1 h2 ⊢
    exact (hw.append (noParen_one ⟨h1, h2⟩)).append (noParen_skipws buf es _)
  · rw [h4]; simp only
    have a1 : NoParen buf (skipws buf es s) (skipws buf es s + 1) :=
      noParen_one (by rw [h5]; decide)
    have a2 : NoParen buf (skipws buf es s + 1) (skipws buf es s + 1 + 1) :=
      noParen_one (by rw [h6]; decide)
    exact ((hw.append a1).append a2).append (noParen_skipws buf es _)
  · rw [h4]; simp only
    have a1 : NoParen buf (skipws buf es s) (skipws buf es s + 1) :=
      noParen_one (by rw [h5]; decide)
    exact (hw.append a1).append (noParen_skipws buf es _)
  · rw [h4]; simp only
    have a1 : NoParen buf (skipws buf es s) (scanword buf es (skipws buf es s)) :=
      fun i h6 h7 => wordChar_not_paren (scanword_between buf h6 h7).2
    exact (hw.append a1).append (noParen_skipws buf es _)

/-- The bytes a parenthesis token takes: whitespace, the parenthesis, whitespace. -/
theorem gettoken_paren_slice {buf : List Char} {es : Nat} (hE : IsEnd buf es) {s : Nat}
    (hs : s ≤ es) {c : Char} (hc : c = '(' ∨ c = ')') (h1 : (gettoken buf es s).ret = c) :
    ∃ l1 l2, Balanced l1 ∧ Balanced l2 ∧
      slice buf s (gettoken buf es s).ps = l1 ++ c :: l2 := by
  have hw := noParen_skipws buf es s
  have hle := le_skipws buf es s
  rcases gettoken_cases hE hs with ⟨h3, h4⟩ | ⟨h3, hm, h4⟩ | ⟨h3, h5, h6, h4⟩ | ⟨h3, h5, _, h4⟩ |
    ⟨h3, hw2, h4⟩
  · rw [h4] at h1; simp only at h1
    rcases hc with rfl | rfl <;> exact absurd h1 (by decide)
  · rw [h4] at h1 ⊢; simp only at h1 ⊢
    refine ⟨slice buf s (skipws buf es s),
      slice buf (skipws buf es s + 1) (skipws buf es (skipws buf es s + 1)),
      hw.balanced, (noParen_skipws buf es _).balanced, ?_⟩
    have hlen : skipws buf es s < buf.length := Nat.lt_of_lt_of_le h3 hE.le_length
    rw [← slice_append buf hle (Nat.le_trans (Nat.le_succ _) (le_skipws buf es _)),
      ← slice_append buf (Nat.le_succ (skipws buf es s)) (le_skipws buf es _),
      slice_one hlen, h1]
    rfl
  · rw [h4] at h1; simp only at h1
    rcases hc with rfl | rfl <;> exact absurd h1 (by decide)
  · rw [h4] at h1; simp only at h1
    rcases hc with rfl | rfl <;> exact absurd h1 (by decide)
  · rw [h4] at h1; simp only at h1
    rcases hc with rfl | rfl <;> exact absurd h1 (by decide)

/-- The parser keeps the parentheses of what it reads balanced. -/
theorem segClosed_balanced {buf : List Char} {es : Nat} (hE : IsEnd buf es) :
    SegClosed buf es (fun s s1 => Balanced (slice buf s s1)) where
  trans := fun s s1 s2 h1 h2 _ a1 a2 => by
    rw [← slice_append buf h1 h2]
    exact balanced_append a1 a2
  skip := fun s _ => (noParen_skipws buf es s).balanced
  tok := fun s hs hr => by
    apply NoParen.balanced
    apply gettoken_noParen hE hs
    · intro h; rw [h] at hr; exact absurd hr (by decide)
    · intro h; rw [h] at hr; exact absurd hr (by decide)
  redir := fun s hs hr hf => by
    have h1 := le_gettoken_ps hE hs
    have h2 := gettoken_ps_le hE hs
    have h3 := le_gettoken_ps hE h2
    rw [← slice_append buf h1 h3]
    apply balanced_append
    · apply NoParen.balanced
      apply gettoken_noParen hE hs
      · intro h; rw [h] at hr; exact absurd hr (by decide)
      · intro h; rw [h] at hr; exact absurd hr (by decide)
    · apply NoParen.balanced
      apply gettoken_noParen hE h2
      · rw [hf]; decide
      · rw [hf]; decide
  paren := fun s s1 hs hr h1 h2 hq hr2 => by
    have a1 := le_gettoken_ps hE hs
    have a3 := le_gettoken_ps hE h2
    obtain ⟨l1, l2, b1, b2, e1⟩ := gettoken_paren_slice hE hs (Or.inl rfl) hr
    obtain ⟨l3, l4, b3, b4, e2⟩ := gettoken_paren_slice hE h2 (Or.inr rfl) hr2
    rw [← slice_append buf (Nat.le_trans a1 h1) a3, ← slice_append buf a1 h1, e1, e2]
    have key : (l1 ++ '(' :: l2) ++ slice buf (gettoken buf es s).ps s1 ++ (l3 ++ ')' :: l4) =
        l1 ++ ('(' :: ((l2 ++ slice buf (gettoken buf es s).ps s1 ++ l3) ++ [')']) ++ l4) := by
      simp
    rw [key]
    exact balanced_append b1 (balanced_append
      (balanced_wrap (balanced_append (balanced_append b2 hq) b3)) b4)

/-- A parse that reads the whole line reads balanced parentheses. -/
theorem parsed_balanced {buf : List Char} {c : Cmd} {s1 : Nat}
    (hp : Parsed buf (strlen buf) 0 c s1) (hs : skipws buf (strlen buf) s1 = strlen buf) :
    Balanced (lineOf buf) := by
  have hE := isEnd_strlen buf
  obtain ⟨h1, h2, h3⟩ := hp.parsed_seg hE (segClosed_balanced hE) (Nat.zero_le _)
  have h4 := (noParen_skipws buf (strlen buf) s1).balanced
  rw [hs] at h4
  rw [← slice_zero_lineOf, ← slice_append buf h1 h2]
  exact balanced_append h3 h4

/-- The line of a tree that `parsecmd` returns has balanced parentheses. -/
theorem parsecmd_balanced {buf : List Char} {c : Cmd} {buf1 : List Char}
    (h : parsecmd buf = .ok (c, buf1)) : Balanced (lineOf buf) := by
  obtain ⟨s1, hp, hs, _⟩ := parsecmd_ok h
  exact parsed_balanced hp hs

/-! ## The parser always comes to an end

With the budget `parsecmd` hands out, no call runs out of it. -/

theorem not_peek_end {buf : List Char} {es : Nat} (hE : IsEnd buf es) (toks : List Char) :
    (peek buf es es toks).1 = false := by
  simp [peek, skipws_end, hE.nul]

theorem lt_of_peek {buf : List Char} {es : Nat} (hE : IsEnd buf es) {s : Nat} (hs : s ≤ es)
    {toks : List Char} (hp : (peek buf es s toks).1 = true) : skipws buf es s < es :=
  (hE.charAt_ne_iff (skipws_le buf hs)).1 ((peek_true_iff buf es s toks).1 hp).1

/-- After `peek` found a byte, `gettoken` takes at least that byte. -/
theorem gettoken_progress_of_peek {buf : List Char} {es : Nat} (hE : IsEnd buf es) {s : Nat}
    (hs : s ≤ es) {toks : List Char} (hp : (peek buf es s toks).1 = true) :
    s < (gettoken buf es s).ps := by
  apply gettoken_progress hE hs
  intro h
  have := (gettoken_ret_nul_iff hE hs).1 h
  have := lt_of_peek hE hs hp
  omega

theorem parseredirsLoop_ne_fuel {buf : List Char} {es : Nat} (hE : IsEnd buf es) (n : Nat)
    (c : Cmd) (s : Nat) (hs : s ≤ es) (hn : es - s ≤ n) :
    parseredirsLoop buf es n c s ≠ .error .fuel := by
  induction n generalizing c s with
  | zero =>
    have : es = s := by omega
    subst this
    simp [parseredirsLoop, not_peek_end hE]
  | succ n ih =>
    simp only [parseredirsLoop, gettoken_peek]
    by_cases hp : (peek buf es s ['<', '>']).1 = true
    · rw [if_pos hp]
      by_cases hf : (gettoken buf es (gettoken buf es s).ps).ret ≠ 'a'
      · rw [if_pos hf]; simp
      · rw [if_neg hf]
        have h1 := gettoken_progress_of_peek hE hs hp
        have h2 := gettoken_ps_le hE hs
        have h3 := le_gettoken_ps hE h2
        have h4 := gettoken_ps_le hE h2
        exact ih _ _ h4 (by omega)
    · rw [if_neg hp]; simp

theorem parseredirs_ne_fuel {buf : List Char} {es : Nat} (hE : IsEnd buf es) (c : Cmd) {s : Nat}
    (hs : s ≤ es) : parseredirs buf es c s ≠ .error .fuel :=
  parseredirsLoop_ne_fuel hE _ c s hs (Nat.le_refl _)

theorem parsebackLoop_ne_fuel {buf : List Char} {es : Nat} (hE : IsEnd buf es) (n : Nat)
    (c : Cmd) (s : Nat) (hs : s ≤ es) (hn : es - s ≤ n) :
    parsebackLoop buf es n c s ≠ .error .fuel := by
  induction n generalizing c s with
  | zero =>
    have : es = s := by omega
    subst this
    simp [parsebackLoop, not_peek_end hE]
  | succ n ih =>
    simp only [parsebackLoop, gettoken_peek]
    by_cases hp : (peek buf es s ['&']).1 = true
    · rw [if_pos hp]
      have h1 := gettoken_progress_of_peek hE hs hp
      have h2 := gettoken_ps_le hE hs
      exact ih _ _ h2 (by omega)
    · rw [if_neg hp]; simp

theorem storeArg_ne_fuel (c : Cmd) (i : Nat) (q e : Option Nat) :
    storeArg c i q e ≠ .error .fuel := by
  cases c <;> simp only [storeArg] <;> first | (split <;> simp) | simp

theorem parseargsLoop_ne_fuel {buf : List Char} {es : Nat} (hE : IsEnd buf es) (n : Nat)
    (c : Cmd) (argc s : Nat) (hs : s ≤ es) (hn : es - s ≤ n) :
    parseargsLoop buf es n c argc s ≠ .error .fuel := by
  induction n generalizing c argc s with
  | zero =>
    have : es = s := by omega
    subst this
    unfold parseargsLoop
    rw [if_neg (by simp [not_peek_end hE])]
    dsimp only
    rw [gettoken_peek, if_pos ((gettoken_ret_nul_iff hE hs).2 (skipws_end buf es))]
    simp
  | succ n ih =>
    unfold parseargsLoop
    by_cases hp : (peek buf es s ['|', ')', '&', ';']).1 = true
    · rw [if_pos hp]; simp
    · rw [if_neg hp]
      dsimp only
      rw [gettoken_peek]
      by_cases hr : (gettoken buf es s).ret = NUL
      · rw [if_pos hr]; simp
      · rw [if_neg hr]
        by_cases ha : (gettoken buf es s).ret ≠ 'a'
        · rw [if_pos ha]; simp
        · rw [if_neg ha]
          cases hst : storeArg c argc (some (gettoken buf es s).q)
              (some (gettoken buf es s).eq) with
          | error e =>
            simp only [ne_eq, Except.error.injEq]
            rintro rfl
            exact storeArg_ne_fuel _ _ _ _ hst
          | ok c1 =>
            simp only
            by_cases hm : argc + 1 ≥ MAXARGS
            · rw [if_pos hm]; simp
            · rw [if_neg hm]
              have h1 := gettoken_progress hE hs hr
              have h2 := gettoken_ps_le hE hs
              cases hrd : parseredirs buf es c1 (gettoken buf es s).ps with
              | error e =>
                simp only [ne_eq, Except.error.injEq]
                rintro rfl
                exact parseredirs_ne_fuel hE _ h2 hrd
              | ok r =>
                obtain ⟨c2, p2⟩ := r
                simp only
                have hb := (redirs_of_ok hrd).redirs_seg hE (segClosed_true buf es) h2
                exact ih _ _ _ hb.2.1 (by omega)

theorem parseplain_ne_fuel {buf : List Char} {es : Nat} (hE : IsEnd buf es) {s : Nat}
    (hs : s ≤ es) : parseplain buf es s ≠ .error .fuel := by
  simp only [parseplain]
  cases hrd : parseredirs buf es execcmd s with
  | error e =>
    simp only [ne_eq, Except.error.injEq]
    rintro rfl
    exact parseredirs_ne_fuel hE _ hs hrd
  | ok r =>
    obtain ⟨c1, p1⟩ := r
    simp only
    have hb := (redirs_of_ok hrd).redirs_seg hE (segClosed_true buf es) hs
    cases hl : parseargsLoop buf es (es - p1) c1 0 p1 with
    | error e =>
      simp only [ne_eq, Except.error.injEq]
      rintro rfl
      exact parseargsLoop_ne_fuel hE _ _ _ _ hb.2.1 (Nat.le_refl _) hl
    | ok r2 =>
      obtain ⟨c2, argc, p2⟩ := r2
      simp only
      cases hst : storeArg c2 argc none none with
      | error e =>
        simp only [ne_eq, Except.error.injEq]
        rintro rfl
        exact storeArg_ne_fuel _ _ _ _ hst
      | ok c3 => simp

/-- The budget suffices: `4 * r + 4` nested calls for `parseline` with `r` bytes left, one less
for each of `parsepipe`, `parseexec` and `parseblock` below it. -/
theorem parse_ne_fuel {buf : List Char} {es : Nat} (hE : IsEnd buf es) (fuel : Nat) :
    (∀ s, s ≤ es → 4 * (es - s) + 4 ≤ fuel → parseline buf es fuel s ≠ .error .fuel) ∧
    (∀ s, s ≤ es → 4 * (es - s) + 3 ≤ fuel → parsepipe buf es fuel s ≠ .error .fuel) ∧
    (∀ s, s ≤ es → 4 * (es - s) + 2 ≤ fuel → parseexec buf es fuel s ≠ .error .fuel) ∧
    (∀ s, s ≤ es → 4 * (es - s) + 1 ≤ fuel →
      parseblock buf es fuel (peek buf es s ['(']).2 ≠ .error .fuel) := by
  induction fuel with
  | zero =>
    refine ⟨?_, ?_, ?_, ?_⟩ <;> intro s _ h <;> omega
  | succ n ih =>
    obtain ⟨ihl, ihp, ihe, ihb⟩ := ih
    refine ⟨?_, ?_, ?_, ?_⟩ <;> intro s hs hn
    · simp only [parseline]
      cases h0 : parsepipe buf es n s with
      | error e =>
        simp only [ne_eq, Except.error.injEq]
        rintro rfl
        exact ihp s hs (by omega) h0
      | ok r =>
        obtain ⟨c, s1⟩ := r
        simp only
        have hb := ((parsed_of_ok buf es n).2.1 _ _ _ h0).bounds hE hs
        cases h1 : parsebackLoop buf es (es - s1) c s1 with
        | error e =>
          simp only [ne_eq, Except.error.injEq]
          rintro rfl
          exact parsebackLoop_ne_fuel hE _ _ _ hb.2 (Nat.le_refl _) h1
        | ok r1 =>
          obtain ⟨c1, s2⟩ := r1
          simp only
          have hb2 := (backs_of_loop _ _ _ _ _ _ _ h1).backs_seg hE (segClosed_true buf es) hb.2
          by_cases hp : (peek buf es s2 [';']).1 = true
          · rw [if_pos hp, gettoken_peek]
            have h3 := gettoken_progress_of_peek hE hb2.2.1 hp
            have h4 := gettoken_ps_le hE hb2.2.1
            cases h2 : parseline buf es n (gettoken buf es s2).ps with
            | error e =>
              simp only [ne_eq, Except.error.injEq]
              rintro rfl
              exact ihl _ h4 (by omega) h2
            | ok r2 => simp
          · rw [if_neg hp]; simp
    · simp only [parsepipe]
      cases h0 : parseexec buf es n s with
      | error e =>
        simp only [ne_eq, Except.error.injEq]
        rintro rfl
        exact ihe s hs (by omega) h0
      | ok r =>
        obtain ⟨c, s1⟩ := r
        simp only
        have hb := ((parsed_of_ok buf es n).2.2.1 _ _ _ h0).bounds hE hs
        by_cases hp : (peek buf es s1 ['|']).1 = true
        · rw [if_pos hp, gettoken_peek]
          have h3 := gettoken_progress_of_peek hE hb.2 hp
          have h4 := gettoken_ps_le hE hb.2
          cases h2 : parsepipe buf es n (gettoken buf es s1).ps with
          | error e =>
            simp only [ne_eq, Except.error.injEq]
            rintro rfl
            exact ihp _ h4 (by omega) h2
          | ok r2 => simp
        · rw [if_neg hp]; simp
    · simp only [parseexec]
      by_cases hp : (peek buf es s ['(']).1 = true
      · rw [if_pos hp]
        exact ihb s hs (by omega)
      · rw [if_neg hp]
        exact parseplain_ne_fuel hE (skipws_le buf hs)
    · simp only [parseblock, peek_peek]
      by_cases hp : (peek buf es s ['(']).1 = true
      · rw [if_pos hp, gettoken_peek]
        have h3 := gettoken_progress_of_peek hE hs hp
        have h4 := gettoken_ps_le hE hs
        cases h0 : parseline buf es n (gettoken buf es s).ps with
        | error e =>
          simp only [ne_eq, Except.error.injEq]
          rintro rfl
          exact ihl _ h4 (by omega) h0
        | ok r =>
          obtain ⟨c, s1⟩ := r
          simp only
          have hb := ((parsed_of_ok buf es n).1 _ _ _ h0).bounds hE h4
          by_cases hp2 : (peek buf es s1 [')']).1 = true
          · rw [if_pos hp2, gettoken_peek]
            exact parseredirs_ne_fuel hE _ (gettoken_ps_le hE hb.2)
          · rw [if_neg hp2]; simp
      · rw [if_neg hp]; simp

theorem tokensLoop_fuel {buf : List Char} {es : Nat} (hE : IsEnd buf es) (n m s : Nat)
    (hs : s ≤ es) (hn : es - s ≤ n) (hm : es - s ≤ m) :
    tokensLoop buf es n s = tokensLoop buf es m s := by
  induction n generalizing m s with
  | zero =>
    have h1 : es = s := by omega
    subst h1
    cases m with
    | zero => rfl
    | succ m =>
      simp only [tokensLoop]
      rw [if_pos ((gettoken_ret_nul_iff hE hs).2 (skipws_end buf es))]
  | succ n ih =>
    cases m with
    | zero =>
      have h1 : es = s := by omega
      subst h1
      simp only [tokensLoop]
      rw [if_pos ((gettoken_ret_nul_iff hE hs).2 (skipws_end buf es))]
    | succ m =>
      simp only [tokensLoop]
      by_cases hr : (gettoken buf es s).ret = NUL
      · rw [if_pos hr, if_pos hr]
      · rw [if_neg hr, if_neg hr]
        have h1 := gettoken_progress hE hs hr
        have h2 := gettoken_ps_le hE hs
        rw [ih m _ h2 (by omega) (by omega)]

/-- The tokens from `s` on are the token at `s` and the tokens after it. -/
theorem tokens_eq {buf : List Char} {es : Nat} (hE : IsEnd buf es) {s : Nat} (hs : s ≤ es) :
    tokens buf es s =
      if (gettoken buf es s).ret = NUL then []
      else (gettoken buf es s).ret :: tokens buf es (gettoken buf es s).ps := by
  by_cases hr : (gettoken buf es s).ret = NUL
  · rw [if_pos hr]
    unfold tokens
    cases es - s with
    | zero => rfl
    | succ k => simp only [tokensLoop]; rw [if_pos hr]
  · rw [if_neg hr]
    have h1 := gettoken_progress hE hs hr
    have h2 := gettoken_ps_le hE hs
    unfold tokens
    obtain ⟨k, hk⟩ : ∃ k, es - s = k + 1 := ⟨es - s - 1, by omega⟩
    rw [hk]
    simp only [tokensLoop]
    rw [if_neg hr, tokensLoop_fuel hE k (es - (gettoken buf es s).ps) _ h2 (by omega)
      (Nat.le_refl _)]

theorem tokens_cons {buf : List Char} {es : Nat} (hE : IsEnd buf es) {s : Nat} (hs : s ≤ es)
    (hr : (gettoken buf es s).ret ≠ NUL) :
    tokens buf es s = (gettoken buf es s).ret :: tokens buf es (gettoken buf es s).ps := by
  rw [tokens_eq hE hs, if_neg hr]

theorem tokens_skipws {buf : List Char} {es : Nat} (hE : IsEnd buf es) {s : Nat} (hs : s ≤ es) :
    tokens buf es (skipws buf es s) = tokens buf es s := by
  rw [tokens_eq hE hs, tokens_eq hE (skipws_le buf hs), gettoken_skipws]

theorem redirOK_append {a b : List Char} (ha : redirOK a = true) (hb : redirOK b = true) :
    redirOK (a ++ b) = true := by
  induction a with
  | nil => simpa using hb
  | cons t rest ih =>
    simp only [redirOK, List.cons_append] at ha ⊢
    split at ha
    · next hop =>
      rw [if_pos hop]
      simp only [Bool.and_eq_true, beq_iff_eq] at ha ⊢
      refine ⟨?_, ih ha.2⟩
      cases rest with
      | nil => simp at ha
      | cons r rest => simpa using ha.1
    · next hop =>
      rw [if_neg hop]
      exact ih ha

/-- In a sequence that passes `redirOK`, a word follows every redirection operator. -/
theorem redirOK_spec {ts : List Char} (h : redirOK ts = true) (pre : List Char) (op : Char)
    (post : List Char) (hts : ts = pre ++ op :: post)
    (hop : op = '<' ∨ op = '>' ∨ op = '+') : post.head? = some 'a' := by
  subst hts
  induction pre with
  | nil =>
    simp only [List.nil_append, redirOK, if_pos hop, Bool.and_eq_true, beq_iff_eq] at h
    exact h.1
  | cons t rest ih =>
    simp only [redirOK, List.cons_append] at h
    split at h
    · simp only [Bool.and_eq_true] at h
      exact ih h.2
    · exact ih h

/-- The parser takes the tokens in order, and among those taken by a successful parse every
redirection operator has its word. -/
theorem segClosed_tokens {buf : List Char} {es : Nat} (hE : IsEnd buf es) :
    SegClosed buf es
      (fun s s1 => ∃ ts, tokens buf es s = ts ++ tokens buf es s1 ∧ redirOK ts = true) where
  trans := fun s s1 s2 _ _ _ a1 a2 => by
    obtain ⟨t1, e1, o1⟩ := a1
    obtain ⟨t2, e2, o2⟩ := a2
    exact ⟨t1 ++ t2, by rw [e1, e2, List.append_assoc], redirOK_append o1 o2⟩
  skip := fun s hs => ⟨[], by rw [tokens_skipws hE hs]; rfl, rfl⟩
  tok := fun s hs hr => by
    have hne : (gettoken buf es s).ret ≠ NUL := by
      intro h; rw [h] at hr; exact absurd hr (by decide)
    refine ⟨[(gettoken buf es s).ret], by rw [tokens_cons hE hs hne]; rfl, ?_⟩
    simp only [List.mem_cons, List.mem_singleton, List.not_mem_nil, or_false] at hr
    rcases hr with h | h | h | h <;> rw [h] <;> decide
  redir := fun s hs hr hf => by
    have hne : (gettoken buf es s).ret ≠ NUL := by
      intro h; rw [h] at hr; exact absurd hr (by decide)
    have h2 := gettoken_ps_le hE hs
    have hne2 : (gettoken buf es (gettoken buf es s).ps).ret ≠ NUL := by
      rw [hf]; decide
    refine ⟨[(gettoken buf es s).ret, 'a'], ?_, ?_⟩
    · rw [tokens_cons hE hs hne, tokens_cons hE h2 hne2, hf]; rfl
    · simp only [List.mem_cons, List.mem_singleton, List.not_mem_nil, or_false] at hr
      rcases hr with h | h | h <;> rw [h] <;> decide
  paren := fun s s1 hs hr _ h2 hq hr2 => by
    obtain ⟨ts, e1, o1⟩ := hq
    have hne : (gettoken buf es s).ret ≠ NUL := by rw [hr]; decide
    have hne2 : (gettoken buf es s1).ret ≠ NUL := by rw [hr2]; decide
    refine ⟨'(' :: (ts ++ [')']), ?_, ?_⟩
    · rw [tokens_cons hE hs hne, hr, e1, tokens_cons hE h2 hne2, hr2]
      simp
    · have : redirOK (['('] ++ (ts ++ [')'])) = true :=
        redirOK_append (by decide) (redirOK_append o1 (by decide))
      simpa using this

theorem tokens_of_skipws_end {buf : List Char} {es : Nat} (hE : IsEnd buf es) {s : Nat}
    (hs : s ≤ es) (h : skipws buf es s = es) : tokens buf es s = [] := by
  rw [tokens_eq hE hs, if_pos ((gettoken_ret_nul_iff hE hs).2 h)]

/-- A parse that reads the whole line finds a word after every redirection operator. -/
theorem parsed_redirOK {buf : List Char} {c : Cmd} {s1 : Nat}
    (hp : Parsed buf (strlen buf) 0 c s1) (hs : skipws buf (strlen buf) s1 = strlen buf) :
    redirOK (tokenSeq buf) = true := by
  have hE := isEnd_strlen buf
  obtain ⟨_, h2, ts, h3, h4⟩ := hp.parsed_seg hE (segClosed_tokens hE) (Nat.zero_le _)
  rw [tokens_of_skipws_end hE h2 hs, List.append_nil] at h3
  unfold tokenSeq
  rw [h3]
  exact h4

/-- In the token sequence of a line that `parsecmd` turns into a tree, a word follows every
redirection operator. -/
theorem parsecmd_redirOK {buf : List Char} {c : Cmd} {buf1 : List Char}
    (h : parsecmd buf = .ok (c, buf1)) : redirOK (tokenSeq buf) = true := by
  obtain ⟨s1, hp, hs, _⟩ := parsecmd_ok h
  exact parsed_redirOK hp hs

/-! ## The shape of the trees -/

/-- A word token is a word of the line. -/
theorem gettoken_wordRange {buf : List Char} {es : Nat} (hE : IsEnd buf es) {s : Nat}
    (hs : s ≤ es) (hr : (gettoken buf es s).ret = 'a') :
    WordRange buf es (gettoken buf es s).q (gettoken buf es s).eq := by
  have h2 := skipws_le buf hs
  rcases gettoken_cases hE hs with ⟨h3, h4⟩ | ⟨h3, hm, h4⟩ | ⟨h3, h5, h6, h4⟩ | ⟨h3, h5, _, h4⟩ |
    ⟨h3, hw, h4⟩
  · rw [h4] at hr; simp only at hr; exact absurd hr (by decide)
  · rw [h4] at hr; simp only at hr
    rw [hr] at hm; exact absurd hm (by decide)
  · rw [h4] at hr; simp only at hr; exact absurd hr (by decide)
  · rw [h4] at hr; simp only at hr; exact absurd hr (by decide)
  · rw [h4]; simp only
    refine ⟨lt_scanword buf h3 hw, scanword_le buf h2,
      fun i h6 h7 => (scanword_between buf h6 h7).2, ?_⟩
    have hst := scanword_stop buf es (skipws buf es s)
    by_cases hlt : scanword buf es (skipws buf es s) < es
    · cases hb : wordChar (charAt buf (scanword buf es (skipws buf es s))) with
      | false => rfl
      | true => exact absurd ⟨hlt, hb⟩ hst
    · have : scanword buf es (skipws buf es s) = es := by
        have := scanword_le buf h2
        omega
      rw [this, hE.nul]
      decide

theorem words_wordRange {buf : List Char} {es : Nat} (hE : IsEnd buf es) {s : Nat}
    {R : List (Nat × Nat)} {s1 : Nat} (h : Words buf es s R s1) (hs : s ≤ es) :
    ∀ r ∈ R, WordRange buf es r.1 r.2 := by
  induction h with
  | stop hp => simp
  | eol hp hr => simp
  | @word s R s1 hp hr hq hw ih =>
    intro r hm
    rcases List.mem_cons.1 hm with rfl | hm
    · exact gettoken_wordRange hE hs hr
    · exact ih (gettoken_ps_le hE hs) r hm

theorem good_execOf {buf : List Char} {es : Nat} {R : List (Nat × Nat)}
    (h1 : R.length < MAXARGS) (h2 : ∀ r ∈ R, WordRange buf es r.1 r.2) :
    (execOf R).Good buf es :=
  ⟨R, rfl, h1, h2⟩

theorem good_redirFor {buf : List Char} {es : Nat} {tok : Char} {c : Cmd} {q e : Nat}
    (hc : c.Good buf es) (hr : WordRange buf es q e) : (redirFor tok c q e).Good buf es := by
  unfold redirFor
  split
  · exact ⟨hc, hr⟩
  · split
    · exact ⟨hc, hr⟩
    · split
      · exact ⟨hc, hr⟩
      · exact hc

theorem redirs_good {buf : List Char} {es : Nat} (hE : IsEnd buf es) {c : Cmd} {s : Nat}
    {c1 : Cmd} {s1 : Nat} (h : Redirs buf es c s c1 s1) (hs : s ≤ es) (hc : c.Good buf es) :
    c1.Good buf es := by
  induction h with
  | done hp => exact hc
  | @step c s c1 s1 hp hf hr ih =>
    have h2 := gettoken_ps_le hE hs
    exact ih (gettoken_ps_le hE h2) (good_redirFor hc (gettoken_wordRange hE h2 hf))

theorem backs_good {buf : List Char} {es : Nat} {c : Cmd} {s : Nat}
    {c1 : Cmd} {s1 : Nat} (h : Backs buf es c s c1 s1) (hc : c.Good buf es) :
    c1.Good buf es := by
  induction h with
  | done hp => exact hc
  | step hp hr ih => exact ih hc

theorem good_intact {buf : List Char} {es : Nat} {c : Cmd} (h : c.Good buf es) :
    c.intact = true := by
  induction c with
  | exec _ _ => rfl
  | redir c _ _ _ _ ih => exact ih h.1
  | pipe l r ihl ihr => simp only [Cmd.intact, ihl h.1, ihr h.2, Bool.and_self]
  | list l r ihl ihr => simp only [Cmd.intact, ihl h.1, ihr h.2, Bool.and_self]
  | back c ih => exact ih h
  | over _ _ _ _ _ _ _ => exact h.elim

theorem intact_ranges (buf : List Char) (c : Cmd) : (c.ranges buf).intact = c.intact := by
  induction c with
  | exec _ _ => rfl
  | redir c _ _ _ _ ih => exact ih
  | pipe l r ihl ihr => simp only [Cmd.ranges, Tree.intact, Cmd.intact, ihl, ihr]
  | list l r ihl ihr => simp only [Cmd.ranges, Tree.intact, Cmd.intact, ihl, ihr]
  | back c ih => exact ih
  | over _ _ _ _ _ _ _ => rfl

theorem intact_redirFor (tok : Char) (c : Cmd) (q e : Nat) :
    (redirFor tok c q e).intact = c.intact := by
  unfold redirFor
  split
  · rfl
  · split
    · rfl
    · split <;> rfl

theorem Redirs.redirs_intact {buf : List Char} {es : Nat} {c : Cmd} {s : Nat} {c1 : Cmd}
    {s1 : Nat} (h : Redirs buf es c s c1 s1) : c1.intact = c.intact := by
  induction h with
  | done _ => rfl
  | step _ _ _ ih => rw [ih, intact_redirFor]

theorem Backs.backs_intact {buf : List Char} {es : Nat} {c : Cmd} {s : Nat} {c1 : Cmd}
    {s1 : Nat} (h : Backs buf es c s c1 s1) : c1.intact = c.intact := by
  induction h with
  | done _ => rfl
  | step _ _ ih => rw [ih]; rfl

/-- A node with an overwritten field keeps it through every later store. -/
theorem storeArg_not_intact {c : Cmd} {i : Nat} {q e : Option Nat} {c1 : Cmd}
    (h : storeArg c i q e = .ok c1) (hc : c.intact = false) : c1.intact = false := by
  cases c <;> simp only [storeArg] at h
  · exact absurd hc (by simp [Cmd.intact])
  · split at h <;> (simp only [Except.ok.injEq] at h; subst h)
    · rfl
    · exact hc
  · exact absurd h (by simp)
  · exact absurd h (by simp)
  · exact absurd h (by simp)
  · split at h <;> (simp only [Except.ok.injEq] at h; subst h; rfl)

theorem Args.args_not_intact {buf : List Char} {es : Nat} {c : Cmd} {argc s : Nat} {c1 : Cmd}
    {argc1 s1 : Nat} (h : Args buf es c argc s c1 argc1 s1) (hc : c.intact = false) :
    c1.intact = false := by
  induction h with
  | stop _ => exact hc
  | eol _ _ => exact hc
  | word _ _ hst _ hrd _ ih =>
    exact ih (by rw [hrd.redirs_intact]; exact storeArg_not_intact hst hc)

/-- A store through a `redircmd` that leaves no field overwritten fell past its end. -/
theorem storeArg_good {buf : List Char} {es : Nat} {c : Cmd} {i : Nat} {q e : Option Nat}
    {c1 : Cmd} (h : storeArg c i q e = .ok c1) (he : c.isExec = false) (hg : c.Good buf es)
    (hi : c1.intact = true) : c1 = c := by
  cases c <;> simp only [storeArg] at h
  · exact absurd he (by simp [Cmd.isExec])
  · split at h <;> (simp only [Except.ok.injEq] at h; subst h)
    · exact absurd hi (by simp [Cmd.intact])
    · rfl
  · exact absurd h (by simp)
  · exact absurd h (by simp)
  · exact absurd h (by simp)
  · exact hg.elim

theorem Redirs.redirs_not_exec {buf : List Char} {es : Nat} (hE : IsEnd buf es) {c : Cmd}
    {s : Nat} {c1 : Cmd} {s1 : Nat} (h : Redirs buf es c s c1 s1) (hs : s ≤ es)
    (he : c.isExec = false) : c1.isExec = false := by
  by_contra hne
  have := (h.redirs_exec hE hs (by simpa using hne)).1
  rw [this, he] at hne
  exact hne rfl

/-- The argument loop keeps `PlainInv` on the runs that overwrite no field. -/
theorem Args.args_inv {buf : List Char} {es : Nat} (hE : IsEnd buf es) {c : Cmd}
    {argc s : Nat} {c1 : Cmd} {argc1 s1 : Nat} (h : Args buf es c argc s c1 argc1 s1)
    (hs : s ≤ es) (hv : PlainInv buf es c argc) (hi : c1.intact = true) :
    PlainInv buf es c1 argc1 := by
  induction h with
  | stop _ => exact hv
  | eol _ _ => exact hv
  | @word c argc s c1 c2 s2 c3 argc3 s3 hp hr hst hlt hrd hrest ih =>
    have hps : (gettoken buf es s).ps ≤ es := gettoken_ps_le hE hs
    have hs2 : s2 ≤ es := (hrd.redirs_seg hE (segClosed_true buf es) hps).2.1
    have hi2 : c2.intact = true := by
      by_contra hne
      have := hrest.args_not_intact (by simpa using hne)
      rw [hi] at this
      exact Bool.noConfusion this
    have hi1 : c1.intact = true := by rw [← hrd.redirs_intact]; exact hi2
    have hw := gettoken_wordRange hE hs hr
    apply ih hs2 _ hi
    refine ⟨hlt, ?_⟩
    rcases hv.2 with ⟨R, rfl, hlen, hR⟩ | ⟨he, hg⟩
    · subst hlen
      rw [storeArg_execOf _ _ _ hv.1] at hst
      simp only [Except.ok.injEq] at hst
      subst hst
      have hR2 : ∀ r ∈ R ++ [((gettoken buf es s).q, (gettoken buf es s).eq)],
          WordRange buf es r.1 r.2 := by
        intro r hm
        rcases List.mem_append.1 hm with hm | hm
        · exact hR r hm
        · rw [List.mem_singleton.1 hm]; exact hw
      by_cases he2 : c2.isExec = true
      · obtain ⟨rfl, _, _⟩ := hrd.redirs_exec hE hps he2
        exact Or.inl ⟨_, rfl, by simp, hR2⟩
      · exact Or.inr ⟨by simpa using he2,
          redirs_good hE hrd hps (good_execOf (by simpa using hlt) hR2)⟩
    · have := storeArg_good hst he hg hi1
      subst this
      exact Or.inr ⟨hrd.redirs_not_exec hE hps he, redirs_good hE hrd hps hg⟩

/-- A plain command that parses with no field overwritten has the shape `Cmd.Good`. -/
theorem parseplain_good {buf : List Char} {es : Nat} (hE : IsEnd buf es) {s : Nat} {c : Cmd}
    {s1 : Nat} (h : parseplain buf es s = .ok (c, s1)) (hs : s ≤ es) (hi : c.intact = true) :
    c.Good buf es := by
  obtain ⟨c0, p0, c1, argc, h0, h1, h2⟩ := parseplain_parts h
  have hp0 : p0 ≤ es := (h0.redirs_seg hE (segClosed_true buf es) hs).2.1
  have hi1 : c1.intact = true := by
    by_contra hne
    have := storeArg_not_intact h2 (by simpa using hne)
    rw [hi] at this
    exact Bool.noConfusion this
  have hg0 : execcmd.Good buf es :=
    good_execOf (R := []) (by decide) (by simp)
  have hv0 : PlainInv buf es c0 0 := by
    refine ⟨by decide, ?_⟩
    by_cases he0 : c0.isExec = true
    · obtain ⟨rfl, _, _⟩ := h0.redirs_exec hE hs he0
      exact Or.inl ⟨[], rfl, rfl, by simp⟩
    · exact Or.inr ⟨by simpa using he0, redirs_good hE h0 hs hg0⟩
  have hv1 := h1.args_inv hE hp0 hv0 hi1
  rcases hv1.2 with ⟨R, rfl, hlen, hR⟩ | ⟨he, hg⟩
  · subst hlen
    rw [storeArg_execOf_none _ hv1.1] at h2
    simp only [Except.ok.injEq] at h2
    subst h2
    exact good_execOf hv1.1 hR
  · have := storeArg_good h2 he hg hi
    subst this
    exact hg

/-- Every tree the parser returns with no field of a `redircmd` overwritten has the shape
`Cmd.Good`. -/
theorem parsed_good {buf : List Char} {es : Nat} (hE : IsEnd buf es) {s : Nat} {c : Cmd}
    {s1 : Nat} (h : Parsed buf es s c s1) (hs : s ≤ es) (hi : c.intact = true) :
    c.Good buf es := by
  induction h with
  | @plain s c s1 hp hpl =>
    rw [peek_snd] at hpl
    exact parseplain_good hE hpl (skipws_le buf hs) hi
  | @block s c s1 c1 s2 hp hin hp2 hrd ih =>
    rw [gettoken_peek] at hin hrd ih
    have h2 := gettoken_ps_le hE hs
    have hb := hin.bounds hE h2
    have hR := redirs_of_ok hrd
    exact redirs_good hE hR (gettoken_ps_le hE hb.2) (ih h2 (by rw [← hR.redirs_intact]; exact hi))
  | single hin hp ih => exact ih hs hi
  | @pipe s c s1 r s2 hin hp hin2 ih ih2 =>
    rw [gettoken_peek] at hin2 ih2
    have hb := hin.bounds hE hs
    simp only [pipecmd, Cmd.intact, Bool.and_eq_true] at hi
    exact ⟨ih hs hi.1, ih2 (gettoken_ps_le hE hb.2) hi.2⟩
  | @last s c s1 c1 s2 hin hb hp ih =>
    have hB := backs_of_loop _ _ _ _ _ _ _ hb
    exact backs_good hB (ih hs (by rw [← hB.backs_intact]; exact hi))
  | @list s c s1 c1 s2 r s3 hin hb hp hin2 ih ih2 =>
    rw [gettoken_peek] at hin2 ih2
    have hb1 := hin.bounds hE hs
    have hB := backs_of_loop _ _ _ _ _ _ _ hb
    have hb2 := hB.backs_seg hE (segClosed_true buf es) hb1.2
    simp only [listcmd, Cmd.intact, Bool.and_eq_true] at hi
    exact ⟨backs_good hB (ih hs (by rw [← hB.backs_intact]; exact hi.1)),
      ih2 (gettoken_ps_le hE hb2.2.1) hi.2⟩

/-! ## What `nulterminate` leaves in the buffer -/

theorem charAt_set_nul (b : List Char) (e i : Nat) :
    charAt (b.set e NUL) i = if i = e then NUL else charAt b i := by
  by_cases h : i = e
  · subst h
    rw [if_pos rfl]
    by_cases h2 : i < b.length
    · have h3 : i < (b.set i NUL).length := by simpa using h2
      simp [charAt, List.getD, List.getElem?_eq_getElem h3]
    · exact charAt_of_length_le (by simpa using Nat.le_of_not_lt h2)
  · rw [if_neg h]
    have h3 : e ≠ i := fun h4 => h h4.symm
    simp [charAt, List.getD, List.getElem?_set_ne h3]

theorem endsOf_execOf (A E : List Nat) (k : Nat) (h : A.length = E.length) :
    endsOf (A.map some ++ List.replicate (k + 1) none)
      (E.map some ++ List.replicate (k + 1) none) = E := by
  induction A generalizing E with
  | nil =>
    cases E with
    | nil => simp [endsOf, List.replicate_succ]
    | cons e E => simp at h
  | cons a A ih =>
    cases E with
    | nil => simp at h
    | cons e E =>
      simp only [List.map_cons, List.cons_append, endsOf, List.cons.injEq, true_and]
      exact ih E (by simpa using h)

theorem ends_execOf {R : List (Nat × Nat)} (h : R.length < MAXARGS) :
    (execOf R).ends = R.map (fun r => r.2) := by
  obtain ⟨k, hk⟩ : ∃ k, MAXARGS - R.length = k + 1 := ⟨MAXARGS - R.length - 1, by omega⟩
  simp only [execOf, Cmd.ends, hk]
  have := endsOf_execOf (R.map (fun r => r.1)) (R.map (fun r => r.2)) k (by simp)
  simpa [List.map_map] using this

theorem nulargs_execOf (A E : List Nat) (k : Nat) (h : A.length = E.length) (b : List Char) :
    ∃ b1, nulargs (A.map some ++ List.replicate (k + 1) none)
        (E.map some ++ List.replicate (k + 1) none) b = .ok b1 ∧
      ∀ i, charAt b1 i = if i ∈ E then NUL else charAt b i := by
  induction A generalizing E b with
  | nil =>
    cases E with
    | nil => exact ⟨b, by simp [nulargs, List.replicate_succ], fun i => by simp⟩
    | cons e E => simp at h
  | cons a A ih =>
    cases E with
    | nil => simp at h
    | cons e E =>
      obtain ⟨b1, h1, h2⟩ := ih E (by simpa using h) (b.set e NUL)
      refine ⟨b1, by simpa [nulargs] using h1, fun i => ?_⟩
      rw [h2 i, charAt_set_nul]
      by_cases hi : i = e
      · simp [hi]
      · by_cases hm : i ∈ E
        · simp [hm]
        · simp [hm, hi]

/-- On a tree of the parser `nulterminate` writes NUL at the end of every range and nothing
else. -/
theorem nulterminate_spec {buf : List Char} {es : Nat} {c : Cmd} (hc : c.Good buf es)
    (b : List Char) :
    ∃ b1, nulterminate c b = .ok b1 ∧
      ∀ i, charAt b1 i = if i ∈ c.ends then NUL else charAt b i := by
  induction c generalizing b with
  | exec argv eargv =>
    obtain ⟨R, hR, hlen, _⟩ := hc
    rw [hR]
    obtain ⟨k, hk⟩ : ∃ k, MAXARGS - R.length = k + 1 := ⟨MAXARGS - R.length - 1, by omega⟩
    obtain ⟨b1, h1, h2⟩ :=
      nulargs_execOf (R.map (fun r => r.1)) (R.map (fun r => r.2)) k (by simp) b
    refine ⟨b1, ?_, fun i => ?_⟩
    · simp only [execOf, nulterminate, hk]
      simpa [List.map_map] using h1
    · rw [h2 i, ends_execOf hlen]
  | redir c file efile mode fd ih =>
    obtain ⟨b1, h1, h2⟩ := ih hc.1 b
    refine ⟨b1.set efile NUL, by simp [nulterminate, h1], fun i => ?_⟩
    rw [charAt_set_nul, h2 i]
    simp only [Cmd.ends, List.mem_append, List.mem_singleton]
    by_cases hi : i = efile
    · simp [hi]
    · by_cases hm : i ∈ c.ends
      · simp [hm]
      · simp [hm, hi]
  | pipe l r ihl ihr =>
    obtain ⟨b1, h1, h2⟩ := ihl hc.1 b
    obtain ⟨b2, h3, h4⟩ := ihr hc.2 b1
    refine ⟨b2, by simp [nulterminate, h1, h3], fun i => ?_⟩
    rw [h4 i, h2 i]
    simp only [Cmd.ends, List.mem_append]
    by_cases hm : i ∈ l.ends
    · simp [hm]
    · by_cases hm2 : i ∈ r.ends
      · simp [hm2]
      · simp [hm, hm2]
  | list l r ihl ihr =>
    obtain ⟨b1, h1, h2⟩ := ihl hc.1 b
    obtain ⟨b2, h3, h4⟩ := ihr hc.2 b1
    refine ⟨b2, by simp [nulterminate, h1, h3], fun i => ?_⟩
    rw [h4 i, h2 i]
    simp only [Cmd.ends, List.mem_append]
    by_cases hm : i ∈ l.ends
    · simp [hm]
    · by_cases hm2 : i ∈ r.ends
      · simp [hm2]
      · simp [hm, hm2]
  | back c ih =>
    obtain ⟨b1, h1, h2⟩ := ih hc b
    exact ⟨b1, by simpa [nulterminate] using h1, fun i => by rw [h2 i]; rfl⟩
  | over _ _ _ _ _ _ _ => exact hc.elim

/-- No range of a tree of the parser ends inside a word. -/
theorem ends_not_word {buf : List Char} {es : Nat} {c : Cmd} (hc : c.Good buf es) :
    ∀ e ∈ c.ends, wordChar (charAt buf e) = false := by
  induction c with
  | exec argv eargv =>
    obtain ⟨R, hR, hlen, hw⟩ := hc
    rw [hR, ends_execOf hlen]
    intro e he
    obtain ⟨r, hr, rfl⟩ := List.mem_map.1 he
    exact (hw r hr).2.2.2
  | redir c file efile mode fd ih =>
    intro e he
    simp only [Cmd.ends, List.mem_append, List.mem_singleton] at he
    rcases he with he | rfl
    · exact ih hc.1 e he
    · exact hc.2.2.2.2
  | pipe l r ihl ihr =>
    intro e he
    simp only [Cmd.ends, List.mem_append] at he
    rcases he with he | he
    · exact ihl hc.1 e he
    · exact ihr hc.2 e he
  | list l r ihl ihr =>
    intro e he
    simp only [Cmd.ends, List.mem_append] at he
    rcases he with he | he
    · exact ihl hc.1 e he
    · exact ihr hc.2 e he
  | back c ih => exact ih hc
  | over _ _ _ _ _ _ _ => exact hc.elim

/-- A string that is left unchanged up to a NUL written at `e` reads as the range up to `e`. -/
theorem cstr_eq_slice {b b1 : List Char} (n q e : Nat) (hn : e = q + n)
    (h1 : ∀ i, q ≤ i → i < e → charAt b1 i = charAt b i ∧ charAt b i ≠ NUL)
    (h2 : charAt b1 e = NUL) : cstr b1 q = slice b q e := by
  induction n generalizing q with
  | zero =>
    have : e = q := by omega
    subst this
    rw [slice_self]
    unfold cstr
    by_cases hl : e < b1.length
    · rw [List.drop_eq_getElem_cons hl]
      have : b1[e] = NUL := by
        simpa [charAt, List.getD, List.getElem?_eq_getElem hl] using h2
      simp [List.takeWhile_cons, this]
    · rw [List.drop_eq_nil_of_le (Nat.le_of_not_lt hl)]
      rfl
  | succ n ih =>
    obtain ⟨h3, h4⟩ := h1 q (Nat.le_refl _) (by omega)
    have hl : q < b.length := lt_length_of_charAt_ne h4
    have hl1 : q < b1.length := lt_length_of_charAt_ne (by rw [h3]; exact h4)
    have ih2 := ih (q + 1) (by omega) (fun i h5 h6 => h1 i (by omega) h6)
    have e1 : b1[q] = charAt b1 q := by
      simp [charAt, List.getD, List.getElem?_eq_getElem hl1]
    have e2 : b[q] = charAt b q := by
      simp [charAt, List.getD, List.getElem?_eq_getElem hl]
    have hs : slice b q e = charAt b q :: slice b (q + 1) e := by
      unfold slice
      have : e - q = (e - (q + 1)) + 1 := by omega
      rw [this, List.drop_eq_getElem_cons hl, List.take_succ_cons, e2]
    have hc : cstr b1 q = charAt b1 q :: cstr b1 (q + 1) := by
      unfold cstr
      rw [List.drop_eq_getElem_cons hl1, e1, List.takeWhile_cons]
      have : (charAt b1 q != NUL) = true := by
        rw [h3]; simpa using h4
      rw [this]
      rfl
    rw [hs, hc, ih2, h3]

/-- A word of the line reads back as itself from a buffer in which NUL was written at the end of
the word and at other bytes that are not in a word. -/
theorem cstr_of_wordRange {buf b1 : List Char} {es : Nat} {E : List Nat}
    (hall : ∀ i, charAt b1 i = if i ∈ E then NUL else charAt buf i)
    (hE2 : ∀ e ∈ E, wordChar (charAt buf e) = false) {q e : Nat}
    (hr : WordRange buf es q e) (he : e ∈ E) : cstr b1 q = slice buf q e := by
  apply cstr_eq_slice (e - q) q e (by have := hr.1; omega)
  · intro i h1 h2
    have hw := hr.2.2.1 i h1 h2
    have hni : i ∉ E := by
      intro hm
      rw [hE2 i hm] at hw
      exact Bool.noConfusion hw
    rw [hall i, if_neg hni]
    exact ⟨rfl, wordChar_ne_nul hw⟩
  · rw [hall e, if_pos he]

theorem argv_strings_eq_ranges {buf b1 : List Char} {es : Nat} {E : List Nat} (hall : ∀ i, charAt b1 i = if i ∈ E then NUL else charAt buf i)
    (hE2 : ∀ e ∈ E, wordChar (charAt buf e) = false) (R : List (Nat × Nat)) (k : Nat)
    (hR : ∀ r ∈ R, WordRange buf es r.1 r.2 ∧ r.2 ∈ E) :
    argvStrings b1 (R.map (fun r => some r.1) ++ List.replicate (k + 1) none) =
      argvRanges buf (R.map (fun r => some r.1) ++ List.replicate (k + 1) none)
        (R.map (fun r => some r.2) ++ List.replicate (k + 1) none) := by
  induction R with
  | nil => simp [argvStrings, argvRanges, List.replicate_succ]
  | cons r R ih =>
    have e1 : ∀ q t, argvStrings b1 (some q :: t) = cstr b1 q :: argvStrings b1 t :=
      fun _ _ => rfl
    have e2 : ∀ q e t u, argvRanges buf (some q :: t) (some e :: u) =
        slice buf q e :: argvRanges buf t u := fun _ _ _ _ => rfl
    rw [List.map_cons, List.map_cons, List.cons_append, List.cons_append, e1, e2,
      ih (fun r hr => hR r (List.mem_cons_of_mem _ hr)),
      cstr_of_wordRange hall hE2 (hR r (List.mem_cons_self _ _)).1
        (hR r (List.mem_cons_self _ _)).2]

/-- Read as C strings from the buffer `nulterminate` leaves, a tree of the parser says what its
ranges say in the line. -/
theorem strings_eq_ranges {buf b1 : List Char} {es : Nat} {E : List Nat}
    (hall : ∀ i, charAt b1 i = if i ∈ E then NUL else charAt buf i)
    (hE2 : ∀ e ∈ E, wordChar (charAt buf e) = false) {c : Cmd} (hc : c.Good buf es)
    (hsub : ∀ e ∈ c.ends, e ∈ E) : c.strings b1 = c.ranges buf := by
  induction c with
  | exec argv eargv =>
    obtain ⟨R, hR, hlen, hw⟩ := hc
    rw [hR] at hsub ⊢
    rw [ends_execOf hlen] at hsub
    obtain ⟨k, hk⟩ : ∃ k, MAXARGS - R.length = k + 1 := ⟨MAXARGS - R.length - 1, by omega⟩
    simp only [execOf, Cmd.strings, Cmd.ranges, hk]
    rw [argv_strings_eq_ranges hall hE2 R k
      (fun r hr => ⟨hw r hr, hsub _ (List.mem_map.2 ⟨r, hr, rfl⟩)⟩)]
  | redir c file efile mode fd ih =>
    simp only [Cmd.ends, List.mem_append, List.mem_singleton] at hsub
    simp only [Cmd.strings, Cmd.ranges]
    rw [ih hc.1 (fun e he => hsub e (Or.inl he)),
      cstr_of_wordRange hall hE2 hc.2 (hsub efile (Or.inr rfl))]
  | pipe l r ihl ihr =>
    simp only [Cmd.ends, List.mem_append] at hsub
    simp only [Cmd.strings, Cmd.ranges]
    rw [ihl hc.1 (fun e he => hsub e (Or.inl he)), ihr hc.2 (fun e he => hsub e (Or.inr he))]
  | list l r ihl ihr =>
    simp only [Cmd.ends, List.mem_append] at hsub
    simp only [Cmd.strings, Cmd.ranges]
    rw [ihl hc.1 (fun e he => hsub e (Or.inl he)), ihr hc.2 (fun e he => hsub e (Or.inr he))]
  | back c ih =>
    simp only [Cmd.strings, Cmd.ranges]
    rw [ih hc hsub]
  | over _ _ _ _ _ _ _ => exact hc.elim

/-- When `parseline` returns a tree with no field overwritten and only whitespace is left,
`parsecmd` returns that tree, and what the tree says, read from the buffer as `nulterminate`
leaves it, is what its ranges say in the line. -/
theorem parsecmd_of_parseline {buf : List Char} {c : Cmd} {s1 : Nat}
    (h : parseline buf (strlen buf) (4 * strlen buf + 4) 0 = .ok (c, s1))
    (hs : skipws buf (strlen buf) s1 = strlen buf) (hi : c.intact = true) :
    ∃ b1, parsecmd buf = .ok (c, b1) ∧ c.strings b1 = c.ranges buf := by
  have hE := isEnd_strlen buf
  have hg := parsed_good hE ((parsed_of_ok buf _ _).1 _ _ _ h) (Nat.zero_le _) hi
  obtain ⟨b1, h1, h2⟩ := nulterminate_spec hg buf
  refine ⟨b1, ?_, strings_eq_ranges h2 (ends_not_word hg) hg (fun e he => he)⟩
  simp only [parsecmd, h, peek_snd, hs, ne_eq, not_true_eq_false, if_false, h1]

/-- The strings of a tree that `parsecmd` returns with no field overwritten are the ranges the
parser recorded. -/
theorem parsecmd_strings {buf : List Char} {c : Cmd} {b1 : List Char}
    (h : parsecmd buf = .ok (c, b1)) (hi : c.intact = true) :
    c.strings b1 = c.ranges buf ∧ c.Good buf (strlen buf) := by
  obtain ⟨s1, hp, hs, hn⟩ := parsecmd_ok h
  have hE := isEnd_strlen buf
  have hg := parsed_good hE hp (Nat.zero_le _) hi
  obtain ⟨b2, h1, h2⟩ := nulterminate_spec hg buf
  rw [hn] at h1
  simp only [Except.ok.injEq] at h1
  subst h1
  exact ⟨strings_eq_ranges h2 (ends_not_word hg) hg (fun e he => he), hg⟩

theorem intact_of_ranges {buf : List Char} {c : Cmd} {t : Tree} (h : c.ranges buf = t)
    (ht : t.intact = true) : c.intact = true := by
  rw [← intact_ranges buf c, h]; exact ht

theorem intact_rightNest_pipe (ts : List Tree) (h : ∀ t ∈ ts, t.intact = true) :
    (rightNest .pipe ts).intact = true := by
  induction ts with
  | nil => rfl
  | cons t ts ih =>
    cases ts with
    | nil => exact h t (by simp)
    | cons u ts =>
      simp only [rightNest, Tree.intact, Bool.and_eq_true]
      exact ⟨h t (by simp), ih (fun x hx => h x (List.mem_cons_of_mem _ hx))⟩

theorem intact_rightNest_list (ts : List Tree) (h : ∀ t ∈ ts, t.intact = true) :
    (rightNest .list ts).intact = true := by
  induction ts with
  | nil => rfl
  | cons t ts ih =>
    cases ts with
    | nil => exact h t (by simp)
    | cons u ts =>
      simp only [rightNest, Tree.intact, Bool.and_eq_true]
      exact ⟨h t (by simp), ih (fun x hx => h x (List.mem_cons_of_mem _ hx))⟩

theorem intact_pipeTree (ws : List (List Char)) : (pipeTree ws).intact = true :=
  intact_rightNest_pipe _ (fun t ht => by
    obtain ⟨w, _, rfl⟩ := List.mem_map.1 ht
    rfl)

theorem intact_iterate_back (k : Nat) (t : Tree) (h : t.intact = true) :
    (Tree.back^[k] t).intact = true := by
  induction k generalizing t with
  | zero => exact h
  | succ k ih => exact ih _ h

theorem intact_execOf (R : List (Nat × Nat)) : (execOf R).intact = true := rfl

theorem intact_iterate_backcmd (k : Nat) (c : Cmd) : (backcmd^[k] c).intact = c.intact := by
  induction k generalizing c with
  | zero => rfl
  | succ k ih => rw [Function.iterate_succ_apply, ih]; rfl

theorem intact_listTree (pls : List (List (List Char))) :
    (rightNest .list (pls.map pipeTree)).intact = true :=
  intact_rightNest_list _ (fun t ht => by
    obtain ⟨ws, _, rfl⟩ := List.mem_map.1 ht
    exact intact_pipeTree ws)

theorem intact_pipecmd {l r : Cmd} (hl : l.intact = true) (hr : r.intact = true) :
    (pipecmd l r).intact = true := by
  simp only [pipecmd, Cmd.intact, hl, hr, Bool.and_self]

theorem intact_listcmd {l r : Cmd} (hl : l.intact = true) (hr : r.intact = true) :
    (listcmd l r).intact = true := by
  simp only [listcmd, Cmd.intact, hl, hr, Bool.and_self]

/-! ## Reading `gettoken` and `peek` off the text ahead -/

theorem skipws_unique {buf : List Char} {es s r : Nat} (h1 : s ≤ r) (h2 : r ≤ es)
    (h3 : ∀ i, s ≤ i → i < r → strchr whitespace (charAt buf i) = true)
    (h4 : ¬ (r < es ∧ strchr whitespace (charAt buf r) = true)) : skipws buf es s = r := by
  have a1 := le_skipws buf es s
  have a2 := skipws_le buf (Nat.le_trans h1 h2)
  have a3 := skipws_stop buf es s
  rcases Nat.lt_trichotomy (skipws buf es s) r with h | h | h
  · exact absurd ⟨by omega, h3 _ a1 h⟩ a3
  · exact h
  · exact absurd ⟨by omega, (skipws_between buf h1 h).2⟩ h4

theorem scanword_unique {buf : List Char} {es s r : Nat} (h1 : s ≤ r) (h2 : r ≤ es)
    (h3 : ∀ i, s ≤ i → i < r → wordChar (charAt buf i) = true)
    (h4 : ¬ (r < es ∧ wordChar (charAt buf r) = true)) : scanword buf es s = r := by
  have a1 := le_scanword buf es s
  have a2 := scanword_le buf (Nat.le_trans h1 h2)
  have a3 := scanword_stop buf es s
  rcases Nat.lt_trichotomy (scanword buf es s) r with h | h | h
  · exact absurd ⟨by omega, h3 _ a1 h⟩ a3
  · exact h
  · exact absurd ⟨by omega, (scanword_between buf h1 h).2⟩ h4

theorem at_zero (buf : List Char) : At buf 0 buf :=
  ⟨Nat.zero_le _, rfl⟩

theorem at_length {buf : List Char} {s : Nat} {l : List Char} (h : At buf s l) :
    s + l.length = buf.length := by
  have := congrArg List.length h.2
  simp only [List.length_drop] at this
  have := h.1
  omega

theorem at_append {buf : List Char} {s : Nat} {x l : List Char} (h : At buf s (x ++ l)) :
    At buf (s + x.length) l := by
  have hl := at_length h
  simp only [List.length_append] at hl
  refine ⟨by omega, ?_⟩
  rw [← List.drop_drop, h.2, List.drop_left]

theorem at_cons {buf : List Char} {s : Nat} {c : Char} {l : List Char} (h : At buf s (c :: l)) :
    At buf (s + 1) l :=
  at_append (x := [c]) h

theorem at_charAt {buf : List Char} {s : Nat} {l : List Char} (h : At buf s l) (i : Nat) :
    charAt buf (s + i) = charAt l i := by
  rw [← h.2, charAt_drop]

theorem at_charAt_head {buf : List Char} {s : Nat} {c : Char} {l : List Char}
    (h : At buf s (c :: l)) : charAt buf s = c := by
  have := at_charAt h 0
  simpa [charAt_cons_zero] using this

theorem at_charAt_nil {buf : List Char} {s : Nat} (h : At buf s []) : charAt buf s = NUL := by
  have := at_charAt h 0
  simpa [charAt_nil] using this

theorem charAt_append_left {x l : List Char} {i : Nat} (h : i < x.length) :
    charAt (x ++ l) i = charAt x i := by
  simp [charAt, List.getD, List.getElem?_append_left h]

theorem charAt_mem {x : List Char} {i : Nat} (h : i < x.length) : charAt x i ∈ x := by
  have : charAt x i = x[i] := by
    simp [charAt, List.getD, List.getElem?_eq_getElem h]
  rw [this]
  exact List.getElem_mem h

/-- The bytes of a prefix of the text ahead are bytes of that prefix. -/
theorem at_charAt_mem {buf : List Char} {s : Nat} {x l : List Char} (h : At buf s (x ++ l))
    {i : Nat} (h1 : s ≤ i) (h2 : i < s + x.length) : charAt buf i ∈ x := by
  have h3 : i = s + (i - s) := by omega
  rw [h3, at_charAt h, charAt_append_left (by omega)]
  exact charAt_mem (by omega)

theorem ws_strchr {c : Char} (h : c ∈ whitespace) : strchr whitespace c = true := by
  simp [strchr, h]

theorem slice_at {buf : List Char} {s : Nat} {x l : List Char} (h : At buf s (x ++ l)) :
    slice buf s (s + x.length) = x := by
  unfold slice
  rw [h.2, Nat.add_sub_cancel_left, List.take_left]

/-- Over a run of whitespace followed by something else, the whitespace loop stops after the
run. -/
theorem skipws_at {buf : List Char} (hN : NUL ∉ buf) {s : Nat} {ws rest : List Char}
    (h : At buf s (ws ++ rest)) (hws : AllWs ws)
    (hrest : ∀ c, rest.head? = some c → c ∉ whitespace) :
    skipws buf buf.length s = s + ws.length := by
  have hl := at_length h
  simp only [List.length_append] at hl
  apply skipws_unique (by omega) (by omega)
  · intro i h1 h2
    exact ws_strchr (hws _ (at_charAt_mem h h1 h2))
  · rintro ⟨h1, h2⟩
    have h3 := at_append h
    cases rest with
    | nil => simp at hl; omega
    | cons c rest =>
      rw [at_charAt_head h3] at h2
      have hc : c ≠ NUL := by
        rintro rfl
        exact hN (List.mem_of_mem_drop (h3.2 ▸ List.mem_cons_self _ _))
      exact hrest c rfl ((strchr_iff hc).1 h2)

theorem skipws_at_nonws {buf : List Char} (hN : NUL ∉ buf) {s : Nat} {rest : List Char}
    (h : At buf s rest) (hrest : ∀ c, rest.head? = some c → c ∉ whitespace) :
    skipws buf buf.length s = s := by
  have := @skipws_at buf hN s [] rest (by simpa using h) (by intro c hc; cases hc) hrest
  simpa using this

theorem wordChar_not_mem_ws {c : Char} (h : wordChar c = true) : c ∉ whitespace := by
  intro hm
  have h1 := wordChar_not_ws h
  rw [ws_strchr hm] at h1
  exact Bool.noConfusion h1

theorem scanword_at {buf : List Char} {s : Nat} {w rest : List Char}
    (h : At buf s (w ++ rest)) (hw : ∀ c ∈ w, wordChar c = true)
    (hrest : ∀ c, rest.head? = some c → wordChar c = false) :
    scanword buf buf.length s = s + w.length := by
  have hl := at_length h
  simp only [List.length_append] at hl
  apply scanword_unique (by omega) (by omega)
  · intro i h1 h2
    exact hw _ (at_charAt_mem h h1 h2)
  · rintro ⟨h1, h2⟩
    have h3 := at_append h
    cases rest with
    | nil => simp at hl; omega
    | cons c rest =>
      rw [at_charAt_head h3, hrest c rfl] at h2
      exact Bool.noConfusion h2

theorem at_ne_nul {buf : List Char} (hN : NUL ∉ buf) {s : Nat} {c : Char} {l : List Char}
    (h : At buf s (c :: l)) : c ≠ NUL := by
  rintro rfl
  exact hN (List.mem_of_mem_drop (h.2 ▸ List.mem_cons_self _ _))

theorem at_lt {buf : List Char} {s : Nat} {c : Char} {l : List Char}
    (h : At buf s (c :: l)) : s < buf.length := by
  have := at_length h
  simp only [List.length_cons] at this
  omega

theorem at_nil_eq {buf : List Char} {s : Nat} (h : At buf s []) : s = buf.length := by
  have := at_length h
  simpa using this

theorem peek_at {buf : List Char} (hN : NUL ∉ buf) {s : Nat} {c : Char} {rest : List Char}
    (h : At buf s (c :: rest)) (hc : c ∉ whitespace) (toks : List Char) :
    peek buf buf.length s toks = (toks.contains c, s) := by
  have h1 : skipws buf buf.length s = s :=
    skipws_at_nonws hN h (by intro d hd; simp at hd; subst hd; exact hc)
  have h2 := at_ne_nul hN h
  have hb : (c == NUL) = false := by simpa using h2
  simp only [peek, h1, at_charAt_head h, strchr, bne, hb, Bool.not_false, Bool.true_and,
    Bool.false_or]

theorem peek_at_nil {buf : List Char} {s : Nat} (h : At buf s []) (toks : List Char) :
    peek buf buf.length s toks = (false, s) := by
  have h0 := at_nil_eq h
  subst h0
  simp [peek, skipws_end, charAt_of_length_le (Nat.le_refl _)]

theorem peek_skip_at {buf : List Char} (hN : NUL ∉ buf) {s : Nat} {ws rest : List Char}
    (h : At buf s (ws ++ rest)) (hws : AllWs ws)
    (hrest : ∀ c, rest.head? = some c → c ∉ whitespace) (toks : List Char) :
    peek buf buf.length s toks = peek buf buf.length (s + ws.length) toks := by
  rw [← peek_skipws buf buf.length s, skipws_at hN h hws hrest]

theorem gettoken_skip_at {buf : List Char} (hN : NUL ∉ buf) {s : Nat} {ws rest : List Char}
    (h : At buf s (ws ++ rest)) (hws : AllWs ws)
    (hrest : ∀ c, rest.head? = some c → c ∉ whitespace) :
    gettoken buf buf.length s = gettoken buf buf.length (s + ws.length) := by
  rw [← gettoken_skipws buf buf.length s, skipws_at hN h hws hrest]

theorem plainWord_head {w : List Char} (hw : PlainWord w) :
    ∃ c l, w = c :: l ∧ wordChar c = true := by
  obtain ⟨h1, h2⟩ := hw
  cases w with
  | nil => exact absurd rfl h1
  | cons c l => exact ⟨c, l, rfl, h2 c (List.mem_cons_self _ _)⟩

/-- At a plain word that something other than a word byte follows, `gettoken` returns `a` and
the range of the word. -/
theorem gettoken_word_at {buf : List Char} (hN : NUL ∉ buf) {s : Nat} {w rest : List Char}
    (h : At buf s (w ++ rest)) (hw : PlainWord w)
    (hrest : ∀ c, rest.head? = some c → wordChar c = false) :
    gettoken buf buf.length s =
      ⟨'a', s, s + w.length, skipws buf buf.length (s + w.length)⟩ := by
  obtain ⟨c, l, rfl, hc⟩ := plainWord_head hw
  have hE := isEnd_length hN
  have h1 : skipws buf buf.length s = s :=
    skipws_at_nonws hN h (by intro d hd; simp at hd; subst hd; exact wordChar_not_mem_ws hc)
  have h2 : charAt buf s = c := at_charAt_head (by simpa using h)
  have h3 := scanword_at h hw.2 hrest
  rcases gettoken_cases hE h.1 with ⟨h4, _⟩ | ⟨_, hm, _⟩ | ⟨_, h5, _, _⟩ | ⟨_, h5, _, _⟩ |
    ⟨_, _, h6⟩
  · rw [h1] at h4
    have := at_lt (show At buf s (c :: (l ++ rest)) by simpa using h)
    omega
  · rw [h1, h2] at hm
    exfalso
    have h7 := wordChar_not_sym hc
    simp only [List.mem_cons, List.mem_singleton, List.not_mem_nil, or_false] at hm
    rcases hm with rfl | rfl | rfl | rfl | rfl | rfl <;> exact absurd h7 (by decide)
  · rw [h1, h2] at h5
    subst h5
    exact absurd (wordChar_not_sym hc) (by decide)
  · rw [h1, h2] at h5
    subst h5
    exact absurd (wordChar_not_sym hc) (by decide)
  · rw [h6, h1, h3]

theorem gettoken_sym_at {buf : List Char} (hN : NUL ∉ buf) {s : Nat} {c : Char}
    {rest : List Char} (h : At buf s (c :: rest))
    (hc : c ∈ ['|', '(', ')', ';', '&', '<']) :
    gettoken buf buf.length s = ⟨c, s, s + 1, skipws buf buf.length (s + 1)⟩ := by
  have hE := isEnd_length hN
  have hnw : c ∉ whitespace := by
    simp only [List.mem_cons, List.mem_singleton, List.not_mem_nil, or_false] at hc
    rcases hc with rfl | rfl | rfl | rfl | rfl | rfl <;> decide
  have h1 : skipws buf buf.length s = s :=
    skipws_at_nonws hN h (by intro d hd; simp at hd; subst hd; exact hnw)
  have h2 : charAt buf s = c := at_charAt_head h
  have := gettoken_of_symbol hE h.1 (by rw [h1, h2]; exact at_ne_nul hN h)
    (by rw [h1, h2]; exact hc)
  rw [this, h1, h2]

theorem gettoken_gt_at {buf : List Char} (hN : NUL ∉ buf) {s : Nat} {rest : List Char}
    (h : At buf s ('>' :: rest)) (hr : rest.head? ≠ some '>') :
    gettoken buf buf.length s = ⟨'>', s, s + 1, skipws buf buf.length (s + 1)⟩ := by
  have hE := isEnd_length hN
  have h1 : skipws buf buf.length s = s :=
    skipws_at_nonws hN h (by intro d hd; simp at hd; subst hd; decide)
  have h2 : charAt buf s = '>' := at_charAt_head h
  have h3 : charAt buf (s + 1) ≠ '>' := by
    cases rest with
    | nil =>
      rw [at_charAt_nil (at_cons h)]
      decide
    | cons d rest =>
      rw [at_charAt_head (at_cons h)]
      simpa using hr
  rcases gettoken_cases hE h.1 with ⟨h4, _⟩ | ⟨_, hm, _⟩ | ⟨_, _, h5, _⟩ | ⟨_, _, _, h6⟩ |
    ⟨_, hw, _⟩
  · rw [h1] at h4
    have := at_lt h
    omega
  · rw [h1, h2] at hm
    exact absurd hm (by decide)
  · rw [h1] at h5
    exact absurd h5 h3
  · rw [h6, h1]
  · rw [h1, h2] at hw
    exact absurd hw (by decide)

theorem gettoken_gtgt_at {buf : List Char} (hN : NUL ∉ buf) {s : Nat} {rest : List Char}
    (h : At buf s ('>' :: '>' :: rest)) :
    gettoken buf buf.length s = ⟨'+', s, s + 2, skipws buf buf.length (s + 2)⟩ := by
  have hE := isEnd_length hN
  have h1 : skipws buf buf.length s = s :=
    skipws_at_nonws hN h (by intro d hd; simp at hd; subst hd; decide)
  have h2 : charAt buf s = '>' := at_charAt_head h
  have h3 : charAt buf (s + 1) = '>' := at_charAt_head (at_cons h)
  rcases gettoken_cases hE h.1 with ⟨h4, _⟩ | ⟨_, hm, _⟩ | ⟨_, _, _, h6⟩ | ⟨_, _, h5, _⟩ |
    ⟨_, hw, _⟩
  · rw [h1] at h4
    have := at_lt h
    omega
  · rw [h1, h2] at hm
    exact absurd hm (by decide)
  · rw [h6, h1]
  · rw [h1] at h5
    exact absurd h3 h5
  · rw [h1, h2] at hw
    exact absurd hw (by decide)

theorem gettoken_nil_at {buf : List Char} (hN : NUL ∉ buf) {s : Nat} (h : At buf s []) :
    gettoken buf buf.length s = ⟨NUL, buf.length, buf.length, buf.length⟩ := by
  have hE := isEnd_length hN
  have h0 := at_nil_eq h
  subst h0
  rcases gettoken_cases hE (Nat.le_refl _) with ⟨_, h4⟩ | ⟨h5, _⟩ | ⟨h5, _⟩ | ⟨h5, _⟩ | ⟨h5, _⟩
  · exact h4
  all_goals
    rw [skipws_end] at h5
    omega

/-! ## Running the parser on a plain command -/

theorem parseredirs_none {buf : List Char} {es : Nat} (c : Cmd) {s : Nat}
    (h : (peek buf es s ['<', '>']).1 = false) :
    parseredirs buf es c s = .ok (c, skipws buf es s) := by
  unfold parseredirs
  cases es - s <;> simp [parseredirsLoop, h, peek_snd]

theorem argsOK_head {p : List Char × List Char} {ps : List (List Char × List Char)}
    (h : ArgsOK (p :: ps)) : PlainWord p.1 ∧ AllWs p.2 := by
  cases ps with
  | nil => exact h
  | cons q ps => exact ⟨h.1, h.2.1⟩

theorem argsOK_tail {p : List Char × List Char} {ps : List (List Char × List Char)}
    (h : ArgsOK (p :: ps)) : ArgsOK ps := by
  cases ps with
  | nil => trivial
  | cons q ps => exact h.2.2.2

/-- What can stand at the start of a run of arguments and what follows it: a word byte, or the
byte that ends the plain command. -/
theorem argsText_head {args : List (List Char × List Char)} {rest : List Char}
    (h : ArgsOK args) (hr : StopsArgs rest) (c : Char)
    (hc : (argsText args ++ rest).head? = some c) :
    wordChar c = true ∨ c ∈ ['|', ')', '&', ';'] := by
  cases args with
  | nil => exact Or.inr (hr c (by simpa [argsText] using hc))
  | cons p ps =>
    obtain ⟨d, l, hd, hw⟩ := plainWord_head (argsOK_head h).1
    simp only [argsText, hd, List.cons_append, List.head?_cons, Option.some.injEq] at hc
    exact Or.inl (hc ▸ hw)

theorem head_not_ws {c : Char} (h : wordChar c = true ∨ c ∈ ['|', ')', '&', ';']) :
    c ∉ whitespace := by
  rcases h with h | h
  · exact wordChar_not_mem_ws h
  · simp only [List.mem_cons, List.mem_singleton, List.not_mem_nil, or_false] at h
    rcases h with rfl | rfl | rfl | rfl <;> decide

theorem head_not_redir {c : Char} (h : wordChar c = true ∨ c ∈ ['|', ')', '&', ';']) :
    ['<', '>'].contains c = false := by
  rcases h with h | h
  · have := wordChar_not_sym h
    cases hb : ['<', '>'].contains c with
    | false => rfl
    | true =>
      have hb2 : c ∈ ['<', '>'] := by simpa using hb
      simp only [List.mem_cons, List.mem_singleton, List.not_mem_nil, or_false] at hb2
      rcases hb2 with rfl | rfl <;> exact absurd this (by decide)
  · simp only [List.mem_cons, List.mem_singleton, List.not_mem_nil, or_false] at h
    rcases h with rfl | rfl | rfl | rfl <;> decide

theorem head_not_open {c : Char} (h : wordChar c = true ∨ c ∈ ['|', ')', '&', ';']) :
    ['('].contains c = false := by
  rcases h with h | h
  · have := wordChar_not_sym h
    cases hb : ['('].contains c with
    | false => rfl
    | true =>
      have hb2 : c ∈ ['('] := by simpa using hb
      simp only [List.mem_singleton] at hb2
      subst hb2
      exact absurd this (by decide)
  · simp only [List.mem_cons, List.mem_singleton, List.not_mem_nil, or_false] at h
    rcases h with rfl | rfl | rfl | rfl <;> decide

/-- Where a run of arguments or the end of the plain command starts, `peek` finds no
redirection operator. -/
theorem peek_redir_at {buf : List Char} (hN : NUL ∉ buf) {s : Nat}
    {args : List (List Char × List Char)} {rest : List Char}
    (h : At buf s (argsText args ++ rest)) (ha : ArgsOK args) (hr : StopsArgs rest) :
    peek buf buf.length s ['<', '>'] = (false, s) := by
  cases hl : argsText args ++ rest with
  | nil => exact peek_at_nil (hl ▸ h) _
  | cons c l =>
    have hc := argsText_head ha hr c (by rw [hl]; rfl)
    rw [peek_at hN (hl ▸ h) (head_not_ws hc), head_not_redir hc]

theorem peek_open_at {buf : List Char} (hN : NUL ∉ buf) {s : Nat}
    {args : List (List Char × List Char)} {rest : List Char}
    (h : At buf s (argsText args ++ rest)) (ha : ArgsOK args) (hr : StopsArgs rest) :
    peek buf buf.length s ['('] = (false, s) := by
  cases hl : argsText args ++ rest with
  | nil => exact peek_at_nil (hl ▸ h) _
  | cons c l =>
    have hc := argsText_head ha hr c (by rw [hl]; rfl)
    rw [peek_at hN (hl ▸ h) (head_not_ws hc), head_not_open hc]

theorem skipws_args_at {buf : List Char} (hN : NUL ∉ buf) {s : Nat}
    {args : List (List Char × List Char)} {rest : List Char}
    (h : At buf s (argsText args ++ rest)) (ha : ArgsOK args) (hr : StopsArgs rest) :
    skipws buf buf.length s = s :=
  skipws_at_nonws hN h (fun c hc => head_not_ws (argsText_head ha hr c hc))

/-- The first word of a run of arguments, as `gettoken` hands it back. -/
theorem gettoken_arg_at {buf : List Char} (hN : NUL ∉ buf) {s : Nat}
    {p : List Char × List Char} {ps : List (List Char × List Char)} {rest : List Char}
    (h : At buf s (argsText (p :: ps) ++ rest)) (ha : ArgsOK (p :: ps)) (hr : StopsArgs rest) :
    gettoken buf buf.length s =
      ⟨'a', s, s + p.1.length, s + p.1.length + p.2.length⟩ ∧
    At buf (s + p.1.length + p.2.length) (argsText ps ++ rest) := by
  have h1 : At buf s (p.1 ++ (p.2 ++ (argsText ps ++ rest))) := by
    simpa [argsText, List.append_assoc] using h
  have h2 := at_append h1
  have h3 := at_append h2
  have hnext : ∀ c, (argsText ps ++ rest).head? = some c → c ∉ whitespace :=
    fun c hc => head_not_ws (argsText_head (argsOK_tail ha) hr c hc)
  have hsk := skipws_at hN h2 (argsOK_head ha).2 hnext
  have hfol : ∀ c, (p.2 ++ (argsText ps ++ rest)).head? = some c → wordChar c = false := by
    intro c hc
    cases hp2 : p.2 with
    | cons d l =>
      rw [hp2] at hc
      simp only [List.cons_append, List.head?_cons, Option.some.injEq] at hc
      subst hc
      have hd : d ∈ whitespace := (argsOK_head ha).2 d (by rw [hp2]; exact List.mem_cons_self _ _)
      cases hb : wordChar d with
      | false => rfl
      | true => exact absurd hd (wordChar_not_mem_ws hb)
    | nil =>
      rw [hp2, List.nil_append] at hc
      cases ps with
      | cons q qs => exact absurd hp2 ha.2.2.1
      | nil =>
        have := hr c (by simpa [argsText] using hc)
        simp only [List.mem_cons, List.mem_singleton, List.not_mem_nil, or_false] at this
        rcases this with rfl | rfl | rfl | rfl <;> decide
  refine ⟨?_, h3⟩
  rw [gettoken_word_at hN h1 (argsOK_head ha).1 hfol, hsk]

theorem length_le_argsText {args : List (List Char × List Char)} (h : ArgsOK args) :
    args.length ≤ (argsText args).length := by
  induction args with
  | nil => simp
  | cons p ps ih =>
    have h1 := ih (argsOK_tail h)
    obtain ⟨c, l, hc, _⟩ := plainWord_head (argsOK_head h).1
    simp only [argsText, List.length_cons, List.length_append, hc]
    omega

/-- The argument loop on a run of arguments that fit: every word goes into the `execcmd`. -/
theorem parseargsLoop_words {buf : List Char} (hN : NUL ∉ buf) {rest : List Char}
    (hr : StopsArgs rest) (args : List (List Char × List Char)) (R0 : List (Nat × Nat))
    (s n : Nat) (h : At buf s (argsText args ++ rest)) (ha : ArgsOK args)
    (hlen : R0.length + args.length < MAXARGS) (hn : args.length ≤ n) :
    parseargsLoop buf buf.length n (execOf R0) R0.length s =
      .ok (execOf (R0 ++ rangesOf s args), R0.length + args.length,
        s + (argsText args).length) := by
  induction args generalizing R0 s n with
  | nil =>
    unfold parseargsLoop
    simp only [argsText, List.nil_append] at h
    simp only [rangesOf, List.append_nil, List.length_nil, Nat.add_zero, argsText]
    cases hrest : rest with
    | nil =>
      rw [hrest] at h
      rw [peek_at_nil h]
      simp only [Bool.false_eq_true, if_false, gettoken_nil_at hN h, if_true]
      rw [at_nil_eq h]
    | cons c l =>
      rw [hrest] at h
      have hc := hr c (by rw [hrest]; rfl)
      rw [peek_at hN h (head_not_ws (Or.inr hc))]
      have : ['|', ')', '&', ';'].contains c = true := by simpa using hc
      simp only [this, if_true]
  | cons p ps ih =>
    obtain ⟨hg, hnext⟩ := gettoken_arg_at hN h ha hr
    obtain ⟨c, l, hc, hw⟩ := plainWord_head (argsOK_head ha).1
    have h1 : At buf s (c :: (l ++ (p.2 ++ (argsText ps ++ rest)))) := by
      simpa [argsText, List.append_assoc, hc] using h
    have hpk : peek buf buf.length s ['|', ')', '&', ';'] = (false, s) := by
      rw [peek_at hN h1 (wordChar_not_mem_ws hw)]
      have := wordChar_not_sym hw
      cases hb : ['|', ')', '&', ';'].contains c with
      | false => rfl
      | true =>
        have hb2 : c ∈ ['|', ')', '&', ';'] := by simpa using hb
        simp only [List.mem_cons, List.mem_singleton, List.not_mem_nil, or_false] at hb2
        rcases hb2 with rfl | rfl | rfl | rfl <;> exact absurd this (by decide)
    simp only [List.length_cons] at hlen hn
    obtain ⟨m, rfl⟩ : ∃ m, n = m + 1 := ⟨n - 1, by omega⟩
    unfold parseargsLoop
    rw [hpk]
    simp only [Bool.false_eq_true, if_false, hg]
    rw [if_neg (by decide), if_neg (by simp), storeArg_execOf _ _ _ (by omega)]
    simp only
    rw [if_neg (by omega), parseredirs_none _ (by rw [peek_redir_at hN hnext (argsOK_tail ha) hr]),
      skipws_args_at hN hnext (argsOK_tail ha) hr]
    simp only
    have hl2 : (R0 ++ [(s, s + p.1.length)]).length = R0.length + 1 := by simp
    rw [← hl2, ih (R0 ++ [(s, s + p.1.length)]) _ m hnext (argsOK_tail ha)
      (by rw [hl2]; omega) (by omega)]
    refine congrArg Except.ok (Prod.ext ?_ (Prod.ext ?_ ?_))
    · simp [rangesOf]
    · simp only [hl2, List.length_cons]
      omega
    · simp only [argsText, List.length_append]
      omega

/-- The argument loop on a run of arguments that do not fit: when the count reaches `MAXARGS`
the loop ends in `panic("too many args")`. -/
theorem parseargsLoop_too_many {buf : List Char} (hN : NUL ∉ buf) {rest : List Char}
    (hr : StopsArgs rest) (args : List (List Char × List Char)) (R0 : List (Nat × Nat))
    (s n : Nat) (h : At buf s (argsText args ++ rest)) (ha : ArgsOK args)
    (h0 : R0.length < MAXARGS) (hlen : MAXARGS ≤ R0.length + args.length)
    (hn : args.length ≤ n) :
    parseargsLoop buf buf.length n (execOf R0) R0.length s =
      .error (.panic "too many args") := by
  induction args generalizing R0 s n with
  | nil => simp only [List.length_nil] at hlen; omega
  | cons p ps ih =>
    obtain ⟨hg, hnext⟩ := gettoken_arg_at hN h ha hr
    obtain ⟨c, l, hc, hw⟩ := plainWord_head (argsOK_head ha).1
    have h1 : At buf s (c :: (l ++ (p.2 ++ (argsText ps ++ rest)))) := by
      simpa [argsText, List.append_assoc, hc] using h
    have hpk : peek buf buf.length s ['|', ')', '&', ';'] = (false, s) := by
      rw [peek_at hN h1 (wordChar_not_mem_ws hw)]
      have := wordChar_not_sym hw
      cases hb : ['|', ')', '&', ';'].contains c with
      | false => rfl
      | true =>
        have hb2 : c ∈ ['|', ')', '&', ';'] := by simpa using hb
        simp only [List.mem_cons, List.mem_singleton, List.not_mem_nil, or_false] at hb2
        rcases hb2 with rfl | rfl | rfl | rfl <;> exact absurd this (by decide)
    simp only [List.length_cons] at hlen hn
    obtain ⟨m, rfl⟩ : ∃ m, n = m + 1 := ⟨n - 1, by omega⟩
    unfold parseargsLoop
    rw [hpk]
    simp only [Bool.false_eq_true, if_false, hg]
    rw [if_neg (by decide), if_neg (by simp), storeArg_execOf _ _ _ h0]
    simp only
    by_cases hfull : R0.length + 1 ≥ MAXARGS
    · rw [if_pos hfull]
    · rw [if_neg hfull,
        parseredirs_none _ (by rw [peek_redir_at hN hnext (argsOK_tail ha) hr]),
        skipws_args_at hN hnext (argsOK_tail ha) hr]
      simp only
      have hl2 : (R0 ++ [(s, s + p.1.length)]).length = R0.length + 1 := by simp
      rw [← hl2]
      exact ih (R0 ++ [(s, s + p.1.length)]) _ m hnext (argsOK_tail ha)
        (by rw [hl2]; omega) (by rw [hl2]; omega) (by omega)

theorem at_args_fuel {buf : List Char} {s : Nat} {args : List (List Char × List Char)}
    {rest : List Char} (h : At buf s (argsText args ++ rest)) (ha : ArgsOK args) :
    args.length ≤ buf.length - s := by
  have h1 := at_length h
  have h2 := length_le_argsText ha
  simp only [List.length_append] at h1
  omega

/-- A plain command of fewer than `MAXARGS` words parses to the `execcmd` of those words. -/
theorem parseplain_words {buf : List Char} (hN : NUL ∉ buf) {rest : List Char}
    (hr : StopsArgs rest) {args : List (List Char × List Char)} {s : Nat}
    (h : At buf s (argsText args ++ rest)) (ha : ArgsOK args) (hlen : args.length < MAXARGS) :
    parseplain buf buf.length s =
      .ok (execOf (rangesOf s args), s + (argsText args).length) := by
  simp only [parseplain]
  rw [parseredirs_none _ (by rw [peek_redir_at hN h ha hr]), skipws_args_at hN h ha hr]
  simp only
  have h1 := parseargsLoop_words hN hr args [] s (buf.length - s) h ha (by simpa using hlen)
    (at_args_fuel h ha)
  simp only [List.length_nil, Nat.zero_add, List.nil_append] at h1
  rw [execcmd_eq, h1]
  simp only
  have hl : (rangesOf s args).length = args.length := by
    clear h h1
    induction args generalizing s with
    | nil => rfl
    | cons p ps ih => simp [rangesOf, ih (argsOK_tail ha) (by simp at hlen; omega)]
  rw [← hl, storeArg_execOf_none _ (by rw [hl]; exact hlen)]

/-- A plain command of `MAXARGS` words or more ends in `panic("too many args")`. -/
theorem parseplain_too_many {buf : List Char} (hN : NUL ∉ buf) {rest : List Char}
    (hr : StopsArgs rest) {args : List (List Char × List Char)} {s : Nat}
    (h : At buf s (argsText args ++ rest)) (ha : ArgsOK args) (hlen : MAXARGS ≤ args.length) :
    parseplain buf buf.length s = .error (.panic "too many args") := by
  simp only [parseplain]
  rw [parseredirs_none _ (by rw [peek_redir_at hN h ha hr]), skipws_args_at hN h ha hr]
  simp only
  have h1 := parseargsLoop_too_many hN hr args [] s (buf.length - s) h ha (by decide)
    (by simpa using hlen) (at_args_fuel h ha)
  simp only [List.length_nil] at h1
  rw [execcmd_eq, h1]

/-- The function `parseexec` on a plain command: the whitespace before it is skipped. -/
theorem parseexec_plain_at {buf : List Char} (hN : NUL ∉ buf) {rest : List Char}
    (hr : StopsArgs rest) {lead : List Char} {args : List (List Char × List Char)} {s : Nat}
    (h : At buf s (lead ++ (argsText args ++ rest))) (hl : AllWs lead) (ha : ArgsOK args)
    (fuel : Nat) :
    parseexec buf buf.length (fuel + 1) s = parseplain buf buf.length (s + lead.length) := by
  have hnext : ∀ c, (argsText args ++ rest).head? = some c → c ∉ whitespace :=
    fun c hc => head_not_ws (argsText_head ha hr c hc)
  simp only [parseexec]
  rw [peek_skip_at hN h hl hnext, peek_open_at hN (at_append h) ha hr]
  simp

theorem ranges_execOf (buf : List Char) {R : List (Nat × Nat)} (h : R.length < MAXARGS) :
    (execOf R).ranges buf = .exec (R.map (fun r => slice buf r.1 r.2)) := by
  obtain ⟨k, hk⟩ : ∃ k, MAXARGS - R.length = k + 1 := ⟨MAXARGS - R.length - 1, by omega⟩
  simp only [execOf, Cmd.ranges, hk]
  congr 1
  clear h hk
  induction R with
  | nil => simp [argvRanges, List.replicate_succ]
  | cons r R ih =>
    have e2 : ∀ q e t u, argvRanges buf (some q :: t) (some e :: u) =
        slice buf q e :: argvRanges buf t u := fun _ _ _ _ => rfl
    rw [List.map_cons, List.map_cons, List.cons_append, List.cons_append, e2, ih, List.map_cons]

theorem length_rangesOf (s : Nat) (args : List (List Char × List Char)) :
    (rangesOf s args).length = args.length := by
  induction args generalizing s with
  | nil => rfl
  | cons p ps ih => simp [rangesOf, ih]

/-- The ranges of a run of arguments hold its words. -/
theorem slices_rangesOf {buf : List Char} {rest : List Char}
    {args : List (List Char × List Char)} {s : Nat}
    (h : At buf s (argsText args ++ rest)) :
    (rangesOf s args).map (fun r => slice buf r.1 r.2) = args.map (fun p => p.1) := by
  induction args generalizing s with
  | nil => rfl
  | cons p ps ih =>
    have h1 : At buf s (p.1 ++ (p.2 ++ (argsText ps ++ rest))) := by
      simpa [argsText, List.append_assoc] using h
    simp only [rangesOf, List.map_cons, slice_at h1]
    rw [ih (at_append (at_append h1))]

theorem ranges_words {buf : List Char} {rest : List Char}
    {args : List (List Char × List Char)} {s : Nat}
    (h : At buf s (argsText args ++ rest)) (hlen : args.length < MAXARGS) :
    (execOf (rangesOf s args)).ranges buf = .exec (args.map (fun p => p.1)) := by
  rw [ranges_execOf buf (by rw [length_rangesOf]; exact hlen), slices_rangesOf h]

/-! ## Running `parsepipe`, `parseline` and `parsecmd` -/

theorem parsepipe_error {buf : List Char} {es f s : Nat} {e : Fault}
    (h : parseexec buf es f s = .error e) : parsepipe buf es (f + 1) s = .error e := by
  simp only [parsepipe, h]

theorem parsepipe_single {buf : List Char} {es f s : Nat} {c : Cmd} {s1 : Nat}
    (h : parseexec buf es f s = .ok (c, s1)) (hp : (peek buf es s1 ['|']).1 = false) :
    parsepipe buf es (f + 1) s = .ok (c, skipws buf es s1) := by
  simp only [parsepipe, h, hp, peek_snd]
  simp

theorem parsepipe_pipe {buf : List Char} {es f s : Nat} {c : Cmd} {s1 : Nat} {r : Cmd}
    {s2 : Nat} (h : parseexec buf es f s = .ok (c, s1)) (hp : (peek buf es s1 ['|']).1 = true)
    (h2 : parsepipe buf es f (gettoken buf es s1).ps = .ok (r, s2)) :
    parsepipe buf es (f + 1) s = .ok (pipecmd c r, s2) := by
  simp only [parsepipe, h, hp, gettoken_peek, h2]
  simp

theorem parsebackLoop_none {buf : List Char} {es : Nat} (n : Nat) (c : Cmd) {s : Nat}
    (h : (peek buf es s ['&']).1 = false) :
    parsebackLoop buf es n c s = .ok (c, skipws buf es s) := by
  cases n <;> simp [parsebackLoop, h, peek_snd]

theorem parseline_error {buf : List Char} {es f s : Nat} {e : Fault}
    (h : parsepipe buf es f s = .error e) : parseline buf es (f + 1) s = .error e := by
  simp only [parseline, h]

theorem parseline_last {buf : List Char} {es f s : Nat} {c : Cmd} {s1 : Nat} {c1 : Cmd}
    {s2 : Nat} (h : parsepipe buf es f s = .ok (c, s1))
    (hb : parsebackLoop buf es (es - s1) c s1 = .ok (c1, s2))
    (hp : (peek buf es s2 [';']).1 = false) :
    parseline buf es (f + 1) s = .ok (c1, skipws buf es s2) := by
  simp only [parseline, h, hb, hp, peek_snd]
  simp

theorem parseline_list {buf : List Char} {es f s : Nat} {c : Cmd} {s1 : Nat} {c1 : Cmd}
    {s2 : Nat} {r : Cmd} {s3 : Nat} (h : parsepipe buf es f s = .ok (c, s1))
    (hb : parsebackLoop buf es (es - s1) c s1 = .ok (c1, s2))
    (hp : (peek buf es s2 [';']).1 = true)
    (h2 : parseline buf es f (gettoken buf es s2).ps = .ok (r, s3)) :
    parseline buf es (f + 1) s = .ok (listcmd c1 r, s3) := by
  simp only [parseline, h, hb, hp, gettoken_peek, h2]
  simp

theorem parseexec_block {buf : List Char} {es f s : Nat} {c : Cmd} {s1 : Nat} {c1 : Cmd}
    {s2 : Nat} (hp : (peek buf es s ['(']).1 = true)
    (h : parseline buf es f (gettoken buf es s).ps = .ok (c, s1))
    (hp2 : (peek buf es s1 [')']).1 = true)
    (h2 : parseredirs buf es c (gettoken buf es s1).ps = .ok (c1, s2)) :
    parseexec buf es (f + 2) s = .ok (c1, s2) := by
  simp only [parseexec, hp, parseblock, peek_peek, gettoken_peek, h, hp2, h2]
  simp

theorem parsecmd_error {buf : List Char} {e : Fault}
    (h : parseline buf (strlen buf) (4 * strlen buf + 4) 0 = .error e) :
    parsecmd buf = .error e := by
  simp only [parsecmd, h]

/-- A command that `parseexec` reads up to the end of the line is what `parsepipe` and
`parseline` return. -/
theorem parseline_of_exec_end {buf : List Char} (hN : NUL ∉ buf) {f s : Nat} {c : Cmd}
    (h : parseexec buf buf.length f s = .ok (c, buf.length)) :
    parseline buf buf.length (f + 2) s = .ok (c, buf.length) := by
  have hat : At buf buf.length [] := ⟨Nat.le_refl _, List.drop_length _⟩
  have hE := isEnd_length hN
  have h1 := parsepipe_single h (by rw [peek_at_nil hat])
  rw [skipws_end] at h1
  have h2 := parseline_last h1 (parsebackLoop_none _ c (by rw [peek_at_nil hat]))
    (by rw [skipws_end, peek_at_nil hat])
  rw [skipws_end, skipws_end] at h2
  exact h2

theorem nul_not_ws {l : List Char} (h : AllWs l) : NUL ∉ l :=
  fun hm => absurd (h NUL hm) (by decide)

theorem nul_not_word {w : List Char} (h : PlainWord w) : NUL ∉ w :=
  fun hm => absurd (h.2 NUL hm) (by decide)

theorem nul_not_argsText {args : List (List Char × List Char)} (h : ArgsOK args) :
    NUL ∉ argsText args := by
  induction args with
  | nil => simp [argsText]
  | cons p ps ih =>
    simp only [argsText, List.mem_append, not_or]
    exact ⟨nul_not_word (argsOK_head h).1, nul_not_ws (argsOK_head h).2, ih (argsOK_tail h)⟩

theorem stopsArgs_nil : StopsArgs [] := by
  intro c hc
  cases hc

/-- A line of fewer than `MAXARGS` words separated by whitespace parses to the `Exec` of those
words; a line of `MAXARGS` words or more ends in `panic("too many args")`. -/
theorem parsecmd_words (lead : List Char) (args : List (List Char × List Char))
    (hl : AllWs lead) (ha : ArgsOK args) :
    (args.length < MAXARGS →
      ∃ b1, parsecmd (lead ++ argsText args) =
          .ok (execOf (rangesOf lead.length args), b1) ∧
        (execOf (rangesOf lead.length args)).strings b1 = .exec (args.map (fun p => p.1))) ∧
    (MAXARGS ≤ args.length →
      parsecmd (lead ++ argsText args) = .error (.panic "too many args")) := by
  have hN : NUL ∉ lead ++ argsText args := by
    simp only [List.mem_append, not_or]
    exact ⟨nul_not_ws hl, nul_not_argsText ha⟩
  have hlen := strlen_eq_length hN
  have hat : At (lead ++ argsText args) 0 (lead ++ (argsText args ++ [])) := by
    simpa using at_zero (lead ++ argsText args)
  have hat2 : At (lead ++ argsText args) lead.length (argsText args ++ []) := by
    simpa using at_append hat
  have hx := parseexec_plain_at hN stopsArgs_nil hat hl ha (4 * (lead ++ argsText args).length + 1)
  rw [Nat.zero_add] at hx
  constructor
  · intro hlt
    rw [parseplain_words hN stopsArgs_nil hat2 ha hlt] at hx
    have hend : lead.length + (argsText args).length = (lead ++ argsText args).length := by simp
    rw [hend] at hx
    have h2 := parseline_of_exec_end hN hx
    obtain ⟨b1, h3, h4⟩ := parsecmd_of_parseline (by rw [hlen]; exact h2)
      (by rw [hlen]; exact skipws_end _ _) (intact_execOf _)
    exact ⟨b1, h3, by rw [h4, ranges_words hat2 hlt]⟩
  · intro hge
    rw [parseplain_too_many hN stopsArgs_nil hat2 ha hge] at hx
    apply parsecmd_error
    rw [hlen]
    exact parseline_error (parsepipe_error hx)

/-! ## Pipelines and lists of plain words -/

theorem one_le_length_word {w : List Char} (h : PlainWord w) : 1 ≤ w.length := by
  obtain ⟨c, l, rfl, _⟩ := plainWord_head h
  simp

theorem nul_not_joinWith {sep : Char} (hs : sep ≠ NUL) {ws : List (List Char)}
    (h : ∀ w ∈ ws, NUL ∉ w) : NUL ∉ joinWith sep ws := by
  induction ws with
  | nil => simp [joinWith]
  | cons w ws ih =>
    cases ws with
    | nil => simpa [joinWith] using h w (List.mem_cons_self _ _)
    | cons v ws =>
      simp only [joinWith, List.mem_append, List.mem_cons, not_or]
      exact ⟨h w (List.mem_cons_self _ _), fun h1 => hs h1.symm,
        ih (fun x hx => h x (List.mem_cons_of_mem _ hx))⟩

/-- A single plain word as a command: `parseexec` returns its `execcmd`. -/
theorem parseexec_word {buf : List Char} (hN : NUL ∉ buf) {w rest : List Char} {s : Nat}
    (h : At buf s (w ++ rest)) (hw : PlainWord w) (hr : StopsArgs rest) (fuel : Nat) :
    parseexec buf buf.length (fuel + 1) s = .ok (execOf [(s, s + w.length)], s + w.length) ∧
      (execOf [(s, s + w.length)]).ranges buf = exec1 w := by
  have hat : At buf s ([] ++ (argsText [(w, [])] ++ rest)) := by
    simpa [argsText] using h
  have hat2 : At buf s (argsText [(w, [])] ++ rest) := by
    simpa [argsText] using h
  have ha : ArgsOK [(w, [])] := ⟨hw, by intro c hc; cases hc⟩
  have h1 := parseexec_plain_at hN hr hat (by intro c hc; cases hc) ha fuel
  have hlt : [(w, ([] : List Char))].length < MAXARGS := by simp [MAXARGS]
  simp only [List.length_nil, Nat.add_zero] at h1
  rw [parseplain_words hN hr hat2 ha hlt] at h1
  simp only [List.length_nil, Nat.add_zero, rangesOf, argsText, List.append_nil] at h1
  exact ⟨h1, by simpa [rangesOf, exec1] using ranges_words hat2 hlt⟩

theorem head_word_not_ws {w rest : List Char} (hw : PlainWord w) :
    ∀ c, (w ++ rest).head? = some c → c ∉ whitespace := by
  obtain ⟨d, l, rfl, hd⟩ := plainWord_head hw
  intro c hc
  simp only [List.cons_append, List.head?_cons, Option.some.injEq] at hc
  exact hc ▸ wordChar_not_mem_ws hd

theorem joinWith_cons_head {sep : Char} {w : List Char} {ws : List (List Char)}
    (hw : PlainWord w) (rest : List Char) :
    ∀ c, (joinWith sep (w :: ws) ++ rest).head? = some c → c ∉ whitespace := by
  cases ws with
  | nil => simpa [joinWith] using @head_word_not_ws w rest hw
  | cons v ws =>
    have := @head_word_not_ws w (sep :: joinWith sep (v :: ws) ++ rest) hw
    simpa [joinWith, List.append_assoc] using this

/-- The pipeline `w1|w2|...|wn` of plain words, followed by the end of the line or by `)`, `&`
or `;`: `parsepipe` returns the `Pipe`s nested to the right. -/
theorem parsepipe_words {buf : List Char} (hN : NUL ∉ buf) {rest : List Char}
    (hr : ∀ c, rest.head? = some c → c ∈ [')', '&', ';'])
    (ws : List (List Char)) (hne : ws ≠ []) (hw : ∀ w ∈ ws, PlainWord w) (s f : Nat)
    (h : At buf s (joinWith '|' ws ++ rest)) (hf : buf.length - s + 1 ≤ f) :
    ∃ c, parsepipe buf buf.length f s = .ok (c, s + (joinWith '|' ws).length) ∧
      c.ranges buf = pipeTree ws := by
  induction ws generalizing s f with
  | nil => exact absurd rfl hne
  | cons w ws ih =>
    have hpw := hw w (List.mem_cons_self _ _)
    have hlw := one_le_length_word hpw
    cases ws with
    | nil =>
      simp only [joinWith] at h ⊢
      have hl := at_length h
      simp only [List.length_append] at hl
      obtain ⟨g, rfl⟩ : ∃ g, f = g + 2 := ⟨f - 2, by omega⟩
      have hsa : StopsArgs rest := by
        intro c hc
        have := hr c hc
        simp only [List.mem_cons, List.mem_singleton, List.not_mem_nil, or_false] at this ⊢
        tauto
      obtain ⟨h1, h2⟩ := parseexec_word hN h hpw hsa g
      have h3 := at_append h
      have hpk : peek buf buf.length (s + w.length) ['|'] = (false, s + w.length) := by
        cases hrest : rest with
        | nil => rw [hrest] at h3; exact peek_at_nil h3 _
        | cons c l =>
          rw [hrest] at h3
          have hc := hr c (by rw [hrest]; rfl)
          have hnw : c ∉ whitespace := head_not_ws (Or.inr (hsa c (by rw [hrest]; rfl)))
          rw [peek_at hN h3 hnw]
          simp only [List.mem_cons, List.mem_singleton, List.not_mem_nil, or_false] at hc
          rcases hc with rfl | rfl | rfl <;> rfl
      have h4 := parsepipe_single h1 (by rw [hpk])
      have hsk : skipws buf buf.length (s + w.length) = s + w.length := by
        have := congrArg Prod.snd hpk
        simpa [peek_snd] using this
      rw [hsk] at h4
      exact ⟨_, h4, h2⟩
    | cons v ws =>
      have h0 : At buf s (w ++ ('|' :: (joinWith '|' (v :: ws) ++ rest))) := by
        simpa [joinWith, List.append_assoc] using h
      have hl := at_length h0
      simp only [List.length_append, List.length_cons] at hl
      obtain ⟨g, rfl⟩ : ∃ g, f = g + 2 := ⟨f - 2, by omega⟩
      have hsa : StopsArgs ('|' :: (joinWith '|' (v :: ws) ++ rest)) := by
        intro c hc
        simp only [List.head?_cons, Option.some.injEq] at hc
        subst hc
        decide
      obtain ⟨h1, h2⟩ := parseexec_word hN h0 hpw hsa g
      have h3 := at_append h0
      have hpk : peek buf buf.length (s + w.length) ['|'] = (true, s + w.length) := by
        rw [peek_at hN h3 (by decide)]
        rfl
      have h5 := at_cons h3
      have hpv := hw v (List.mem_cons_of_mem _ (List.mem_cons_self _ _))
      have hg : (gettoken buf buf.length (s + w.length)).ps = s + w.length + 1 := by
        rw [gettoken_sym_at hN h3 (by decide)]
        exact skipws_at_nonws hN h5 (joinWith_cons_head hpv rest)
      obtain ⟨r, h6, h7⟩ := ih (by simp) (fun x hx => hw x (List.mem_cons_of_mem _ hx))
        (s + w.length + 1) (g + 1) h5 (by omega)
      have h8 := parsepipe_pipe h1 (by rw [hpk]) (by rw [hg]; exact h6)
      refine ⟨pipecmd (execOf [(s, s + w.length)]) r, ?_, ?_⟩
      · rw [h8]
        simp only [joinWith, List.length_append, List.length_cons]
        congr 2
        omega
      · show Tree.pipe ((execOf [(s, s + w.length)]).ranges buf) (r.ranges buf) = _
        rw [h2, h7]
        rfl

theorem peek_at_stop {buf : List Char} (hN : NUL ∉ buf) {s : Nat} {rest : List Char}
    (h : At buf s rest) (toks : List Char)
    (hr : ∀ c, rest.head? = some c → c ∉ whitespace ∧ toks.contains c = false) :
    peek buf buf.length s toks = (false, s) := by
  cases hrest : rest with
  | nil => rw [hrest] at h; exact peek_at_nil h _
  | cons c l =>
    rw [hrest] at h
    obtain ⟨h1, h2⟩ := hr c (by rw [hrest]; rfl)
    rw [peek_at hN h h1, h2]

theorem pipelines_head {p : List (List Char)} {pls : List (List (List Char))}
    (hp : p ≠ [] ∧ ∀ w ∈ p, PlainWord w) (rest : List Char) :
    ∀ c, (joinWith ';' ((p :: pls).map (joinWith '|')) ++ rest).head? = some c →
      c ∉ whitespace := by
  obtain ⟨hne, hw⟩ := hp
  cases p with
  | nil => exact absurd rfl hne
  | cons w ws =>
    have hpw := hw w (List.mem_cons_self _ _)
    cases pls with
    | nil =>
      simpa [joinWith] using @joinWith_cons_head '|' w ws hpw rest
    | cons q pls =>
      have := @joinWith_cons_head '|' w ws hpw
        (';' :: joinWith ';' ((q :: pls).map (joinWith '|')) ++ rest)
      simpa [joinWith, List.append_assoc] using this

/-- The line `p1;p2;...;pn` of pipelines of plain words, followed by the end of the line or by
`)`: `parseline` returns the `List`s nested to the right. -/
theorem parseline_pipelines {buf : List Char} (hN : NUL ∉ buf) {rest : List Char}
    (hr : ∀ c, rest.head? = some c → c = ')')
    (pls : List (List (List Char))) (hne : pls ≠ [])
    (hp : ∀ p ∈ pls, p ≠ [] ∧ ∀ w ∈ p, PlainWord w) (s f : Nat)
    (h : At buf s (joinWith ';' (pls.map (joinWith '|')) ++ rest))
    (hf : buf.length - s + 2 ≤ f) :
    ∃ c, parseline buf buf.length f s =
        .ok (c, s + (joinWith ';' (pls.map (joinWith '|'))).length) ∧
      c.ranges buf = rightNest .list (pls.map pipeTree) := by
  induction pls generalizing s f with
  | nil => exact absurd rfl hne
  | cons p pls ih =>
    have hpp := hp p (List.mem_cons_self _ _)
    obtain ⟨g, rfl⟩ : ∃ g, f = g + 1 := ⟨f - 1, by omega⟩
    cases pls with
    | nil =>
      simp only [List.map_cons, List.map_nil, joinWith] at h ⊢
      obtain ⟨c, h1, h2⟩ := parsepipe_words hN
        (by intro c hc; rw [hr c hc]; decide) p hpp.1 hpp.2 s g h (by omega)
      have h3 := at_append h
      have hstop : ∀ toks : List Char, toks.contains ')' = false →
          peek buf buf.length (s + (joinWith '|' p).length) toks =
            (false, s + (joinWith '|' p).length) := by
        intro toks ht
        apply peek_at_stop hN h3
        intro c hc
        rw [hr c hc]
        exact ⟨by decide, ht⟩
      have hsk : skipws buf buf.length (s + (joinWith '|' p).length) =
          s + (joinWith '|' p).length := by
        have := congrArg Prod.snd (hstop [] rfl)
        simpa [peek_snd] using this
      have h4 := parseline_last h1 (parsebackLoop_none _ c (by rw [hstop ['&'] rfl]))
        (by rw [hsk, hstop [';'] rfl])
      rw [hsk, hsk] at h4
      exact ⟨c, h4, h2⟩
    | cons q pls =>
      have h0 : At buf s (joinWith '|' p ++
          (';' :: (joinWith ';' ((q :: pls).map (joinWith '|')) ++ rest))) := by
        simpa [joinWith, List.append_assoc] using h
      have hl := at_length h0
      simp only [List.length_append, List.length_cons] at hl
      obtain ⟨c, h1, h2⟩ := parsepipe_words hN
        (by intro c hc; simp only [List.head?_cons, Option.some.injEq] at hc; subst hc; decide)
        p hpp.1 hpp.2 s g h0 (by omega)
      have h3 := at_append h0
      have hsk : skipws buf buf.length (s + (joinWith '|' p).length) =
          s + (joinWith '|' p).length :=
        skipws_at_nonws hN h3
          (by intro c hc; simp only [List.head?_cons, Option.some.injEq] at hc; subst hc; decide)
      have hamp : peek buf buf.length (s + (joinWith '|' p).length) ['&'] =
          (false, s + (joinWith '|' p).length) := by
        rw [peek_at hN h3 (by decide)]
        rfl
      have hsemi : peek buf buf.length (s + (joinWith '|' p).length) [';'] =
          (true, s + (joinWith '|' p).length) := by
        rw [peek_at hN h3 (by decide)]
        rfl
      have h5 := at_cons h3
      have hq := hp q (List.mem_cons_of_mem _ (List.mem_cons_self _ _))
      have hg : (gettoken buf buf.length (s + (joinWith '|' p).length)).ps =
          s + (joinWith '|' p).length + 1 := by
        rw [gettoken_sym_at hN h3 (by decide)]
        exact skipws_at_nonws hN h5 (pipelines_head hq rest)
      obtain ⟨r, h6, h7⟩ := ih (by simp) (fun x hx => hp x (List.mem_cons_of_mem _ hx))
        (s + (joinWith '|' p).length + 1) g h5 (by omega)
      have h8 := parseline_list h1 (parsebackLoop_none _ c (by rw [hamp]))
        (by rw [hsk, hsemi]) (by rw [hsk, hg]; exact h6)
      refine ⟨listcmd c r, ?_, ?_⟩
      · rw [h8]
        simp only [List.map_cons, joinWith, List.length_append, List.length_cons]
        congr 2
        omega
      · show Tree.list (c.ranges buf) (r.ranges buf) = _
        rw [h2, h7]
        rfl

theorem ranges_iterate_back (buf : List Char) (k : Nat) (c : Cmd) :
    (Nat.iterate backcmd k c).ranges buf = Nat.iterate Tree.back k (c.ranges buf) := by
  induction k generalizing c with
  | zero => rfl
  | succ k ih =>
    show (Nat.iterate backcmd k (backcmd c)).ranges buf = Nat.iterate Tree.back k (.back _)
    rw [ih]
    rfl

/-- A run of `k` characters `&` at the end of the line wraps the tree in `k` `Background`s. -/
theorem parsebackLoop_amps {buf : List Char} (hN : NUL ∉ buf) (k : Nat) (c : Cmd) (s n : Nat)
    (h : At buf s (List.replicate k '&')) (hn : k ≤ n) :
    parsebackLoop buf buf.length n c s = .ok (Nat.iterate backcmd k c, buf.length) := by
  induction k generalizing c s n with
  | zero =>
    simp only [List.replicate_zero] at h
    rw [parsebackLoop_none _ _ (by rw [peek_at_nil h]), at_nil_eq h, skipws_end]
    rfl
  | succ k ih =>
    rw [List.replicate_succ] at h
    obtain ⟨m, rfl⟩ : ∃ m, n = m + 1 := ⟨n - 1, by omega⟩
    have hpk : peek buf buf.length s ['&'] = (true, s) := by
      rw [peek_at hN h (by decide)]
      rfl
    have h5 := at_cons h
    have hg : (gettoken buf buf.length s).ps = s + 1 := by
      rw [gettoken_sym_at hN h (by decide)]
      apply skipws_at_nonws hN h5
      intro c hc
      cases k with
      | zero => simp at hc
      | succ k =>
        simp only [List.replicate_succ, List.head?_cons, Option.some.injEq] at hc
        subst hc
        decide
    simp only [parsebackLoop, hpk, if_true, gettoken_peek, hg]
    rw [ih (backcmd c) (s + 1) m h5 (by omega)]
    rfl

/-! ## Whole lines -/

theorem nul_not_pipelines {pls : List (List (List Char))}
    (hp : ∀ p ∈ pls, p ≠ [] ∧ ∀ w ∈ p, PlainWord w) :
    NUL ∉ joinWith ';' (pls.map (joinWith '|')) := by
  apply nul_not_joinWith (by decide)
  intro t ht
  obtain ⟨p, hp1, rfl⟩ := List.mem_map.1 ht
  exact nul_not_joinWith (by decide) (fun w hw => nul_not_word ((hp p hp1).2 w hw))

/-- The line `p1;p2;...;pn` of pipelines `w1|...|wk` of plain words parses to the `List`s, nested
to the right, of the `Pipe`s, nested to the right, of the `Exec`s of the words. -/
theorem parsecmd_pipelines (pls : List (List (List Char))) (hne : pls ≠ [])
    (hp : ∀ p ∈ pls, p ≠ [] ∧ ∀ w ∈ p, PlainWord w) :
    ∃ c b1, parsecmd (joinWith ';' (pls.map (joinWith '|'))) = .ok (c, b1) ∧
      c.strings b1 = rightNest .list (pls.map pipeTree) := by
  have hN := nul_not_pipelines hp
  have hlen := strlen_eq_length hN
  have hat : At (joinWith ';' (pls.map (joinWith '|'))) 0
      (joinWith ';' (pls.map (joinWith '|')) ++ []) := by
    simpa using at_zero (joinWith ';' (pls.map (joinWith '|')))
  obtain ⟨c, h1, h2⟩ := @parseline_pipelines _ hN [] (by intro c hc; cases hc) pls hne hp
    0 (4 * (joinWith ';' (pls.map (joinWith '|'))).length + 4) hat (by omega)
  rw [Nat.zero_add] at h1
  obtain ⟨b1, h3, h4⟩ := parsecmd_of_parseline (by rw [hlen]; exact h1)
    (by rw [hlen]; exact skipws_end _ _)
    (intact_of_ranges h2 (intact_listTree _))
  exact ⟨c, b1, h3, by rw [h4, h2]⟩

theorem map_singleton_join (ws : List (List Char)) :
    (ws.map (fun w => [w])).map (joinWith '|') = ws := by
  induction ws with
  | nil => rfl
  | cons w ws ih => simp only [List.map_cons, ih, joinWith]

theorem map_singleton_pipeTree (ws : List (List Char)) :
    (ws.map (fun w => [w])).map pipeTree = ws.map exec1 := by
  induction ws with
  | nil => rfl
  | cons w ws ih =>
    simp only [List.map_cons, ih, pipeTree, List.map_nil, rightNest]

/-- The line `a|b` followed by `k` characters `&`: the pipeline under `k` `Background`s. -/
theorem parsecmd_pipe_amps (a b : List Char) (k : Nat) (ha : PlainWord a) (hb : PlainWord b) :
    ∃ c b1, parsecmd (joinWith '|' [a, b] ++ List.replicate k '&') = .ok (c, b1) ∧
      c.strings b1 = Nat.iterate Tree.back k (.pipe (exec1 a) (exec1 b)) := by
  have hw : ∀ w ∈ [a, b], PlainWord w := by
    intro w hw
    simp only [List.mem_cons, List.mem_singleton, List.not_mem_nil, or_false] at hw
    rcases hw with rfl | rfl
    · exact ha
    · exact hb
  have hN : NUL ∉ joinWith '|' [a, b] ++ List.replicate k '&' := by
    simp only [List.mem_append, not_or]
    refine ⟨nul_not_joinWith (by decide) (fun w h => nul_not_word (hw w h)), ?_⟩
    intro hm
    exact absurd (List.eq_of_mem_replicate hm) (by decide)
  have hlen := strlen_eq_length hN
  generalize hbuf : joinWith '|' [a, b] ++ List.replicate k '&' = buf at hN hlen ⊢
  have hat : At buf 0 (joinWith '|' [a, b] ++ List.replicate k '&') := by
    rw [hbuf]; exact at_zero buf
  have hrest : ∀ c, (List.replicate k '&').head? = some c → c ∈ [')', '&', ';'] := by
    intro c hc
    cases k with
    | zero => simp at hc
    | succ k =>
      simp only [List.replicate_succ, List.head?_cons, Option.some.injEq] at hc
      subst hc
      decide
  obtain ⟨c, h1, h2⟩ := parsepipe_words hN hrest [a, b] (by simp) hw 0
    (4 * buf.length + 3) hat (by omega)
  rw [Nat.zero_add] at h1
  have h3 : At buf (joinWith '|' [a, b]).length (List.replicate k '&') := by
    simpa using at_append hat
  have hl := at_length h3
  simp only [List.length_replicate] at hl
  have h4 := parsebackLoop_amps hN k c _ (buf.length - (joinWith '|' [a, b]).length) h3
    (by omega)
  have hend : At buf buf.length [] := ⟨Nat.le_refl _, List.drop_length _⟩
  have h5 := parseline_last h1 h4 (by rw [peek_at_nil hend])
  rw [skipws_end] at h5
  obtain ⟨b1, h6, h7⟩ := parsecmd_of_parseline (by rw [hlen]; exact h5)
    (by rw [hlen]; exact skipws_end _ _)
    (by rw [intact_iterate_backcmd]; exact intact_of_ranges h2 (intact_pipeTree _))
  refine ⟨_, b1, h6, ?_⟩
  rw [h7, ranges_iterate_back, h2]
  rfl

/-- The line `(a;b) | c`: the parenthesized list is the left operand of the pipe. -/
theorem parsecmd_group_pipe (a b c : List Char) (ha : PlainWord a) (hb : PlainWord b)
    (hc : PlainWord c) :
    ∃ t b1, parsecmd ('(' :: (a ++ ';' :: (b ++ ')' :: ' ' :: '|' :: ' ' :: c))) = .ok (t, b1) ∧
      t.strings b1 = .pipe (.list (exec1 a) (exec1 b)) (exec1 c) := by
  have hN : NUL ∉ '(' :: (a ++ ';' :: (b ++ ')' :: ' ' :: '|' :: ' ' :: c)) := by
    have h1 := nul_not_word ha
    have h2 := nul_not_word hb
    have h3 := nul_not_word hc
    simp only [List.mem_cons, List.mem_append, not_or]
    refine ⟨by decide, h1, by decide, h2, by decide, by decide, by decide, by decide, h3⟩
  have hlen := strlen_eq_length hN
  generalize hbuf : '(' :: (a ++ ';' :: (b ++ ')' :: ' ' :: '|' :: ' ' :: c)) = buf at hN hlen ⊢
  have hpls : ∀ p ∈ [[a], [b]], p ≠ [] ∧ ∀ w ∈ p, PlainWord w := by
    intro p hp
    simp only [List.mem_cons, List.mem_singleton, List.not_mem_nil, or_false] at hp
    rcases hp with rfl | rfl
    · exact ⟨by simp, fun w hw => by rw [List.mem_singleton] at hw; exact hw ▸ ha⟩
    · exact ⟨by simp, fun w hw => by rw [List.mem_singleton] at hw; exact hw ▸ hb⟩
  have h0 : At buf 0 ('(' :: (joinWith ';' ([[a], [b]].map (joinWith '|')) ++
      (')' :: ' ' :: '|' :: ' ' :: c))) := by
    rw [← hbuf]
    simpa [joinWith, List.append_assoc] using
      at_zero ('(' :: (a ++ ';' :: (b ++ ')' :: ' ' :: '|' :: ' ' :: c)))
  have hL := at_length h0
  simp only [List.length_cons, List.length_append] at hL
  -- the opening parenthesis
  have hpk0 : peek buf buf.length 0 ['('] = (true, 0) := by
    rw [peek_at hN h0 (by decide)]
    rfl
  have h1 := at_cons h0
  have hg0 : (gettoken buf buf.length 0).ps = 0 + 1 := by
    rw [gettoken_sym_at hN h0 (by decide)]
    exact skipws_at_nonws hN h1 (pipelines_head (hpls [a] (by simp)) _)
  -- the list inside
  obtain ⟨cl, h2, h3⟩ := @parseline_pipelines buf hN (')' :: ' ' :: '|' :: ' ' :: c)
    (by intro d hd; simpa using hd.symm) [[a], [b]] (by simp) hpls (0 + 1) (4 * buf.length)
    h1 (by omega)
  generalize hp : 0 + 1 + (joinWith ';' ([[a], [b]].map (joinWith '|'))).length = p at h2
  have h4 : At buf p (')' :: ' ' :: '|' :: ' ' :: c) := by
    rw [← hp]; exact at_append h1
  -- the closing parenthesis and the whitespace after it
  have hpk1 : peek buf buf.length p [')'] = (true, p) := by
    rw [peek_at hN h4 (by decide)]
    rfl
  have h5 : At buf (p + 1) ([' '] ++ ('|' :: ' ' :: c)) := at_cons h4
  have h6 : At buf (p + 1 + 1) ('|' :: ' ' :: c) := at_append h5
  have hg1 : (gettoken buf buf.length p).ps = p + 1 + 1 := by
    rw [gettoken_sym_at hN h4 (by decide)]
    exact skipws_at hN h5 (by decide) (by intro d hd; simp at hd; subst hd; decide)
  have hrd : parseredirs buf buf.length cl (p + 1 + 1) = .ok (cl, p + 1 + 1) := by
    rw [parseredirs_none _ (by rw [peek_at hN h6 (by decide)]; rfl)]
    rw [skipws_at_nonws hN h6 (by intro d hd; simp at hd; subst hd; decide)]
  have hex := parseexec_block (by rw [hpk0]) (by rw [hg0]; exact h2) (by rw [hpk1])
    (by rw [hg1]; exact hrd)
  -- the pipe and its right operand
  have hpk2 : peek buf buf.length (p + 1 + 1) ['|'] = (true, p + 1 + 1) := by
    rw [peek_at hN h6 (by decide)]
    rfl
  have h7 : At buf (p + 1 + 1 + 1) ([' '] ++ c) := at_cons h6
  have h8 : At buf (p + 1 + 1 + 1 + 1) (joinWith '|' [c] ++ []) := by
    simpa [joinWith] using at_append h7
  have hg2 : (gettoken buf buf.length (p + 1 + 1)).ps = p + 1 + 1 + 1 + 1 := by
    rw [gettoken_sym_at hN h6 (by decide)]
    have hcw : ∀ d, c.head? = some d → d ∉ whitespace := by
      have := @head_word_not_ws c [] hc
      simpa using this
    exact skipws_at hN h7 (by decide) hcw
  obtain ⟨cr, h9, h10⟩ := @parsepipe_words buf hN [] (by intro d hd; cases hd) [c]
    (by simp) (by intro w hw; rw [List.mem_singleton] at hw; exact hw ▸ hc)
    (p + 1 + 1 + 1 + 1) (4 * buf.length + 2) h8 (by omega)
  have hend : p + 1 + 1 + 1 + 1 + (joinWith '|' [c]).length = buf.length := by
    have := at_length h8
    simpa using this
  rw [hend] at h9
  have hpp := parsepipe_pipe hex (by rw [hpk2]) (by rw [hg2]; exact h9)
  have hat : At buf buf.length [] := ⟨Nat.le_refl _, List.drop_length _⟩
  have hln := parseline_last hpp (parsebackLoop_none _ _ (by rw [peek_at_nil hat]))
    (by rw [skipws_end, peek_at_nil hat])
  rw [skipws_end, skipws_end] at hln
  obtain ⟨b1, h11, h12⟩ := parsecmd_of_parseline (by rw [hlen]; exact hln)
    (by rw [hlen]; exact skipws_end _ _)
    (intact_pipecmd (intact_of_ranges h3 (intact_listTree _))
      (intact_of_ranges h10 (intact_pipeTree _)))
  refine ⟨_, b1, h11, ?_⟩
  rw [h12]
  show Tree.pipe (cl.ranges buf) (cr.ranges buf) = _
  rw [h3, h10]
  rfl

/-! ## Redirections -/

theorem parseredirsLoop_skipws (buf : List Char) (es n : Nat) (c : Cmd) (s : Nat) :
    parseredirsLoop buf es n c (skipws buf es s) = parseredirsLoop buf es n c s := by
  cases n <;> simp only [parseredirsLoop, peek_skipws]

theorem opText_lt : opText '<' = ['<'] := by decide

theorem opText_gt : opText '>' = ['>'] := by decide

theorem opText_app : opText '+' = ['>', '>'] := by decide

theorem directive_head {d : Directive} (hd : DirectiveOK d) (tail : List Char) :
    ∀ c, (d.text ++ tail).head? = some c → wordChar c = false := by
  intro c hc
  obtain ⟨h1, h2, _, _⟩ := hd
  cases hl : d.lead with
  | cons x l =>
    simp only [Directive.text, hl, List.cons_append, List.head?_cons, Option.some.injEq] at hc
    subst hc
    have hx : x ∈ whitespace := h1 x (by rw [hl]; exact List.mem_cons_self _ _)
    cases hb : wordChar x with
    | false => rfl
    | true => exact absurd hx (wordChar_not_mem_ws hb)
  | nil =>
    simp only [Directive.text, hl, List.nil_append] at hc
    rcases h2 with h | h | h <;> rw [h] at hc <;>
      simp only [opText_lt, opText_gt, opText_app, List.cons_append, List.head?_cons, Option.some.injEq] at hc <;>
      subst hc <;> decide

/-- The operator of a directive, as `gettoken` hands it back, and where the file name starts. -/
theorem gettoken_op_at {buf : List Char} (hN : NUL ∉ buf) {s : Nat} {d : Directive}
    {tail : List Char} (h : At buf s (d.text ++ tail)) (hd : DirectiveOK d) :
    (peek buf buf.length s ['<', '>']).1 = true ∧
    (gettoken buf buf.length s).ret = d.op ∧
    (gettoken buf buf.length s).ps = s + d.lead.length + (opText d.op).length + d.gap.length ∧
    At buf (s + d.lead.length + (opText d.op).length + d.gap.length) (d.file ++ tail) := by
  obtain ⟨h1, h2, h3, h4⟩ := hd
  have h0 : At buf s (d.lead ++ (opText d.op ++ (d.gap ++ (d.file ++ tail)))) := by
    simpa [Directive.text, List.append_assoc] using h
  have hop : ∀ c, (opText d.op ++ (d.gap ++ (d.file ++ tail))).head? = some c →
      c ∉ whitespace := by
    intro c hc
    rcases h2 with h | h | h <;> rw [h] at hc <;>
      simp only [opText_lt, opText_gt, opText_app, List.cons_append, List.head?_cons, Option.some.injEq] at hc <;>
      subst hc <;> decide
  have hfile : ∀ c, (d.file ++ tail).head? = some c → c ∉ whitespace :=
    head_word_not_ws h4
  have hgf : ∀ c, (d.gap ++ (d.file ++ tail)).head? = some c → c ≠ '>' := by
    intro c hc
    cases hg : d.gap with
    | cons x l =>
      rw [hg] at hc
      simp only [List.cons_append, List.head?_cons, Option.some.injEq] at hc
      subst hc
      have hx : x ∈ whitespace := h3 x (by rw [hg]; exact List.mem_cons_self _ _)
      rintro rfl
      exact absurd hx (by decide)
    | nil =>
      rw [hg, List.nil_append] at hc
      have := hfile c hc
      obtain ⟨x, l, hx, hw⟩ := plainWord_head h4
      rw [hx] at hc
      simp only [List.cons_append, List.head?_cons, Option.some.injEq] at hc
      subst hc
      rintro rfl
      exact absurd hw (by decide)
  have ha1 := at_append h0
  have ha2 := at_append ha1
  have ha3 := at_append ha2
  rw [peek_skip_at hN h0 h1 hop, gettoken_skip_at hN h0 h1 hop]
  refine ⟨?_, ?_, ?_, ha3⟩
  · rcases h2 with h | h | h <;> rw [h] at ha1 <;>
      simp only [opText_lt, opText_gt, opText_app, List.cons_append, List.nil_append, if_true] at ha1 <;>
      rw [peek_at hN ha1 (by decide)] <;> rfl
  · rcases h2 with h | h | h
    · rw [h] at ha1 ⊢
      rw [gettoken_sym_at hN (by simpa [opText_lt, opText_gt, opText_app] using ha1) (by decide)]
    · rw [h] at ha1 ⊢
      rw [gettoken_gt_at hN (by simpa [opText_lt, opText_gt, opText_app] using ha1)
        (fun hh => hgf '>' (by simpa [opText_lt, opText_gt, opText_app] using hh) rfl)]
    · rw [h] at ha1 ⊢
      rw [gettoken_gtgt_at hN (by simpa [opText_lt, opText_gt, opText_app] using ha1)]
  · have hsk := skipws_at hN ha2 h3 hfile
    rcases h2 with h | h | h
    · rw [h] at ha1 hsk ⊢
      rw [gettoken_sym_at hN (by simpa [opText_lt, opText_gt, opText_app] using ha1) (by decide)]
      simpa [opText_lt, opText_gt, opText_app] using hsk
    · rw [h] at ha1 hsk ⊢
      rw [gettoken_gt_at hN (by simpa [opText_lt, opText_gt, opText_app] using ha1)
        (fun hh => hgf '>' (by simpa [opText_lt, opText_gt, opText_app] using hh) rfl)]
      simpa [opText_lt, opText_gt, opText_app] using hsk
    · rw [h] at ha1 hsk ⊢
      rw [gettoken_gtgt_at hN (by simpa [opText_lt, opText_gt, opText_app] using ha1)]
      simpa [opText_lt, opText_gt, opText_app] using hsk

theorem ranges_redirFor (buf : List Char) {op : Char} (h : op = '<' ∨ op = '>' ∨ op = '+')
    (c : Cmd) (q e : Nat) :
    (redirFor op c q e).ranges buf = redirTree op (c.ranges buf) (slice buf q e) := by
  rcases h with rfl | rfl | rfl <;> rfl

/-- The loop of `parseredirs` over `k` directives followed by something that is not one: the
node is wrapped once per directive, from left to right. -/
theorem parseredirsLoop_directives {buf : List Char} (hN : NUL ∉ buf) {trail rest : List Char}
    (ht : AllWs trail)
    (hrest : ∀ ch, rest.head? = some ch → ch ∉ whitespace ∧ ch ≠ '<' ∧ ch ≠ '>')
    (ds : List Directive) (hds : ∀ d ∈ ds, DirectiveOK d)
    (hword : ds ≠ [] → trail = [] → ∀ ch, rest.head? = some ch → wordChar ch = false)
    (c : Cmd) (s n : Nat) (h : At buf s (directivesText ds ++ (trail ++ rest)))
    (hn : buf.length - s ≤ n) :
    ∃ c1, parseredirsLoop buf buf.length n c s =
        .ok (c1, s + (directivesText ds).length + trail.length) ∧
      c1.ranges buf = wrapRedirs (c.ranges buf) ds ∧
      (c.isExec = false ∨ ds ≠ [] → c1.isExec = false) := by
  induction ds generalizing c s n with
  | nil =>
    simp only [directivesText, List.nil_append] at h
    have hr2 : ∀ ch, rest.head? = some ch → ch ∉ whitespace := fun ch hc => (hrest ch hc).1
    have hpk : peek buf buf.length s ['<', '>'] = (false, s + trail.length) := by
      rw [peek_skip_at hN h ht hr2]
      apply peek_at_stop hN (at_append h)
      intro ch hc
      refine ⟨hr2 ch hc, ?_⟩
      obtain ⟨_, h1, h2⟩ := hrest ch hc
      cases hb : ['<', '>'].contains ch with
      | false => rfl
      | true =>
        have hb2 : ch ∈ ['<', '>'] := by simpa using hb
        simp only [List.mem_cons, List.mem_singleton, List.not_mem_nil, or_false] at hb2
        rcases hb2 with rfl | rfl
        · exact absurd rfl h1
        · exact absurd rfl h2
    refine ⟨c, ?_, rfl, fun hx => hx.elim id (fun hne => absurd rfl hne)⟩
    cases n <;> simp [parseredirsLoop, hpk, directivesText]
  | cons d ds ih =>
    have hd := hds d (List.mem_cons_self _ _)
    have h0 : At buf s (d.text ++ (directivesText ds ++ (trail ++ rest))) := by
      simpa [directivesText, List.append_assoc] using h
    obtain ⟨hpk, hret, hps, hat⟩ := gettoken_op_at hN h0 hd
    have htail : ∀ ch, (directivesText ds ++ (trail ++ rest)).head? = some ch →
        wordChar ch = false := by
      intro ch hc
      cases ds with
      | cons d2 ds2 =>
        have hd2 := hds d2 (List.mem_cons_of_mem _ (List.mem_cons_self _ _))
        apply directive_head hd2 (directivesText ds2 ++ (trail ++ rest)) ch
        simpa [directivesText, List.append_assoc] using hc
      | nil =>
        simp only [directivesText, List.nil_append] at hc
        cases htr : trail with
        | cons x l =>
          rw [htr] at hc
          simp only [List.cons_append, List.head?_cons, Option.some.injEq] at hc
          subst hc
          have hx : x ∈ whitespace := ht x (by rw [htr]; exact List.mem_cons_self _ _)
          cases hb : wordChar x with
          | false => rfl
          | true => exact absurd hx (wordChar_not_mem_ws hb)
        | nil =>
          rw [htr, List.nil_append] at hc
          exact hword (by simp) htr ch hc
    have hf := gettoken_word_at hN hat hd.2.2.2 htail
    have hat2 := at_append hat
    have hl := at_length hat
    have hlw := one_le_length_word hd.2.2.2
    simp only [List.length_append] at hl
    obtain ⟨m, rfl⟩ : ∃ m, n = m + 1 := ⟨n - 1, by omega⟩
    obtain ⟨c1, h1, h2, h3⟩ := ih (fun x hx => hds x (List.mem_cons_of_mem _ hx))
      (fun hne => hword (by simp))
      (redirFor d.op c (s + d.lead.length + (opText d.op).length + d.gap.length)
        (s + d.lead.length + (opText d.op).length + d.gap.length + d.file.length))
      (s + d.lead.length + (opText d.op).length + d.gap.length + d.file.length) m hat2
      (by omega)
    refine ⟨c1, ?_, ?_, fun _ => h3 (Or.inl (redirFor_isExec hd.2.1 _ _ _))⟩
    · simp only [parseredirsLoop, hpk, if_true, gettoken_peek, hps, hret, hf]
      rw [if_neg (by simp), parseredirsLoop_skipws, h1]
      simp only [directivesText, Directive.text, List.length_append]
      congr 2
      omega
    · rw [h2, ranges_redirFor buf hd.2.1, slice_at hat]
      rfl

/-! ## Words at the cursor -/

theorem peek_word_at {buf : List Char} (hN : NUL ∉ buf) {s : Nat} {w rest : List Char}
    (h : At buf s (w ++ rest)) (hw : PlainWord w) (toks : List Char)
    (ht : ∀ c ∈ toks, c ∈ symbols) : peek buf buf.length s toks = (false, s) := by
  obtain ⟨c, l, rfl, hc⟩ := plainWord_head hw
  rw [peek_at hN (by simpa using h) (wordChar_not_mem_ws hc)]
  have hs := wordChar_not_sym hc
  cases hb : toks.contains c with
  | false => rfl
  | true =>
    have hb2 : c ∈ toks := by simpa using hb
    have := ht c hb2
    rw [(strchr_iff (wordChar_ne_nul hc)).2 this] at hs
    exact Bool.noConfusion hs

theorem allWs_nil : AllWs [] := by
  intro c hc
  cases hc

theorem allWs_space : AllWs [' '] := by
  intro c hc
  rw [List.mem_singleton] at hc
  subst hc
  decide

/-! ## How a parse can end without a tree, and the indices of the stores -/

/-- A store through the `execcmd` at an index below `MAXARGS`, or through a `redircmd`, is no
fault, and leaves a node of the same kind. -/
theorem storeArg_plain {c : Cmd} {i : Nat} (q e : Option Nat) (hi : i < MAXARGS)
    (hp : c.isPlain = true) : ∃ c1, storeArg c i q e = .ok c1 ∧ c1.isPlain = true := by
  cases c with
  | exec argv eargv =>
    exact ⟨.exec (argv.set i q) (eargv.set i e), by simp only [storeArg, if_pos hi], rfl⟩
  | redir c file efile mode fd =>
    simp only [storeArg]
    split
    · exact ⟨_, rfl, rfl⟩
    · exact ⟨_, rfl, rfl⟩
  | pipe l r => exact absurd hp (by simp [Cmd.isPlain])
  | list l r => exact absurd hp (by simp [Cmd.isPlain])
  | back c => exact absurd hp (by simp [Cmd.isPlain])
  | over c file efile mode fd w =>
    simp only [storeArg]
    split
    · exact ⟨_, rfl, rfl⟩
    · exact ⟨_, rfl, rfl⟩

theorem redirFor_plain {tok : Char} {c : Cmd} (q e : Nat) (hp : c.isPlain = true) :
    (redirFor tok c q e).isPlain = true := by
  unfold redirFor
  split
  · rfl
  · split
    · rfl
    · split
      · rfl
      · exact hp

theorem parseredirsLoop_plain {buf : List Char} {es : Nat} (n : Nat) (c : Cmd) (s : Nat)
    {c1 : Cmd} {s1 : Nat} (h : parseredirsLoop buf es n c s = .ok (c1, s1))
    (hp : c.isPlain = true) : c1.isPlain = true := by
  induction n generalizing c s with
  | zero =>
    simp only [parseredirsLoop] at h
    split at h
    · exact Except.noConfusion h
    · simp only [Except.ok.injEq, Prod.mk.injEq] at h
      rw [← h.1]; exact hp
  | succ n ih =>
    simp only [parseredirsLoop] at h
    split at h
    · split at h
      · exact Except.noConfusion h
      · exact ih _ _ h (redirFor_plain _ _ hp)
    · simp only [Except.ok.injEq, Prod.mk.injEq] at h
      rw [← h.1]; exact hp

theorem parseredirsLoop_fault {buf : List Char} {es : Nat} (n : Nat) (c : Cmd) (s : Nat)
    {f : Fault} (h : parseredirsLoop buf es n c s = .error f) : f.ofParser := by
  induction n generalizing c s with
  | zero =>
    simp only [parseredirsLoop] at h
    split at h
    · cases h
      trivial
    · exact Except.noConfusion h
  | succ n ih =>
    simp only [parseredirsLoop] at h
    split at h
    · split at h
      · cases h
        trivial
      · exact ih _ _ h
    · exact Except.noConfusion h

theorem parsebackLoop_fault {buf : List Char} {es : Nat} (n : Nat) (c : Cmd) (s : Nat)
    {f : Fault} (h : parsebackLoop buf es n c s = .error f) : f.ofParser := by
  induction n generalizing c s with
  | zero =>
    simp only [parsebackLoop] at h
    split at h
    · cases h
      trivial
    · exact Except.noConfusion h
  | succ n ih =>
    simp only [parsebackLoop] at h
    split at h
    · exact ih _ _ h
    · exact Except.noConfusion h

/-- The argument loop of `parseexec`, entered with `argc < MAXARGS` and with `cmd` at the
`execcmd` or at a `redircmd`: it ends with a tree or in a `panic` (every store it makes is at an
index below `MAXARGS`, a store at another index being the fault `badIndex`), and then `argc` is
still below `MAXARGS` and `cmd` still at such a node. -/
theorem parseargsLoop_index {buf : List Char} {es : Nat} (n : Nat) (c : Cmd) (argc s : Nat)
    (ha : argc < MAXARGS) (hc : c.isPlain = true) :
    (∀ f, parseargsLoop buf es n c argc s = .error f → f.ofParser) ∧
    (∀ c1 argc1 s1, parseargsLoop buf es n c argc s = .ok (c1, argc1, s1) →
      argc ≤ argc1 ∧ argc1 < MAXARGS ∧ c1.isPlain = true) := by
  induction n generalizing c argc s with
  | zero =>
    unfold parseargsLoop
    by_cases hp : (peek buf es s ['|', ')', '&', ';']).1 = true
    · rw [if_pos hp]
      refine ⟨fun f h => Except.noConfusion h, fun c1 a1 s1 h => ?_⟩
      simp only [Except.ok.injEq, Prod.mk.injEq] at h
      obtain ⟨rfl, rfl, _⟩ := h
      exact ⟨Nat.le_refl _, ha, hc⟩
    · rw [if_neg hp]
      dsimp only
      by_cases hr : (gettoken buf es (peek buf es s ['|', ')', '&', ';']).2).ret = NUL
      · rw [if_pos hr]
        refine ⟨fun f h => Except.noConfusion h, fun c1 a1 s1 h => ?_⟩
        simp only [Except.ok.injEq, Prod.mk.injEq] at h
        obtain ⟨rfl, rfl, _⟩ := h
        exact ⟨Nat.le_refl _, ha, hc⟩
      · rw [if_neg hr]
        by_cases hw : (gettoken buf es (peek buf es s ['|', ')', '&', ';']).2).ret ≠ 'a'
        · rw [if_pos hw]
          exact ⟨fun f h => by cases h; trivial, fun c1 a1 s1 h => Except.noConfusion h⟩
        · rw [if_neg hw]
          obtain ⟨c1, hst, hc1⟩ := storeArg_plain
            (some (gettoken buf es (peek buf es s ['|', ')', '&', ';']).2).q)
            (some (gettoken buf es (peek buf es s ['|', ')', '&', ';']).2).eq) ha hc
          rw [hst]
          simp only
          by_cases hm : argc + 1 ≥ MAXARGS
          · rw [if_pos hm]
            exact ⟨fun f h => by cases h; trivial, fun c1 a1 s1 h => Except.noConfusion h⟩
          · rw [if_neg hm]
            cases hrd : parseredirs buf es c1
                (gettoken buf es (peek buf es s ['|', ')', '&', ';']).2).ps with
            | error e =>
              refine ⟨fun f h => ?_, fun c1 a1 s1 h => Except.noConfusion h⟩
              simp only [Except.error.injEq] at h
              subst h
              exact parseredirsLoop_fault _ _ _ hrd
            | ok r =>
              obtain ⟨c2, p2⟩ := r
              simp only
              exact ⟨fun f h => by cases h; trivial, fun c1 a1 s1 h => Except.noConfusion h⟩
  | succ n ih =>
    unfold parseargsLoop
    by_cases hp : (peek buf es s ['|', ')', '&', ';']).1 = true
    · rw [if_pos hp]
      refine ⟨fun f h => Except.noConfusion h, fun c1 a1 s1 h => ?_⟩
      simp only [Except.ok.injEq, Prod.mk.injEq] at h
      obtain ⟨rfl, rfl, _⟩ := h
      exact ⟨Nat.le_refl _, ha, hc⟩
    · rw [if_neg hp]
      dsimp only
      by_cases hr : (gettoken buf es (peek buf es s ['|', ')', '&', ';']).2).ret = NUL
      · rw [if_pos hr]
        refine ⟨fun f h => Except.noConfusion h, fun c1 a1 s1 h => ?_⟩
        simp only [Except.ok.injEq, Prod.mk.injEq] at h
        obtain ⟨rfl, rfl, _⟩ := h
        exact ⟨Nat.le_refl _, ha, hc⟩
      · rw [if_neg hr]
        by_cases hw : (gettoken buf es (peek buf es s ['|', ')', '&', ';']).2).ret ≠ 'a'
        · rw [if_pos hw]
          exact ⟨fun f h => by cases h; trivial, fun c1 a1 s1 h => Except.noConfusion h⟩
        · rw [if_neg hw]
          obtain ⟨c1, hst, hc1⟩ := storeArg_plain
            (some (gettoken buf es (peek buf es s ['|', ')', '&', ';']).2).q)
            (some (gettoken buf es (peek buf es s ['|', ')', '&', ';']).2).eq) ha hc
          rw [hst]
          simp only
          by_cases hm : argc + 1 ≥ MAXARGS
          · rw [if_pos hm]
            exact ⟨fun f h => by cases h; trivial, fun c1 a1 s1 h => Except.noConfusion h⟩
          · rw [if_neg hm]
            cases hrd : parseredirs buf es c1
                (gettoken buf es (peek buf es s ['|', ')', '&', ';']).2).ps with
            | error e =>
              refine ⟨fun f h => ?_, fun c1 a1 s1 h => Except.noConfusion h⟩
              simp only [Except.error.injEq] at h
              subst h
              exact parseredirsLoop_fault _ _ _ hrd
            | ok r =>
              obtain ⟨c2, p2⟩ := r
              simp only
              obtain ⟨i1, i2⟩ := ih c2 (argc + 1) p2 (by omega)
                (parseredirsLoop_plain _ _ _ hrd hc1)
              refine ⟨i1, fun c3 a3 s3 h => ?_⟩
              have := i2 c3 a3 s3 h
              exact ⟨by omega, this.2.1, this.2.2⟩

/-- A plain command ends with a tree or in a `panic`: no store of `parseexec`, that of the null
sentinel included, is a fault. -/
theorem parseplain_fault {buf : List Char} {es s : Nat} {f : Fault}
    (h : parseplain buf es s = .error f) : f.ofParser := by
  simp only [parseplain] at h
  cases hrd : parseredirs buf es execcmd s with
  | error e =>
    rw [hrd] at h
    simp only [Except.error.injEq] at h
    subst h
    exact parseredirsLoop_fault _ _ _ hrd
  | ok r =>
    obtain ⟨c1, p1⟩ := r
    rw [hrd] at h
    simp only at h
    have hi := @parseargsLoop_index buf es (es - p1) c1 0 p1 (by decide)
      (parseredirsLoop_plain _ _ _ hrd rfl)
    cases hl : parseargsLoop buf es (es - p1) c1 0 p1 with
    | error e =>
      rw [hl] at h
      simp only [Except.error.injEq] at h
      subst h
      exact hi.1 _ hl
    | ok r2 =>
      obtain ⟨c2, argc, p2⟩ := r2
      rw [hl] at h
      simp only at h
      obtain ⟨c3, hst, _⟩ := storeArg_plain none none (hi.2 _ _ _ hl).2.1 (hi.2 _ _ _ hl).2.2
      rw [hst] at h
      exact Except.noConfusion h

theorem parse_fault (buf : List Char) (es : Nat) (fuel : Nat) :
    (∀ s f, parseline buf es fuel s = .error f → f.ofParser) ∧
    (∀ s f, parsepipe buf es fuel s = .error f → f.ofParser) ∧
    (∀ s f, parseexec buf es fuel s = .error f → f.ofParser) ∧
    (∀ s f, parseblock buf es fuel s = .error f → f.ofParser) := by
  induction fuel with
  | zero =>
    refine ⟨?_, ?_, ?_, ?_⟩ <;> intro s f h
    · simp only [parseline] at h; cases h; trivial
    · simp only [parsepipe] at h; cases h; trivial
    · simp only [parseexec] at h; cases h; trivial
    · simp only [parseblock] at h; cases h; trivial
  | succ n ih =>
    obtain ⟨ihl, ihp, ihe, ihb⟩ := ih
    refine ⟨?_, ?_, ?_, ?_⟩ <;> intro s f h
    · simp only [parseline] at h
      cases h0 : parsepipe buf es n s with
      | error e =>
        rw [h0] at h
        simp only [Except.error.injEq] at h
        subst h
        exact ihp _ _ h0
      | ok r =>
        obtain ⟨c, s1⟩ := r
        rw [h0] at h
        simp only at h
        cases h1 : parsebackLoop buf es (es - s1) c s1 with
        | error e =>
          rw [h1] at h
          simp only [Except.error.injEq] at h
          subst h
          exact parsebackLoop_fault _ _ _ h1
        | ok r1 =>
          obtain ⟨c1, s2⟩ := r1
          rw [h1] at h
          simp only at h
          split at h
          · cases h2 : parseline buf es n (gettoken buf es (peek buf es s2 [';']).2).ps with
            | error e =>
              rw [h2] at h
              simp only [Except.error.injEq] at h
              subst h
              exact ihl _ _ h2
            | ok r2 =>
              rw [h2] at h
              exact Except.noConfusion h
          · exact Except.noConfusion h
    · simp only [parsepipe] at h
      cases h0 : parseexec buf es n s with
      | error e =>
        rw [h0] at h
        simp only [Except.error.injEq] at h
        subst h
        exact ihe _ _ h0
      | ok r =>
        obtain ⟨c, s1⟩ := r
        rw [h0] at h
        simp only at h
        split at h
        · cases h2 : parsepipe buf es n (gettoken buf es (peek buf es s1 ['|']).2).ps with
          | error e =>
            rw [h2] at h
            simp only [Except.error.injEq] at h
            subst h
            exact ihp _ _ h2
          | ok r2 =>
            rw [h2] at h
            exact Except.noConfusion h
        · exact Except.noConfusion h
    · simp only [parseexec] at h
      split at h
      · exact ihb _ _ h
      · exact parseplain_fault h
    · simp only [parseblock] at h
      split at h
      · cases h0 : parseline buf es n (gettoken buf es (peek buf es s ['(']).2).ps with
        | error e =>
          rw [h0] at h
          simp only [Except.error.injEq] at h
          subst h
          exact ihl _ _ h0
        | ok r =>
          obtain ⟨c, s1⟩ := r
          rw [h0] at h
          simp only at h
          split at h
          · exact parseredirsLoop_fault _ _ _ h
          · cases h
            trivial
      · cases h
        trivial

/-- The ways `parsecmd` ends: in a `panic`, or `parseline` returns a tree with the whole line
read, and `parsecmd` ends as `nulterminate` does on that tree. -/
theorem parsecmd_cases (buf : List Char) :
    (∃ msg, parsecmd buf = .error (.panic msg)) ∨
    ∃ c s1, parseline buf (strlen buf) (4 * strlen buf + 4) 0 = .ok (c, s1) ∧
      skipws buf (strlen buf) s1 = strlen buf ∧
      (∀ b, nulterminate c buf = .ok b → parsecmd buf = .ok (c, b)) ∧
      (∀ e, nulterminate c buf = .error e → parsecmd buf = .error e) := by
  have hE := isEnd_strlen buf
  cases h0 : parseline buf (strlen buf) (4 * strlen buf + 4) 0 with
  | error e =>
    have h1 := (parse_fault _ _ _).1 _ _ h0
    have h2 := (parse_ne_fuel hE (4 * strlen buf + 4)).1 0 (Nat.zero_le _) (by omega)
    cases e with
    | panic msg => exact Or.inl ⟨msg, by simp only [parsecmd, h0]⟩
    | notNode => exact h1.elim
    | badIndex => exact h1.elim
    | nullDeref => exact h1.elim
    | fuel => exact absurd h0 h2
  | ok r =>
    obtain ⟨c, s1⟩ := r
    by_cases hs : (peek buf (strlen buf) s1 []).2 ≠ strlen buf
    · exact Or.inl ⟨"syntax", by simp only [parsecmd, h0, if_pos hs]⟩
    · refine Or.inr ⟨c, s1, rfl, ?_, fun b hb => ?_, fun e he => ?_⟩
      · rw [peek_snd] at hs
        exact Classical.not_not.1 hs
      · simp only [parsecmd, h0, if_neg hs, hb]
      · simp only [parsecmd, h0, if_neg hs, he]

/-! ## A larger bound on the nested calls changes nothing -/

theorem wordChar_nul : wordChar NUL = false := by decide

theorem ws_not_word {c : Char} (h : strchr whitespace c = true) : wordChar c = false := by
  simp [wordChar, h]

theorem sym_not_word {c : Char} (h : c ∈ symbols) : wordChar c = false := by
  have h2 : strchr symbols c = true := by
    simp only [strchr, Bool.or_eq_true, List.contains_iff_exists_mem_beq]
    exact Or.inr ⟨c, h, by simp⟩
  simp [wordChar, h2]

/-- Skipping whitespace leaves the cursor where no word is cut. -/
theorem bdry_skipws {buf : List Char} (es : Nat) {s : Nat} (h : Bdry buf s) :
    Bdry buf (skipws buf es s) := by
  by_cases he : skipws buf es s = s
  · rw [he]; exact h
  · have h1 := le_skipws buf es s
    have h2 := @skipws_between buf es s (skipws buf es s - 1) (by omega) (by omega)
    exact Or.inr (Or.inl (ws_not_word h2.2))

/-- After a token the cursor is where no word is cut, wherever `gettoken` was called. -/
theorem bdry_gettoken_ps {buf : List Char} {es : Nat} (hE : IsEnd buf es) {s : Nat}
    (hs : s ≤ es) : Bdry buf (gettoken buf es s).ps := by
  rcases gettoken_cases hE hs with ⟨h3, h4⟩ | ⟨h3, hm, h4⟩ | ⟨h3, h5, h6, h4⟩ | ⟨h3, h5, _, h4⟩ |
    ⟨h3, hw, h4⟩
  · rw [h4]
    exact Or.inr (Or.inr (by rw [hE.nul]; exact wordChar_nul))
  · rw [h4]
    apply bdry_skipws
    refine Or.inr (Or.inl ?_)
    rw [Nat.add_sub_cancel]
    apply sym_not_word
    simp only [List.mem_cons, List.mem_singleton, List.not_mem_nil, or_false] at hm
    simp only [symbols, List.mem_cons, List.mem_singleton, List.not_mem_nil, or_false]
    tauto
  · rw [h4]
    apply bdry_skipws
    refine Or.inr (Or.inl ?_)
    rw [show skipws buf es s + 2 - 1 = skipws buf es s + 1 from rfl, h6]
    decide
  · rw [h4]
    apply bdry_skipws
    refine Or.inr (Or.inl ?_)
    rw [Nat.add_sub_cancel, h5]
    decide
  · rw [h4]
    apply bdry_skipws
    refine Or.inr (Or.inr ?_)
    have hr : (gettoken buf es s).ret = 'a' := by rw [h4]
    have := (gettoken_wordRange hE hs hr).2.2.2
    rw [h4] at this
    exact this

/-- A word token taken where no word is cut starts its run of word bytes. -/
theorem gettoken_leftMax {buf : List Char} {es : Nat} (hE : IsEnd buf es) {s : Nat}
    (hs : s ≤ es) (hb : Bdry buf s) (hr : (gettoken buf es s).ret = 'a') :
    LeftMax buf (gettoken buf es s).q := by
  have hw := gettoken_wordRange hE hs hr
  have h1 : wordChar (charAt buf (gettoken buf es s).q) = true :=
    hw.2.2.1 _ (Nat.le_refl _) hw.1
  rw [gettoken_q] at h1 ⊢
  rcases bdry_skipws es hb with h | h | h
  · exact Or.inl h
  · exact Or.inr h
  · rw [h] at h1
    exact Bool.noConfusion h1

/-! ## The shape of every tree the parser builds -/

theorem Cmd.Built.built_mono {buf : List Char} {es lo hi : Nat} {c : Cmd} (h : c.Built buf es lo hi)
    {lo1 hi1 : Nat} (h1 : lo1 ≤ lo) (h2 : hi ≤ hi1) : c.Built buf es lo1 hi1 := by
  refine ⟨fun p hp => ?_, fun i hi => ?_⟩
  · obtain ⟨R, r1, r2, r3, r4⟩ := h.1 p hp
    refine ⟨R, r1, r2, r3, fun r hr => ?_⟩
    obtain ⟨w1, w2, w3, w4, w5⟩ := r4 r hr
    exact ⟨w1, w2, by omega, by omega, w5⟩
  · have := h.2 i hi
    omega

/-- No byte that is not a word byte lies inside a word. -/
theorem WordRange.not_inside {buf : List Char} {es q e : Nat} (h : WordRange buf es q e)
    {i : Nat} (hi : wordChar (charAt buf i) = false) : ¬ (q ≤ i ∧ i < e) := by
  rintro ⟨h1, h2⟩
  rw [h.2.2.1 i h1 h2] at hi
  exact Bool.noConfusion hi

theorem execNodes_execOf (R : List (Nat × Nat)) :
    (execOf R).execNodes =
      [(R.map (fun r => some r.1) ++ List.replicate (MAXARGS - R.length) none,
        R.map (fun r => some r.2) ++ List.replicate (MAXARGS - R.length) none)] := rfl

/-- The `execcmd` that holds words of the line has the shape `Cmd.Built`. -/
theorem built_execOf {buf : List Char} {es lo hi : Nat} {R : List (Nat × Nat)}
    (hlen : R.length < MAXARGS)
    (hR : ∀ r ∈ R, WordRange buf es r.1 r.2 ∧ LeftMax buf r.1 ∧ lo ≤ r.1 ∧ r.2 ≤ hi) :
    (execOf R).Built buf es lo hi := by
  refine ⟨fun p hp => ?_, fun i hi => ?_⟩
  · rw [execNodes_execOf, List.mem_singleton] at hp
    subst hp
    refine ⟨R, hlen, rfl, rfl, fun r hr => ?_⟩
    obtain ⟨w1, w2, w3, w4⟩ := hR r hr
    refine ⟨w1, w2, w3, w4, fun i hi => ?_⟩
    rw [ends_execOf hlen] at hi
    obtain ⟨r2, hr2, rfl⟩ := List.mem_map.1 hi
    exact w1.not_inside (hR r2 hr2).1.2.2.2
  · rw [ends_execOf hlen] at hi
    obtain ⟨r2, hr2, rfl⟩ := List.mem_map.1 hi
    obtain ⟨w1, _, w3, w4⟩ := hR r2 hr2
    have := w1.1
    omega

theorem execNodes_redirFor {tok : Char} (c : Cmd) (q e : Nat) :
    (redirFor tok c q e).execNodes = c.execNodes := by
  unfold redirFor
  split
  · rfl
  · split
    · rfl
    · split <;> rfl

theorem ends_redirFor {tok : Char} (h : tok = '<' ∨ tok = '>' ∨ tok = '+') (c : Cmd)
    (q e : Nat) : (redirFor tok c q e).ends = c.ends ++ [e] := by
  rcases h with rfl | rfl | rfl <;> rfl

/-- Wrapping a tree in the `redircmd` of a file name that is a word of the line keeps the shape
`Cmd.Built`. -/
theorem built_redirFor {buf : List Char} {es lo hi : Nat} {c : Cmd}
    (hc : c.Built buf es lo hi) {tok : Char} (ht : tok = '<' ∨ tok = '>' ∨ tok = '+')
    {q e hi1 : Nat} (hw : WordRange buf es q e) (h1 : lo ≤ e) (h2 : e ≤ hi1) (h3 : hi ≤ hi1) :
    (redirFor tok c q e).Built buf es lo hi1 := by
  refine ⟨fun p hp => ?_, fun i hi => ?_⟩
  · rw [execNodes_redirFor] at hp
    obtain ⟨R, r1, r2, r3, r4⟩ := hc.1 p hp
    refine ⟨R, r1, r2, r3, fun r hr => ?_⟩
    obtain ⟨w1, w2, w3, w4, w5⟩ := r4 r hr
    refine ⟨w1, w2, w3, by omega, fun i hi => ?_⟩
    rw [ends_redirFor ht, List.mem_append, List.mem_singleton] at hi
    rcases hi with hi | rfl
    · exact w5 i hi
    · exact w1.not_inside hw.2.2.2
  · rw [ends_redirFor ht, List.mem_append, List.mem_singleton] at hi
    rcases hi with hi | rfl
    · have := hc.2 i hi
      omega
    · omega

theorem Redirs.redirs_built {buf : List Char} {es : Nat} (hE : IsEnd buf es) {lo : Nat}
    {c : Cmd} {s : Nat} {c1 : Cmd} {s1 : Nat} (h : Redirs buf es c s c1 s1) (hs : s ≤ es)
    (hlo : lo ≤ s) (hc : c.Built buf es lo s) : c1.Built buf es lo s1 := by
  induction h with
  | @done c s hp =>
    rw [peek_snd]
    exact hc.built_mono (Nat.le_refl _) (le_skipws buf es s)
  | @step c s c1 s1 hp hf hr ih =>
    have h1 := gettoken_bounds hE hs
    have h2 := gettoken_bounds hE h1.2.2.2
    have hw := gettoken_wordRange hE h1.2.2.2 hf
    exact ih h2.2.2.2 (by omega)
      (built_redirFor hc (gettoken_redir_op hE hs hp) hw (by omega) (by omega) (by omega))

theorem Redirs.redirs_plain {buf : List Char} {es : Nat} {c : Cmd} {s : Nat} {c1 : Cmd}
    {s1 : Nat} (h : Redirs buf es c s c1 s1) (hc : c.isPlain = true) : c1.isPlain = true := by
  induction h with
  | done _ => exact hc
  | step _ _ _ ih => exact ih (redirFor_plain _ _ hc)

theorem Redirs.redirs_bdry {buf : List Char} {es : Nat} (hE : IsEnd buf es) {c : Cmd} {s : Nat}
    {c1 : Cmd} {s1 : Nat} (h : Redirs buf es c s c1 s1) (hs : s ≤ es) (hb : Bdry buf s) :
    Bdry buf s1 := by
  induction h with
  | @done c s hp =>
    rw [peek_snd]
    exact bdry_skipws es hb
  | @step c s c1 s1 hp hf hr ih =>
    have h1 := gettoken_ps_le hE hs
    exact ih (gettoken_ps_le hE h1) (bdry_gettoken_ps hE h1)

theorem getD_set {α : Type} (w : List α) (i j : Nat) (x d : α) :
    (w.set i x).getD j d = if i = j ∧ i < w.length then x else w.getD j d := by
  simp only [List.getD_eq_getElem?_getD, List.getElem?_set]
  by_cases h : i = j
  · subst h
    by_cases h2 : i < w.length
    · simp [h2]
    · simp [h2, List.getElem?_eq_none (Nat.le_of_not_lt h2)]
  · simp [h]

/-- What a store through a `redircmd` changes: it adds no `execcmd` to the tree, and the only
byte it can add to those `nulterminate` writes at is the one the stored pointer points at. -/
theorem storeArg_sub {c : Cmd} {i : Nat} {v ev : Option Nat} {c1 : Cmd}
    (h : storeArg c i v ev = .ok c1) (he : c.isExec = false) :
    (∀ x ∈ c1.execNodes, x ∈ c.execNodes) ∧ (∀ j ∈ c1.ends, j ∈ c.ends ∨ v = some j) := by
  cases c with
  | exec _ _ => exact absurd he (by simp [Cmd.isExec])
  | pipe _ _ => exact absurd h (by simp [storeArg])
  | list _ _ => exact absurd h (by simp [storeArg])
  | back _ => exact absurd h (by simp [storeArg])
  | redir c0 f ef m d =>
    simp only [storeArg] at h
    split at h
    · simp only [Except.ok.injEq] at h
      subst h
      refine ⟨fun x hx => ?_, fun j hj => ?_⟩
      · simp only [Cmd.execNodes] at hx ⊢
        split at hx
        · exact hx
        · cases hx
      · simp only [Cmd.ends, List.mem_append] at hj ⊢
        rcases hj with hj | hj
        · split at hj
          · exact Or.inl (Or.inl hj)
          · cases hj
        · split at hj
          · exact Or.inl (Or.inr hj)
          · cases hj
          · next e he2 =>
            rw [List.mem_singleton] at hj
            subst hj
            rw [getD_set] at he2
            split at he2
            · exact Or.inr (Option.some.inj he2)
            · simp at he2
    · simp only [Except.ok.injEq] at h
      subst h
      exact ⟨fun x hx => hx, fun j hj => Or.inl hj⟩
  | over c0 f ef m d w =>
    simp only [storeArg] at h
    split at h
    · simp only [Except.ok.injEq] at h
      subst h
      refine ⟨fun x hx => ?_, fun j hj => ?_⟩
      · simp only [Cmd.execNodes] at hx ⊢
        split at hx
        · next h0 =>
          rw [getD_set] at h0
          split at h0
          · cases h0
          · rw [h0]; exact hx
        · cases hx
      · simp only [Cmd.ends, List.mem_append] at hj ⊢
        rcases hj with hj | hj
        · split at hj
          · next h0 =>
            rw [getD_set] at h0
            split at h0
            · cases h0
            · rw [h0]; exact Or.inl (Or.inl hj)
          · cases hj
        · rw [getD_set] at hj
          by_cases hc : i = 2 ∧ i < w.length
          · rw [if_pos hc] at hj
            cases v with
            | none => simp at hj
            | some e =>
              simp only [List.mem_singleton] at hj
              exact Or.inr (by rw [hj])
          · rw [if_neg hc] at hj
            exact Or.inl (Or.inr hj)
    · simp only [Except.ok.injEq] at h
      subst h
      exact ⟨fun x hx => hx, fun j hj => Or.inl hj⟩

/-- A store through a `redircmd` keeps the shape `Cmd.Built`, the pointer stored being at or
after the bytes the tree was built from. -/
theorem built_storeArg {buf : List Char} {es lo hi : Nat} {c : Cmd} {i : Nat}
    {v ev : Option Nat} {c1 : Cmd} (h : storeArg c i v ev = .ok c1) (he : c.isExec = false)
    (hc : c.Built buf es lo hi) {hi1 : Nat} (hlo : lo ≤ hi) (h3 : hi ≤ hi1)
    (hv : ∀ j, v = some j → hi ≤ j ∧ j ≤ hi1) : c1.Built buf es lo hi1 := by
  obtain ⟨s1, s2⟩ := storeArg_sub h he
  refine ⟨fun p hp => ?_, fun j hj => ?_⟩
  · obtain ⟨R, r1, r2, r3, r4⟩ := hc.1 p (s1 p hp)
    refine ⟨R, r1, r2, r3, fun r hr => ?_⟩
    obtain ⟨w1, w2, w3, w4, w5⟩ := r4 r hr
    refine ⟨w1, w2, w3, by omega, fun j hj => ?_⟩
    rcases s2 j hj with hj | hj
    · exact w5 j hj
    · have := hv j hj
      omega
  · rcases s2 j hj with hj | hj
    · have := hc.2 j hj
      omega
    · have := hv j hj
      omega

theorem PlainBuilt.plain_mono {buf : List Char} {es lo p : Nat} {c : Cmd} {argc : Nat}
    (h : PlainBuilt buf es lo p c argc) {p1 : Nat} (hp : p ≤ p1) :
    PlainBuilt buf es lo p1 c argc := by
  refine ⟨h.1, ?_⟩
  rcases h.2 with ⟨R, h1, h2, h3⟩ | ⟨h1, h2, h3⟩
  · refine Or.inl ⟨R, h1, h2, fun r hr => ?_⟩
    obtain ⟨w1, w2, w3, w4⟩ := h3 r hr
    exact ⟨w1, w2, w3, by omega⟩
  · exact Or.inr ⟨h1, h2, h3.built_mono (Nat.le_refl _) hp⟩

theorem Redirs.redirs_plainBuilt {buf : List Char} {es : Nat} (hE : IsEnd buf es) {lo : Nat}
    {c : Cmd} {s : Nat} {c1 : Cmd} {s1 : Nat} (h : Redirs buf es c s c1 s1) (hs : s ≤ es)
    (hlo : lo ≤ s) {argc : Nat} (hv : PlainBuilt buf es lo s c argc) :
    PlainBuilt buf es lo s1 c1 argc := by
  have hb := h.redirs_seg hE (segClosed_true buf es) hs
  by_cases he : c1.isExec = true
  · obtain ⟨rfl, _, _⟩ := h.redirs_exec hE hs he
    exact hv.plain_mono hb.1
  · refine ⟨hv.1, Or.inr ⟨by simpa using he, ?_, ?_⟩⟩
    · rcases hv.2 with ⟨R, rfl, _, _⟩ | ⟨_, h2, _⟩
      · exact h.redirs_plain rfl
      · exact h.redirs_plain h2
    · rcases hv.2 with ⟨R, rfl, h2, h3⟩ | ⟨_, _, h3⟩
      · exact h.redirs_built hE hs hlo (built_execOf (by rw [h2]; exact hv.1) h3)
      · exact h.redirs_built hE hs hlo h3

/-- The argument loop keeps `PlainBuilt`. -/
theorem Args.args_built {buf : List Char} {es : Nat} (hE : IsEnd buf es) {lo : Nat} {c : Cmd}
    {argc s : Nat} {c1 : Cmd} {argc1 s1 : Nat} (h : Args buf es c argc s c1 argc1 s1)
    (hs : s ≤ es) (hlo : lo ≤ s) (hb : Bdry buf s) (hv : PlainBuilt buf es lo s c argc) :
    PlainBuilt buf es lo s1 c1 argc1 := by
  induction h with
  | @stop c argc s hp =>
    rw [peek_snd]
    exact hv.plain_mono (le_skipws buf es s)
  | @eol c argc s hp hr => exact hv.plain_mono (le_gettoken_ps hE hs)
  | @word c argc s c1 c2 s2 c3 argc3 s3 hp hr hst hlt hrd hrest ih =>
    have h1 := gettoken_bounds hE hs
    have hw := gettoken_wordRange hE hs hr
    have hl := gettoken_leftMax hE hs hb hr
    have hb2 := hrd.redirs_seg hE (segClosed_true buf es) h1.2.2.2
    apply ih hb2.2.1 (by omega) (hrd.redirs_bdry hE h1.2.2.2 (bdry_gettoken_ps hE hs))
    apply hrd.redirs_plainBuilt hE h1.2.2.2 (by omega)
    refine ⟨hlt, ?_⟩
    rcases hv.2 with ⟨R, rfl, hlen, hR⟩ | ⟨he, hpl, hbt⟩
    · subst hlen
      rw [storeArg_execOf _ _ _ hv.1] at hst
      simp only [Except.ok.injEq] at hst
      subst hst
      refine Or.inl ⟨_, rfl, by simp, fun r hr2 => ?_⟩
      rcases List.mem_append.1 hr2 with hm | hm
      · obtain ⟨w1, w2, w3, w4⟩ := hR r hm
        exact ⟨w1, w2, w3, by omega⟩
      · rw [List.mem_singleton.1 hm]
        exact ⟨hw, hl, by omega, by omega⟩
    · refine Or.inr ⟨by rw [storeArg_isExec hst]; exact he, ?_, ?_⟩
      · obtain ⟨c1x, k1, k2⟩ := storeArg_plain (some (gettoken buf es s).q)
          (some (gettoken buf es s).eq) hv.1 hpl
        rw [hst] at k1
        simp only [Except.ok.injEq] at k1
        rw [k1]; exact k2
      · refine built_storeArg hst he hbt hlo (by omega) (fun j hj => ?_)
        simp only [Option.some.injEq] at hj
        subst hj
        have := hw.1
        omega

/-- A plain command that parses has the shape `Cmd.Built`, whatever was stored over the fields
of its `redircmd`s. -/
theorem parseplain_built {buf : List Char} {es : Nat} (hE : IsEnd buf es) {s : Nat} {c : Cmd}
    {s1 : Nat} (h : parseplain buf es s = .ok (c, s1)) (hs : s ≤ es) (hb : Bdry buf s) :
    c.Built buf es s s1 ∧ c.isPlain = true := by
  obtain ⟨c0, p0, c1, argc, h0, h1, h2⟩ := parseplain_parts h
  have hb0 := h0.redirs_seg hE (segClosed_true buf es) hs
  have hb1 := h1.args_seg hE (segClosed_true buf es) hb0.2.1
  have hv0 : PlainBuilt buf es s s execcmd 0 :=
    ⟨by decide, Or.inl ⟨[], rfl, rfl, by simp⟩⟩
  have hv1 := h0.redirs_plainBuilt hE hs (Nat.le_refl _) hv0
  have hv2 := h1.args_built hE hb0.2.1 hb0.1 (h0.redirs_bdry hE hs hb) hv1
  rcases hv2.2 with ⟨R, rfl, hlen, hR⟩ | ⟨he, hpl, hbt⟩
  · subst hlen
    rw [storeArg_execOf_none _ hv2.1] at h2
    simp only [Except.ok.injEq] at h2
    subst h2
    exact ⟨built_execOf hv2.1 hR, rfl⟩
  · refine ⟨built_storeArg h2 he hbt (by omega) (Nat.le_refl _) (fun j hj => by cases hj), ?_⟩
    obtain ⟨c1x, k1, k2⟩ := storeArg_plain none none hv2.1 hpl
    rw [h2] at k1
    simp only [Except.ok.injEq] at k1
    rw [k1]; exact k2

theorem Backs.backs_execNodes {buf : List Char} {es : Nat} {c : Cmd} {s : Nat} {c1 : Cmd}
    {s1 : Nat} (h : Backs buf es c s c1 s1) : c1.execNodes = c.execNodes ∧ c1.ends = c.ends := by
  induction h with
  | done _ => exact ⟨rfl, rfl⟩
  | step _ _ ih => exact ih

theorem Backs.backs_built {buf : List Char} {es : Nat} (hE : IsEnd buf es) {lo : Nat} {c : Cmd}
    {s : Nat} {c1 : Cmd} {s1 : Nat} (h : Backs buf es c s c1 s1) (hs : s ≤ es)
    (hc : c.Built buf es lo s) : c1.Built buf es lo s1 := by
  have hb := h.backs_seg hE (segClosed_true buf es) hs
  obtain ⟨e1, e2⟩ := h.backs_execNodes
  have := hc.built_mono (Nat.le_refl lo) hb.1
  unfold Cmd.Built at this ⊢
  rw [e1, e2]
  exact this

/-- Two trees built from two stretches of the line, one after the other with a byte between
them, make a tree of the shape `Cmd.Built`. -/
theorem built_pair {buf : List Char} {es lo m m1 hi : Nat} {l r : Cmd}
    (hl : l.Built buf es lo m) (hr : r.Built buf es m1 hi) (h1 : lo ≤ m) (h2 : m < m1)
    (h3 : m1 ≤ hi) {c : Cmd} (hn : c.execNodes = l.execNodes ++ r.execNodes)
    (he : c.ends = l.ends ++ r.ends) : c.Built buf es lo hi := by
  unfold Cmd.Built
  rw [hn, he]
  refine ⟨fun p hp => ?_, fun i hi => ?_⟩
  · rcases List.mem_append.1 hp with hp | hp
    · obtain ⟨R, r1, r2, r3, r4⟩ := hl.1 p hp
      refine ⟨R, r1, r2, r3, fun x hx => ?_⟩
      obtain ⟨w1, w2, w3, w4, w5⟩ := r4 x hx
      refine ⟨w1, w2, w3, by omega, fun i hi => ?_⟩
      rcases List.mem_append.1 hi with hi | hi
      · exact w5 i hi
      · have := hr.2 i hi
        omega
    · obtain ⟨R, r1, r2, r3, r4⟩ := hr.1 p hp
      refine ⟨R, r1, r2, r3, fun x hx => ?_⟩
      obtain ⟨w1, w2, w3, w4, w5⟩ := r4 x hx
      refine ⟨w1, w2, by omega, w4, fun i hi => ?_⟩
      rcases List.mem_append.1 hi with hi | hi
      · have := hl.2 i hi
        omega
      · exact w5 i hi
  · rcases List.mem_append.1 hi with hi | hi
    · have := hl.2 i hi
      omega
    · have := hr.2 i hi
      omega

/-- Every tree the parser returns has the shape `Cmd.Built`, when the parse begins where no word
is cut. -/
theorem parsed_built {buf : List Char} {es : Nat} (hE : IsEnd buf es) {s : Nat} {c : Cmd}
    {s1 : Nat} (h : Parsed buf es s c s1) (hs : s ≤ es) (hb : Bdry buf s) :
    c.Built buf es s s1 := by
  induction h with
  | @plain s c s1 hp hpl =>
    rw [peek_snd] at hpl
    exact (parseplain_built hE hpl (skipws_le buf hs) (bdry_skipws es hb)).1.built_mono
      (le_skipws buf es s) (Nat.le_refl _)
  | @block s c s1 c1 s2 hp hin hp2 hrd ih =>
    rw [gettoken_peek] at hin hrd ih
    have h1 := le_gettoken_ps hE hs
    have h2 := gettoken_ps_le hE hs
    have hb1 := hin.bounds hE h2
    have h3 := le_gettoken_ps hE hb1.2
    have h4 := gettoken_ps_le hE hb1.2
    exact (redirs_of_ok hrd).redirs_built hE h4 (by omega)
      ((ih h2 (bdry_gettoken_ps hE hs)).built_mono h1 h3)
  | @single s c s1 hin hp ih =>
    rw [peek_snd]
    exact (ih hs hb).built_mono (Nat.le_refl _) (le_skipws buf es s1)
  | @pipe s c s1 r s2 hin hp hin2 ih ih2 =>
    rw [gettoken_peek] at hin2 ih2
    have hb1 := hin.bounds hE hs
    have h2 := gettoken_ps_le hE hb1.2
    have hb2 := hin2.bounds hE h2
    exact built_pair (ih hs hb) (ih2 h2 (bdry_gettoken_ps hE hb1.2)) hb1.1
      (gettoken_progress_of_peek hE hb1.2 hp) hb2.1 rfl rfl
  | @last s c s1 c1 s2 hin hbk hp ih =>
    have hb1 := hin.bounds hE hs
    have hB := backs_of_loop _ _ _ _ _ _ _ hbk
    rw [peek_snd]
    exact (hB.backs_built hE hb1.2 (ih hs hb)).built_mono (Nat.le_refl _) (le_skipws buf es s2)
  | @list s c s1 c1 s2 r s3 hin hbk hp hin2 ih ih2 =>
    rw [gettoken_peek] at hin2 ih2
    have hb1 := hin.bounds hE hs
    have hB := backs_of_loop _ _ _ _ _ _ _ hbk
    have hb2 := hB.backs_seg hE (segClosed_true buf es) hb1.2
    have h2 := gettoken_ps_le hE hb2.2.1
    have hb3 := hin2.bounds hE h2
    exact built_pair (hB.backs_built hE hb1.2 (ih hs hb)) (ih2 h2 (bdry_gettoken_ps hE hb2.2.1))
      (by omega) (gettoken_progress_of_peek hE hb2.2.1 hp) hb3.1 rfl rfl

/-! ## The `execcmd` nodes of a tree, and what `nulterminate` does to the line -/

/-- The loop of `nulterminate` over an `execcmd` writes NUL at the ends it finds and nowhere
else. -/
theorem nulargs_ends (argv eargv : List (Option Nat)) (b b1 : List Char)
    (h : nulargs argv eargv b = .ok b1) :
    ∀ i, charAt b1 i = if i ∈ endsOf argv eargv then NUL else charAt b i := by
  induction argv generalizing eargv b with
  | nil => simp [nulargs] at h
  | cons a argv ih =>
    cases a with
    | none =>
      simp only [nulargs, Except.ok.injEq] at h
      subst h
      intro i
      simp [endsOf]
    | some q =>
      cases eargv with
      | nil => simp [nulargs] at h
      | cons e eargv =>
        cases e with
        | none => simp [nulargs] at h
        | some e =>
          simp only [nulargs] at h
          intro i
          rw [ih _ _ h i, charAt_set_nul]
          simp only [endsOf, List.mem_cons]
          by_cases hi : i = e
          · simp [hi]
          · by_cases hm : i ∈ endsOf argv eargv
            · simp [hm]
            · simp [hm, hi]

theorem mem_ends_over (c : Cmd) (file efile mode fd : Nat) (w : List (Option (Option Nat)))
    (i : Nat) : i ∈ (Cmd.over c file efile mode fd w).ends ↔
      (w.getD 0 none = none ∧ i ∈ c.ends) ∨
        ((w.getD 2 none = none ∧ i = efile) ∨ w.getD 2 none = some (some i)) := by
  simp only [Cmd.ends, List.mem_append]
  generalize w.getD 0 none = x0
  generalize w.getD 2 none = x2
  rcases x0 with _ | x0 <;> rcases x2 with _ | _ | e <;> simp [eq_comm]

/-- When `nulterminate` comes to its end, it has written NUL at the bytes of `c.ends` and nowhere
else. -/
theorem nulterminate_ends (c : Cmd) (b b1 : List Char) (h : nulterminate c b = .ok b1) :
    ∀ i, charAt b1 i = if i ∈ c.ends then NUL else charAt b i := by
  induction c generalizing b b1 with
  | exec argv eargv => exact nulargs_ends argv eargv b b1 h
  | redir c file efile mode fd ih =>
    simp only [nulterminate] at h
    split at h
    · exact absurd h (by simp)
    · next b2 h2 =>
      simp only [Except.ok.injEq] at h
      subst h
      intro i
      rw [charAt_set_nul, ih _ _ h2 i]
      simp only [Cmd.ends, List.mem_append, List.mem_singleton]
      by_cases hi : i = efile
      · simp [hi]
      · by_cases hm : i ∈ c.ends
        · simp [hm]
        · simp [hm, hi]
  | pipe l r ihl ihr =>
    simp only [nulterminate] at h
    split at h
    · exact absurd h (by simp)
    · next b2 h2 =>
      intro i
      rw [ihr _ _ h i, ihl _ _ h2 i]
      simp only [Cmd.ends, List.mem_append]
      by_cases hm : i ∈ l.ends
      · simp [hm]
      · by_cases hm2 : i ∈ r.ends
        · simp [hm2]
        · simp [hm, hm2]
  | list l r ihl ihr =>
    simp only [nulterminate] at h
    split at h
    · exact absurd h (by simp)
    · next b2 h2 =>
      intro i
      rw [ihr _ _ h i, ihl _ _ h2 i]
      simp only [Cmd.ends, List.mem_append]
      by_cases hm : i ∈ l.ends
      · simp [hm]
      · by_cases hm2 : i ∈ r.ends
        · simp [hm2]
        · simp [hm, hm2]
  | back c ih =>
    simp only [nulterminate] at h
    exact ih _ _ h
  | over c file efile mode fd w ih =>
    simp only [nulterminate] at h
    have key : ∀ (x0 : Option (Option Nat)) (b2 : List Char), (match x0 with
          | none => nulterminate c b
          | some none => Except.ok b
          | some (some q) => if isNodeType (typeAt b q) then .error .notNode else .ok b) = .ok b2 →
        ∀ i, charAt b2 i = if x0 = none ∧ i ∈ c.ends then NUL else charAt b i := by
      intro x0 b2 h2 i
      rcases x0 with _ | _ | q
      · simpa using ih _ _ h2 i
      · simp only [Except.ok.injEq] at h2
        subst h2
        simp
      · simp only at h2
        split at h2
        · exact absurd h2 (by simp)
        · simp only [Except.ok.injEq] at h2
          subst h2
          simp
    have key2 : ∀ (x2 : Option (Option Nat)) (b2 : List Char), (match x2 with
          | none => Except.ok (b2.set efile NUL)
          | some none => Except.error Fault.nullDeref
          | some (some e) => Except.ok (b2.set e NUL)) = .ok b1 →
        ∀ i, charAt b1 i =
          if (x2 = none ∧ i = efile) ∨ x2 = some (some i) then NUL else charAt b2 i := by
      intro x2 b2 h2 i
      rcases x2 with _ | _ | e
      · simp only [Except.ok.injEq] at h2
        subst h2
        rw [charAt_set_nul]
        simp
      · exact absurd h2 (by simp)
      · simp only [Except.ok.injEq] at h2
        subst h2
        rw [charAt_set_nul]
        by_cases hi : i = e
        · simp [hi]
        · have : ¬ e = i := fun hx => hi hx.symm
          simp [hi, this]
    split at h
    · exact absurd h (by simp)
    · next b2 h2 =>
      intro i
      rw [key2 _ b2 h i, key _ b2 h2 i]
      have hme := mem_ends_over c file efile mode fd w i
      by_cases hm : w.getD 0 none = none ∧ i ∈ c.ends
      · rw [if_pos hm, if_pos (hme.2 (Or.inl hm))]
        simp
      · by_cases hm2 : (w.getD 2 none = none ∧ i = efile) ∨ w.getD 2 none = some (some i)
        · rw [if_pos hm2, if_pos (hme.2 (Or.inr hm2))]
        · rw [if_neg hm2, if_neg hm, if_neg (fun hx => (hme.1 hx).elim hm hm2)]

/-- The ends held by an `execcmd` of the tree are among the bytes `nulterminate` writes at. -/
theorem execNodes_ends (c : Cmd) : ∀ p ∈ c.execNodes, ∀ i ∈ endsOf p.1 p.2, i ∈ c.ends := by
  induction c with
  | exec argv eargv =>
    intro p hp i hi
    simp only [Cmd.execNodes, List.mem_singleton] at hp
    subst hp
    exact hi
  | redir c file efile mode fd ih =>
    intro p hp i hi
    simp only [Cmd.ends, List.mem_append]
    exact Or.inl (ih p hp i hi)
  | pipe l r ihl ihr =>
    intro p hp i hi
    simp only [Cmd.execNodes, List.mem_append] at hp
    simp only [Cmd.ends, List.mem_append]
    rcases hp with hp | hp
    · exact Or.inl (ihl p hp i hi)
    · exact Or.inr (ihr p hp i hi)
  | list l r ihl ihr =>
    intro p hp i hi
    simp only [Cmd.execNodes, List.mem_append] at hp
    simp only [Cmd.ends, List.mem_append]
    rcases hp with hp | hp
    · exact Or.inl (ihl p hp i hi)
    · exact Or.inr (ihr p hp i hi)
  | back c ih => exact ih
  | over c file efile mode fd w ih =>
    intro p hp i hi
    simp only [Cmd.execNodes] at hp
    simp only [Cmd.ends, List.mem_append]
    split at hp
    · exact Or.inl (ih p hp i hi)
    · cases hp

/-- The strings of an `argv` whose first slots hold the starts of `R`. -/
theorem argvStrings_firstSlots (b : List Char) (R : List (Nat × Nat)) (k : Nat) :
    argvStrings b (R.map (fun r => some r.1) ++ List.replicate (k + 1) none) =
      R.map (fun r => cstr b r.1) := by
  induction R with
  | nil => simp [argvStrings, List.replicate_succ]
  | cons r R ih =>
    simp only [List.map_cons, List.cons_append, argvStrings, List.cons.injEq, true_and]
    exact ih

/-- The text of a word of the line is a plain word. -/
theorem plainWord_slice {buf : List Char} {es : Nat} (hE : IsEnd buf es) {q e : Nat}
    (h : WordRange buf es q e) : PlainWord (slice buf q e) := by
  refine ⟨?_, fun c hc => ?_⟩
  · intro hnil
    have hl : (slice buf q e).length = e - q := by
      have := hE.le_length
      have := h.1
      have := h.2.1
      simp only [slice, List.length_take, List.length_drop]
      omega
    rw [hnil] at hl
    have := h.1
    simp only [List.length_nil] at hl
    omega
  · obtain ⟨i, h1, h2, _, h4⟩ := mem_slice hc
    rw [← h4]
    exact h.2.2.1 i h1 h2

/-- The `execcmd` nodes of a tree that `parsecmd` returns: fewer than `MAXARGS` arguments in
the first slots, null pointers after them, and each argument a whole word of the line that
reads back, as a C string of the finalized buffer, as the text of its range. -/
theorem parsecmd_execNodes {buf : List Char} {c : Cmd} {b1 : List Char}
    (h : parsecmd buf = .ok (c, b1)) :
    ∀ p ∈ c.execNodes, ∃ R : List (Nat × Nat), R.length < MAXARGS ∧
      p.1 = R.map (fun r => some r.1) ++ List.replicate (MAXARGS - R.length) none ∧
      p.2 = R.map (fun r => some r.2) ++ List.replicate (MAXARGS - R.length) none ∧
      argvStrings b1 p.1 = R.map (fun r => slice buf r.1 r.2) ∧
      ∀ r ∈ R, PlainWord (slice buf r.1 r.2) ∧ WordRange buf (strlen buf) r.1 r.2 ∧
        LeftMax buf r.1 := by
  obtain ⟨s1, hp, hs, hn⟩ := parsecmd_ok h
  have hE := isEnd_strlen buf
  have hbt := parsed_built hE hp (Nat.zero_le _) (Or.inl rfl)
  have hall := nulterminate_ends c buf b1 hn
  intro p hpm
  obtain ⟨R, r1, r2, r3, r4⟩ := hbt.1 p hpm
  refine ⟨R, r1, r2, r3, ?_, fun r hr => ⟨plainWord_slice hE (r4 r hr).1, (r4 r hr).1,
    (r4 r hr).2.1⟩⟩
  obtain ⟨k, hk⟩ : ∃ k, MAXARGS - R.length = k + 1 := ⟨MAXARGS - R.length - 1, by omega⟩
  have hends : endsOf p.1 p.2 = R.map (fun r => r.2) := by
    rw [r2, r3, hk]
    have := endsOf_execOf (R.map (fun r => r.1)) (R.map (fun r => r.2)) k (by simp)
    simpa [List.map_map] using this
  rw [r2, hk, argvStrings_firstSlots]
  refine List.map_congr_left (fun r hr => ?_)
  obtain ⟨w1, _, _, _, w5⟩ := r4 r hr
  apply cstr_eq_slice (r.2 - r.1) r.1 r.2 (by have := w1.1; omega)
  · intro i h1 h2
    have hw := w1.2.2.1 i h1 h2
    have hni : i ∉ c.ends := fun hm => w5 i hm ⟨h1, h2⟩
    rw [hall i, if_neg hni]
    exact ⟨rfl, wordChar_ne_nul hw⟩
  · have he : r.2 ∈ c.ends :=
      execNodes_ends c p hpm r.2 (by rw [hends]; exact List.mem_map.2 ⟨r, hr, rfl⟩)
    rw [hall r.2, if_pos he]

/-- On a tree whose `execcmd`s hold their arguments in the first slots, `nulterminate` comes to
its end, or it writes through the null pointer that was stored over an `efile`, or it follows a
pointer into the line that was stored over a `cmd` to bytes that read as a node. -/
theorem nulterminate_fault {c : Cmd}
    (hc : ∀ p ∈ c.execNodes, ∃ R : List (Nat × Nat), R.length < MAXARGS ∧
      p.1 = R.map (fun r => some r.1) ++ List.replicate (MAXARGS - R.length) none ∧
      p.2 = R.map (fun r => some r.2) ++ List.replicate (MAXARGS - R.length) none)
    (b : List Char) {f : Fault} (h : nulterminate c b = .error f) :
    f = .nullDeref ∨ f = .notNode := by
  induction c generalizing b with
  | exec argv eargv =>
    obtain ⟨R, r1, r2, r3⟩ := hc (argv, eargv) (by simp [Cmd.execNodes])
    obtain ⟨k, hk⟩ : ∃ k, MAXARGS - R.length = k + 1 := ⟨MAXARGS - R.length - 1, by omega⟩
    simp only at r2 r3
    obtain ⟨b1, h1, _⟩ := nulargs_execOf (R.map (fun r => r.1)) (R.map (fun r => r.2)) k
      (by simp) b
    simp only [nulterminate, r2, r3, hk] at h
    simp only [List.map_map] at h1
    rw [show (fun r : Nat × Nat => some r.1) = some ∘ (fun r => r.1) from rfl,
      show (fun r : Nat × Nat => some r.2) = some ∘ (fun r => r.2) from rfl, h1] at h
    exact Except.noConfusion h
  | redir c file efile mode fd ih =>
    simp only [nulterminate] at h
    split at h
    · next e he =>
      simp only [Except.error.injEq] at h
      subst h
      exact ih hc _ he
    · exact Except.noConfusion h
  | pipe l r ihl ihr =>
    simp only [nulterminate] at h
    split at h
    · next e he =>
      simp only [Except.error.injEq] at h
      subst h
      exact ihl (fun p hp => hc p (by simp [Cmd.execNodes, hp])) _ he
    · exact ihr (fun p hp => hc p (by simp [Cmd.execNodes, hp])) _ h
  | list l r ihl ihr =>
    simp only [nulterminate] at h
    split at h
    · next e he =>
      simp only [Except.error.injEq] at h
      subst h
      exact ihl (fun p hp => hc p (by simp [Cmd.execNodes, hp])) _ he
    · exact ihr (fun p hp => hc p (by simp [Cmd.execNodes, hp])) _ h
  | back c ih =>
    simp only [nulterminate] at h
    exact ih hc _ h
  | over c file efile mode fd w ih =>
    simp only [nulterminate] at h
    split at h
    · next e he =>
      simp only [Except.error.injEq] at h
      subst h
      split at he
      · next h0 =>
        refine ih (fun p hp => hc p ?_) _ he
        simp only [Cmd.execNodes, h0]
        exact hp
      · exact Except.noConfusion he
      · split at he
        · simp only [Except.error.injEq] at he
          exact Or.inr he.symm
        · exact Except.noConfusion he
    · split at h
      · exact Except.noConfusion h
      · simp only [Except.error.injEq] at h
        exact Or.inl h.symm
      · exact Except.noConfusion h

/-- The ways `parsecmd` ends without a tree: in a `panic`; or, the whole line being parsed, in
`nulterminate`, at the write through a null `efile` or at a `cmd` that points into the line, both
left by the stores of `parseexec` through a `redircmd`. -/
theorem parsecmd_fault {buf : List Char} {f : Fault} (h : parsecmd buf = .error f) :
    (∃ msg, f = .panic msg) ∨ f = .nullDeref ∨ f = .notNode := by
  rcases parsecmd_cases buf with ⟨msg, hm⟩ | ⟨c, s1, h0, hs, _, h2⟩
  · rw [hm] at h
    simp only [Except.error.injEq] at h
    exact Or.inl ⟨msg, h.symm⟩
  · have hE := isEnd_strlen buf
    have hbt := parsed_built hE ((parsed_of_ok buf _ _).1 _ _ _ h0) (Nat.zero_le _) (Or.inl rfl)
    cases hn : nulterminate c buf with
    | ok b =>
      simp only [parsecmd, h0, peek_snd, hs, ne_eq, not_true_eq_false, if_false, hn] at h
      exact Except.noConfusion h
    | error e =>
      rw [h2 e hn] at h
      simp only [Except.error.injEq] at h
      subst h
      exact Or.inr (nulterminate_fault (fun p hp => by
        obtain ⟨R, r1, r2, r3, _⟩ := hbt.1 p hp
        exact ⟨R, r1, r2, r3⟩) buf hn)

/-! ## The indices of the stores, listed -/

theorem storeIndices_lt {buf : List Char} {es : Nat} (n : Nat) (c : Cmd) (argc s : Nat)
    (ha : argc < MAXARGS) : ∀ i ∈ storeIndices buf es n c argc s, i < MAXARGS := by
  induction n generalizing c argc s with
  | zero =>
    unfold storeIndices
    intro i hi
    split at hi
    · cases hi
    · dsimp only at hi
      split at hi
      · cases hi
      · split at hi
        · cases hi
        · rcases List.mem_cons.1 hi with rfl | hi
          · exact ha
          · split at hi
            · cases hi
            · split at hi
              · cases hi
              · split at hi
                · cases hi
                · cases hi
  | succ n ih =>
    unfold storeIndices
    intro i hi
    split at hi
    · cases hi
    · dsimp only at hi
      split at hi
      · cases hi
      · split at hi
        · cases hi
        · rcases List.mem_cons.1 hi with rfl | hi
          · exact ha
          · split at hi
            · cases hi
            · split at hi
              · cases hi
              · rename_i hm
                split at hi
                · cases hi
                · exact ih _ _ _ (by omega) i hi

/-- Every store of a plain command, the final store of the null sentinel included, is at an
index below `MAXARGS`. -/
theorem plainStoreIndices_lt {buf : List Char} {es : Nat} (s : Nat) :
    ∀ i ∈ plainStoreIndices buf es s, i < MAXARGS := by
  intro i hi
  unfold plainStoreIndices at hi
  cases hrd : parseredirs buf es execcmd s with
  | error e =>
    rw [hrd] at hi
    cases hi
  | ok r =>
    obtain ⟨cmd, ps1⟩ := r
    rw [hrd] at hi
    simp only at hi
    rcases List.mem_append.1 hi with hi | hi
    · exact storeIndices_lt _ _ _ _ (by decide) i hi
    · cases hl : parseargsLoop buf es (es - ps1) cmd 0 ps1 with
      | error e =>
        rw [hl] at hi
        cases hi
      | ok r2 =>
        obtain ⟨c1, argc, p1⟩ := r2
        rw [hl] at hi
        simp only [List.mem_singleton] at hi
        subst hi
        exact ((@parseargsLoop_index buf es _ cmd 0 ps1 (by decide)
          (parseredirsLoop_plain _ _ _ hrd rfl)).2 _ _ _ hl).2.1

theorem Args.args_le {buf : List Char} {es : Nat} {c : Cmd} {argc s : Nat} {c1 : Cmd}
    {argc1 s1 : Nat} (h : Args buf es c argc s c1 argc1 s1) : argc ≤ argc1 := by
  induction h with
  | stop _ => exact Nat.le_refl _
  | eol _ _ => exact Nat.le_refl _
  | word _ _ _ _ _ _ ih => omega

/-- On a run of the loop that comes to its end, the stores are at the indices from the `argc` it
was entered with up to the one before the `argc` it leaves: one pair of stores for each word,
whatever node `cmd` points at. -/
theorem storeIndices_of_ok {buf : List Char} {es : Nat} (n : Nat) (c : Cmd) (argc s : Nat)
    {c1 : Cmd} {argc1 s1 : Nat} (h : parseargsLoop buf es n c argc s = .ok (c1, argc1, s1)) :
    storeIndices buf es n c argc s = List.range' argc (argc1 - argc) := by
  induction n generalizing c argc s with
  | zero =>
    unfold parseargsLoop at h
    unfold storeIndices
    split at h
    · next hp =>
      simp only [Except.ok.injEq, Prod.mk.injEq] at h
      rw [if_pos hp, ← h.2.1]
      simp
    · next hp =>
      rw [if_neg hp]
      dsimp only at h ⊢
      split at h
      · next hr =>
        simp only [Except.ok.injEq, Prod.mk.injEq] at h
        rw [if_pos hr, ← h.2.1]
        simp
      · split at h
        · exact absurd h (by simp)
        · split at h
          · exact absurd h (by simp)
          · split at h
            · exact absurd h (by simp)
            · split at h
              · exact absurd h (by simp)
              · exact absurd h (by simp)
  | succ n ih =>
    have hle := (args_of_loop _ _ _ _ _ _ _ _ _ h).args_le
    unfold parseargsLoop at h
    unfold storeIndices
    split at h
    · next hp =>
      simp only [Except.ok.injEq, Prod.mk.injEq] at h
      rw [if_pos hp, ← h.2.1]
      simp
    · next hp =>
      rw [if_neg hp]
      dsimp only at h ⊢
      split at h
      · next hr =>
        simp only [Except.ok.injEq, Prod.mk.injEq] at h
        rw [if_pos hr, ← h.2.1]
        simp
      · next hr =>
        rw [if_neg hr]
        split at h
        · exact absurd h (by simp)
        · next ha =>
          rw [if_neg ha]
          split at h
          · exact absurd h (by simp)
          · next cx hst =>
            split at h
            · exact absurd h (by simp)
            · next hm =>
              rw [if_neg hm]
              split at h
              · exact absurd h (by simp)
              · next c2 p2 hrd =>
                have hle2 := (args_of_loop _ _ _ _ _ _ _ _ _ h).args_le
                rw [ih _ _ _ h]
                have : argc1 - argc = (argc1 - (argc + 1)) + 1 := by omega
                rw [this, List.range'_succ]

/-- The stores of a plain command that parses are at the indices `0, 1, ..., argc`, the last
being that of the null sentinel: none is left out. -/
theorem plainStoreIndices_of_ok {buf : List Char} {es s : Nat} {c : Cmd} {s1 : Nat}
    (h : parseplain buf es s = .ok (c, s1)) :
    ∃ argc, argc < MAXARGS ∧ plainStoreIndices buf es s = List.range' 0 (argc + 1) := by
  simp only [parseplain] at h
  split at h
  · exact absurd h (by simp)
  · next c0 p0 h0 =>
    split at h
    · exact absurd h (by simp)
    · next cx argc p1 h1 =>
      refine ⟨argc, ((@parseargsLoop_index buf es _ c0 0 p0 (by decide)
        (parseredirsLoop_plain _ _ _ h0 rfl)).2 _ _ _ h1).2.1, ?_⟩
      simp only [plainStoreIndices, h0, h1, storeIndices_of_ok _ _ _ _ h1, Nat.sub_zero]
      rw [List.range'_concat]
      simp

/-- The two arrays of an `execcmd` that holds the ranges `R` in its first slots: each has
`MAXARGS` slots, the first `R.length` hold pointers, and the next one holds the null pointer. -/
theorem execArrays_shape {R : List (Nat × Nat)} {p : List (Option Nat) × List (Option Nat)}
    (h1 : R.length < MAXARGS)
    (h2 : p.1 = R.map (fun r => some r.1) ++ List.replicate (MAXARGS - R.length) none)
    (h3 : p.2 = R.map (fun r => some r.2) ++ List.replicate (MAXARGS - R.length) none) :
    p.1.length = MAXARGS ∧ p.2.length = MAXARGS ∧
      (∀ i, i < R.length → ∃ q e, p.1[i]? = some (some q) ∧ p.2[i]? = some (some e)) ∧
      p.1[R.length]? = some none ∧ p.2[R.length]? = some none := by
  refine ⟨?_, ?_, fun i hi => ?_, ?_, ?_⟩
  · rw [h2]; simp; omega
  · rw [h3]; simp; omega
  · refine ⟨(R.get ⟨i, hi⟩).1, (R.get ⟨i, hi⟩).2, ?_, ?_⟩
    · rw [h2, List.getElem?_append_left (by simpa using hi)]
      simp [List.getElem?_eq_getElem hi]
    · rw [h3, List.getElem?_append_left (by simpa using hi)]
      simp [List.getElem?_eq_getElem hi]
  · rw [h2, List.getElem?_append_right (by simp)]
    simp only [List.length_map, Nat.sub_self]
    rw [List.getElem?_replicate]
    simp
    omega
  · rw [h3, List.getElem?_append_right (by simp)]
    simp only [List.length_map, Nat.sub_self]
    rw [List.getElem?_replicate]
    simp
    omega

/-! ## Operands that are missing -/

/-- Where the line ends, or one of `|`, `)`, `&`, `;` comes next, `parseexec` returns the
`execcmd` without arguments and takes nothing. -/
theorem parseexec_empty_at {buf : List Char} (hN : NUL ∉ buf) {s : Nat} {rest : List Char}
    (h : At buf s rest) (hr : StopsArgs rest) (fuel : Nat) :
    parseexec buf buf.length (fuel + 1) s = .ok (execOf [], s) := by
  have h0 : At buf s ([] ++ (argsText [] ++ rest)) := by simpa [argsText] using h
  have h1 : At buf (s + ([] : List Char).length) (argsText [] ++ rest) := by
    simpa [argsText] using h
  rw [parseexec_plain_at hN hr h0 allWs_nil trivial fuel,
    parseplain_words hN hr h1 trivial (by decide)]
  simp [rangesOf, argsText]

/-- When `parseline` returns and text is left on the line, `parsecmd` ends in
`panic("syntax")`. -/
theorem parsecmd_leftover {buf : List Char} {c : Cmd} {s1 : Nat}
    (h : parseline buf (strlen buf) (4 * strlen buf + 4) 0 = .ok (c, s1))
    (hs : skipws buf (strlen buf) s1 ≠ strlen buf) :
    parsecmd buf = .error (.panic "syntax") := by
  simp only [parsecmd, h, peek_snd, ne_eq, hs, not_false_eq_true, if_true]

theorem at_end (buf : List Char) : At buf buf.length [] :=
  ⟨Nat.le_refl _, List.drop_length _⟩

theorem stopsArgs_cons {c : Char} (hc : c ∈ ['|', ')', '&', ';']) (rest : List Char) :
    StopsArgs (c :: rest) := by
  intro d hd
  simp only [List.head?_cons, Option.some.injEq] at hd
  exact hd ▸ hc

theorem nul_not_word_sep {a : List Char} (ha : PlainWord a) {tail : List Char}
    (ht : NUL ∉ tail) : NUL ∉ a ++ tail := by
  simp only [List.mem_append, not_or]
  exact ⟨nul_not_word ha, ht⟩

/-- The line `a;`: the `List` of `a` and of the command without arguments. -/
theorem parsecmd_semicolon_last (a : List Char) (ha : PlainWord a) :
    ∃ c b1, parsecmd (a ++ [';']) = .ok (c, b1) ∧
      c.strings b1 = .list (.exec [a]) (.exec []) := by
  have hN : NUL ∉ a ++ [';'] := nul_not_word_sep ha (by decide)
  have hlen := strlen_eq_length hN
  generalize hbuf : a ++ [';'] = buf at hN hlen ⊢
  have h0 : At buf 0 (a ++ [';']) := by rw [hbuf]; exact at_zero buf
  have h1 : At buf (0 + a.length) [';'] := at_append h0
  have hL := at_length h1
  simp only [List.length_singleton] at hL
  obtain ⟨hex, hrg⟩ := parseexec_word hN h0 ha (stopsArgs_cons (by decide) []) (4 * buf.length + 1)
  have hsk : skipws buf buf.length (0 + a.length) = 0 + a.length :=
    skipws_at_nonws hN h1 (by intro d hd; simp at hd; subst hd; decide)
  have hpp := parsepipe_single hex (by rw [peek_at hN h1 (by decide)]; rfl)
  rw [hsk] at hpp
  have hbk := parsebackLoop_none (buf.length - (0 + a.length)) (execOf [(0, 0 + a.length)])
    (show (peek buf buf.length (0 + a.length) ['&']).1 = false by
      rw [peek_at hN h1 (by decide)]; rfl)
  rw [hsk] at hbk
  have hg : (gettoken buf buf.length (0 + a.length)).ps = buf.length := by
    rw [gettoken_sym_at hN h1 (by decide), hL]
    exact skipws_end _ _
  have hr := parseline_of_exec_end hN
    (parseexec_empty_at hN (at_end buf) stopsArgs_nil (4 * buf.length))
  have hln := parseline_list hpp hbk (by rw [peek_at hN h1 (by decide)]; rfl)
    (by rw [hg]; exact hr)
  obtain ⟨b1, h11, h12⟩ := parsecmd_of_parseline (by rw [hlen]; exact hln)
    (by rw [hlen]; exact skipws_end _ _) (by rfl)
  refine ⟨_, b1, h11, ?_⟩
  rw [h12]
  show Tree.list ((execOf [(0, 0 + a.length)]).ranges buf) ((execOf []).ranges buf) = _
  rw [hrg]
  rfl

/-- The line `a|`: the `Pipe` of `a` and of the command without arguments. -/
theorem parsecmd_pipe_last (a : List Char) (ha : PlainWord a) :
    ∃ c b1, parsecmd (a ++ ['|']) = .ok (c, b1) ∧
      c.strings b1 = .pipe (.exec [a]) (.exec []) := by
  have hN : NUL ∉ a ++ ['|'] := nul_not_word_sep ha (by decide)
  have hlen := strlen_eq_length hN
  generalize hbuf : a ++ ['|'] = buf at hN hlen ⊢
  have h0 : At buf 0 (a ++ ['|']) := by rw [hbuf]; exact at_zero buf
  have h1 : At buf (0 + a.length) ['|'] := at_append h0
  have hL := at_length h1
  simp only [List.length_singleton] at hL
  obtain ⟨hex, hrg⟩ := parseexec_word hN h0 ha (stopsArgs_cons (by decide) []) (4 * buf.length + 1)
  have hg : (gettoken buf buf.length (0 + a.length)).ps = buf.length := by
    rw [gettoken_sym_at hN h1 (by decide), hL]
    exact skipws_end _ _
  have hr := parsepipe_single (parseexec_empty_at hN (at_end buf) stopsArgs_nil (4 * buf.length))
    (by rw [peek_at_nil (at_end buf)])
  rw [skipws_end] at hr
  have hpp := parsepipe_pipe hex (by rw [peek_at hN h1 (by decide)]; rfl) (by rw [hg]; exact hr)
  have hln := parseline_last hpp (parsebackLoop_none _ _ (by rw [peek_at_nil (at_end buf)]))
    (by rw [skipws_end, peek_at_nil (at_end buf)])
  rw [skipws_end, skipws_end] at hln
  obtain ⟨b1, h11, h12⟩ := parsecmd_of_parseline (by rw [hlen]; exact hln)
    (by rw [hlen]; exact skipws_end _ _) (by rfl)
  refine ⟨_, b1, h11, ?_⟩
  rw [h12]
  show Tree.pipe ((execOf [(0, 0 + a.length)]).ranges buf) ((execOf []).ranges buf) = _
  rw [hrg]
  rfl

/-- The line `;a`: the `List` of the command without arguments and of `a`. -/
theorem parsecmd_semicolon_first (a : List Char) (ha : PlainWord a) :
    ∃ c b1, parsecmd (';' :: a) = .ok (c, b1) ∧
      c.strings b1 = .list (.exec []) (.exec [a]) := by
  have hN : NUL ∉ ';' :: a := by
    simp only [List.mem_cons, not_or]
    exact ⟨by decide, nul_not_word ha⟩
  have hlen := strlen_eq_length hN
  generalize hbuf : ';' :: a = buf at hN hlen ⊢
  have h0 : At buf 0 (';' :: a) := by rw [hbuf]; exact at_zero buf
  have h1 : At buf (0 + 1) (a ++ []) := by simpa using at_cons h0
  have hL := at_length h1
  simp only [List.append_nil] at hL
  have hex := parseexec_empty_at hN h0 (stopsArgs_cons (by decide) a) (4 * buf.length + 1)
  have hsk : skipws buf buf.length 0 = 0 :=
    skipws_at_nonws hN h0 (by intro d hd; simp at hd; subst hd; decide)
  have hpp := parsepipe_single hex (by rw [peek_at hN h0 (by decide)]; rfl)
  rw [hsk] at hpp
  have hbk := parsebackLoop_none (buf.length - 0) (execOf [])
    (show (peek buf buf.length 0 ['&']).1 = false by rw [peek_at hN h0 (by decide)]; rfl)
  rw [hsk] at hbk
  have hg : (gettoken buf buf.length 0).ps = 0 + 1 := by
    rw [gettoken_sym_at hN h0 (by decide)]
    exact skipws_at_nonws hN h1 (head_word_not_ws ha)
  obtain ⟨hex2, hrg⟩ := parseexec_word hN h1 ha stopsArgs_nil (4 * buf.length)
  rw [hL] at hex2 hrg
  have hr := parseline_of_exec_end hN hex2
  have hln := parseline_list hpp hbk (by rw [peek_at hN h0 (by decide)]; rfl)
    (by rw [hg]; exact hr)
  obtain ⟨b1, h11, h12⟩ := parsecmd_of_parseline (by rw [hlen]; exact hln)
    (by rw [hlen]; exact skipws_end _ _) (by rfl)
  refine ⟨_, b1, h11, ?_⟩
  rw [h12]
  show Tree.list ((execOf []).ranges buf) ((execOf [(0 + 1, buf.length)]).ranges buf) = _
  rw [hrg]
  rfl

/-- The line `a & b`: `parseline` returns `Background(a)` at `b`, which `parsecmd` finds left
over. -/
theorem parsecmd_amp_word (a b : List Char) (ha : PlainWord a) (hb : PlainWord b) :
    parsecmd (a ++ ' ' :: '&' :: ' ' :: b) = .error (.panic "syntax") := by
  have hN : NUL ∉ a ++ ' ' :: '&' :: ' ' :: b := by
    apply nul_not_word_sep ha
    simp only [List.mem_cons, not_or]
    exact ⟨by decide, by decide, by decide, nul_not_word hb⟩
  have hlen := strlen_eq_length hN
  generalize hbuf : a ++ ' ' :: '&' :: ' ' :: b = buf at hN hlen ⊢
  have h0 : At buf 0 ([] ++ (argsText [(a, [' '])] ++ '&' :: ' ' :: b)) := by
    rw [← hbuf]
    simpa [argsText] using at_zero (a ++ ' ' :: '&' :: ' ' :: b)
  have hargs : ArgsOK [(a, [' '])] := ⟨ha, allWs_space⟩
  have hst : StopsArgs ('&' :: ' ' :: b) := stopsArgs_cons (by decide) _
  have hex : parseexec buf buf.length (4 * buf.length + 1 + 1) 0 =
      .ok (execOf (rangesOf 0 [(a, [' '])]), 0 + (argsText [(a, [' '])]).length) := by
    rw [parseexec_plain_at hN hst h0 allWs_nil hargs]
    exact parseplain_words hN hst (by simpa using h0) hargs (by simp [MAXARGS])
  have h1 : At buf (0 + (argsText [(a, [' '])]).length) ('&' :: ' ' :: b) := by
    have := at_append (x := argsText [(a, [' '])]) (by simpa using h0)
    exact this
  generalize 0 + (argsText [(a, [' '])]).length = p at hex h1
  have hsk : skipws buf buf.length p = p :=
    skipws_at_nonws hN h1 (by intro d hd; simp at hd; subst hd; decide)
  have hpp := parsepipe_single hex (by rw [peek_at hN h1 (by decide)]; rfl)
  rw [hsk] at hpp
  have h2 : At buf (p + 1) ([' '] ++ b) := at_cons h1
  have h3 : At buf (p + 1 + 1) b := at_append h2
  have hL := at_length h3
  have hb1 := one_le_length_word hb
  have hg : (gettoken buf buf.length p).ps = p + 1 + 1 := by
    rw [gettoken_sym_at hN h1 (by decide)]
    have hcw : ∀ d, b.head? = some d → d ∉ whitespace := by
      have := @head_word_not_ws b [] hb
      simpa using this
    exact skipws_at hN h2 allWs_space hcw
  have h3w : At buf (p + 1 + 1) (b ++ []) := by simpa using h3
  have hpk : ∀ toks, (∀ c ∈ toks, c ∈ symbols) →
      peek buf buf.length (p + 1 + 1) toks = (false, p + 1 + 1) :=
    fun toks ht => peek_word_at hN h3w hb toks ht
  have hbk : parsebackLoop buf buf.length (buf.length - p) (execOf (rangesOf 0 [(a, [' '])])) p =
      .ok (backcmd (execOf (rangesOf 0 [(a, [' '])])), p + 1 + 1) := by
    obtain ⟨n, hn⟩ : ∃ n, buf.length - p = n + 1 := ⟨buf.length - p - 1, by omega⟩
    rw [hn, parsebackLoop, if_pos (by rw [peek_at hN h1 (by decide)]; rfl), gettoken_peek, hg,
      parsebackLoop_none n _ (by rw [hpk _ (by decide)])]
    rw [← peek_snd buf buf.length (p + 1 + 1) ['&'], hpk _ (by decide)]
  have hln := parseline_last hpp hbk (by rw [hpk _ (by decide)])
  apply parsecmd_leftover (by rw [hlen]; exact hln)
  rw [hlen, skipws_skipws, ← peek_snd buf buf.length (p + 1 + 1) [';'], hpk _ (by decide)]
  simp only
  omega

/-! ## A line put in parentheses -/

theorem charAt_wrap_lt {l : List Char} (c0 : Char) (post : List Char) {i : Nat}
    (h : i < l.length) : charAt (c0 :: (l ++ post)) (i + 1) = charAt l i := by
  rw [charAt_cons_succ, charAt_append_left h]

theorem charAt_wrap_end (l : List Char) (c0 c1 : Char) :
    charAt (c0 :: (l ++ [c1])) (l.length + 1) = c1 := by
  rw [charAt_cons_succ]
  have h : At (l ++ [c1]) (0 + l.length) [c1] := at_append (at_zero (l ++ [c1]))
  rw [Nat.zero_add] at h
  exact at_charAt_head h

theorem nul_not_wrap {l : List Char} (hN : NUL ∉ l) : NUL ∉ '(' :: (l ++ [')']) := by
  simp only [List.mem_cons, List.mem_append, List.mem_singleton, List.not_mem_nil, or_false,
    not_or]
  exact ⟨by decide, hN, by decide⟩

theorem length_wrap (l : List Char) : ('(' :: (l ++ [')'])).length = l.length + 2 := by
  simp

theorem skipws_wrap {l : List Char} {s : Nat} (hs : s ≤ l.length) :
    skipws ('(' :: (l ++ [')'])) (l.length + 2) (s + 1) = skipws l l.length s + 1 := by
  have hle := skipws_le l hs
  apply skipws_unique (by have := le_skipws l l.length s; omega) (by omega)
  · intro i h1 h2
    obtain ⟨j, rfl⟩ : ∃ j, i = j + 1 := ⟨i - 1, by omega⟩
    have hb := @skipws_between l l.length s j (by omega) (by omega)
    rw [charAt_wrap_lt _ _ hb.1]
    exact hb.2
  · rintro ⟨h1, h2⟩
    by_cases hlt : skipws l l.length s < l.length
    · rw [charAt_wrap_lt _ _ hlt] at h2
      exact skipws_stop l l.length s ⟨hlt, h2⟩
    · have he : skipws l l.length s = l.length := by omega
      rw [he, charAt_wrap_end] at h2
      exact absurd h2 (by decide)

theorem scanword_wrap {l : List Char} {s : Nat} (hs : s ≤ l.length) :
    scanword ('(' :: (l ++ [')'])) (l.length + 2) (s + 1) = scanword l l.length s + 1 := by
  have hle := scanword_le l hs
  apply scanword_unique (by have := le_scanword l l.length s; omega) (by omega)
  · intro i h1 h2
    obtain ⟨j, rfl⟩ : ∃ j, i = j + 1 := ⟨i - 1, by omega⟩
    have hb := @scanword_between l l.length s j (by omega) (by omega)
    rw [charAt_wrap_lt _ _ hb.1]
    exact hb.2
  · rintro ⟨h1, h2⟩
    by_cases hlt : scanword l l.length s < l.length
    · rw [charAt_wrap_lt _ _ hlt] at h2
      exact scanword_stop l l.length s ⟨hlt, h2⟩
    · have he : scanword l l.length s = l.length := by omega
      rw [he, charAt_wrap_end] at h2
      exact absurd h2 (by decide)

/-- A token of the line is a token of the line in parentheses, one byte further on. -/
theorem gettoken_wrap {l : List Char} (hN : NUL ∉ l) {s : Nat} (hs : s ≤ l.length)
    (hr : (gettoken l l.length s).ret ≠ NUL) :
    gettoken ('(' :: (l ++ [')'])) (l.length + 2) (s + 1) =
      ⟨(gettoken l l.length s).ret, (gettoken l l.length s).q + 1,
        (gettoken l l.length s).eq + 1, (gettoken l l.length s).ps + 1⟩ := by
  have hE := isEnd_length hN
  have hb := gettoken_bounds hE hs
  have hx := skipws_wrap hs
  have hxe := skipws_le l hs
  have hlt : skipws l l.length s < l.length := by
    have := mt (gettoken_ret_nul_iff hE hs).2 hr
    omega
  have hc := charAt_wrap_lt '(' [')'] hlt
  have hps : (gettoken ('(' :: (l ++ [')'])) (l.length + 2) (s + 1)).ps =
      skipws ('(' :: (l ++ [')'])) (l.length + 2)
        (gettoken ('(' :: (l ++ [')'])) (l.length + 2) (s + 1)).eq := rfl
  have key : (gettoken ('(' :: (l ++ [')'])) (l.length + 2) (s + 1)).ret =
        (gettoken l l.length s).ret ∧
      (gettoken ('(' :: (l ++ [')'])) (l.length + 2) (s + 1)).q =
        (gettoken l l.length s).q + 1 ∧
      (gettoken ('(' :: (l ++ [')'])) (l.length + 2) (s + 1)).eq =
        (gettoken l l.length s).eq + 1 := by
    have hne : charAt l (skipws l l.length s) ≠ NUL := (hE.charAt_ne_iff hxe).2 hlt
    simp only [gettoken, hx, hc, if_neg hne]
    by_cases h2 : charAt l (skipws l l.length s) = '|' ∨ charAt l (skipws l l.length s) = '(' ∨
        charAt l (skipws l l.length s) = ')' ∨ charAt l (skipws l l.length s) = ';' ∨
        charAt l (skipws l l.length s) = '&' ∨ charAt l (skipws l l.length s) = '<'
    · simp only [if_pos h2, and_self]
    · simp only [if_neg h2]
      by_cases h3 : charAt l (skipws l l.length s) = '>'
      · simp only [if_pos h3]
        have h4 : (charAt ('(' :: (l ++ [')'])) (skipws l l.length s + 1 + 1) = '>') ↔
            (charAt l (skipws l l.length s + 1) = '>') := by
          by_cases h5 : skipws l l.length s + 1 < l.length
          · rw [charAt_wrap_lt _ _ h5]
          · have h6 : skipws l l.length s + 1 = l.length := by omega
            rw [h6, charAt_wrap_end, hE.nul]
            decide
        by_cases h7 : charAt l (skipws l l.length s + 1) = '>'
        · simp only [if_pos h7, if_pos (h4.2 h7), and_self]
        · simp only [if_neg h7, if_neg (mt h4.1 h7), and_self]
      · simp only [if_neg h3, scanword_wrap hxe, and_self]
  have hps2 := hps
  rw [key.2.2, skipws_wrap (by omega), ← gettoken_ps] at hps2
  cases hg : gettoken ('(' :: (l ++ [')'])) (l.length + 2) (s + 1) with
  | mk r q e p =>
    rw [hg] at key hps2
    simp only at key hps2
    rw [key.1, key.2.1, key.2.2, hps2]

theorem slice_wrap (l : List Char) (c0 : Char) (post : List Char) {q e : Nat}
    (he : e ≤ l.length) : slice (c0 :: (l ++ post)) (q + 1) (e + 1) = slice l q e := by
  unfold slice
  rw [List.drop_succ_cons, Nat.add_sub_add_right]
  by_cases hq : q ≤ e
  · rw [List.drop_append_of_le_length (by omega), List.take_append_of_le_length]
    simp only [List.length_drop]
    omega
  · have : e - q = 0 := by omega
    rw [this, List.take_zero, List.take_zero]

/-- Where the line has a byte left, `peek` finds on the line in parentheses what it finds on the
line. -/
theorem peek_wrap_lt {l : List Char} {s : Nat} (hs : s ≤ l.length) (toks : List Char)
    (h : skipws l l.length s < l.length) :
    peek ('(' :: (l ++ [')'])) (l.length + 2) (s + 1) toks =
      ((peek l l.length s toks).1, (peek l l.length s toks).2 + 1) := by
  simp only [peek, skipws_wrap hs, charAt_wrap_lt '(' [')'] h]

/-- At the end of the line `peek` finds nothing on the line, and the `)` on the line in
parentheses. -/
theorem peek_wrap_end {l : List Char} (hN : NUL ∉ l) {s : Nat} (hs : s ≤ l.length)
    (toks : List Char) (h : skipws l l.length s = l.length) :
    peek ('(' :: (l ++ [')'])) (l.length + 2) (s + 1) toks =
        (strchr toks ')', l.length + 1) ∧
      peek l l.length s toks = (false, l.length) := by
  have hE := isEnd_length hN
  constructor
  · simp only [peek, skipws_wrap hs, h, charAt_wrap_end]
    rfl
  · simp only [peek, h, hE.nul]
    rfl

theorem isEnd_wrap {l : List Char} (hN : NUL ∉ l) :
    IsEnd ('(' :: (l ++ [')'])) (l.length + 2) := by
  have := isEnd_length (nul_not_wrap hN)
  rwa [length_wrap] at this


/-! ## The parser on a line put in parentheses -/

theorem shift_execcmd (d : Nat) : execcmd.shift d = execcmd := by
  simp [execcmd, Cmd.shift]

theorem storeArg_shift {c c1 : Cmd} {i : Nat} {q e : Option Nat} (d : Nat)
    (h : storeArg c i q e = .ok c1) :
    storeArg (c.shift d) i (q.map (fun x => x + d)) (e.map (fun x => x + d)) =
      .ok (c1.shift d) := by
  cases c with
  | exec argv eargv =>
    simp only [storeArg] at h
    split at h
    · next hi =>
      simp only [Except.ok.injEq] at h
      subst h
      simp only [Cmd.shift, storeArg, if_pos hi, List.map_set]
    · exact Except.noConfusion h
  | redir c file efile mode fd =>
    simp only [storeArg] at h
    split at h
    · next hi =>
      simp only [Except.ok.injEq] at h
      subst h
      simp only [Cmd.shift, storeArg, if_pos hi, List.map_set, List.map_replicate, Option.map_none',
        Option.map_some']
    · next hi =>
      simp only [Except.ok.injEq] at h
      subst h
      simp only [Cmd.shift, storeArg, if_neg hi]
  | over c file efile mode fd w =>
    simp only [storeArg] at h
    split at h
    · next hi =>
      simp only [Except.ok.injEq] at h
      subst h
      simp only [Cmd.shift, storeArg, if_pos hi, List.map_set, Option.map_some']
    · next hi =>
      simp only [Except.ok.injEq] at h
      subst h
      simp only [Cmd.shift, storeArg, if_neg hi]
  | pipe l r => exact Except.noConfusion h
  | list l r => exact Except.noConfusion h
  | back c => exact Except.noConfusion h

theorem redirFor_shift (tok : Char) (c : Cmd) (q e d : Nat) :
    redirFor tok (c.shift d) (q + d) (e + d) = (redirFor tok c q e).shift d := by
  unfold redirFor
  split
  · rfl
  · split
    · rfl
    · split
      · rfl
      · rfl

theorem peek_wrap_true {l : List Char} (hN : NUL ∉ l) {s : Nat} (hs : s ≤ l.length)
    {toks : List Char} (h : (peek l l.length s toks).1 = true) :
    peek ('(' :: (l ++ [')'])) (l.length + 2) (s + 1) toks =
      (true, (peek l l.length s toks).2 + 1) := by
  rw [peek_wrap_lt hs toks (lt_of_peek (isEnd_length hN) hs h), h]

theorem peek_wrap_false {l : List Char} (hN : NUL ∉ l) {s : Nat} (hs : s ≤ l.length)
    (toks : List Char) (hc : strchr toks ')' = false)
    (h : (peek l l.length s toks).1 = false) :
    peek ('(' :: (l ++ [')'])) (l.length + 2) (s + 1) toks =
      (false, (peek l l.length s toks).2 + 1) := by
  by_cases hlt : skipws l l.length s < l.length
  · rw [peek_wrap_lt hs toks hlt, h]
  · have he : skipws l l.length s = l.length := by
      have := skipws_le l hs
      omega
    obtain ⟨h1, h2⟩ := peek_wrap_end hN hs toks he
    rw [h1, h2, hc]

/-- A token of the line that is not its end, on the line in parentheses. -/
theorem gettoken_wrap_of_peek {l : List Char} (hN : NUL ∉ l) {s : Nat} (hs : s ≤ l.length)
    {toks : List Char} (h : (peek l l.length s toks).1 = true) :
    gettoken ('(' :: (l ++ [')'])) (l.length + 2) (s + 1) =
      ⟨(gettoken l l.length s).ret, (gettoken l l.length s).q + 1,
        (gettoken l l.length s).eq + 1, (gettoken l l.length s).ps + 1⟩ := by
  have hE := isEnd_length hN
  apply gettoken_wrap hN hs
  intro hr
  have := (gettoken_ret_nul_iff hE hs).1 hr
  have := lt_of_peek hE hs h
  omega

theorem parseredirsLoop_wrap {l : List Char} (hN : NUL ∉ l) (n1 : Nat) :
    ∀ (n2 : Nat) (c : Cmd) (s : Nat) (c1 : Cmd) (s1 : Nat), s ≤ l.length →
      parseredirsLoop l l.length n1 c s = .ok (c1, s1) →
      parseredirsLoop ('(' :: (l ++ [')'])) (l.length + 2) n2 (c.shift 1) (s + 1) =
          .error .fuel ∨
        parseredirsLoop ('(' :: (l ++ [')'])) (l.length + 2) n2 (c.shift 1) (s + 1) =
          .ok (c1.shift 1, s1 + 1) := by
  have hE := isEnd_length hN
  induction n1 with
  | zero =>
    intro n2 c s c1 s1 hs h
    simp only [parseredirsLoop] at h
    split at h
    · exact Except.noConfusion h
    · next hp =>
      simp only [Except.ok.injEq, Prod.mk.injEq] at h
      obtain ⟨rfl, rfl⟩ := h
      have hpw := peek_wrap_false hN hs ['<', '>'] (by decide)
        (Bool.eq_false_iff.2 hp)
      right
      cases n2 <;> simp only [parseredirsLoop, hpw, Bool.false_eq_true, if_false]
  | succ n1 ih =>
    intro n2 c s c1 s1 hs h
    simp only [parseredirsLoop] at h
    split at h
    · next hp =>
      rw [gettoken_peek] at h
      split at h
      · exact Except.noConfusion h
      · next hf =>
        have hf2 : (gettoken l l.length (gettoken l l.length s).ps).ret = 'a' := by
          simpa using hf
        have hb := gettoken_bounds hE hs
        have hpw := peek_wrap_true hN hs hp
        have hg1 := gettoken_wrap_of_peek hN hs hp
        have hg2 := gettoken_wrap hN hb.2.2.2 (by rw [hf2]; decide)
        cases n2 with
        | zero =>
          left
          simp only [parseredirsLoop, hpw, if_true]
        | succ n2 =>
          have hb2 := gettoken_bounds hE hb.2.2.2
          rcases ih n2 _ _ c1 s1 hb2.2.2.2 h with k | k
          · left
            simp only [parseredirsLoop, hpw, if_true, gettoken_skipws]
            rw [show (peek l l.length s ['<', '>']).2 + 1 = skipws l l.length s + 1 from rfl,
              ← skipws_wrap hs, gettoken_skipws, hg1]
            simp only [hg2, hf2, ne_eq, not_true_eq_false, if_false, redirFor_shift]
            exact k
          · right
            simp only [parseredirsLoop, hpw, if_true]
            rw [show (peek l l.length s ['<', '>']).2 + 1 = skipws l l.length s + 1 from rfl,
              ← skipws_wrap hs, gettoken_skipws, hg1]
            simp only [hg2, hf2, ne_eq, not_true_eq_false, if_false, redirFor_shift]
            exact k
    · next hp =>
      simp only [Except.ok.injEq, Prod.mk.injEq] at h
      obtain ⟨rfl, rfl⟩ := h
      have hpw := peek_wrap_false hN hs ['<', '>'] (by decide)
        (Bool.eq_false_iff.2 hp)
      right
      cases n2 <;> simp only [parseredirsLoop, hpw, Bool.false_eq_true, if_false]

theorem parseredirs_wrap {l : List Char} (hN : NUL ∉ l) {c : Cmd} {s : Nat} {c1 : Cmd}
    {s1 : Nat} (hs : s ≤ l.length) (h : parseredirs l l.length c s = .ok (c1, s1)) :
    parseredirs ('(' :: (l ++ [')'])) (l.length + 2) (c.shift 1) (s + 1) =
      .ok (c1.shift 1, s1 + 1) := by
  rcases parseredirsLoop_wrap hN _ (l.length + 2 - (s + 1)) c s c1 s1 hs h with k | k
  · exact absurd k (parseredirsLoop_ne_fuel (isEnd_wrap hN) _ _ _ (by omega) (Nat.le_refl _))
  · exact k

theorem parsebackLoop_wrap {l : List Char} (hN : NUL ∉ l) (n1 : Nat) :
    ∀ (n2 : Nat) (c : Cmd) (s : Nat) (c1 : Cmd) (s1 : Nat), s ≤ l.length →
      parsebackLoop l l.length n1 c s = .ok (c1, s1) →
      parsebackLoop ('(' :: (l ++ [')'])) (l.length + 2) n2 (c.shift 1) (s + 1) =
          .error .fuel ∨
        parsebackLoop ('(' :: (l ++ [')'])) (l.length + 2) n2 (c.shift 1) (s + 1) =
          .ok (c1.shift 1, s1 + 1) := by
  have hE := isEnd_length hN
  induction n1 with
  | zero =>
    intro n2 c s c1 s1 hs h
    simp only [parsebackLoop] at h
    split at h
    · exact Except.noConfusion h
    · next hp =>
      simp only [Except.ok.injEq, Prod.mk.injEq] at h
      obtain ⟨rfl, rfl⟩ := h
      have hpw := peek_wrap_false hN hs ['&'] (by decide) (Bool.eq_false_iff.2 hp)
      right
      cases n2 <;> simp only [parsebackLoop, hpw, Bool.false_eq_true, if_false]
  | succ n1 ih =>
    intro n2 c s c1 s1 hs h
    simp only [parsebackLoop] at h
    split at h
    · next hp =>
      rw [gettoken_peek] at h
      have hb := gettoken_bounds hE hs
      have hpw := peek_wrap_true hN hs hp
      have hg1 := gettoken_wrap_of_peek hN hs hp
      cases n2 with
      | zero =>
        left
        simp only [parsebackLoop, hpw, if_true]
      | succ n2 =>
        rcases ih n2 _ _ c1 s1 hb.2.2.2 h with k | k
        · left
          simp only [parsebackLoop, hpw, if_true]
          rw [show (peek l l.length s ['&']).2 + 1 = skipws l l.length s + 1 from rfl,
            ← skipws_wrap hs, gettoken_skipws, hg1]
          exact k
        · right
          simp only [parsebackLoop, hpw, if_true]
          rw [show (peek l l.length s ['&']).2 + 1 = skipws l l.length s + 1 from rfl,
            ← skipws_wrap hs, gettoken_skipws, hg1]
          exact k
    · next hp =>
      simp only [Except.ok.injEq, Prod.mk.injEq] at h
      obtain ⟨rfl, rfl⟩ := h
      have hpw := peek_wrap_false hN hs ['&'] (by decide) (Bool.eq_false_iff.2 hp)
      right
      cases n2 <;> simp only [parsebackLoop, hpw, Bool.false_eq_true, if_false]

theorem parsebacks_wrap {l : List Char} (hN : NUL ∉ l) {c : Cmd} {s : Nat} {c1 : Cmd}
    {s1 : Nat} (hs : s ≤ l.length) (n1 : Nat)
    (h : parsebackLoop l l.length n1 c s = .ok (c1, s1)) :
    parsebackLoop ('(' :: (l ++ [')'])) (l.length + 2) (l.length + 2 - (s + 1)) (c.shift 1)
      (s + 1) = .ok (c1.shift 1, s1 + 1) := by
  rcases parsebackLoop_wrap hN _ (l.length + 2 - (s + 1)) c s c1 s1 hs h with k | k
  · exact absurd k (parsebackLoop_ne_fuel (isEnd_wrap hN) _ _ _ (by omega) (Nat.le_refl _))
  · exact k

theorem parseargsLoop_wrap {l : List Char} (hN : NUL ∉ l) (n1 : Nat) :
    ∀ (n2 : Nat) (c : Cmd) (argc s : Nat) (c1 : Cmd) (argc1 s1 : Nat), s ≤ l.length →
      parseargsLoop l l.length n1 c argc s = .ok (c1, argc1, s1) →
      parseargsLoop ('(' :: (l ++ [')'])) (l.length + 2) n2 (c.shift 1) argc (s + 1) =
          .error .fuel ∨
        parseargsLoop ('(' :: (l ++ [')'])) (l.length + 2) n2 (c.shift 1) argc (s + 1) =
          .ok (c1.shift 1, argc1, s1 + 1) := by
  have hE := isEnd_length hN
  have key : ∀ (n1 : Nat) (ih : n1 = 0 ∨ ∃ m, n1 = m + 1 ∧
      ∀ (n2 : Nat) (c : Cmd) (argc s : Nat) (c1 : Cmd) (argc1 s1 : Nat), s ≤ l.length →
        parseargsLoop l l.length m c argc s = .ok (c1, argc1, s1) →
        parseargsLoop ('(' :: (l ++ [')'])) (l.length + 2) n2 (c.shift 1) argc (s + 1) =
            .error .fuel ∨
          parseargsLoop ('(' :: (l ++ [')'])) (l.length + 2) n2 (c.shift 1) argc (s + 1) =
            .ok (c1.shift 1, argc1, s1 + 1))
      (n2 : Nat) (c : Cmd) (argc s : Nat) (c1 : Cmd) (argc1 s1 : Nat), s ≤ l.length →
      parseargsLoop l l.length n1 c argc s = .ok (c1, argc1, s1) →
      parseargsLoop ('(' :: (l ++ [')'])) (l.length + 2) n2 (c.shift 1) argc (s + 1) =
          .error .fuel ∨
        parseargsLoop ('(' :: (l ++ [')'])) (l.length + 2) n2 (c.shift 1) argc (s + 1) =
          .ok (c1.shift 1, argc1, s1 + 1) := by
    intro n1 ih n2 c argc s c1 argc1 s1 hs h
    unfold parseargsLoop at h
    by_cases hp : (peek l l.length s ['|', ')', '&', ';']).1 = true
    · rw [if_pos hp] at h
      simp only [Except.ok.injEq, Prod.mk.injEq] at h
      obtain ⟨rfl, rfl, rfl⟩ := h
      right
      unfold parseargsLoop
      rw [peek_wrap_true hN hs hp]
      simp only [if_true]
    · rw [if_neg hp, gettoken_peek] at h
      simp only at h
      by_cases hr : (gettoken l l.length s).ret = NUL
      · rw [if_pos hr] at h
        simp only [Except.ok.injEq, Prod.mk.injEq] at h
        obtain ⟨rfl, rfl, rfl⟩ := h
        have he := (gettoken_ret_nul_iff hE hs).1 hr
        obtain ⟨h1, _⟩ := peek_wrap_end hN hs ['|', ')', '&', ';'] he
        have hps : (gettoken l l.length s).ps = l.length := by
          have hb := gettoken_bounds hE hs
          have hq : (gettoken l l.length s).q = l.length := by rw [gettoken_q, he]
          omega
        right
        unfold parseargsLoop
        rw [h1, hps]
        rfl
      · rw [if_neg hr] at h
        by_cases ha : (gettoken l l.length s).ret = 'a'
        · rw [if_neg (by simpa using ha)] at h
          have hg := gettoken_wrap hN hs hr
          have hlt : skipws l l.length s < l.length := by
            have := mt (gettoken_ret_nul_iff hE hs).2 hr
            have := skipws_le l hs
            omega
          have hpw : peek ('(' :: (l ++ [')'])) (l.length + 2) (s + 1) ['|', ')', '&', ';'] =
              (false, skipws l l.length s + 1) := by
            rw [peek_wrap_lt hs _ hlt, Bool.eq_false_iff.2 hp]
            rfl
          have hb := gettoken_bounds hE hs
          cases hst : storeArg c argc (some (gettoken l l.length s).q)
              (some (gettoken l l.length s).eq) with
          | error e => rw [hst] at h; exact Except.noConfusion h
          | ok cmd1 =>
            rw [hst] at h
            simp only at h
            have hst2 := storeArg_shift 1 hst
            simp only [Option.map_some'] at hst2
            by_cases hm : argc + 1 ≥ MAXARGS
            · rw [if_pos hm] at h
              exact Except.noConfusion h
            · rw [if_neg hm] at h
              cases hrd : parseredirs l l.length cmd1 (gettoken l l.length s).ps with
              | error e => rw [hrd] at h; exact Except.noConfusion h
              | ok r =>
                obtain ⟨cmd2, ps2⟩ := r
                rw [hrd] at h
                simp only at h
                have hrd2 := parseredirs_wrap hN hb.2.2.2 hrd
                have head : parseargsLoop ('(' :: (l ++ [')'])) (l.length + 2) n2 (c.shift 1)
                    argc (s + 1) =
                    match n2 with
                    | 0 => .error .fuel
                    | n + 1 => parseargsLoop ('(' :: (l ++ [')'])) (l.length + 2) n
                        (cmd2.shift 1) (argc + 1) (ps2 + 1) := by
                  conv => lhs; unfold parseargsLoop
                  rw [hpw]
                  simp only [Bool.false_eq_true, if_false]
                  rw [← skipws_wrap hs, gettoken_skipws, hg]
                  simp only [hr, ha, if_false, ne_eq, not_true_eq_false, hst2, if_neg hm, hrd2]
                  rw [if_neg (by decide)]
                rcases ih with rfl | ⟨m, rfl, ih⟩
                · exact Except.noConfusion h
                · simp only at h
                  cases n2 with
                  | zero => left; rw [head]
                  | succ n2 =>
                    rw [head]
                    have hb2 : ps2 ≤ l.length :=
                      ((redirs_of_ok hrd).redirs_seg hE (segClosed_true _ _) hb.2.2.2).2.1
                    exact ih n2 _ _ _ _ _ _ hb2 h
        · rw [if_pos (by simpa using ha)] at h
          exact Except.noConfusion h
  induction n1 with
  | zero => exact key 0 (Or.inl rfl)
  | succ m ih => exact key (m + 1) (Or.inr ⟨m, rfl, ih⟩)

theorem gettoken_wrap_at_peek {l : List Char} (hN : NUL ∉ l) {s : Nat} (hs : s ≤ l.length)
    {toks : List Char} (h : (peek l l.length s toks).1 = true) (t2 : List Char) :
    gettoken ('(' :: (l ++ [')'])) (l.length + 2) ((peek l l.length s t2).2 + 1) =
      ⟨(gettoken l l.length s).ret, (gettoken l l.length s).q + 1,
        (gettoken l l.length s).eq + 1, (gettoken l l.length s).ps + 1⟩ := by
  rw [show (peek l l.length s t2).2 + 1 = skipws l l.length s + 1 from rfl,
    ← skipws_wrap hs, gettoken_skipws, gettoken_wrap_of_peek hN hs h]

theorem parseplain_wrap {l : List Char} (hN : NUL ∉ l) {s : Nat} {c : Cmd} {s1 : Nat}
    (hs : s ≤ l.length) (h : parseplain l l.length s = .ok (c, s1)) :
    parseplain ('(' :: (l ++ [')'])) (l.length + 2) (s + 1) = .ok (c.shift 1, s1 + 1) := by
  have hE := isEnd_length hN
  simp only [parseplain] at h
  cases hrd : parseredirs l l.length execcmd s with
  | error e => rw [hrd] at h; exact Except.noConfusion h
  | ok r =>
    obtain ⟨cmd, ps1⟩ := r
    rw [hrd] at h
    simp only at h
    have hb1 : ps1 ≤ l.length := ((redirs_of_ok hrd).redirs_seg hE (segClosed_true _ _) hs).2.1
    have hrd2 := parseredirs_wrap hN hs hrd
    rw [shift_execcmd] at hrd2
    cases hl : parseargsLoop l l.length (l.length - ps1) cmd 0 ps1 with
    | error e => rw [hl] at h; exact Except.noConfusion h
    | ok r2 =>
      obtain ⟨cmd1, argc, ps2⟩ := r2
      rw [hl] at h
      simp only at h
      have hl2 : parseargsLoop ('(' :: (l ++ [')'])) (l.length + 2) (l.length + 2 - (ps1 + 1))
          (cmd.shift 1) 0 (ps1 + 1) = .ok (cmd1.shift 1, argc, ps2 + 1) := by
        rcases parseargsLoop_wrap hN _ (l.length + 2 - (ps1 + 1)) _ _ _ _ _ _ hb1 hl with k | k
        · exact absurd k (parseargsLoop_ne_fuel (isEnd_wrap hN) _ _ _ _ (by omega)
            (Nat.le_refl _))
        · exact k
      cases hst : storeArg cmd1 argc none none with
      | error e => rw [hst] at h; exact Except.noConfusion h
      | ok cmd2 =>
        rw [hst] at h
        simp only [Except.ok.injEq, Prod.mk.injEq] at h
        obtain ⟨rfl, rfl⟩ := h
        have hst2 := storeArg_shift 1 hst
        simp only [Option.map_none'] at hst2
        simp only [parseplain, hrd2, hl2, hst2]

/-- The parser on a line put in parentheses, started after the `(`: a parse function that
returns a tree on the line returns on the line in parentheses the same tree one byte further on,
and leaves the cursor one byte further on, unless the bound on nested calls given to it is too
small. -/
theorem parse_wrap {l : List Char} (hN : NUL ∉ l) (fuel1 : Nat) :
    ∀ fuel2 : Nat,
    (∀ s c s1, s ≤ l.length → parseline l l.length fuel1 s = .ok (c, s1) →
      parseline ('(' :: (l ++ [')'])) (l.length + 2) fuel2 (s + 1) = .error .fuel ∨
        parseline ('(' :: (l ++ [')'])) (l.length + 2) fuel2 (s + 1) =
          .ok (c.shift 1, s1 + 1)) ∧
    (∀ s c s1, s ≤ l.length → parsepipe l l.length fuel1 s = .ok (c, s1) →
      parsepipe ('(' :: (l ++ [')'])) (l.length + 2) fuel2 (s + 1) = .error .fuel ∨
        parsepipe ('(' :: (l ++ [')'])) (l.length + 2) fuel2 (s + 1) =
          .ok (c.shift 1, s1 + 1)) ∧
    (∀ s c s1, s ≤ l.length → parseexec l l.length fuel1 s = .ok (c, s1) →
      parseexec ('(' :: (l ++ [')'])) (l.length + 2) fuel2 (s + 1) = .error .fuel ∨
        parseexec ('(' :: (l ++ [')'])) (l.length + 2) fuel2 (s + 1) =
          .ok (c.shift 1, s1 + 1)) ∧
    (∀ s c s1, s ≤ l.length → parseblock l l.length fuel1 s = .ok (c, s1) →
      parseblock ('(' :: (l ++ [')'])) (l.length + 2) fuel2 (s + 1) = .error .fuel ∨
        parseblock ('(' :: (l ++ [')'])) (l.length + 2) fuel2 (s + 1) =
          .ok (c.shift 1, s1 + 1)) := by
  have hE := isEnd_length hN
  induction fuel1 with
  | zero =>
    intro fuel2
    refine ⟨?_, ?_, ?_, ?_⟩ <;> intro s c s1 _ h
    · simp only [parseline] at h; exact Except.noConfusion h
    · simp only [parsepipe] at h; exact Except.noConfusion h
    · simp only [parseexec] at h; exact Except.noConfusion h
    · simp only [parseblock] at h; exact Except.noConfusion h
  | succ n1 ih =>
    intro fuel2
    cases fuel2 with
    | zero =>
      refine ⟨?_, ?_, ?_, ?_⟩ <;> intro s c s1 _ _
      · exact Or.inl (by simp only [parseline])
      · exact Or.inl (by simp only [parsepipe])
      · exact Or.inl (by simp only [parseexec])
      · exact Or.inl (by simp only [parseblock])
    | succ n2 =>
      obtain ⟨ihl, ihp, ihe, ihb⟩ := ih n2
      refine ⟨?_, ?_, ?_, ?_⟩ <;> intro s c s1 hs h
      · -- parseline
        simp only [parseline] at h
        cases h0 : parsepipe l l.length n1 s with
        | error e => rw [h0] at h; exact Except.noConfusion h
        | ok r =>
          obtain ⟨c0, q1⟩ := r
          rw [h0] at h
          simp only at h
          have hq1 : q1 ≤ l.length := (((parsed_of_ok l _ n1).2.1 _ _ _ h0).bounds hE hs).2
          rcases ihp s c0 q1 hs h0 with k0 | k0
          · left
            simp only [parseline, k0]
          · cases h1 : parsebackLoop l l.length (l.length - q1) c0 q1 with
            | error e => rw [h1] at h; exact Except.noConfusion h
            | ok r1 =>
              obtain ⟨cb, r1⟩ := r1
              rw [h1] at h
              simp only at h
              have k1 := parsebacks_wrap hN hq1 _ h1
              have hr1 : r1 ≤ l.length :=
                ((backs_of_loop _ _ _ _ _ _ _ h1).backs_seg hE (segClosed_true _ _) hq1).2.1
              by_cases hp : (peek l l.length r1 [';']).1 = true
              · rw [if_pos hp, gettoken_peek] at h
                have hpw := peek_wrap_true hN hr1 hp
                have hg := gettoken_wrap_at_peek hN hr1 hp [';']
                have hb := gettoken_bounds hE hr1
                cases h2 : parseline l l.length n1 (gettoken l l.length r1).ps with
                | error e => rw [h2] at h; exact Except.noConfusion h
                | ok r3 =>
                  obtain ⟨cr, p⟩ := r3
                  rw [h2] at h
                  simp only [Except.ok.injEq, Prod.mk.injEq] at h
                  obtain ⟨rfl, rfl⟩ := h
                  rcases ihl _ cr p hb.2.2.2 h2 with k2 | k2
                  · left
                    simp only [parseline, k0, show l.length + 2 - (q1 + 1) = l.length + 2 -
                      (q1 + 1) from rfl, k1, hpw, if_true, hg, k2]
                  · right
                    simp only [parseline, k0, k1, hpw, if_true, hg, k2]
                    rfl
              · rw [if_neg hp] at h
                simp only [Except.ok.injEq, Prod.mk.injEq] at h
                obtain ⟨rfl, rfl⟩ := h
                have hpw := peek_wrap_false hN hr1 [';'] (by decide)
                  (Bool.eq_false_iff.2 hp)
                right
                simp only [parseline, k0, k1, hpw, Bool.false_eq_true, if_false]
      · -- parsepipe
        simp only [parsepipe] at h
        cases h0 : parseexec l l.length n1 s with
        | error e => rw [h0] at h; exact Except.noConfusion h
        | ok r =>
          obtain ⟨c0, q1⟩ := r
          rw [h0] at h
          simp only at h
          have hq1 : q1 ≤ l.length := (((parsed_of_ok l _ n1).2.2.1 _ _ _ h0).bounds hE hs).2
          rcases ihe s c0 q1 hs h0 with k0 | k0
          · left
            simp only [parsepipe, k0]
          · by_cases hp : (peek l l.length q1 ['|']).1 = true
            · rw [if_pos hp, gettoken_peek] at h
              have hpw := peek_wrap_true hN hq1 hp
              have hg := gettoken_wrap_at_peek hN hq1 hp ['|']
              have hb := gettoken_bounds hE hq1
              cases h2 : parsepipe l l.length n1 (gettoken l l.length q1).ps with
              | error e => rw [h2] at h; exact Except.noConfusion h
              | ok r3 =>
                obtain ⟨cr, p⟩ := r3
                rw [h2] at h
                simp only [Except.ok.injEq, Prod.mk.injEq] at h
                obtain ⟨rfl, rfl⟩ := h
                rcases ihp _ cr p hb.2.2.2 h2 with k2 | k2
                · left
                  simp only [parsepipe, k0, hpw, if_true, hg, k2]
                · right
                  simp only [parsepipe, k0, hpw, if_true, hg, k2]
                  rfl
            · rw [if_neg hp] at h
              simp only [Except.ok.injEq, Prod.mk.injEq] at h
              obtain ⟨rfl, rfl⟩ := h
              have hpw := peek_wrap_false hN hq1 ['|'] (by decide)
                (Bool.eq_false_iff.2 hp)
              right
              simp only [parsepipe, k0, hpw, Bool.false_eq_true, if_false]
      · -- parseexec
        simp only [parseexec] at h
        by_cases hp : (peek l l.length s ['(']).1 = true
        · rw [if_pos hp] at h
          have hpw := peek_wrap_true hN hs hp
          rcases ihb _ c s1 (skipws_le l hs) h with k | k
          · left
            simp only [parseexec, hpw, if_true]
            exact k
          · right
            simp only [parseexec, hpw, if_true]
            exact k
        · rw [if_neg hp] at h
          have hpw := peek_wrap_false hN hs ['('] (by decide)
            (Bool.eq_false_iff.2 hp)
          right
          simp only [parseexec, hpw, Bool.false_eq_true, if_false]
          exact parseplain_wrap hN (skipws_le l hs) h
      · -- parseblock
        simp only [parseblock] at h
        by_cases hp : (peek l l.length s ['(']).1 = true
        · rw [if_pos hp, gettoken_peek] at h
          have hpw := peek_wrap_true hN hs hp
          have hg := gettoken_wrap_at_peek hN hs hp ['(']
          have hb := gettoken_bounds hE hs
          cases h0 : parseline l l.length n1 (gettoken l l.length s).ps with
          | error e => rw [h0] at h; exact Except.noConfusion h
          | ok r =>
            obtain ⟨c0, q1⟩ := r
            rw [h0] at h
            simp only at h
            have hq1 : q1 ≤ l.length :=
              (((parsed_of_ok l _ n1).1 _ _ _ h0).bounds hE hb.2.2.2).2
            rcases ihl _ c0 q1 hb.2.2.2 h0 with k0 | k0
            · left
              simp only [parseblock, hpw, if_true, hg, k0]
            · by_cases hq : (peek l l.length q1 [')']).1 = true
              · rw [if_pos hq, gettoken_peek] at h
                have hqw := peek_wrap_true hN hq1 hq
                have hg2 := gettoken_wrap_at_peek hN hq1 hq [')']
                have hb2 := gettoken_bounds hE hq1
                right
                simp only [parseblock, hpw, if_true, hg, k0, hqw, hg2]
                exact parseredirs_wrap hN hb2.2.2.2 h
              · rw [if_neg hq] at h
                exact Except.noConfusion h
        · rw [if_neg hp] at h
          exact Except.noConfusion h

/-! ## The whole line in parentheses -/

theorem parseexec_skipws (buf : List Char) (es f s : Nat) :
    parseexec buf es f (skipws buf es s) = parseexec buf es f s := by
  cases f with
  | zero => simp only [parseexec]
  | succ f => simp only [parseexec, peek_skipws]

theorem parsepipe_skipws (buf : List Char) (es f s : Nat) :
    parsepipe buf es f (skipws buf es s) = parsepipe buf es f s := by
  cases f with
  | zero => simp only [parsepipe]
  | succ f => simp only [parsepipe, parseexec_skipws]

theorem parseline_skipws (buf : List Char) (es f s : Nat) :
    parseline buf es f (skipws buf es s) = parseline buf es f s := by
  cases f with
  | zero => simp only [parseline]
  | succ f => simp only [parseline, parsepipe_skipws]

/-- The result of `parsecmd` once `parseline` has read the whole line and `nulterminate` has
come to its end. -/
theorem parsecmd_of_nul {buf : List Char} {c : Cmd} {s1 : Nat} {b1 : List Char}
    (h : parseline buf (strlen buf) (4 * strlen buf + 4) 0 = .ok (c, s1))
    (hs : skipws buf (strlen buf) s1 = strlen buf) (hn : nulterminate c buf = .ok b1) :
    parsecmd buf = .ok (c, b1) := by
  simp only [parsecmd, h, peek_snd, hs, ne_eq, not_true_eq_false, if_false, hn]

/-- The parse of the line in parentheses: the tree of the line, one byte further on. -/
theorem parseline_wrap {l : List Char} (hN : NUL ∉ l) {c : Cmd} {s1 : Nat}
    (h : parseline l l.length (4 * l.length + 4) 0 = .ok (c, s1))
    (hs : skipws l l.length s1 = l.length) :
    parseline ('(' :: (l ++ [')'])) (l.length + 2) (4 * (l.length + 2) + 4) 0 =
      .ok (c.shift 1, l.length + 2) := by
  have hE := isEnd_length hN
  have hN2 := nul_not_wrap hN
  have hE2 := isEnd_wrap hN
  have hs1 : s1 ≤ l.length := (((parsed_of_ok l _ _).1 _ _ _ h).bounds hE (Nat.zero_le _)).2
  generalize hbuf : '(' :: (l ++ [')']) = buf at hN2 hE2 ⊢
  have hL : buf.length = l.length + 2 := by rw [← hbuf]; exact length_wrap l
  have hat0 : At buf 0 ('(' :: (l ++ [')'])) := by rw [hbuf]; exact at_zero buf
  have hpk0 : (peek buf (l.length + 2) 0 ['(']).1 = true := by
    rw [← hL, peek_at hN2 hat0 (by decide)]
    rfl
  have hg0 : (gettoken buf (l.length + 2) 0).ps = skipws buf (l.length + 2) (0 + 1) := by
    rw [← hL, gettoken_sym_at hN2 hat0 (by decide)]
  -- the line inside
  have hin : parseline buf (l.length + 2) (4 * l.length + 8) (gettoken buf (l.length + 2) 0).ps =
      .ok (c.shift 1, s1 + 1) := by
    rw [hg0, parseline_skipws]
    rcases (parse_wrap hN (4 * l.length + 4) (4 * l.length + 8)).1 0 c s1 (Nat.zero_le _) h with
      k | k
    · rw [hbuf] at k
      exact absurd k ((parse_ne_fuel hE2 _).1 _ (by omega) (by omega))
    · rw [hbuf] at k
      exact k
  -- the closing parenthesis, and nothing after it
  obtain ⟨hq1, _⟩ := peek_wrap_end hN hs1 [')'] hs
  rw [hbuf] at hq1
  have hpk1 : (peek buf (l.length + 2) (s1 + 1) [')']).1 = true := by
    rw [hq1]
    rfl
  have hat1 : At buf (l.length + 1) [')'] := by
    have h := @at_append ('(' :: (l ++ [')'])) 0 ('(' :: l) [')']
      (by simpa using at_zero ('(' :: (l ++ [')'])))
    rw [hbuf] at h
    simpa using h
  have hg1 : (gettoken buf (l.length + 2) (s1 + 1)).ps = l.length + 2 := by
    have hsk : skipws buf (l.length + 2) (s1 + 1) = l.length + 1 := by
      rw [← hbuf, skipws_wrap hs1, hs]
    rw [← gettoken_skipws, hsk, ← hL, gettoken_sym_at hN2 hat1 (by decide)]
    simp only
    rw [hL, skipws_end]
  have hrd : parseredirs buf (l.length + 2) (c.shift 1) (gettoken buf (l.length + 2) (s1 + 1)).ps =
      .ok (c.shift 1, l.length + 2) := by
    rw [hg1, parseredirs_none _ (not_peek_end hE2 _), skipws_end]
  have hex := parseexec_block hpk0 hin hpk1 hrd
  have hln := @parseline_of_exec_end buf hN2 (4 * l.length + 8 + 2) 0 (c.shift 1)
    (by rw [hL]; exact hex)
  rw [hL] at hln
  exact hln

/-! ## `nulterminate` on the line in parentheses -/

theorem toNat_eq_zero {c : Char} (h : c.toNat = 0) : c = NUL := by
  have := Char.ofNat_toNat c
  rw [h] at this
  exact this.symm

theorem getD_shift (w : List (Option (Option Nat))) (d i : Nat) :
    (w.map (Option.map (Option.map (fun q => q + d)))).getD i none =
      (w.getD i none).map (Option.map (fun q => q + d)) := by
  induction w generalizing i with
  | nil => rfl
  | cons a w ih =>
    cases i with
    | zero => rfl
    | succ i => simpa using ih i

theorem wrapped_init {l : List Char} :
    Wrapped l.length l ('(' :: (l ++ [')'])) := by
  refine ⟨fun i hi => charAt_wrap_lt '(' [')'] hi, fun i hi => charAt_of_length_le hi,
    fun i hi => ?_⟩
  by_cases h : i = l.length
  · subst h
    exact Or.inl (charAt_wrap_end l '(' ')')
  · right
    apply charAt_of_length_le
    rw [length_wrap]
    omega

theorem wrapped_set {n : Nat} {st1 st2 : List Char} (h : Wrapped n st1 st2) (e : Nat) :
    Wrapped n (st1.set e NUL) (st2.set (e + 1) NUL) := by
  obtain ⟨h1, h2, h3⟩ := h
  refine ⟨fun i hi => ?_, fun i hi => ?_, fun i hi => ?_⟩
  · rw [charAt_set_nul, charAt_set_nul, h1 i hi]
    by_cases he : i = e
    · rw [if_pos he, if_pos (by omega)]
    · rw [if_neg he, if_neg (by omega)]
  · rw [charAt_set_nul, h2 i hi]
    split <;> rfl
  · rw [charAt_set_nul]
    by_cases he : i + 1 = e + 1
    · rw [if_pos he]
      exact Or.inr rfl
    · rw [if_neg he]
      exact h3 i hi

theorem isNodeType_wrap {n : Nat} {st1 st2 : List Char} (hw : Wrapped n st1 st2) (q : Nat)
    (h : isNodeType (typeAt st2 (q + 1)) = true) : isNodeType (typeAt st1 q) = true := by
  obtain ⟨h1, h2, h3⟩ := hw
  simp only [isNodeType, typeAt, Bool.and_eq_true, decide_eq_true_eq] at h ⊢
  have e1 : (charAt st2 (q + 1 + 1)).toNat = 0 := by omega
  have e2 : (charAt st2 (q + 1 + 2)).toNat = 0 := by omega
  have e3 : (charAt st2 (q + 1 + 3)).toNat = 0 := by omega
  have k : ∀ j, charAt st2 (q + j + 1) = NUL → charAt st1 (q + j) = NUL := by
    intro j hj
    by_cases hlt : q + j < n
    · rw [← h1 _ hlt]; exact hj
    · exact h2 _ (by omega)
  have f1 : charAt st1 (q + 1) = NUL := k 1 (by
    rw [show q + 1 + 1 = q + 1 + 1 from rfl]; exact toNat_eq_zero e1)
  have f2 : charAt st1 (q + 2) = NUL := k 2 (by
    rw [show q + 2 + 1 = q + 1 + 2 from by omega]; exact toNat_eq_zero e2)
  have f3 : charAt st1 (q + 3) = NUL := k 3 (by
    rw [show q + 3 + 1 = q + 1 + 3 from by omega]; exact toNat_eq_zero e3)
  have z : NUL.toNat = 0 := rfl
  rw [f1, f2, f3, z]
  by_cases hlt : q < n
  · rw [← h1 _ hlt]
    omega
  · rcases h3 q (by omega) with h0 | h0
    · rw [h0] at h
      have : (')' : Char).toNat = 41 := rfl
      omega
    · rw [h0, z] at h
      omega

theorem nulargs_wrap {n : Nat} (argv eargv : List (Option Nat)) :
    ∀ (st1 st2 b1 : List Char), Wrapped n st1 st2 → nulargs argv eargv st1 = .ok b1 →
      ∃ b2, nulargs (argv.map (Option.map (fun q => q + 1)))
          (eargv.map (Option.map (fun q => q + 1))) st2 = .ok b2 ∧ Wrapped n b1 b2 := by
  induction argv generalizing eargv with
  | nil =>
    intro st1 st2 b1 _ h
    simp [nulargs] at h
  | cons a argv ih =>
    intro st1 st2 b1 hw h
    cases a with
    | none =>
      simp only [nulargs, Except.ok.injEq] at h
      subst h
      exact ⟨st2, by simp [nulargs], hw⟩
    | some q =>
      cases eargv with
      | nil => simp [nulargs] at h
      | cons e eargv =>
        cases e with
        | none => simp [nulargs] at h
        | some e =>
          simp only [nulargs] at h
          obtain ⟨b2, k1, k2⟩ := ih eargv _ _ b1 (wrapped_set hw e) h
          exact ⟨b2, by simpa [nulargs] using k1, k2⟩

/-- When `nulterminate` comes to its end on the tree of the line, it comes to its end on the
tree of the line in parentheses, and leaves the two buffers alike. -/
theorem nulterminate_wrap {n : Nat} (c : Cmd) :
    ∀ (st1 st2 b1 : List Char), Wrapped n st1 st2 → nulterminate c st1 = .ok b1 →
      ∃ b2, nulterminate (c.shift 1) st2 = .ok b2 ∧ Wrapped n b1 b2 := by
  induction c with
  | exec argv eargv =>
    intro st1 st2 b1 hw h
    exact nulargs_wrap argv eargv st1 st2 b1 hw h
  | redir c file efile mode fd ih =>
    intro st1 st2 b1 hw h
    simp only [nulterminate] at h
    cases h1 : nulterminate c st1 with
    | error e => rw [h1] at h; exact Except.noConfusion h
    | ok b =>
      rw [h1] at h
      simp only [Except.ok.injEq] at h
      subst h
      obtain ⟨b2, k1, k2⟩ := ih st1 st2 b hw h1
      exact ⟨b2.set (efile + 1) NUL, by simp only [Cmd.shift, nulterminate, k1],
        wrapped_set k2 efile⟩
  | pipe l r ihl ihr =>
    intro st1 st2 b1 hw h
    simp only [nulterminate] at h
    cases h1 : nulterminate l st1 with
    | error e => rw [h1] at h; exact Except.noConfusion h
    | ok b =>
      rw [h1] at h
      obtain ⟨b2, k1, k2⟩ := ihl st1 st2 b hw h1
      obtain ⟨b3, k3, k4⟩ := ihr b b2 b1 k2 h
      exact ⟨b3, by simp only [Cmd.shift, nulterminate, k1, k3], k4⟩
  | list l r ihl ihr =>
    intro st1 st2 b1 hw h
    simp only [nulterminate] at h
    cases h1 : nulterminate l st1 with
    | error e => rw [h1] at h; exact Except.noConfusion h
    | ok b =>
      rw [h1] at h
      obtain ⟨b2, k1, k2⟩ := ihl st1 st2 b hw h1
      obtain ⟨b3, k3, k4⟩ := ihr b b2 b1 k2 h
      exact ⟨b3, by simp only [Cmd.shift, nulterminate, k1, k3], k4⟩
  | back c ih =>
    intro st1 st2 b1 hw h
    simp only [nulterminate] at h
    obtain ⟨b2, k1, k2⟩ := ih st1 st2 b1 hw h
    exact ⟨b2, by simp only [Cmd.shift, nulterminate, k1], k2⟩
  | over c file efile mode fd w ih =>
    intro st1 st2 b1 hw h
    simp only [nulterminate] at h
    simp only [Cmd.shift, nulterminate, getD_shift]
    rcases hx0 : w.getD 0 none with _ | _ | q
    · simp only [hx0, Option.map_none'] at h ⊢
      cases h1 : nulterminate c st1 with
      | error e => rw [h1] at h; exact Except.noConfusion h
      | ok b =>
        rw [h1] at h
        obtain ⟨b2, k1, k2⟩ := ih st1 st2 b hw h1
        rw [k1]
        rcases hx2 : w.getD 2 none with _ | _ | e
        · simp only [hx2, Except.ok.injEq, Option.map_none'] at h ⊢
          subst h
          exact ⟨_, rfl, wrapped_set k2 efile⟩
        · simp only [hx2] at h
          exact Except.noConfusion h
        · simp only [hx2, Except.ok.injEq, Option.map_some'] at h ⊢
          subst h
          exact ⟨_, rfl, wrapped_set k2 e⟩
    · simp only [hx0, Option.map_some', Option.map_none'] at h ⊢
      rcases hx2 : w.getD 2 none with _ | _ | e
      · simp only [hx2, Except.ok.injEq, Option.map_none'] at h ⊢
        subst h
        exact ⟨_, rfl, wrapped_set hw efile⟩
      · simp only [hx2] at h
        exact Except.noConfusion h
      · simp only [hx2, Except.ok.injEq, Option.map_some'] at h ⊢
        subst h
        exact ⟨_, rfl, wrapped_set hw e⟩
    · simp only [hx0, Option.map_some'] at h ⊢
      by_cases ht : isNodeType (typeAt st1 q) = true
      · rw [if_pos ht] at h
        exact Except.noConfusion h
      · rw [if_neg ht] at h
        rw [if_neg (fun h2 => ht (isNodeType_wrap hw q h2))]
        rcases hx2 : w.getD 2 none with _ | _ | e
        · simp only [hx2, Except.ok.injEq, Option.map_none'] at h ⊢
          subst h
          exact ⟨_, rfl, wrapped_set hw efile⟩
        · simp only [hx2] at h
          exact Except.noConfusion h
        · simp only [hx2, Except.ok.injEq, Option.map_some'] at h ⊢
          subst h
          exact ⟨_, rfl, wrapped_set hw e⟩

/-! ## The strings of the tree of the line in parentheses -/

theorem endsOf_shift (argv eargv : List (Option Nat)) (d : Nat) :
    endsOf (argv.map (Option.map (fun q => q + d))) (eargv.map (Option.map (fun q => q + d))) =
      (endsOf argv eargv).map (fun q => q + d) := by
  induction argv generalizing eargv with
  | nil => simp [endsOf]
  | cons a argv ih =>
    cases a with
    | none => simp [endsOf]
    | some q =>
      cases eargv with
      | nil => simp [endsOf]
      | cons e eargv =>
        cases e with
        | none => simp [endsOf]
        | some e => simp [endsOf, ih]

theorem ends_shift (c : Cmd) (d : Nat) : (c.shift d).ends = c.ends.map (fun q => q + d) := by
  induction c with
  | exec argv eargv => exact endsOf_shift argv eargv d
  | redir c file efile mode fd ih => simp [Cmd.shift, Cmd.ends, ih]
  | pipe l r ihl ihr => simp [Cmd.shift, Cmd.ends, ihl, ihr]
  | list l r ihl ihr => simp [Cmd.shift, Cmd.ends, ihl, ihr]
  | back c ih => simp [Cmd.shift, Cmd.ends, ih]
  | over c file efile mode fd w ih =>
    simp only [Cmd.shift, Cmd.ends, getD_shift, List.map_append]
    rcases w.getD 0 none with _ | _ | q <;> rcases w.getD 2 none with _ | _ | e <;> simp [ih]

theorem fileOf_shift (file : Nat) (w : List (Option (Option Nat))) (d : Nat) :
    fileOf (file + d) (w.map (Option.map (Option.map (fun q => q + d)))) =
      (fileOf file w).map (fun q => q + d) := by
  simp only [fileOf, getD_shift]
  rcases w.getD 1 none with _ | _ | q <;> rfl

theorem flags_shift (w : List (Option (Option Nat))) (d : Nat) :
    (w.map (Option.map (Option.map (fun q => q + d)))).map (Option.map Option.isSome) =
      w.map (Option.map Option.isSome) := by
  rw [List.map_map]
  apply List.map_congr_left
  intro a _
  rcases a with _ | _ | q <;> rfl

theorem cstr_step (b : List Char) (q : Nat) :
    cstr b q = if charAt b q = NUL then [] else charAt b q :: cstr b (q + 1) := by
  unfold cstr
  by_cases hq : q < b.length
  · rw [List.drop_eq_getElem_cons hq]
    have hc : charAt b q = b[q] := by
      simp [charAt, List.getD_eq_getElem?_getD, List.getElem?_eq_getElem hq]
    rw [hc]
    by_cases h0 : b[q] = NUL
    · rw [if_pos h0, List.takeWhile_cons, h0]
      rfl
    · rw [if_neg h0, List.takeWhile_cons]
      have : (b[q] != NUL) = true := by simpa using h0
      rw [this]
      rfl
  · have hc : charAt b q = NUL := charAt_of_length_le (by omega)
    rw [if_pos hc, List.drop_eq_nil_of_le (by omega)]
    rfl

/-- A string that comes to an end `nulterminate` has written reads the same in the buffer of the
line in parentheses, one byte further on. -/
theorem cstr_wrap {n : Nat} {b1 b2 : List Char} (hw : Wrapped n b1 b2) (E : List Nat)
    (h0 : ∀ i ∈ E, i ≤ n) (h1 : ∀ i ∈ E, charAt b1 i = NUL)
    (h2 : ∀ i ∈ E, charAt b2 (i + 1) = NUL) (q : Nat) (hq : ∃ i ∈ E, q ≤ i) :
    cstr b2 (q + 1) = cstr b1 q := by
  obtain ⟨i, hi, hqi⟩ := hq
  obtain ⟨d, hd⟩ : ∃ d, i - q = d := ⟨_, rfl⟩
  induction d generalizing q with
  | zero =>
    have : q = i := by omega
    subst this
    rw [cstr_step b2, cstr_step b1, if_pos (h2 q hi), if_pos (h1 q hi)]
  | succ d ih =>
    have hlt : q < n := by
      have := h0 i hi
      omega
    rw [cstr_step b2, cstr_step b1, hw.1 q hlt, ih (q + 1) (by omega) (by omega)]

theorem argvStrings_wrap {b1 b2 : List Char} (argv : List (Option Nat))
    (h : ∀ q ∈ textsOf argv, cstr b2 (q + 1) = cstr b1 q) :
    argvStrings b2 (argv.map (Option.map (fun q => q + 1))) = argvStrings b1 argv := by
  induction argv with
  | nil => rfl
  | cons a argv ih =>
    cases a with
    | none => rfl
    | some q =>
      simp only [List.map_cons, Option.map_some', argvStrings, List.cons.injEq]
      exact ⟨h q (by simp [textsOf]), ih (fun x hx => h x (by simp [textsOf, hx]))⟩

/-- The tree of the line in parentheses says what the tree of the line says, when every string
of the one reads as the string of the other. -/
theorem strings_wrap {b1 b2 : List Char} (c : Cmd)
    (h : ∀ q ∈ c.texts, cstr b2 (q + 1) = cstr b1 q) :
    (c.shift 1).strings b2 = c.strings b1 := by
  induction c with
  | exec argv eargv =>
    simp only [Cmd.shift, Cmd.strings, Tree.exec.injEq]
    exact argvStrings_wrap argv h
  | redir c file efile mode fd ih =>
    simp only [Cmd.texts, List.mem_append, List.mem_singleton] at h
    simp only [Cmd.shift, Cmd.strings, ih (fun q hq => h q (Or.inl hq)), h file (Or.inr rfl)]
  | pipe l r ihl ihr =>
    simp only [Cmd.texts, List.mem_append] at h
    simp only [Cmd.shift, Cmd.strings, ihl (fun q hq => h q (Or.inl hq)),
      ihr (fun q hq => h q (Or.inr hq))]
  | list l r ihl ihr =>
    simp only [Cmd.texts, List.mem_append] at h
    simp only [Cmd.shift, Cmd.strings, ihl (fun q hq => h q (Or.inl hq)),
      ihr (fun q hq => h q (Or.inr hq))]
  | back c ih =>
    simp only [Cmd.texts] at h
    simp only [Cmd.shift, Cmd.strings, ih h]
  | over c file efile mode fd w ih =>
    simp only [Cmd.texts, List.mem_append] at h
    simp only [Cmd.shift, Cmd.strings, getD_shift, fileOf_shift, flags_shift]
    rcases hx0 : w.getD 0 none with _ | _ | q0 <;>
      rcases hf : fileOf file w with _ | f <;>
      rcases hx3 : w.getD 3 none with _ | _ | q3 <;>
      simp only [hx0, hf, Option.map_none', Option.map_some', List.mem_singleton,
        List.not_mem_nil, or_false, false_or] at h ⊢
    all_goals first
      | rfl
      | (rw [ih (fun q hq => h q (Or.inl hq)), h f (Or.inr rfl)])
      | (rw [ih h])
      | (rw [h f rfl])

/-! ## Every string comes to an end -/

theorem textsOf_firstSlots (A : List Nat) (k : Nat) :
    textsOf (A.map some ++ List.replicate k none) = A := by
  induction A with
  | nil => cases k <;> simp [textsOf, List.replicate_succ]
  | cons a A ih => simp [textsOf, ih]

theorem texts_execOf (R : List (Nat × Nat)) : (execOf R).texts = R.map (fun r => r.1) := by
  have := textsOf_firstSlots (R.map (fun r => r.1)) (MAXARGS - R.length)
  simpa [execOf, Cmd.texts, List.map_map] using this

theorem cov_execOf {R : List (Nat × Nat)} (h : R.length < MAXARGS) (hr : ∀ r ∈ R, r.1 ≤ r.2) :
    (execOf R).Cov := by
  intro q hq
  rw [texts_execOf] at hq
  obtain ⟨r, hr1, rfl⟩ := List.mem_map.1 hq
  exact ⟨r.2, by rw [ends_execOf h]; exact List.mem_map.2 ⟨r, hr1, rfl⟩, hr r hr1⟩

theorem cov_redir {c : Cmd} {f e : Nat} (m d : Nat) (h : c.Cov) (hfe : f ≤ e) :
    (Cmd.redir c f e m d).Cov := by
  intro q hq
  simp only [Cmd.texts, List.mem_append, List.mem_singleton] at hq
  simp only [Cmd.ends, List.mem_append, List.mem_singleton]
  rcases hq with hq | rfl
  · obtain ⟨i, hi, hqi⟩ := h q hq
    exact ⟨i, Or.inl hi, hqi⟩
  · exact ⟨e, Or.inr rfl, hfe⟩

theorem dead_redir {c : Cmd} (f e m d : Nat) (h : c.Dead) : (Cmd.redir c f e m d).Dead := by
  intro b
  obtain ⟨x, hx⟩ := h b
  exact ⟨x, by simp only [nulterminate, hx]⟩

theorem dead_back {c : Cmd} (h : c.Dead) : (Cmd.back c).Dead := by
  intro b
  obtain ⟨x, hx⟩ := h b
  exact ⟨x, by simp only [nulterminate, hx]⟩

theorem dead_pair_left {l : Cmd} (r : Cmd) (h : l.Dead) :
    (Cmd.pipe l r).Dead ∧ (Cmd.list l r).Dead := by
  constructor <;> intro b <;> obtain ⟨x, hx⟩ := h b <;>
    exact ⟨x, by simp only [nulterminate, hx]⟩

theorem dead_pair_right (l : Cmd) {r : Cmd} (h : r.Dead) :
    (Cmd.pipe l r).Dead ∧ (Cmd.list l r).Dead := by
  constructor <;> intro b
  · cases hl : nulterminate l b with
    | error e => exact ⟨e, by simp only [nulterminate, hl]⟩
    | ok b1 =>
      obtain ⟨x, hx⟩ := h b1
      exact ⟨x, by simp only [nulterminate, hl, hx]⟩
  · cases hl : nulterminate l b with
    | error e => exact ⟨e, by simp only [nulterminate, hl]⟩
    | ok b1 =>
      obtain ⟨x, hx⟩ := h b1
      exact ⟨x, by simp only [nulterminate, hl, hx]⟩

theorem cov_pair {l r : Cmd} (hl : l.Cov) (hr : r.Cov) :
    (Cmd.pipe l r).Cov ∧ (Cmd.list l r).Cov := by
  constructor <;> intro q hq <;>
    simp only [Cmd.texts, List.mem_append] at hq <;>
    simp only [Cmd.ends, List.mem_append]
  · rcases hq with hq | hq
    · obtain ⟨i, hi, hqi⟩ := hl q hq
      exact ⟨i, Or.inl hi, hqi⟩
    · obtain ⟨i, hi, hqi⟩ := hr q hq
      exact ⟨i, Or.inr hi, hqi⟩
  · rcases hq with hq | hq
    · obtain ⟨i, hi, hqi⟩ := hl q hq
      exact ⟨i, Or.inl hi, hqi⟩
    · obtain ⟨i, hi, hqi⟩ := hr q hq
      exact ⟨i, Or.inr hi, hqi⟩

/-- A tree whose strings start before `p` and come to an end, or on which `nulterminate`
faults: so it stays under the `redircmd`s that `parseredirs` puts around it. -/
theorem Redirs.redirs_cov {buf : List Char} {es : Nat} (hE : IsEnd buf es) {c : Cmd} {s : Nat}
    {c1 : Cmd} {s1 : Nat} (h : Redirs buf es c s c1 s1) (hs : s ≤ es)
    (ht : ∀ q ∈ c.texts, q ≤ s) (hc : c.Dead ∨ c.Cov) :
    (∀ q ∈ c1.texts, q ≤ s1) ∧ (c1.Dead ∨ c1.Cov) := by
  induction h with
  | @done c s hp =>
    exact ⟨fun q hq => Nat.le_trans (ht q hq) (le_skipws buf es s), hc⟩
  | @step c s c1 s1 hp hf hr ih =>
    have h1 := gettoken_bounds hE hs
    have h2 := gettoken_bounds hE h1.2.2.2
    have hop := gettoken_redir_op hE hs hp
    apply ih h2.2.2.2
    · intro q hq
      have hsub : q ∈ c.texts ∨ q = (gettoken buf es (gettoken buf es s).ps).q := by
        rcases hop with h | h | h <;> rw [h] at hq <;>
          simpa [redirFor, redircmd, Cmd.texts] using hq
      rcases hsub with hq | rfl
      · have := ht q hq
        omega
      · omega
    · rcases hop with h | h | h <;> rw [h] <;>
        simp only [redirFor, redircmd, if_true, if_neg (show ¬ ('>' = '<') by decide),
          if_neg (show ¬ ('+' = '<') by decide), if_neg (show ¬ ('+' = '>') by decide)] <;>
        rcases hc with hc | hc <;>
        first
          | exact Or.inl (dead_redir _ _ _ _ hc)
          | exact Or.inr (cov_redir _ _ hc h2.2.1)

theorem list_four {α : Type} {w : List α} (h : w.length = 4) : ∃ a b c d, w = [a, b, c, d] := by
  match w, h with
  | [a, b, c, d], _ => exact ⟨a, b, c, d, rfl⟩

theorem PlainCov.cov_mono {cmd : Cmd} {argc p p2 : Nat} (h : PlainCov cmd argc p)
    (hp : p ≤ p2) : PlainCov cmd argc p2 :=
  ⟨h.1, fun q hq => Nat.le_trans (h.2.1 q hq) hp, h.2.2⟩

theorem plainCov_redir {c : Cmd} {argc p : Nat} (h : PlainCov c argc p) {f e p2 : Nat}
    (m d : Nat) (hpf : p ≤ f) (hfe : f ≤ e) (hep : e ≤ p2) :
    PlainCov (.redir c f e m d) argc p2 := by
  refine ⟨h.1, fun q hq => ?_, ?_, fun he => absurd he (by simp [Cmd.isExec]),
    fun _ => ⟨rfl, fun _ _ _ _ _ _ hx => Cmd.noConfusion hx,
      fun _ => ⟨c, f, e, m, d, rfl, hfe⟩⟩⟩
  · simp only [Cmd.texts, List.mem_append, List.mem_singleton] at hq
    rcases hq with hq | rfl
    · have := h.2.1 q hq
      omega
    · omega
  · rcases h.2.2.1 with hcov | ⟨h2, _⟩
    · exact Or.inl (cov_redir m d hcov hfe)
    · exact Or.inr ⟨h2, rfl⟩

theorem plainCov_isPlain {c : Cmd} {argc p : Nat} (h : PlainCov c argc p) :
    c.isPlain = true := by
  by_cases he : c.isExec = true
  · obtain ⟨R, rfl, _⟩ := h.2.2.2.1 he
    rfl
  · exact (h.2.2.2.2 (by simpa using he)).1

theorem Redirs.redirs_plainCov {buf : List Char} {es : Nat} (hE : IsEnd buf es) {c : Cmd}
    {s : Nat} {c1 : Cmd} {s1 : Nat} (h : Redirs buf es c s c1 s1) (hs : s ≤ es) {argc : Nat}
    (hv : PlainCov c argc s) : PlainCov c1 argc s1 := by
  induction h with
  | @done c s hp => exact hv.cov_mono (le_skipws buf es s)
  | @step c s c1 s1 hp hf hr ih =>
    have h1 := gettoken_bounds hE hs
    have h2 := gettoken_bounds hE h1.2.2.2
    have hop := gettoken_redir_op hE hs hp
    apply ih h2.2.2.2
    rcases hop with h | h | h <;> rw [h] <;>
      simp only [redirFor, redircmd, if_true, if_neg (show ¬ ('>' = '<') by decide),
        if_neg (show ¬ ('+' = '<') by decide), if_neg (show ¬ ('+' = '>') by decide)] <;>
      exact plainCov_redir hv _ _ (by omega) h2.2.1 h2.2.2.1

theorem texts_over4 (c0 : Cmd) (f e m d : Nat) (a b x2 x3 : Option (Option Nat)) :
    (Cmd.over c0 f e m d [a, b, x2, x3]).texts =
      (match a with
        | none => c0.texts
        | some _ => []) ++
      (match b with
        | none => [f]
        | some none => []
        | some (some x) => [x]) := by
  rcases b with _ | _ | x <;> rfl

theorem ends_over4 (c0 : Cmd) (f e m d : Nat) (a b x2 x3 : Option (Option Nat)) :
    (Cmd.over c0 f e m d [a, b, x2, x3]).ends =
      (match a with
        | none => c0.ends
        | some _ => []) ++
      (match x2 with
        | none => [e]
        | some none => []
        | some (some x) => [x]) := rfl

theorem dead_over4 (c0 : Cmd) (f e m d : Nat) (a b x3 : Option (Option Nat)) :
    (Cmd.over c0 f e m d [a, b, some none, x3]).Dead := by
  intro st
  simp only [nulterminate, List.getD_cons_zero, List.getD_cons_succ]
  rcases a with _ | _ | q
  · cases h : nulterminate c0 st with
    | error x => exact ⟨x, by simp only [h]⟩
    | ok b1 => exact ⟨.nullDeref, by simp only [h]⟩
  · exact ⟨.nullDeref, rfl⟩
  · by_cases ht : isNodeType (typeAt st q) = true
    · exact ⟨.notNode, by simp only [if_pos ht]⟩
    · exact ⟨.nullDeref, by simp only [if_neg ht]⟩

/-! ## The stores of `parseexec` and the end of every string -/

theorem cov_of_le {c : Cmd} {q : Nat} (ht : ∀ t ∈ c.texts, t ≤ q) (hq : q ∈ c.ends) : c.Cov :=
  fun t h => ⟨q, hq, ht t h⟩

theorem cov_of_sub {c c1 : Cmd} (ht : ∀ t ∈ c1.texts, t ∈ c.texts) (he : c1.ends = c.ends)
    (h : c.Cov) : c1.Cov := by
  intro t h1
  rw [he]
  exact h t (ht t h1)

/-- The store of a word by the argument loop of `parseexec` keeps the invariant of the loop. -/
theorem plainCov_store {c : Cmd} {argc p q e p2 : Nat} {c1 : Cmd} (h : PlainCov c argc p)
    (hst : storeArg c argc (some q) (some e) = .ok c1) (hpq : p ≤ q) (hqe : q ≤ e)
    (hep : e ≤ p2) (hm : argc + 1 < MAXARGS) : PlainCov c1 (argc + 1) p2 := by
  obtain ⟨h0, h1, h2, h3, h4⟩ := h
  cases c with
  | exec argv eargv =>
    obtain ⟨R, hR, hlen, hr⟩ := h3 rfl
    rw [hR] at hst h1
    rw [← hlen, storeArg_execOf R q e (by omega)] at hst
    simp only [Except.ok.injEq] at hst
    subst hst
    have hr2 : ∀ r ∈ R ++ [(q, e)], r.1 ≤ r.2 := by
      intro r hr1
      rcases List.mem_append.1 hr1 with hr1 | hr1
      · exact hr r hr1
      · rw [List.mem_singleton.1 hr1]
        exact hqe
    refine ⟨hm, ?_, Or.inl (cov_execOf (by simp only [List.length_append, List.length_singleton]; omega) hr2),
      fun _ => ⟨R ++ [(q, e)], rfl, by simp [hlen], hr2⟩,
      fun he => absurd he (by simp [Cmd.isExec, execOf])⟩
    intro t ht
    rw [texts_execOf] at ht h1
    rw [List.map_append, List.mem_append] at ht
    rcases ht with ht | ht
    · have := h1 t ht
      omega
    · simp only [List.map_cons, List.map_nil, List.mem_singleton] at ht
      omega
  | redir c0 f e0 m d =>
    obtain ⟨_, _, hroot⟩ := h4 rfl
    simp only [Cmd.texts, List.mem_append, List.mem_singleton] at h1
    rcases argc with _ | _ | _ | _ | k
    · simp only [storeArg, Nat.lt_irrefl, if_true, Nat.zero_lt_succ, Except.ok.injEq] at hst
      subst hst
      obtain ⟨_, _, _, _, _, hx, hfe⟩ := hroot rfl
      cases hx
      refine ⟨hm, ?_, Or.inl ?_, fun he => absurd he (by simp [Cmd.isExec]),
        fun _ => ⟨rfl, ?_, fun hz => absurd hz (by omega)⟩⟩
      · intro t ht
        simp only [List.replicate, List.set, texts_over4, List.nil_append,
          List.mem_singleton] at ht
        have := h1 t (Or.inr ht)
        omega
      · intro t ht
        simp only [List.replicate, List.set, texts_over4, List.nil_append,
          List.mem_singleton] at ht
        exact ⟨e0, by simp [List.replicate, List.set, ends_over4], by omega⟩
      · intro _ _ _ _ _ _ hx
        cases hx
        rfl
    · simp only [storeArg, show (1 : Nat) < 4 by decide, if_true, Except.ok.injEq] at hst
      subst hst
      refine ⟨hm, ?_, Or.inr ⟨rfl, rfl⟩, fun he => absurd he (by simp [Cmd.isExec]),
        fun _ => ⟨rfl, ?_, fun hz => absurd hz (by omega)⟩⟩
      · intro t ht
        simp only [List.replicate, List.set, texts_over4, List.mem_append,
          List.mem_singleton] at ht
        rcases ht with ht | ht
        · have := h1 t (Or.inl ht)
          omega
        · omega
      · intro _ _ _ _ _ _ hx
        cases hx
        rfl
    · simp only [storeArg, show (2 : Nat) < 4 by decide, if_true, Except.ok.injEq] at hst
      subst hst
      refine ⟨hm, ?_, Or.inl (cov_of_le (q := q) ?_ ?_),
        fun he => absurd he (by simp [Cmd.isExec]),
        fun _ => ⟨rfl, ?_, fun hz => absurd hz (by omega)⟩⟩
      · intro t ht
        simp only [List.replicate, List.set, texts_over4, List.mem_append,
          List.mem_singleton] at ht
        have := h1 t ht
        omega
      · intro t ht
        simp only [List.replicate, List.set, texts_over4, List.mem_append,
          List.mem_singleton] at ht
        have := h1 t ht
        omega
      · simp [List.replicate, List.set, ends_over4]
      · intro _ _ _ _ _ _ hx
        cases hx
        rfl
    · simp only [storeArg, show (3 : Nat) < 4 by decide, if_true, Except.ok.injEq] at hst
      subst hst
      have hcov : (Cmd.redir c0 f e0 m d).Cov := by
        rcases h2 with h2 | ⟨h2, _⟩
        · exact h2
        · omega
      refine ⟨hm, ?_, Or.inl (cov_of_sub (c := Cmd.redir c0 f e0 m d) ?_ ?_ hcov),
        fun he => absurd he (by simp [Cmd.isExec]),
        fun _ => ⟨rfl, ?_, fun hz => absurd hz (by omega)⟩⟩
      · intro t ht
        simp only [List.replicate, List.set, texts_over4, List.mem_append,
          List.mem_singleton] at ht
        have := h1 t ht
        omega
      · intro t ht
        simpa only [List.replicate, List.set, texts_over4, Cmd.texts] using ht
      · rfl
      · intro _ _ _ _ _ _ hx
        cases hx
        rfl
    · simp only [storeArg, show ¬ (k + 1 + 1 + 1 + 1 < 4) by omega, if_false,
        Except.ok.injEq] at hst
      subst hst
      have hcov : (Cmd.redir c0 f e0 m d).Cov := by
        rcases h2 with h2 | ⟨h2, _⟩
        · exact h2
        · omega
      refine ⟨hm, ?_, Or.inl hcov, fun he => absurd he (by simp [Cmd.isExec]),
        fun _ => ⟨rfl, fun _ _ _ _ _ _ hx => Cmd.noConfusion hx,
          fun hz => absurd hz (by omega)⟩⟩
      intro t ht
      simp only [Cmd.texts, List.mem_append, List.mem_singleton] at ht
      have := h1 t ht
      omega
  | over c0 f e0 m d w =>
    obtain ⟨_, hlen, hroot⟩ := h4 rfl
    obtain ⟨a, b, x2, x3, rfl⟩ := list_four (hlen _ _ _ _ _ _ rfl)
    rw [texts_over4] at h1
    simp only [List.mem_append] at h1
    rcases argc with _ | _ | _ | _ | k
    · obtain ⟨_, _, _, _, _, hx, _⟩ := hroot rfl
      cases hx
    · simp only [storeArg, show (1 : Nat) < 4 by decide, if_true, Except.ok.injEq] at hst
      subst hst
      refine ⟨hm, ?_, Or.inr ⟨rfl, rfl⟩, fun he => absurd he (by simp [Cmd.isExec]),
        fun _ => ⟨rfl, ?_, fun hz => absurd hz (by omega)⟩⟩
      · intro t ht
        simp only [List.set, texts_over4, List.mem_append, List.mem_singleton] at ht
        rcases ht with ht | ht
        · have := h1 t (Or.inl ht)
          omega
        · omega
      · intro _ _ _ _ _ _ hx
        cases hx
        rfl
    · simp only [storeArg, show (2 : Nat) < 4 by decide, if_true, Except.ok.injEq] at hst
      subst hst
      refine ⟨hm, ?_, Or.inl (cov_of_le (q := q) ?_ ?_),
        fun he => absurd he (by simp [Cmd.isExec]),
        fun _ => ⟨rfl, ?_, fun hz => absurd hz (by omega)⟩⟩
      · intro t ht
        simp only [List.set, texts_over4, List.mem_append] at ht
        have := h1 t ht
        omega
      · intro t ht
        simp only [List.set, texts_over4, List.mem_append] at ht
        have := h1 t ht
        omega
      · simp [List.set, ends_over4]
      · intro _ _ _ _ _ _ hx
        cases hx
        rfl
    · simp only [storeArg, show (3 : Nat) < 4 by decide, if_true, Except.ok.injEq] at hst
      subst hst
      have hcov : (Cmd.over c0 f e0 m d [a, b, x2, x3]).Cov := by
        rcases h2 with h2 | ⟨h2, _⟩
        · exact h2
        · omega
      refine ⟨hm, ?_, Or.inl (cov_of_sub (c := Cmd.over c0 f e0 m d [a, b, x2, x3]) ?_ ?_ hcov),
        fun he => absurd he (by simp [Cmd.isExec]),
        fun _ => ⟨rfl, ?_, fun hz => absurd hz (by omega)⟩⟩
      · intro t ht
        simp only [List.set, texts_over4, List.mem_append] at ht
        have := h1 t ht
        omega
      · intro t ht
        simpa only [List.set, texts_over4] using ht
      · rfl
      · intro _ _ _ _ _ _ hx
        cases hx
        rfl
    · simp only [storeArg, show ¬ (k + 1 + 1 + 1 + 1 < 4) by omega, if_false,
        Except.ok.injEq] at hst
      subst hst
      have hcov : (Cmd.over c0 f e0 m d [a, b, x2, x3]).Cov := by
        rcases h2 with h2 | ⟨h2, _⟩
        · exact h2
        · omega
      refine ⟨hm, ?_, Or.inl hcov, fun he => absurd he (by simp [Cmd.isExec]),
        fun _ => ⟨rfl, ?_, fun hz => absurd hz (by omega)⟩⟩
      · intro t ht
        rw [texts_over4] at ht
        simp only [List.mem_append] at ht
        have := h1 t ht
        omega
      · intro _ _ _ _ _ _ hx
        cases hx
        rfl
  | pipe l r => exact absurd (h4 rfl).1 (by simp [Cmd.isPlain])
  | list l r => exact absurd (h4 rfl).1 (by simp [Cmd.isPlain])
  | back l => exact absurd (h4 rfl).1 (by simp [Cmd.isPlain])

/-- The store of the two sentinels after the loop: every string of the node still comes to an
end, or `nulterminate` faults on the node. -/
theorem plainCov_sentinel {c : Cmd} {argc p : Nat} {c1 : Cmd} (h : PlainCov c argc p)
    (hst : storeArg c argc none none = .ok c1) :
    (∀ q ∈ c1.texts, q ≤ p) ∧ (c1.Dead ∨ c1.Cov) := by
  obtain ⟨h0, h1, h2, h3, h4⟩ := h
  cases c with
  | exec argv eargv =>
    obtain ⟨R, hR, hlen, hr⟩ := h3 rfl
    rw [hR] at hst h1
    rw [← hlen, storeArg_execOf_none R (by omega)] at hst
    simp only [Except.ok.injEq] at hst
    subst hst
    exact ⟨h1, Or.inr (cov_execOf (by omega) hr)⟩
  | redir c0 f e0 m d =>
    obtain ⟨_, _, hroot⟩ := h4 rfl
    simp only [Cmd.texts, List.mem_append, List.mem_singleton] at h1
    rcases argc with _ | _ | _ | _ | k
    · simp only [storeArg, Nat.zero_lt_succ, if_true, Except.ok.injEq] at hst
      subst hst
      obtain ⟨_, _, _, _, _, hx, hfe⟩ := hroot rfl
      cases hx
      refine ⟨?_, Or.inr ?_⟩
      · intro t ht
        simp only [List.replicate, List.set, texts_over4, List.nil_append,
          List.mem_singleton] at ht
        exact h1 t (Or.inr ht)
      · intro t ht
        simp only [List.replicate, List.set, texts_over4, List.nil_append,
          List.mem_singleton] at ht
        exact ⟨e0, by simp [List.replicate, List.set, ends_over4], by omega⟩
    · simp only [storeArg, show (1 : Nat) < 4 by decide, if_true, Except.ok.injEq] at hst
      subst hst
      have hcov : (Cmd.redir c0 f e0 m d).Cov := by
        rcases h2 with h2 | ⟨h2, _⟩
        · exact h2
        · omega
      have hsub : ∀ t ∈ (Cmd.over c0 f e0 m d [none, some none, none, none]).texts,
          t ∈ (Cmd.redir c0 f e0 m d).texts := by
        intro t ht
        simp only [texts_over4, List.append_nil] at ht
        simp only [Cmd.texts, List.mem_append]
        exact Or.inl ht
      refine ⟨fun t ht => ?_, Or.inr (cov_of_sub hsub rfl hcov)⟩
      have := hsub t ht
      simp only [Cmd.texts, List.mem_append, List.mem_singleton] at this
      exact h1 t this
    · simp only [storeArg, show (2 : Nat) < 4 by decide, if_true, Except.ok.injEq] at hst
      subst hst
      refine ⟨fun t ht => ?_, Or.inl (dead_over4 _ _ _ _ _ _ _ _)⟩
      simp only [List.replicate, List.set, texts_over4, List.mem_append,
        List.mem_singleton] at ht
      exact h1 t ht
    · simp only [storeArg, show (3 : Nat) < 4 by decide, if_true, Except.ok.injEq] at hst
      subst hst
      have hcov : (Cmd.redir c0 f e0 m d).Cov := by
        rcases h2 with h2 | ⟨h2, _⟩
        · exact h2
        · omega
      refine ⟨fun t ht => ?_, Or.inr (cov_of_sub (fun t ht => ?_) rfl hcov)⟩
      · simp only [List.replicate, List.set, texts_over4, List.mem_append,
          List.mem_singleton] at ht
        exact h1 t ht
      · simpa only [List.replicate, List.set, texts_over4, Cmd.texts] using ht
    · simp only [storeArg, show ¬ (k + 1 + 1 + 1 + 1 < 4) by omega, if_false,
        Except.ok.injEq] at hst
      subst hst
      have hcov : (Cmd.redir c0 f e0 m d).Cov := by
        rcases h2 with h2 | ⟨h2, _⟩
        · exact h2
        · omega
      refine ⟨fun t ht => ?_, Or.inr hcov⟩
      simp only [Cmd.texts, List.mem_append, List.mem_singleton] at ht
      exact h1 t ht
  | over c0 f e0 m d w =>
    obtain ⟨_, hlen, hroot⟩ := h4 rfl
    obtain ⟨a, b, x2, x3, rfl⟩ := list_four (hlen _ _ _ _ _ _ rfl)
    have h1a := h1
    rw [texts_over4] at h1
    simp only [List.mem_append] at h1
    rcases argc with _ | _ | _ | _ | k
    · obtain ⟨_, _, _, _, _, hx, _⟩ := hroot rfl
      cases hx
    · simp only [storeArg, show (1 : Nat) < 4 by decide, if_true, Except.ok.injEq] at hst
      subst hst
      have hcov : (Cmd.over c0 f e0 m d [a, b, x2, x3]).Cov := by
        rcases h2 with h2 | ⟨h2, _⟩
        · exact h2
        · omega
      have hsub : ∀ t ∈ (Cmd.over c0 f e0 m d [a, some none, x2, x3]).texts,
          t ∈ (Cmd.over c0 f e0 m d [a, b, x2, x3]).texts := by
        intro t ht
        simp only [texts_over4, List.append_nil] at ht
        simp only [texts_over4, List.mem_append]
        exact Or.inl ht
      exact ⟨fun t ht => h1a t (hsub t ht), Or.inr (cov_of_sub hsub rfl hcov)⟩
    · simp only [storeArg, show (2 : Nat) < 4 by decide, if_true, Except.ok.injEq] at hst
      subst hst
      refine ⟨fun t ht => ?_, Or.inl (dead_over4 _ _ _ _ _ _ _ _)⟩
      simp only [List.set, texts_over4, List.mem_append] at ht
      exact h1 t ht
    · simp only [storeArg, show (3 : Nat) < 4 by decide, if_true, Except.ok.injEq] at hst
      subst hst
      have hcov : (Cmd.over c0 f e0 m d [a, b, x2, x3]).Cov := by
        rcases h2 with h2 | ⟨h2, _⟩
        · exact h2
        · omega
      refine ⟨fun t ht => ?_, Or.inr (cov_of_sub (fun t ht => ?_) rfl hcov)⟩
      · simp only [List.set, texts_over4, List.mem_append] at ht
        exact h1 t ht
      · simpa only [List.set, texts_over4] using ht
    · simp only [storeArg, show ¬ (k + 1 + 1 + 1 + 1 < 4) by omega, if_false,
        Except.ok.injEq] at hst
      subst hst
      have hcov : (Cmd.over c0 f e0 m d [a, b, x2, x3]).Cov := by
        rcases h2 with h2 | ⟨h2, _⟩
        · exact h2
        · omega
      exact ⟨h1a, Or.inr hcov⟩
  | pipe l r => exact absurd (h4 rfl).1 (by simp [Cmd.isPlain])
  | list l r => exact absurd (h4 rfl).1 (by simp [Cmd.isPlain])
  | back l => exact absurd (h4 rfl).1 (by simp [Cmd.isPlain])

theorem Args.args_plainCov {buf : List Char} {es : Nat} (hE : IsEnd buf es) {c : Cmd}
    {argc s : Nat} {c1 : Cmd} {argc1 s1 : Nat} (h : Args buf es c argc s c1 argc1 s1)
    (hs : s ≤ es) (hv : PlainCov c argc s) : PlainCov c1 argc1 s1 := by
  induction h with
  | @stop c argc s hp => exact hv.cov_mono (le_skipws buf es s)
  | @eol c argc s hp hr => exact hv.cov_mono (le_gettoken_ps hE hs)
  | @word c argc s c1 c2 s2 c3 argc3 s3 hp hr hst hm hrd hargs ih1 =>
    have hb := gettoken_bounds hE hs
    have h1 := plainCov_store hv hst hb.1 hb.2.1 hb.2.2.1 hm
    have h2 := hrd.redirs_plainCov hE hb.2.2.2 h1
    exact ih1 (hrd.redirs_seg hE (segClosed_true buf es) hb.2.2.2).2.1 h2

theorem plainCov_execcmd (s : Nat) : PlainCov execcmd 0 s := by
  refine ⟨by decide, ?_, Or.inl ?_, fun _ => ⟨[], rfl, rfl, fun r hr => absurd hr (by simp)⟩,
    fun he => absurd he (by simp [execcmd, Cmd.isExec])⟩
  · intro q hq
    exact absurd hq (by simp [execcmd, Cmd.texts, textsOf, List.replicate])
  · intro q hq
    exact absurd hq (by simp [execcmd, Cmd.texts, textsOf, List.replicate])

theorem parseplain_cov {buf : List Char} {es : Nat} (hE : IsEnd buf es) {s : Nat} {c : Cmd}
    {s1 : Nat} (h : parseplain buf es s = .ok (c, s1)) (hs : s ≤ es) :
    (∀ q ∈ c.texts, q ≤ s1) ∧ (c.Dead ∨ c.Cov) := by
  obtain ⟨c0, p0, c1, argc, hrd, hargs, hst⟩ := parseplain_parts h
  have h1 := hrd.redirs_plainCov hE hs (plainCov_execcmd s)
  have h2 := hargs.args_plainCov hE (hrd.redirs_seg hE (segClosed_true buf es) hs).2.1 h1
  exact plainCov_sentinel h2 hst

theorem Backs.backs_texts {buf : List Char} {es : Nat} {c : Cmd} {s : Nat} {c1 : Cmd}
    {s1 : Nat} (h : Backs buf es c s c1 s1) :
    c1.texts = c.texts ∧ (c.Dead → c1.Dead) := by
  induction h with
  | done _ => exact ⟨rfl, id⟩
  | step _ _ ih => exact ⟨ih.1, fun hd => ih.2 (dead_back hd)⟩

/-- Every string of a tree the parser returns starts before the cursor and comes to an end
where `nulterminate` writes, unless `nulterminate` faults on the tree. -/
theorem parsed_cov {buf : List Char} {es : Nat} (hE : IsEnd buf es) {s : Nat} {c : Cmd}
    {s1 : Nat} (h : Parsed buf es s c s1) (hs : s ≤ es) :
    (∀ q ∈ c.texts, q ≤ s1) ∧ (c.Dead ∨ c.Cov) := by
  induction h with
  | @plain s c s1 hp hpl =>
    rw [peek_snd] at hpl
    exact parseplain_cov hE hpl (skipws_le buf hs)
  | @block s c s1 c1 s2 hp hin hp2 hrd ih =>
    rw [gettoken_peek] at hin hrd ih
    have h1 := gettoken_bounds hE hs
    have h2 := hin.bounds hE h1.2.2.2
    have h3 := gettoken_bounds hE h2.2
    obtain ⟨i1, i2⟩ := ih h1.2.2.2
    exact (redirs_of_ok hrd).redirs_cov hE h3.2.2.2
      (fun q hq => Nat.le_trans (i1 q hq) (by omega)) i2
  | @single s c s1 hin hp ih =>
    obtain ⟨i1, i2⟩ := ih hs
    exact ⟨fun q hq => Nat.le_trans (i1 q hq) (le_skipws buf es s1), i2⟩
  | @pipe s c s1 r s2 hl hp hr ihl ihr =>
    rw [gettoken_peek] at hr ihr
    have h1 := hl.bounds hE hs
    have h2 := gettoken_bounds hE h1.2
    have h3 := hr.bounds hE h2.2.2.2
    obtain ⟨i1, i2⟩ := ihl hs
    obtain ⟨j1, j2⟩ := ihr h2.2.2.2
    refine ⟨fun q hq => ?_, ?_⟩
    · simp only [pipecmd, Cmd.texts, List.mem_append] at hq
      rcases hq with hq | hq
      · have := i1 q hq
        omega
      · exact j1 q hq
    · rcases i2 with i2 | i2
      · exact Or.inl (dead_pair_left r i2).1
      · rcases j2 with j2 | j2
        · exact Or.inl (dead_pair_right c j2).1
        · exact Or.inr (cov_pair i2 j2).1
  | @last s c s1 c1 s2 hin hb hp ih =>
    have h1 := hin.bounds hE hs
    have hbk := backs_of_loop _ _ _ _ _ _ _ hb
    have h2 := hbk.backs_seg hE (segClosed_true buf es) h1.2
    obtain ⟨i1, i2⟩ := ih hs
    obtain ⟨e1, e2⟩ := hbk.backs_texts
    have e3 := hbk.backs_execNodes.2
    refine ⟨fun q hq => ?_, ?_⟩
    · rw [e1] at hq
      have := i1 q hq
      have := le_skipws buf es s2
      rw [peek_snd]
      omega
    · rcases i2 with i2 | i2
      · exact Or.inl (e2 i2)
      · exact Or.inr (cov_of_sub (fun t ht => by rwa [e1] at ht) e3 i2)
  | @list s c s1 c1 s2 r s3 hin hb hp hr ih ihr =>
    rw [gettoken_peek] at hr ihr
    have h1 := hin.bounds hE hs
    have hbk := backs_of_loop _ _ _ _ _ _ _ hb
    have h2 := hbk.backs_seg hE (segClosed_true buf es) h1.2
    have h3 := gettoken_bounds hE h2.2.1
    have h4 := hr.bounds hE h3.2.2.2
    obtain ⟨i1, i2⟩ := ih hs
    obtain ⟨j1, j2⟩ := ihr h3.2.2.2
    obtain ⟨e1, e2⟩ := hbk.backs_texts
    have e3 := hbk.backs_execNodes.2
    refine ⟨fun q hq => ?_, ?_⟩
    · simp only [listcmd, Cmd.texts, List.mem_append] at hq
      rcases hq with hq | hq
      · rw [e1] at hq
        have := i1 q hq
        omega
      · exact j1 q hq
    · rcases i2 with i2 | i2
      · exact Or.inl (dead_pair_left r (e2 i2)).2
      · rcases j2 with j2 | j2
        · exact Or.inl (dead_pair_right c1 j2).2
        · exact Or.inr (cov_pair (cov_of_sub (fun t ht => by rwa [e1] at ht) e3 i2) j2).2

/-- In a tree `parsecmd` returns, every argument and file name is followed by a NUL that
`nulterminate` wrote. -/
theorem parsecmd_cov {buf : List Char} {c : Cmd} {b1 : List Char}
    (h : parsecmd buf = .ok (c, b1)) : c.Cov := by
  obtain ⟨s1, hp, _, hn⟩ := parsecmd_ok h
  rcases (parsed_cov (isEnd_strlen buf) hp (Nat.zero_le _)).2 with hd | hc
  · obtain ⟨e, he⟩ := hd buf
    rw [hn] at he
    exact absurd he (by simp)
  · exact hc

/-- The line in parentheses: `parsecmd` returns the tree of the line with every pointer one byte
further on, and every argument and file name reads as before. -/
theorem parsecmd_wrap {l : List Char} (hN : NUL ∉ l) {c : Cmd} {b1 : List Char}
    (h : parsecmd l = .ok (c, b1)) :
    ∃ b2, parsecmd ('(' :: (l ++ [')'])) = .ok (c.shift 1, b2) ∧
      (c.shift 1).strings b2 = c.strings b1 := by
  have hlen := strlen_eq_length hN
  have hlen2 : strlen ('(' :: (l ++ [')'])) = l.length + 2 := by
    rw [strlen_eq_length (nul_not_wrap hN), length_wrap]
  obtain ⟨_, _, _, hn⟩ := parsecmd_ok h
  obtain ⟨s1, hpl⟩ : ∃ s1, parseline l l.length (4 * l.length + 4) 0 = .ok (c, s1) ∧
      skipws l l.length s1 = l.length := by
    rcases parsecmd_cases l with ⟨msg, hm⟩ | ⟨c2, s2, h1, h2, h3, h4⟩
    · rw [h] at hm
      exact absurd hm (by simp)
    · cases hn2 : nulterminate c2 l with
      | error e =>
        rw [h4 e hn2] at h
        exact absurd h (by simp)
      | ok b =>
        rw [h3 b hn2] at h
        simp only [Except.ok.injEq, Prod.mk.injEq] at h
        obtain ⟨rfl, rfl⟩ := h
        rw [hlen] at h1 h2
        exact ⟨s2, h1, h2⟩
  have hp := (parsed_of_ok l _ _).1 _ _ _ hpl.1
  have hw := parseline_wrap hN hpl.1 hpl.2
  obtain ⟨b2, hn2, hwr⟩ := nulterminate_wrap c l _ b1 wrapped_init hn
  refine ⟨b2, ?_, ?_⟩
  · apply @parsecmd_of_nul _ _ (l.length + 2)
    · rw [hlen2]
      exact hw
    · rw [hlen2]
      exact skipws_end _ _
    · exact hn2
  · have hb := (parsed_built (isEnd_length hN) hp (Nat.zero_le _) (Or.inl rfl)).2
    have hs1 := (hp.bounds (isEnd_length hN) (Nat.zero_le _)).2
    apply strings_wrap
    intro q hq
    apply cstr_wrap hwr c.ends
    · intro i hi
      have := (hb i hi).2
      omega
    · intro i hi
      rw [nulterminate_ends c l b1 hn i, if_pos hi]
    · intro i hi
      rw [nulterminate_ends (c.shift 1) _ b2 hn2 (i + 1), if_pos]
      rw [ends_shift]
      exact List.mem_map.2 ⟨i, hi, rfl⟩
    · exact parsecmd_cov h q hq

/-! # The claims -/

/-- C9: when `parsecmd` returns a tree, the parentheses of the line are balanced: every prefix
of the line has at least as many `(` as `)`, and the line has as many of each. Put the other way
round, a line with an unmatched `(` or `)` makes `parsecmd` end in a `panic`, which prints its
message and ends the process with status 1: no tree is returned. -/
theorem C9_unbalanced_rejected (buf : List Char) :
    (∀ c buf1, parsecmd buf = .ok (c, buf1) →
      (∀ k, ((lineOf buf).take k).count ')' ≤ ((lineOf buf).take k).count '(') ∧
        (lineOf buf).count '(' = (lineOf buf).count ')') ∧
    (¬ ((∀ k, ((lineOf buf).take k).count ')' ≤ ((lineOf buf).take k).count '(') ∧
        (lineOf buf).count '(' = (lineOf buf).count ')') →
      ∃ msg, parsecmd buf = .error (.panic msg)) := by
  refine ⟨fun c buf1 h => parsecmd_balanced h, fun hn => ?_⟩
  rcases parsecmd_cases buf with h | ⟨c, s1, h0, hs, _, _⟩
  · exact h
  · exact absurd (parsed_balanced ((parsed_of_ok buf _ _).1 _ _ _ h0) hs) hn

/-- C9 at `(a;b) | c`, which parses, and at `(a`, `a )` and `(a > f`, which end in a `panic`:
the last one after the stores of `parseexec` through the `redircmd` of `> f`. -/
theorem C9_unbalanced_rejected_witness :
    parsecmd "(a;b) | c".toList =
        .ok (.pipe (.list (execOf [(1, 2)]) (execOf [(3, 4)])) (execOf [(8, 9)]),
          ['(', 'a', NUL, 'b', NUL, ' ', '|', ' ', 'c']) ∧
      (lineOf "(a;b) | c".toList).count '(' = (lineOf "(a;b) | c".toList).count ')' ∧
      (∃ msg, parsecmd "(a".toList = .error (.panic msg)) ∧
      (∃ msg, parsecmd "a )".toList = .error (.panic msg)) ∧
      (∃ msg, parsecmd "(a > f".toList = .error (.panic msg)) := by
  have h1 : parsecmd "(a;b) | c".toList =
      .ok (.pipe (.list (execOf [(1, 2)]) (execOf [(3, 4)])) (execOf [(8, 9)]),
        ['(', 'a', NUL, 'b', NUL, ' ', '|', ' ', 'c']) := by decide!
  exact ⟨h1, ((C9_unbalanced_rejected _).1 _ _ h1).2,
    (C9_unbalanced_rejected _).2 (fun h => absurd h.2 (by decide!)),
    (C9_unbalanced_rejected _).2 (fun h => absurd h.2 (by decide!)),
    (C9_unbalanced_rejected _).2 (fun h => absurd h.2 (by decide!))⟩

/-- C8: a line whose token sequence has a `<`, `>` or `>>` (the token `+`) that is not followed
by a word token, because the line ends there or a metacharacter token comes next, makes
`parsecmd` end in a `panic`, which prints its message and ends the process with status 1: no
tree is returned. -/
theorem C8_redirection_needs_word (buf : List Char) (pre : List Char) (op : Char)
    (post : List Char) (hts : tokenSeq buf = pre ++ op :: post)
    (hop : op = '<' ∨ op = '>' ∨ op = '+') (hnext : post.head? ≠ some 'a') :
    ∃ msg, parsecmd buf = .error (.panic msg) := by
  rcases parsecmd_cases buf with h | ⟨c, s1, h0, hs, _, _⟩
  · exact h
  · exact absurd (redirOK_spec (parsed_redirOK ((parsed_of_ok buf _ _).1 _ _ _ h0) hs)
      pre op post hts hop) hnext

/-- C8 at `a > f ; b >`, whose tokens are `a`, `>`, `a`, `;`, `a`, `>`: the last `>` has no
word. The first command stores through the `redircmd` of `> f`, the parse goes on and ends in
the `panic` of `parseredirs` at the second. -/
theorem C8_redirection_needs_word_witness :
    tokenSeq "a > f ; b >".toList = ['a', '>', 'a', ';', 'a'] ++ '>' :: [] ∧
      ∃ msg, parsecmd "a > f ; b >".toList = .error (.panic msg) :=
  ⟨by decide!, C8_redirection_needs_word "a > f ; b >".toList ['a', '>', 'a', ';', 'a'] '>' []
    (by decide!) (Or.inr (Or.inl rfl)) (by decide)⟩

/-- The lines `a >`, `a < | b`, `a > > f`, `(a) >` and `a > f ; b >` end in the `panic` of
`parseredirs`. -/
theorem missing_file_examples :
    parsecmd "a >".toList = .error (.panic "missing file for redirection") ∧
    parsecmd "a < | b".toList = .error (.panic "missing file for redirection") ∧
    parsecmd "a > > f".toList = .error (.panic "missing file for redirection") ∧
    parsecmd "(a) >".toList = .error (.panic "missing file for redirection") ∧
    parsecmd "a > f ; b >".toList = .error (.panic "missing file for redirection") :=
  ⟨by decide!, by decide!, by decide!, by decide!, by decide!⟩

/-- C7, as amended: a line of `n` plain words separated by whitespace, and nothing else, parses
to the `Exec` of exactly those words in order when `n < MAXARGS`, that is `n ≤ 9`, and ends in
`panic("too many args")` when `n ≥ MAXARGS = 10`. -/
theorem C7_at_most_nine_args (lead : List Char) (args : List (List Char × List Char))
    (hl : AllWs lead) (ha : ArgsOK args) :
    MAXARGS = 10 ∧
    (args.length ≤ 9 →
      ∃ c b1, parsecmd (lead ++ argsText args) = .ok (c, b1) ∧
        c.strings b1 = .exec (args.map (fun p => p.1))) ∧
    (10 ≤ args.length →
      parsecmd (lead ++ argsText args) = .error (.panic "too many args")) := by
  refine ⟨rfl, fun h => ?_, fun h => (parsecmd_words lead args hl ha).2 h⟩
  obtain ⟨b1, h1, h2⟩ := (parsecmd_words lead args hl ha).1 (Nat.lt_succ_of_le h)
  exact ⟨_, b1, h1, h2⟩

/-- C7 at the line of the nine words `a b c d e f g h i`, the most that parse. -/
theorem C7_at_most_nine_args_witness :
    ∃ c b1, parsecmd "a b c d e f g h i".toList = .ok (c, b1) ∧
      c.strings b1 = .exec [['a'], ['b'], ['c'], ['d'], ['e'], ['f'], ['g'], ['h'], ['i']] :=
  (C7_at_most_nine_args []
    [(['a'], [' ']), (['b'], [' ']), (['c'], [' ']), (['d'], [' ']), (['e'], [' ']),
      (['f'], [' ']), (['g'], [' ']), (['h'], [' ']), (['i'], [])]
    (by decide) (by decide)).2.1 (by decide)

/-- C7 as stated fails at ten words: the line `a b c d e f g h i j` gives no tree, it ends in
`panic("too many args")`. -/
theorem C7_ten_words_rejected :
    parsecmd "a b c d e f g h i j".toList = .error (.panic "too many args") ∧
      ¬ ∃ c b1, parsecmd "a b c d e f g h i j".toList = .ok (c, b1) := by
  have h : parsecmd "a b c d e f g h i j".toList = .error (.panic "too many args") := by
    decide!
  refine ⟨h, ?_⟩
  rintro ⟨c, b1, h1⟩
  rw [h] at h1
  exact Except.noConfusion h1

/-- C10: a line of whitespace only, the empty line included, parses to the `execcmd` with no
argument (every slot null), and `runcmd` on that node is `exit(0)` and nothing else: no `exec`,
`fork`, `pipe` or `open`. -/
theorem C10_blank_line (line : List Char) (h : AllWs line) :
    ∃ b1, parsecmd line = .ok (execcmd, b1) ∧ execcmd.strings b1 = .exec [] ∧
      ∀ os, runcmd os b1 execcmd = .exit 0 := by
  obtain ⟨b1, h1, h2⟩ := (parsecmd_words line [] h trivial).1 (by decide)
  simp only [argsText, List.append_nil, rangesOf, List.map_nil] at h1 h2
  exact ⟨b1, h1, h2, fun os => rfl⟩

/-- C10 at the line of a space, a tab, a carriage return, a newline and a vertical tab. -/
theorem C10_blank_line_witness :
    ∃ b1, parsecmd [' ', '\t', '\r', '\n', Char.ofNat 11] = .ok (execcmd, b1) ∧
      execcmd.strings b1 = .exec [] ∧ ∀ os, runcmd os b1 execcmd = .exit 0 :=
  C10_blank_line [' ', '\t', '\r', '\n', Char.ofNat 11] (by decide)

/-- C1: for `n ≥ 2` plain words the line `w1;w2;...;wn` parses to the `List`s nested to the
right, `List(Exec[w1], List(Exec[w2], ... List(Exec[wn-1], Exec[wn])))`. -/
theorem C1_semicolons_nest_right (ws : List (List Char)) (hn : 2 ≤ ws.length)
    (hw : ∀ w ∈ ws, PlainWord w) :
    ∃ c b1, parsecmd (joinWith ';' ws) = .ok (c, b1) ∧
      c.strings b1 = rightNest .list (ws.map (fun w => .exec [w])) := by
  have hne : ws.map (fun w => [w]) ≠ [] := by
    intro h
    rw [List.map_eq_nil_iff] at h
    rw [h] at hn
    simp at hn
  obtain ⟨c, b1, h1, h2⟩ := parsecmd_pipelines (ws.map (fun w => [w])) hne (by
    intro p hp
    obtain ⟨w, hw1, rfl⟩ := List.mem_map.1 hp
    refine ⟨by simp, fun v hv => ?_⟩
    rw [List.mem_singleton] at hv
    exact hv ▸ hw w hw1)
  rw [map_singleton_join] at h1
  rw [map_singleton_pipeTree] at h2
  exact ⟨c, b1, h1, h2⟩

/-- C1 at `a;b;c`: the tree is `List(a, List(b, c))`, and so it is not `List(List(a, b), c)`. -/
theorem C1_semicolons_nest_right_witness :
    ∃ c b1, parsecmd "a;b;c".toList = .ok (c, b1) ∧
      c.strings b1 = .list (.exec [['a']]) (.list (.exec [['b']]) (.exec [['c']])) ∧
      c.strings b1 ≠ .list (.list (.exec [['a']]) (.exec [['b']])) (.exec [['c']]) := by
  obtain ⟨c, b1, h1, h2⟩ :=
    C1_semicolons_nest_right [['a'], ['b'], ['c']] (by decide) (by decide)
  refine ⟨c, b1, h1, h2, ?_⟩
  rw [h2]
  decide

/-- C2: for `n ≥ 2` plain words the line `w1|w2|...|wn` parses to the `Pipe`s nested to the
right, `Pipe(Exec[w1], Pipe(Exec[w2], ... Pipe(Exec[wn-1], Exec[wn])))`. -/
theorem C2_pipes_nest_right (ws : List (List Char)) (hn : 2 ≤ ws.length)
    (hw : ∀ w ∈ ws, PlainWord w) :
    ∃ c b1, parsecmd (joinWith '|' ws) = .ok (c, b1) ∧
      c.strings b1 = rightNest .pipe (ws.map (fun w => .exec [w])) := by
  have hne : ws ≠ [] := by
    rintro rfl
    simp at hn
  obtain ⟨c, b1, h1, h2⟩ := parsecmd_pipelines [ws] (by simp) (by
    intro p hp
    rw [List.mem_singleton] at hp
    exact hp ▸ ⟨hne, hw⟩)
  exact ⟨c, b1, h1, h2⟩

/-- C2 at `a|b|c`: the tree is `Pipe(a, Pipe(b, c))`. -/
theorem C2_pipes_nest_right_witness :
    ∃ c b1, parsecmd "a|b|c".toList = .ok (c, b1) ∧
      c.strings b1 = .pipe (.exec [['a']]) (.pipe (.exec [['b']]) (.exec [['c']])) :=
  C2_pipes_nest_right [['a'], ['b'], ['c']] (by decide) (by decide)

/-- C5: for plain words `a`, `b` and every `k`, the line `a|b` followed by `k` characters `&`
parses to `Background` applied `k` times to `Pipe(Exec[a], Exec[b])`. -/
theorem C5_background_wraps_pipeline (a b : List Char) (k : Nat) (ha : PlainWord a)
    (hb : PlainWord b) :
    ∃ c b1, parsecmd (a ++ '|' :: b ++ List.replicate k '&') = .ok (c, b1) ∧
      c.strings b1 = Nat.iterate Tree.back k (.pipe (.exec [a]) (.exec [b])) := by
  have := parsecmd_pipe_amps a b k ha hb
  simpa [joinWith, exec1] using this

/-- C5 at `a|b&`: the tree is `Background(Pipe(a, b))`, and so it is not
`Pipe(a, Background(b))`. -/
theorem C5_background_wraps_pipeline_witness :
    ∃ c b1, parsecmd "a|b&".toList = .ok (c, b1) ∧
      c.strings b1 = .back (.pipe (.exec [['a']]) (.exec [['b']])) ∧
      c.strings b1 ≠ .pipe (.exec [['a']]) (.back (.exec [['b']])) := by
  obtain ⟨c, b1, h1, h2⟩ :=
    C5_background_wraps_pipeline ['a'] ['b'] 1 (by decide) (by decide)
  refine ⟨c, b1, h1, h2, ?_⟩
  rw [h2]
  decide

/-- C6: for plain words `a`, `b`, `c` the line `(a;b) | c` parses to
`Pipe(List(Exec[a], Exec[b]), Exec[c])`, and the line `a;b|c` without the parentheses to
`List(Exec[a], Pipe(Exec[b], Exec[c]))`. -/
theorem C6_parentheses_group (a b c : List Char) (ha : PlainWord a) (hb : PlainWord b)
    (hc : PlainWord c) :
    (∃ t b1, parsecmd ('(' :: (a ++ ';' :: (b ++ ')' :: ' ' :: '|' :: ' ' :: c))) = .ok (t, b1) ∧
      t.strings b1 = .pipe (.list (.exec [a]) (.exec [b])) (.exec [c])) ∧
    (∃ t b1, parsecmd (a ++ ';' :: (b ++ '|' :: c)) = .ok (t, b1) ∧
      t.strings b1 = .list (.exec [a]) (.pipe (.exec [b]) (.exec [c]))) := by
  refine ⟨parsecmd_group_pipe a b c ha hb hc, ?_⟩
  obtain ⟨t, b1, h1, h2⟩ := parsecmd_pipelines [[a], [b, c]] (by simp) (by
    intro p hp
    simp only [List.mem_cons, List.mem_singleton, List.not_mem_nil, or_false] at hp
    rcases hp with rfl | rfl
    · exact ⟨by simp, fun w hw => by rw [List.mem_singleton] at hw; exact hw ▸ ha⟩
    · refine ⟨by simp, fun w hw => ?_⟩
      simp only [List.mem_cons, List.mem_singleton, List.not_mem_nil, or_false] at hw
      rcases hw with rfl | rfl
      · exact hb
      · exact hc)
  exact ⟨t, b1, h1, h2⟩

/-- C6 at the words `a`, `b`, `c`: the lines `(a;b) | c` and `a;b|c`. -/
theorem C6_parentheses_group_witness :
    (∃ t b1, parsecmd "(a;b) | c".toList = .ok (t, b1) ∧
      t.strings b1 = .pipe (.list (.exec [['a']]) (.exec [['b']])) (.exec [['c']])) ∧
    (∃ t b1, parsecmd "a;b|c".toList = .ok (t, b1) ∧
      t.strings b1 = .list (.exec [['a']]) (.pipe (.exec [['b']]) (.exec [['c']]))) :=
  C6_parentheses_group ['a'] ['b'] ['c'] (by decide) (by decide) (by decide)

/-- C4: `parseredirs` applies the directives from left to right, each wrapping the node so far.
The text at `s` is `k ≥ 0` directives (`<`, `>` or `>>`, then a plain word, with whitespace
allowed before the operator and before the word), then whitespace `trail`, then `rest`, which
is empty or starts with a byte that is neither whitespace nor `<` nor `>`; the last file name is
a whole word, so `rest` does not go on with a word byte right after it. Then `parseredirs`
returns `Rk(...R1(c))` with `Ri` the `Redirect` of `redirTree`: read-only on descriptor 0 for
`<`, write|create|truncate on 1 for `>`, write|create|append on 1 for `>>`. -/
theorem C4_redirections_wrap_in_order (buf : List Char) (hN : NUL ∉ buf) (c : Cmd)
    (ds : List Directive) (trail rest : List Char) (s : Nat)
    (h : At buf s (directivesText ds ++ (trail ++ rest)))
    (hds : ∀ d ∈ ds, DirectiveOK d) (ht : AllWs trail)
    (hrest : ∀ ch, rest.head? = some ch → ch ∉ whitespace ∧ ch ≠ '<' ∧ ch ≠ '>')
    (hword : ds ≠ [] → trail = [] → ∀ ch, rest.head? = some ch → wordChar ch = false) :
    ∃ c1, parseredirs buf buf.length c s =
        .ok (c1, s + (directivesText ds).length + trail.length) ∧
      c1.ranges buf = wrapRedirs (c.ranges buf) ds :=
  (parseredirsLoop_directives hN ht hrest ds hds hword c s _ h (Nat.le_refl _)).imp
    (fun _ hc => ⟨hc.1, hc.2.1⟩)

/-- C4 at `(a) < x >> y`: after the `)`, at index 3, `parseredirs` wraps the `Exec` of `a` in the
`Redirect` for `< x` and that in the `Redirect` for `>> y`; and `parsecmd` returns that tree. -/
theorem C4_redirections_wrap_in_order_witness :
    (∃ c1, parseredirs "(a) < x >> y".toList "(a) < x >> y".toList.length
          (execOf [(1, 2)]) 3 = .ok (c1, 12) ∧
        c1.ranges "(a) < x >> y".toList =
          .redir (.redir (.exec [['a']]) ['x'] O_RDONLY 0) ['y']
            (O_WRONLY ||| O_CREAT ||| O_APPEND) 1) ∧
      ∃ b1, parsecmd "(a) < x >> y".toList =
          .ok (.redir (.redir (execOf [(1, 2)]) 6 7 O_RDONLY 0) 11 12
            (O_WRONLY ||| O_CREAT ||| O_APPEND) 1, b1) ∧
        (Cmd.redir (.redir (execOf [(1, 2)]) 6 7 O_RDONLY 0) 11 12
            (O_WRONLY ||| O_CREAT ||| O_APPEND) 1).strings b1 =
          .redir (.redir (.exec [['a']]) ['x'] O_RDONLY 0) ['y']
            (O_WRONLY ||| O_CREAT ||| O_APPEND) 1 :=
  ⟨C4_redirections_wrap_in_order "(a) < x >> y".toList (by decide) (execOf [(1, 2)])
      [⟨[' '], '<', [' '], ['x']⟩, ⟨[' '], '+', [' '], ['y']⟩] [] [] 3 (by decide) (by decide)
      (by decide) (fun ch hc => by cases hc) (fun _ _ ch hc => by cases hc),
    ⟨['(', 'a', NUL, ' ', '<', ' ', 'x', NUL, '>', '>', ' ', 'y'], by decide!, by decide!⟩⟩

/-- C3 fails on the code. In `parseexec` the variable `cmd`, typed `struct execcmd *`, is given
the value `parseredirs` returns, so after a redirection it points at the `redircmd`, and the
stores `cmd->argv[argc]`, `cmd->eargv[argc]` that follow go into that node instead of the
`execcmd`. On each of the lines `< f a b`, `a < f b` and `a b < f` the last of these stores, that
of the null sentinel, is at `argc = 2` and overwrites the field `efile` of the `redircmd` with
the null pointer; `nulterminate` then writes through it, and the process ends without a tree.
The node `parseline` has built by then is not the tree of the claim either: on `a < f b` the
word `b` is in the field `file` of the `redircmd` and not in the `Exec`, on `< f a b` both words
are in the `redircmd`, `a` over its child pointer. The path through `parseblock` keeps the two
nodes apart: `(a b) < f` parses to `Redirect(Exec[a, b], f, read-only, 0)`. -/
theorem C3_redirect_in_plain_command_faults :
    parsecmd "< f a b".toList = .error .nullDeref ∧
    parsecmd "a < f b".toList = .error .nullDeref ∧
    parsecmd "a b < f".toList = .error .nullDeref ∧
    (∃ b1, parsecmd "(a b) < f".toList =
        .ok (.redir (execOf [(1, 2), (3, 4)]) 8 9 O_RDONLY 0, b1) ∧
      (Cmd.redir (execOf [(1, 2), (3, 4)]) 8 9 O_RDONLY 0).strings b1 =
        .redir (.exec [['a'], ['b']]) ['f'] O_RDONLY 0) ∧
    parseline "< f a b".toList 7 32 0 =
      .ok (.over execcmd 2 3 O_RDONLY 0 [some (some 4), some (some 6), some none, none], 7) ∧
    parseline "a < f b".toList 7 32 0 =
      .ok (.over (execOf [(0, 1)]) 4 5 O_RDONLY 0 [none, some (some 6), some none, none], 7) ∧
    parseline "a b < f".toList 7 32 0 =
      .ok (.over (execOf [(0, 1), (2, 3)]) 6 7 O_RDONLY 0 [none, none, some none, none], 7) :=
  ⟨by decide!, by decide!, by decide!,
    ⟨['(', 'a', NUL, 'b', NUL, ' ', '<', ' ', 'f'], by decide!, by decide!⟩,
    by decide!, by decide!, by decide!⟩

/-! # The claims, continued -/

/-- C11 fails on the code, by the defect of C3: the stores of `parseexec` through the `redircmd`
overwrite the very pointers that `nulterminate` and the executor read. On the line `a >> f`
`parsecmd` returns a tree, and the field `file` of its `Redirect` is null: the store of the null
sentinel at `argc = 1` went over it, so there is no file name to read back, where the parser had
recorded the range 5 .. 6 with the text `f`. On the line `a > f b c` the words `b` and `c` are
stored over `file` and `efile`: the file name reads back as `b` and a space, up to the NUL that
`nulterminate` writes at the start of `c`, where the parser had recorded the range 4 .. 5 with the
text `f`. With the redirection outside of the plain command, as on `(ab cd)>f`, every range reads
back as recorded; and so it is on every line whose tree has no field overwritten: read as C
strings from the finalized buffer, the tree is the tree of the recorded ranges. -/
theorem C11_file_name_not_read_back :
    (∃ b1, parsecmd "a >> f".toList =
        .ok (.over (execOf [(0, 1)]) 5 6 (O_WRONLY ||| O_CREAT ||| O_APPEND) 1
          [none, some none, none, none], b1) ∧
      slice "a >> f".toList 5 6 = ['f'] ∧
      fileOf 5 [none, some none, none, none] = none) ∧
    (∃ b1, parsecmd "a > f b c".toList =
        .ok (.over (execOf [(0, 1)]) 4 5 (O_WRONLY ||| O_CREAT ||| O_TRUNC) 1
          [none, some (some 6), some (some 8), some none], b1) ∧
      slice "a > f b c".toList 4 5 = ['f'] ∧
      fileOf 4 [none, some (some 6), some (some 8), some none] = some 6 ∧
      cstr b1 6 = ['b', ' ']) ∧
    (parsecmd "(ab cd)>f".toList =
        .ok (.redir (execOf [(1, 3), (4, 6)]) 8 9 (O_WRONLY ||| O_CREAT ||| O_TRUNC) 1,
          ['(', 'a', 'b', NUL, 'c', 'd', NUL, '>', 'f']) ∧
      cstr ['(', 'a', 'b', NUL, 'c', 'd', NUL, '>', 'f'] 1 = ['a', 'b'] ∧
      cstr ['(', 'a', 'b', NUL, 'c', 'd', NUL, '>', 'f'] 4 = ['c', 'd'] ∧
      cstr ['(', 'a', 'b', NUL, 'c', 'd', NUL, '>', 'f'] 8 = ['f']) ∧
    ∀ (buf : List Char) (c : Cmd) (b1 : List Char), parsecmd buf = .ok (c, b1) →
      c.intact = true → c.strings b1 = c.ranges buf :=
  ⟨⟨['a', NUL, '>', '>', ' ', 'f'], by decide!, by decide!, by decide!⟩,
    ⟨['a', NUL, '>', ' ', 'f', ' ', 'b', ' ', NUL], by decide!, by decide!, by decide!,
      by decide!⟩,
    ⟨by decide!, by decide!, by decide!, by decide!⟩,
    fun _ _ _ h hi => (parsecmd_strings h hi).1⟩

/-- C12 fails on the code, by the defect of C3. The lines `a > f b c` and `a > f b  c` have the
same tokens and differ in one space. On both `parseexec` stores the words `b` and `c` over the
fields `file` and `efile` of the `redircmd`, and the null sentinel over `mode` and `fd`; so the
file name the tree holds runs from `b` up to the NUL that `nulterminate` writes at the start of
`c`, whitespace included: `b` with one space on the first line, `b` with two on the second. On
the two lines of the claim, `a|b>f` and `  a |  b  >  f  `, the trees are the same, with a
`Redirect` whose `file` is null. -/
theorem C12_whitespace_in_file_name :
    lexemes "a > f b c".toList = lexemes "a > f b  c".toList ∧
    (∃ c1 b1, parsecmd "a > f b c".toList = .ok (c1, b1) ∧
      c1.strings b1 = .redir (.exec [['a']]) ['b', ' '] 0 0) ∧
    (∃ c2 b2, parsecmd "a > f b  c".toList = .ok (c2, b2) ∧
      c2.strings b2 = .redir (.exec [['a']]) ['b', ' ', ' '] 0 0) ∧
    lexemes "a|b>f".toList = lexemes "  a |  b  >  f  ".toList ∧
    (∃ c1 b1 c2 b2, parsecmd "a|b>f".toList = .ok (c1, b1) ∧
      parsecmd "  a |  b  >  f  ".toList = .ok (c2, b2) ∧ c1.strings b1 = c2.strings b2 ∧
      c1.strings b1 = .pipe (.exec [['a']])
        (.over (.exec [['b']]) [] (O_WRONLY ||| O_CREAT ||| O_TRUNC) 1
          [none, some false, none, none])) :=
  ⟨by decide!,
    ⟨.over (execOf [(0, 1)]) 4 5 (O_WRONLY ||| O_CREAT ||| O_TRUNC) 1
        [none, some (some 6), some (some 8), some none],
      ['a', NUL, '>', ' ', 'f', ' ', 'b', ' ', NUL], by decide!, by decide!⟩,
    ⟨.over (execOf [(0, 1)]) 4 5 (O_WRONLY ||| O_CREAT ||| O_TRUNC) 1
        [none, some (some 6), some (some 9), some none],
      ['a', NUL, '>', ' ', 'f', ' ', 'b', ' ', ' ', NUL], by decide!, by decide!⟩,
    by decide!,
    ⟨.pipe (execOf [(0, 1)]) (.over (execOf [(2, 3)]) 4 5 (O_WRONLY ||| O_CREAT ||| O_TRUNC) 1
        [none, some none, none, none]),
      ['a', NUL, 'b', NUL, 'f'],
      .pipe (execOf [(2, 3)]) (.over (execOf [(7, 8)]) 13 14 (O_WRONLY ||| O_CREAT ||| O_TRUNC) 1
        [none, some none, none, none]),
      [' ', ' ', 'a', NUL, '|', ' ', ' ', 'b', NUL, ' ', '>', ' ', ' ', 'f', NUL, ' '],
      by decide!, by decide!, by decide!, by decide!⟩⟩

/-- C13: when the first byte after the whitespace is `>`, the token of `gettoken` is `+` and two
bytes long if the next byte is `>` as well, and it is `>` and one byte long if not; in both cases
the cursor is left after the token and the whitespace behind it. The lines of the claim: `a > > f`
ends in `panic("missing file for redirection")`, and `a >> f` parses to a `Redirect` around
`Exec[a]` whose mode is write|create|append and whose descriptor is 1, as `(a) >> f` does. On
`a >> f` the store of the null sentinel of `parseexec` has since gone over the field `file` of
that node (the defect of C3), which leaves the mode and the descriptor as they are. -/
theorem C13_append_token (buf : List Char) (es s : Nat)
    (h : charAt buf (skipws buf es s) = '>') :
    (charAt buf (skipws buf es s + 1) = '>' →
      (gettoken buf es s).ret = '+' ∧ (gettoken buf es s).q = skipws buf es s ∧
        (gettoken buf es s).eq = skipws buf es s + 2 ∧
        (gettoken buf es s).ps = skipws buf es (skipws buf es s + 2)) ∧
    (charAt buf (skipws buf es s + 1) ≠ '>' →
      (gettoken buf es s).ret = '>' ∧ (gettoken buf es s).q = skipws buf es s ∧
        (gettoken buf es s).eq = skipws buf es s + 1 ∧
        (gettoken buf es s).ps = skipws buf es (skipws buf es s + 1)) ∧
    parsecmd "a > > f".toList = .error (.panic "missing file for redirection") ∧
    (∃ b1, parsecmd "a >> f".toList =
        .ok (.over (execOf [(0, 1)]) 5 6 (O_WRONLY ||| O_CREAT ||| O_APPEND) 1
          [none, some none, none, none], b1) ∧
      (execOf [(0, 1)]).strings b1 = .exec [['a']] ∧
      ∀ addr, modeOf addr (O_WRONLY ||| O_CREAT ||| O_APPEND) [none, some none, none, none] =
          O_WRONLY ||| O_CREAT ||| O_APPEND ∧
        fdOf addr 1 [none, some none, none, none] = 1) ∧
    ∃ b1, parsecmd "(a) >> f".toList =
        .ok (.redir (execOf [(1, 2)]) 7 8 (O_WRONLY ||| O_CREAT ||| O_APPEND) 1, b1) ∧
      (Cmd.redir (execOf [(1, 2)]) 7 8 (O_WRONLY ||| O_CREAT ||| O_APPEND) 1).strings b1 =
        .redir (.exec [['a']]) ['f'] (O_WRONLY ||| O_CREAT ||| O_APPEND) 1 := by
  have h1 : ¬ ('>' = NUL) := by decide
  have h2 : ¬ ('>' = '|' ∨ '>' = '(' ∨ '>' = ')' ∨ '>' = ';' ∨ '>' = '&' ∨ '>' = '<') := by
    decide
  refine ⟨fun hn => ?_, fun hn => ?_, by decide!,
    ⟨['a', NUL, '>', '>', ' ', 'f'], by decide!, by decide!, fun addr => ⟨rfl, rfl⟩⟩,
    ⟨['(', 'a', NUL, ' ', '>', '>', ' ', 'f'], by decide!, by decide!⟩⟩
  · simp only [gettoken, h, h1, h2, hn, if_true, if_false, and_self]
  · simp only [gettoken, h, h1, h2, hn, if_true, if_false, and_self]

/-- C13 at the lines `a >> f` and `a > > f`, from index 1 on: one token `+` of two bytes on the
first, the token `>` of one byte on the second. -/
theorem C13_append_token_witness :
    ((gettoken "a >> f".toList 6 1).ret = '+' ∧ (gettoken "a >> f".toList 6 1).q = 2 ∧
        (gettoken "a >> f".toList 6 1).eq = 4 ∧ (gettoken "a >> f".toList 6 1).ps = 5) ∧
      ((gettoken "a > > f".toList 7 1).ret = '>' ∧ (gettoken "a > > f".toList 7 1).q = 2 ∧
        (gettoken "a > > f".toList 7 1).eq = 3 ∧ (gettoken "a > > f".toList 7 1).ps = 4) :=
  ⟨(C13_append_token "a >> f".toList 6 1 (by decide)).1 (by decide),
    (C13_append_token "a > > f".toList 7 1 (by decide)).2.1 (by decide)⟩

/-- C14, as amended: when `execvp` returns for an `Exec` node with at least one argument,
`runcmd` prints `exec NAME failed` with the name of the program and ends the process with
`exit(0)`: the `break` leads to the `exit(0)` that ends the function. -/
theorem C14_exec_failure_exits_zero (os : OS) (buf : List Char) (argv eargv : List (Option Nat))
    (q : Nat) (h0 : argv.head? = some (some q))
    (hf : os.execFails (cstr buf q) (argvStrings buf argv) = true) :
    runcmd os buf (.exec argv eargv) =
        .call (.execvp (cstr buf q) (argvStrings buf argv))
          (.call (.printf ("exec ".toList ++ cstr buf q ++ " failed\n".toList)) (.exit 0)) ∧
      (runcmd os buf (.exec argv eargv)).status = some 0 := by
  have h : runcmd os buf (.exec argv eargv) =
      .call (.execvp (cstr buf q) (argvStrings buf argv))
        (.call (.printf ("exec ".toList ++ cstr buf q ++ " failed\n".toList)) (.exit 0)) := by
    simp only [runcmd, h0, hf, if_true]
  exact ⟨h, by rw [h]; rfl⟩

/-- C14 at the line `nosuch`, with an `execvp` that fails. -/
theorem C14_exec_failure_exits_zero_witness :
    runcmd osFails "nosuch".toList (execOf [(0, 6)]) =
        .call (.execvp "nosuch".toList ["nosuch".toList])
          (.call (.printf "exec nosuch failed\n".toList) (.exit 0)) ∧
      (runcmd osFails "nosuch".toList (execOf [(0, 6)])).status = some 0 :=
  C14_exec_failure_exits_zero osFails "nosuch".toList _ _ 0 rfl rfl

/-- C14 as stated fails: on the tree of the line `nosuch`, with an `execvp` that fails, the
process prints `exec nosuch failed` and ends with status 0, not with a status other than 0. -/
theorem C14_exec_failure_status_not_nonzero :
    parsecmd "nosuch".toList = .ok (execOf [(0, 6)], "nosuch".toList) ∧
      osFails.execFails "nosuch".toList ["nosuch".toList] = true ∧
      (runcmd osFails "nosuch".toList (execOf [(0, 6)])).calls =
        [.execvp "nosuch".toList ["nosuch".toList], .printf "exec nosuch failed\n".toList] ∧
      (runcmd osFails "nosuch".toList (execOf [(0, 6)])).status = some 0 ∧
      ¬ ∃ n, n ≠ 0 ∧ (runcmd osFails "nosuch".toList (execOf [(0, 6)])).status = some n := by
  have h : (runcmd osFails "nosuch".toList (execOf [(0, 6)])).status = some 0 := by decide!
  refine ⟨by decide!, rfl, by decide!, h, ?_⟩
  rintro ⟨n, hn, h2⟩
  rw [h] at h2
  exact hn (Option.some.inj h2).symm

/-- C16: every `Exec` node of a tree that `parsecmd` returns holds its arguments in the first
slots of `argv` and null pointers in all the slots after them, the sentinel among these; each
argument, read from the finalized buffer, is the text of its range, and that text is a maximal
run of word bytes of the line: it is not empty, it has no whitespace and no metacharacter, and
the byte after it and the byte before it (if there is one) are not word bytes. This holds of the
trees of the lines with a redirection in a plain command as well: the words that `parseexec`
stores through the `redircmd` are not in the `Exec` node, whose slots `execcmd()` has cleared. -/
theorem C16_arguments_are_whole_words (buf : List Char) (c : Cmd) (b1 : List Char)
    (h : parsecmd buf = .ok (c, b1)) :
    ∀ p ∈ c.execNodes, ∃ R : List (Nat × Nat), R.length < MAXARGS ∧
      p.1 = R.map (fun r => some r.1) ++ List.replicate (MAXARGS - R.length) none ∧
      p.2 = R.map (fun r => some r.2) ++ List.replicate (MAXARGS - R.length) none ∧
      argvStrings b1 p.1 = R.map (fun r => slice buf r.1 r.2) ∧
      ∀ r ∈ R, (slice buf r.1 r.2 ≠ [] ∧
          ∀ ch ∈ slice buf r.1 r.2, ch ∉ whitespace ∧ ch ∉ symbols ∧ ch ≠ NUL) ∧
        r.1 < r.2 ∧ r.2 ≤ strlen buf ∧
        (∀ i, r.1 ≤ i → i < r.2 → wordChar (charAt buf i) = true) ∧
        wordChar (charAt buf r.2) = false ∧
        (r.1 = 0 ∨ wordChar (charAt buf (r.1 - 1)) = false) := by
  intro p hp
  obtain ⟨R, h1, h2, h3, h4, h5⟩ := parsecmd_execNodes h p hp
  refine ⟨R, h1, h2, h3, h4, fun r hr => ?_⟩
  obtain ⟨⟨w1, w2⟩, w3, w4⟩ := h5 r hr
  refine ⟨⟨w1, fun ch hch => ?_⟩, w3.1, w3.2.1, w3.2.2.1, w3.2.2.2, w4⟩
  have hw := w2 ch hch
  have hn := wordChar_ne_nul hw
  refine ⟨wordChar_not_mem_ws hw, fun hs => ?_, hn⟩
  rw [sym_not_word hs] at hw
  exact Bool.noConfusion hw

/-- C16 at `ls -l|wc >> f`: two `Exec` nodes, with the arguments `ls`, `-l` and `wc`, the second
under the `Redirect` of `>> f`, whose `file` the null sentinel of `parseexec` has overwritten. -/
theorem C16_arguments_are_whole_words_witness :
    parsecmd "ls -l|wc >> f".toList =
        .ok (.pipe (execOf [(0, 2), (3, 5)])
            (.over (execOf [(6, 8)]) 12 13 (O_WRONLY ||| O_CREAT ||| O_APPEND) 1
              [none, some none, none, none]),
          ['l', 's', NUL, '-', 'l', NUL, 'w', 'c', NUL, '>', '>', ' ', 'f']) ∧
      ∀ p ∈ (Cmd.pipe (execOf [(0, 2), (3, 5)])
            (.over (execOf [(6, 8)]) 12 13 (O_WRONLY ||| O_CREAT ||| O_APPEND) 1
              [none, some none, none, none])).execNodes,
        ∃ R : List (Nat × Nat), R.length < MAXARGS ∧
          p.1 = R.map (fun r => some r.1) ++ List.replicate (MAXARGS - R.length) none ∧
          argvStrings ['l', 's', NUL, '-', 'l', NUL, 'w', 'c', NUL, '>', '>', ' ', 'f'] p.1 =
            R.map (fun r => slice "ls -l|wc >> f".toList r.1 r.2) := by
  have h : parsecmd "ls -l|wc >> f".toList =
      .ok (.pipe (execOf [(0, 2), (3, 5)])
          (.over (execOf [(6, 8)]) 12 13 (O_WRONLY ||| O_CREAT ||| O_APPEND) 1
            [none, some none, none, none]),
        ['l', 's', NUL, '-', 'l', NUL, 'w', 'c', NUL, '>', '>', ' ', 'f']) := by decide!
  refine ⟨h, fun p hp => ?_⟩
  obtain ⟨R, h1, h2, _, h4, _⟩ := C16_arguments_are_whole_words _ _ _ h p hp
  exact ⟨R, h1, h2, h4⟩

/-- C17: parentheses add no node. A line is a C string and holds no NUL. For every line `l` on
which `parsecmd` returns a tree `c`, `parsecmd` returns a tree on the line `(` ++ l ++ `)` as
well, and it is `c.shift 1`: the nodes of `c`, with every pointer into the buffer one byte
further on, the opening parenthesis being one byte long. The two trees read the same, node by
node: same structure, and the same text for every argument and every file name, each read from
its own buffer up to the first NUL. The lines with a redirection in a plain command are among
them: where `parseexec` stored a pointer over a field of the `redircmd` (C3), the field holds
the address of the same word in the one tree and in the other, one byte further on in the
second; the text read at it is the same. -/
theorem C17_parentheses_add_no_node (l : List Char) (hN : NUL ∉ l) (c : Cmd) (b1 : List Char)
    (h : parsecmd l = .ok (c, b1)) :
    ∃ b2, parsecmd ('(' :: (l ++ [')'])) = .ok (c.shift 1, b2) ∧
      (c.shift 1).strings b2 = c.strings b1 :=
  parsecmd_wrap hN h

/-- C17 at the line `a b c > f d`, whose fourth word `parseexec` stores over `mode` and `fd` of
the `redircmd`: the tree of `(a b c > f d)` is the tree of the line one byte further on, with
the pointer to `d` at 11 where the line has it at 10, and it reads the same. -/
theorem C17_parentheses_add_no_node_witness :
    NUL ∉ "a b c > f d".toList ∧
    parsecmd "a b c > f d".toList =
      .ok (.over (execOf [(0, 1), (2, 3), (4, 5)]) 8 9 (O_WRONLY ||| O_CREAT ||| O_TRUNC) 1
          [none, none, none, some (some 10)],
        ['a', NUL, 'b', NUL, 'c', NUL, '>', ' ', 'f', NUL, 'd']) ∧
    (Cmd.over (execOf [(0, 1), (2, 3), (4, 5)]) 8 9 (O_WRONLY ||| O_CREAT ||| O_TRUNC) 1
        [none, none, none, some (some 10)]).shift 1 =
      .over (execOf [(1, 2), (3, 4), (5, 6)]) 9 10 (O_WRONLY ||| O_CREAT ||| O_TRUNC) 1
        [none, none, none, some (some 11)] ∧
    ∃ b2, parsecmd ('(' :: ("a b c > f d".toList ++ [')'])) =
        .ok ((Cmd.over (execOf [(0, 1), (2, 3), (4, 5)]) 8 9 (O_WRONLY ||| O_CREAT ||| O_TRUNC) 1
          [none, none, none, some (some 10)]).shift 1, b2) ∧
      ((Cmd.over (execOf [(0, 1), (2, 3), (4, 5)]) 8 9 (O_WRONLY ||| O_CREAT ||| O_TRUNC) 1
          [none, none, none, some (some 10)]).shift 1).strings b2 =
        (Cmd.over (execOf [(0, 1), (2, 3), (4, 5)]) 8 9 (O_WRONLY ||| O_CREAT ||| O_TRUNC) 1
          [none, none, none, some (some 10)]).strings
          ['a', NUL, 'b', NUL, 'c', NUL, '>', ' ', 'f', NUL, 'd'] :=
  ⟨by decide, by decide!, by decide!,
    C17_parentheses_add_no_node _ (by decide) _ _ (by decide!)⟩

/-- C18: an operand of `;` or `|` that is missing is the `Exec` without arguments. For plain
words `a`, `b`: `a;` parses to `List(Exec[a], Exec[])`, `a|` to `Pipe(Exec[a], Exec[])`, `;a` to
`List(Exec[], Exec[a])` and `|` to `Pipe(Exec[], Exec[])`; and `a & b` gives no tree, the `b` is
left over and `parsecmd` ends in `panic("syntax")`. -/
theorem C18_missing_operand_is_empty_exec (a b : List Char) (ha : PlainWord a)
    (hb : PlainWord b) :
    (∃ c b1, parsecmd (a ++ [';']) = .ok (c, b1) ∧
      c.strings b1 = .list (.exec [a]) (.exec [])) ∧
    (∃ c b1, parsecmd (a ++ ['|']) = .ok (c, b1) ∧
      c.strings b1 = .pipe (.exec [a]) (.exec [])) ∧
    (∃ c b1, parsecmd (';' :: a) = .ok (c, b1) ∧
      c.strings b1 = .list (.exec []) (.exec [a])) ∧
    (∃ c b1, parsecmd ['|'] = .ok (c, b1) ∧ c.strings b1 = .pipe (.exec []) (.exec [])) ∧
    parsecmd (a ++ ' ' :: '&' :: ' ' :: b) = .error (.panic "syntax") :=
  ⟨parsecmd_semicolon_last a ha, parsecmd_pipe_last a ha, parsecmd_semicolon_first a ha,
    ⟨.pipe execcmd execcmd, ['|'], by decide!, by decide!⟩, parsecmd_amp_word a b ha hb⟩

/-- C18 at the words `a` and `b`: the lines `a;`, `a|`, `;a`, `|` and `a & b`. -/
theorem C18_missing_operand_is_empty_exec_witness :
    (∃ c b1, parsecmd "a;".toList = .ok (c, b1) ∧
      c.strings b1 = .list (.exec [['a']]) (.exec [])) ∧
    (∃ c b1, parsecmd "a|".toList = .ok (c, b1) ∧
      c.strings b1 = .pipe (.exec [['a']]) (.exec [])) ∧
    (∃ c b1, parsecmd ";a".toList = .ok (c, b1) ∧
      c.strings b1 = .list (.exec []) (.exec [['a']])) ∧
    (∃ c b1, parsecmd "|".toList = .ok (c, b1) ∧ c.strings b1 = .pipe (.exec []) (.exec [])) ∧
    parsecmd "a & b".toList = .error (.panic "syntax") :=
  C18_missing_operand_is_empty_exec ['a'] ['b'] (by decide) (by decide)

/-- C20: every store that `parseexec` makes through `cmd->argv[argc]` and `cmd->eargv[argc]` is
at an index below `MAXARGS`: those of its loop and the final one of the null sentinel
(`plainStoreIndices` lists them, whatever node `cmd` points at), and on a plain command that
parses they are the indices 0, 1, ..., `argc` with none left out. The loop, entered with
`argc < MAXARGS` and `cmd` at the `execcmd` or at a `redircmd`, keeps `argc` below `MAXARGS`,
and no call ends at a store with an index outside the arrays (`badIndex`). Hence every `Exec`
node of a tree that the parser returns has at most `MAXARGS - 1 = 9` arguments, and after them
the sentinel, in a slot of the array of `MAXARGS` slots. (The bound is on the index: where `cmd`
points at a `redircmd`, the defect of C3, the slot of that index is a field of the `redircmd`
or lies past it, and the `Exec` node has its null slot from `execcmd()`.) -/
theorem C20_store_indices_below_maxargs (buf : List Char) (es : Nat) :
    (∀ s, ∀ i ∈ plainStoreIndices buf es s, i < MAXARGS) ∧
    (∀ s c s1, parseplain buf es s = .ok (c, s1) →
      ∃ argc, argc < MAXARGS ∧ plainStoreIndices buf es s = List.range' 0 (argc + 1)) ∧
    (∀ n cmd argc s, argc < MAXARGS → cmd.isPlain = true →
      (∀ i ∈ storeIndices buf es n cmd argc s, i < MAXARGS) ∧
      parseargsLoop buf es n cmd argc s ≠ .error .badIndex ∧
      ∀ c1 argc1 s1, parseargsLoop buf es n cmd argc s = .ok (c1, argc1, s1) →
        argc1 < MAXARGS ∧ storeIndices buf es n cmd argc s = List.range' argc (argc1 - argc)) ∧
    (∀ s, parseplain buf es s ≠ .error .badIndex) ∧
    (∀ fuel s, parseexec buf es fuel s ≠ .error .badIndex) ∧
    parsecmd buf ≠ .error .badIndex ∧
    (∀ fuel c s1, parseline buf (strlen buf) fuel 0 = .ok (c, s1) →
      ∀ p ∈ c.execNodes, ∃ k, k ≤ MAXARGS - 1 ∧ k ≤ 9 ∧
        p.1.length = MAXARGS ∧ p.2.length = MAXARGS ∧
        (∀ i, i < k → ∃ q e, p.1[i]? = some (some q) ∧ p.2[i]? = some (some e)) ∧
        p.1[k]? = some none ∧ p.2[k]? = some none) ∧
    (∀ c b1, parsecmd buf = .ok (c, b1) → ∀ p ∈ c.execNodes, ∃ k, k ≤ MAXARGS - 1 ∧ k ≤ 9 ∧
      p.1.length = MAXARGS ∧ p.2.length = MAXARGS ∧
      (∀ i, i < k → ∃ q e, p.1[i]? = some (some q) ∧ p.2[i]? = some (some e)) ∧
      p.1[k]? = some none ∧ p.2[k]? = some none ∧ (argvStrings b1 p.1).length = k) := by
  refine ⟨plainStoreIndices_lt, fun s c s1 h => plainStoreIndices_of_ok h,
    fun n cmd argc s ha hc => ?_, fun s h => ?_, fun fuel s h => ?_,
    fun h => ?_, fun fuel c s1 h p hp => ?_, fun c b1 h p hp => ?_⟩
  · obtain ⟨i1, i2⟩ := @parseargsLoop_index buf es n cmd argc s ha hc
    exact ⟨storeIndices_lt n cmd argc s ha, fun h => i1 _ h,
      fun c1 a1 s1 h => ⟨(i2 c1 a1 s1 h).2.1, storeIndices_of_ok _ _ _ _ h⟩⟩
  · exact parseplain_fault h
  · exact (parse_fault buf es fuel).2.2.1 s _ h
  · rcases parsecmd_fault h with ⟨msg, h1⟩ | h1 | h1
    · exact Fault.noConfusion h1
    · exact Fault.noConfusion h1
    · exact Fault.noConfusion h1
  · have hbt := parsed_built (isEnd_strlen buf) ((parsed_of_ok buf _ _).1 _ _ _ h)
      (Nat.zero_le _) (Or.inl rfl)
    obtain ⟨R, h1, h2, h3, _⟩ := hbt.1 p hp
    obtain ⟨k1, k2, k3, k4, k5⟩ := execArrays_shape h1 h2 h3
    exact ⟨R.length, by have : MAXARGS = 10 := rfl; omega,
      by have : MAXARGS = 10 := rfl; omega, k1, k2, k3, k4, k5⟩
  · obtain ⟨R, h1, h2, h3, h4, _⟩ := parsecmd_execNodes h p hp
    obtain ⟨k1, k2, k3, k4, k5⟩ := execArrays_shape h1 h2 h3
    exact ⟨R.length, by have : MAXARGS = 10 := rfl; omega,
      by have : MAXARGS = 10 := rfl; omega, k1, k2, k3, k4, k5, by rw [h4]; simp⟩

/-- C20 at a line of ten words: the stores are at the indices 0 to 9, the tenth word being
stored in the last slot before `panic("too many args")`; at a line of three words, where the
sentinel is stored at index 3; and at the line `a > f b c`, where the stores at the indices 1, 2
and 3 go through the `redircmd`. -/
theorem C20_store_indices_below_maxargs_witness :
    plainStoreIndices "a b c d e f g h i j".toList 19 0 = [0, 1, 2, 3, 4, 5, 6, 7, 8, 9] ∧
      plainStoreIndices "a b c".toList 5 0 = [0, 1, 2, 3] ∧
      plainStoreIndices "a > f b c".toList 9 0 = [0, 1, 2, 3] ∧
      (∀ i ∈ plainStoreIndices "a > f b c".toList 9 0, i < MAXARGS) ∧
      parsecmd "a b c d e f g h i j".toList ≠ .error .badIndex :=
  ⟨by decide!, by decide!, by decide!,
    (C20_store_indices_below_maxargs "a > f b c".toList 9).1 0,
    (C20_store_indices_below_maxargs "a b c d e f g h i j".toList 19).2.2.2.2.2.1⟩

end Xv6sh
